import Mathlib

/-!
# argparse.hpp — a shallow embedding

The C++ header `argparse.hpp` declares command-line arguments through a fluent
builder (`ArgumentParser`) and turns an argument vector into a map from
destination keys to typed values.  This file embeds the value model, the
builder, the token consumer and the finalizer as Lean functions and proves
properties of them.

Conventions of the embedding

* `std::string` is `String`; `s.find(p) == 0` is `starts_with s p`, `s.substr(n)`
  is `substr s n`, `s.empty()` is `s = ""`.
* `int` is `Int`; indices that the code only ever increments from `0` or `1`
  are `Nat`.
* `double` is `Double`, a 64-bit pattern with IEEE-754 equality; the library
  functions whose results the standards leave open or that are not part of the
  header (`strtod`, `snprintf("%.3f")`, the order `std::sort` gives to entries
  it does not distinguish) are fields of `Libc`, a parameter of every operation
  that can call them.  `Libc.ieee` is the library whose `strtod` and `snprintf`
  round to nearest, a tie to even; `Libc.prints` and `Libc.reads` say of any
  library that it writes and reads a double as the C standard describes.
* `std::map<std::string, T>` is an association list with `map_find` / `map_set`.
* `check_error(false, msg)` ends the call: in `EXIT` mode the process exits with
  code 1, in `THROW_EXCEPTION` mode an `Exception` is thrown and the parser
  object lives on.  Before either, `print_help` sorts the registry with
  `std::sort`.
-/

namespace argparse

/-! ## Enumerations -/

inductive Status where
  | PERF_OK
  | PERF_FAILURE
deriving DecidableEq, Repr

structure Exception where
  error_ : Status
  msg_ : String
deriving DecidableEq, Repr

inductive ErrorMode where
  | EXIT
  | THROW_EXCEPTION
deriving DecidableEq, Repr

inductive ActionType where
  | NONE
  | ACTION_STORE_TRUE
  | ACTION_STORE_FALSE
  | ACTION_STORE_CONST
deriving DecidableEq, Repr

inductive NargsType where
  | NONE
  | NARGS_N
  | NARGS_STAR
  | NARGS_ADD
  | NARGS_QUESTION
deriving DecidableEq, Repr

inductive ValueType where
  | NONE
  | STRING
  | DIGITS_INT
  | DIGITS_DOUBLE
  | BOOLEAN
  | STRING_ARRAY
  | INT_ARRAY
  | DOUBLE_ARRAY
  | BOOL_ARRAY
deriving DecidableEq, Repr

/-! ## Strings -/

/-- The test `s.find(pat) == 0` of `std::string`: `pat` occurs at position 0. -/
def starts_with (s pat : String) : Bool :=
  pat.data.isPrefixOf s.data

/-- The call `s.substr(n)`: the text from position `n` on.  The code calls it only
after `starts_with` found an ASCII pattern of length `n` at position 0. -/
def substr (s : String) (n : Nat) : String :=
  ⟨s.data.drop n⟩

/-! ## Doubles -/

/-- A C `double`, kept as its IEEE-754 binary64 bit pattern. -/
structure Double where
  bits : Nat
deriving DecidableEq, Repr

/-- The biased exponent field is all ones and the fraction is not zero. -/
def Double.isNaN (d : Double) : Bool :=
  (d.bits / 2 ^ 52) % 2 ^ 11 == 2 ^ 11 - 1 && d.bits % 2 ^ 52 != 0

/-- Either of the two zeros. -/
def Double.isZero (d : Double) : Bool :=
  d.bits % 2 ^ 63 == 0

/-- The C comparison `a == b` on doubles: a NaN equals nothing, the two zeros
are equal, any other two values are equal when their patterns are. -/
def Double.eq (a b : Double) : Bool :=
  !a.isNaN && !b.isNaN && ((a.isZero && b.isZero) || a.bits % 2 ^ 64 == b.bits % 2 ^ 64)

/-- The constant `ERROR_DOUBLE = 0.0`. -/
def ERROR_DOUBLE : Double := ⟨0⟩

/-! ## Integers -/

def ERROR_INT : Int := 0
def ERROR_BOOL : Bool := false
def ERROR_STRING : String := ""

/-- The C `isspace` in the "C" locale. -/
def isspace (c : Char) : Bool :=
  c.toNat == 32 || (9 ≤ c.toNat && c.toNat ≤ 13)

/-- The C `isdigit`. -/
def isdigit (c : Char) : Bool :=
  48 ≤ c.toNat && c.toNat ≤ 57

/-- The value of a run of decimal digits, most significant first. -/
def digits_value (ds : List Char) : Nat :=
  ds.foldl (fun acc c => acc * 10 + (c.toNat - 48)) 0

/-- Reduce an integer to the range of a two's complement word of `w` bits. -/
def wrap_signed (w : Nat) (v : Int) : Int :=
  (v + 2 ^ (w - 1)) % 2 ^ w - 2 ^ (w - 1)

/-- Clamp an integer to the range of a signed word of `w` bits. -/
def clamp_signed (w : Nat) (v : Int) : Int :=
  max (-(2 ^ (w - 1))) (min (2 ^ (w - 1) - 1) v)

/-- The call `std::atoi(text)`: skip leading white space, read an optional sign
and the longest run of decimal digits; no digits give 0.  The C standard leaves
the result open when the value does not fit an `int`; there the model follows
glibc, which computes `(int) strtol(text, nullptr, 10)`. -/
def atoi (s : String) : Int :=
  let cs := s.data.dropWhile isspace
  let body : Bool × List Char :=
    match cs with
    | '-' :: r => (true, r)
    | '+' :: r => (false, r)
    | r => (false, r)
  let n : Int := digits_value (body.2.takeWhile isdigit)
  wrap_signed 32 (clamp_signed 64 (if body.1 then -n else n))

/-- One decimal digit as a character. -/
def digit_char (d : Nat) : Char :=
  Char.ofNat (48 + d)

/-- The decimal digits of `n`, most significant first; `fuel` bounds the number
of digits. -/
def nat_digits : Nat → Nat → List Char
  | 0, _ => []
  | fuel + 1, n =>
    if n < 10 then [digit_char n] else nat_digits fuel (n / 10) ++ [digit_char (n % 10)]

/-- The text `snprintf` writes for the format `"%d"`. -/
def snprintf_d (v : Int) : String :=
  ⟨(if v < 0 then ['-'] else []) ++ nat_digits (v.natAbs + 1) v.natAbs⟩

/-! ## Values -/

/-- The class `EntryItem`: a shared pointer to one of the eight value classes,
or the null pointer (`empty`). -/
inductive EntryItem where
  | empty
  | int (value_ : Int)
  | double (value_ : Double)
  | string (value_ : String)
  | bool (value_ : Bool)
  | string_array (value_ : List String)
  | int_array (value_ : List Int)
  | double_array (value_ : List Double)
  | bool_array (value_ : List Bool)
deriving DecidableEq, Repr

def EMPTY_ENTRY_ITEM : EntryItem := .empty

namespace EntryItem

def value_type : EntryItem → ValueType
  | .empty => .NONE
  | .int _ => .DIGITS_INT
  | .double _ => .DIGITS_DOUBLE
  | .string _ => .STRING
  | .bool _ => .BOOLEAN
  | .string_array _ => .STRING_ARRAY
  | .int_array _ => .INT_ARRAY
  | .double_array _ => .DOUBLE_ARRAY
  | .bool_array _ => .BOOL_ARRAY

def is_double (v : EntryItem) : Bool := v.value_type == .DIGITS_DOUBLE
def is_int (v : EntryItem) : Bool := v.value_type == .DIGITS_INT
def is_string (v : EntryItem) : Bool := v.value_type == .STRING
def is_bool (v : EntryItem) : Bool := v.value_type == .BOOLEAN
def is_int_array (v : EntryItem) : Bool := v.value_type == .INT_ARRAY
def is_double_array (v : EntryItem) : Bool := v.value_type == .DOUBLE_ARRAY
def is_string_array (v : EntryItem) : Bool := v.value_type == .STRING_ARRAY
def is_bool_array (v : EntryItem) : Bool := v.value_type == .BOOL_ARRAY

def digit_double_value : EntryItem → Double
  | .double v => v
  | _ => ERROR_DOUBLE

def digit_int_value : EntryItem → Int
  | .int v => v
  | _ => ERROR_INT

def bool_value : EntryItem → Bool
  | .bool v => v
  | _ => ERROR_BOOL

def string_value : EntryItem → String
  | .string v => v
  | _ => ERROR_STRING

def int_array_value : EntryItem → List Int
  | .int_array v => v
  | _ => []

def double_array_value : EntryItem → List Double
  | .double_array v => v
  | _ => []

def bool_array_value : EntryItem → List Bool
  | .bool_array v => v
  | _ => []

def string_array_value : EntryItem → List String
  | .string_array v => v
  | _ => []

end EntryItem

/-! ## Entries -/

/-- The struct `ParamEntry`. -/
structure ParamEntry where
  filled : Bool
  required : Bool
  short_key : String
  long_key : String
  positional_key : String
  key : String
  value : EntryItem
  value_type : ValueType
  help : String
  nargs : NargsType
  action : ActionType
  nargs_number : Int
  const_value : EntryItem
  default_value : EntryItem
  choices_array : EntryItem
deriving DecidableEq, Repr

/-! ## Maps -/

/-- The lookup `m.find(k)` of a `std::map<std::string, T>`. -/
def map_find {α : Type} : List (String × α) → String → Option α
  | [], _ => none
  | (k', v) :: rest, k => if k' = k then some v else map_find rest k

/-- The assignment `m[k] = v` of a `std::map<std::string, T>`. -/
def map_set {α : Type} : List (String × α) → String → α → List (String × α)
  | [], k, v => [(k, v)]
  | (k', v') :: rest, k, v => if k' = k then (k, v) :: rest else (k', v') :: map_set rest k v

/-- The class `ArgValue`: the parse result, a map from keys to entries. -/
structure ArgValue where
  value_ : List (String × ParamEntry)
deriving DecidableEq, Repr

/-! ## Sorting -/

/-- Insert `a` into a sorted list, before the first element that does not come
strictly before it. -/
def insert_sorted {α : Type} (less : α → α → Bool) (a : α) : List α → List α
  | [] => [a]
  | b :: l => if less b a then b :: insert_sorted less a l else a :: b :: l

/-- The call `std::stable_sort(first, last, less)`: elements that `less` does not
order keep their relative order. -/
def stable_sort {α : Type} (less : α → α → Bool) : List α → List α
  | [] => []
  | a :: l => insert_sorted less a (stable_sort less l)

/-- The comparator `e1.required > e2.required` that both sorts use. -/
def required_first (e1 e2 : ParamEntry) : Bool :=
  e1.required && !e2.required

/-! ## Library functions -/

/-- The library functions whose results the header uses without defining them.
For `std::sort` the C++ standard fixes the result only up to the order of the
elements that the comparator does not distinguish: `sort` is the list the call
`std::sort(param_entries_.begin(), param_entries_.end(), required_first)` leaves,
a permutation of its argument in which no entry stands before one that the
comparator puts before it. -/
structure Libc where
  /-- The call `std::strtod(text, nullptr)`. -/
  strtod : String → Double
  /-- The text `snprintf` writes for the format `"%.3f"`. -/
  snprintf_f3 : Double → String
  /-- The call `std::sort` with the comparator `required_first`. -/
  sort : List ParamEntry → List ParamEntry
  sort_perm : ∀ l, (sort l).Perm l
  sort_sorted : ∀ l, (sort l).Pairwise fun e1 e2 => required_first e2 e1 = false

namespace EntryItem

/-- The text of an array value: the elements' texts, comma separated, in braces. -/
def dump_array (texts : List String) : String :=
  "\x7b" ++ ",".intercalate texts ++ "\x7d"

/-- The method `dump()`.  On the null pointer the code dereferences it, which
the model reports as `none`. -/
def dump (libc : Libc) : EntryItem → Option String
  | .empty => none
  | .int v => some (snprintf_d v)
  | .double v => some (libc.snprintf_f3 v)
  | .string v => some v
  | .bool v => some (if v then "true" else "false")
  | .string_array v => some (dump_array v)
  | .int_array v => some (dump_array (v.map snprintf_d))
  | .double_array v => some (dump_array (v.map libc.snprintf_f3))
  | .bool_array v => some (dump_array (v.map fun b => if b then "true" else "false"))

end EntryItem

/-! ## The parser object -/

/-- The class `ArgumentParser` (the member `value_store_` is never used). -/
structure ArgumentParser where
  now_entry_ : ParamEntry
  param_entries_ : List ParamEntry
  optional_short_key_ : List (String × Nat)
  optional_long_key_ : List (String × Nat)
  positional_key_ : List (String × Nat)
  error_mode_ : ErrorMode
deriving DecidableEq, Repr

/-- How a call on the parser object ends. -/
inductive Res (α : Type) where
  /-- The call returns `a` and leaves the object in state `s`. -/
  | ok (a : α) (s : ArgumentParser)
  /-- The call throws `e` and leaves the object in state `s`. -/
  | thrown (e : Exception) (s : ArgumentParser)
  /-- The process exits with `code`; `msg` is the error message written before. -/
  | exited (code : Nat) (msg : String)
  /-- The call indexes a vector out of range or dereferences a null pointer. -/
  | undefined
  /-- The iteration bound of the model was reached. -/
  | nofuel
deriving DecidableEq, Repr

/-- The value-initialised struct `ParamEntry()`. -/
def ParamEntry.blank : ParamEntry where
  filled := false
  required := false
  short_key := ""
  long_key := ""
  positional_key := ""
  key := ""
  value := EMPTY_ENTRY_ITEM
  value_type := .NONE
  help := ""
  nargs := .NONE
  action := .NONE
  nargs_number := 0
  const_value := EMPTY_ENTRY_ITEM
  default_value := EMPTY_ENTRY_ITEM
  choices_array := EMPTY_ENTRY_ITEM

/-- The method `init()`: it resets every field of the current entry but
`nargs_number`. -/
def ArgumentParser.init (s : ArgumentParser) : ArgumentParser :=
  { s with now_entry_ :=
      { s.now_entry_ with
        filled := false
        required := false
        short_key := ""
        long_key := ""
        positional_key := ""
        key := ""
        help := ""
        action := .NONE
        nargs := .NONE
        value_type := .NONE
        value := EMPTY_ENTRY_ITEM
        const_value := EMPTY_ENTRY_ITEM
        default_value := EMPTY_ENTRY_ITEM
        choices_array := EMPTY_ENTRY_ITEM } }

/-- The constructor `ArgumentParser()`.  It leaves `nargs_number` of the current
entry uninitialised; the model takes 0, and the code reads the field only after
`nargs(int)` wrote it. -/
def ArgumentParser.new : ArgumentParser :=
  ArgumentParser.init
    { now_entry_ := ParamEntry.blank
      param_entries_ := []
      optional_short_key_ := []
      optional_long_key_ := []
      positional_key_ := []
      error_mode_ := .EXIT }

def ArgumentParser.set_error_mode (s : ArgumentParser) (mode : ErrorMode) : Res Unit :=
  .ok () { s with error_mode_ := mode }

/-- The effect of `print_help()` on the object: it sorts the registry with
`std::sort` and the comparator `required_first` (the text it prints is not
modelled). -/
def ArgumentParser.print_help (libc : Libc) (s : ArgumentParser) : ArgumentParser :=
  { s with param_entries_ := libc.sort s.param_entries_ }

/-- The failing branch of `check_error`: print the help, then exit with code 1
or throw, as the error mode says. -/
def ArgumentParser.raise {α : Type} (libc : Libc) (s : ArgumentParser) (error_msg : String) : Res α :=
  match s.error_mode_ with
  | .EXIT => .exited 1 error_msg
  | .THROW_EXCEPTION => .thrown ⟨.PERF_FAILURE, error_msg⟩ (s.print_help libc)

/-- The method `check_error(condition, error_msg)`, followed by `rest`, the code
after the call. -/
def ArgumentParser.check_error {α : Type} (libc : Libc) (s : ArgumentParser) (condition : Bool)
    (error_msg : String) (rest : Res α) : Res α :=
  if condition then rest else s.raise libc error_msg

/-! ## The builder -/

/-- The argument of an overload of `default_value` or `const_value`: a string
(also for `const char *`), an int, a double, a bool, or a vector of one of
these. -/
inductive Literal where
  | string (v : String)
  | int (v : Int)
  | double (v : Double)
  | bool (v : Bool)
  | string_vector (v : List String)
  | int_vector (v : List Int)
  | double_vector (v : List Double)
  | bool_vector (v : List Bool)
deriving DecidableEq, Repr

/-- The value `EntryItem(v)` the overload stores. -/
def Literal.item : Literal → EntryItem
  | .string v => .string v
  | .int v => .int v
  | .double v => .double v
  | .bool v => .bool v
  | .string_vector v => .string_array v
  | .int_vector v => .int_array v
  | .double_vector v => .double_array v
  | .bool_vector v => .bool_array v

/-- The kind the overload checks for and writes to `value_type`: the scalar kind,
also in the overloads that take a vector. -/
def Literal.kind : Literal → ValueType
  | .string _ => .STRING
  | .int _ => .DIGITS_INT
  | .double _ => .DIGITS_DOUBLE
  | .bool _ => .BOOLEAN
  | .string_vector _ => .STRING
  | .int_vector _ => .DIGITS_INT
  | .double_vector _ => .DIGITS_DOUBLE
  | .bool_vector _ => .BOOLEAN

/-- The argument of an overload of `choices`: a vector of strings, ints, doubles
or bools. -/
inductive ChoiceList where
  | string_array (v : List String)
  | int_array (v : List Int)
  | double_array (v : List Double)
  | bool_array (v : List Bool)
deriving DecidableEq, Repr

def ChoiceList.item : ChoiceList → EntryItem
  | .string_array v => .string_array v
  | .int_array v => .int_array v
  | .double_array v => .double_array v
  | .bool_array v => .bool_array v

def ChoiceList.kind : ChoiceList → ValueType
  | .string_array _ => .STRING
  | .int_array _ => .DIGITS_INT
  | .double_array _ => .DIGITS_DOUBLE
  | .bool_array _ => .BOOLEAN

def ArgumentParser.long_name (libc : Libc) (s : ArgumentParser) (long_name : String) : Res Unit :=
  s.check_error libc (starts_with long_name "--") ("invaild option string " ++ long_name) <|
  s.check_error libc (s.now_entry_.positional_key = "") ("invalid option string " ++ long_name) <|
  let long_key := substr long_name 2
  s.check_error libc (map_find s.optional_long_key_ long_key = none)
    ("conflicting option string " ++ long_key) <|
  .ok () { s with now_entry_ := { s.now_entry_ with long_key := long_key, required := false } }

def ArgumentParser.short_name (libc : Libc) (s : ArgumentParser) (short_name : String) : Res Unit :=
  s.check_error libc (starts_with short_name "-") ("invaild option string " ++ short_name) <|
  s.check_error libc (s.now_entry_.positional_key = "") ("invalid option string " ++ short_name) <|
  let short_key := substr short_name 1
  s.check_error libc (map_find s.optional_short_key_ short_key = none)
    ("conflicting option string " ++ short_key) <|
  .ok () { s with now_entry_ := { s.now_entry_ with short_key := short_key, required := false } }

def ArgumentParser.positional_name (libc : Libc) (s : ArgumentParser) (name : String) : Res Unit :=
  s.check_error libc (!starts_with name "-") ("invaild positionl string " ++ name) <|
  s.check_error libc (s.now_entry_.short_key = "" && s.now_entry_.long_key = "")
    ("invalid positional string " ++ name ++ ": must not start with a character -") <|
  s.check_error libc (map_find s.positional_key_ name = none)
    ("conflicting positionl string " ++ name) <|
  s.check_error libc (s.now_entry_.key = "") "dest supplied twice for positional argument" <|
  .ok () { s with now_entry_ := { s.now_entry_ with positional_key := name, required := true } }

/-- The nine overloads of `default_value`. -/
def ArgumentParser.default_value (libc : Libc) (s : ArgumentParser) (default_value : Literal) : Res Unit :=
  s.check_error libc (s.now_entry_.value_type = .NONE || s.now_entry_.value_type = default_value.kind)
    "not boolean type" <|
  .ok () { s with now_entry_ :=
      { s.now_entry_ with value_type := default_value.kind, default_value := default_value.item } }

/-- The nine overloads of `const_value`. -/
def ArgumentParser.const_value (libc : Libc) (s : ArgumentParser) (const_value : Literal) : Res Unit :=
  s.check_error libc (s.now_entry_.value_type = .NONE || s.now_entry_.value_type = const_value.kind)
    "not boolean type" <|
  let s1 := { s with now_entry_ := { s.now_entry_ with value_type := const_value.kind } }
  if s1.now_entry_.nargs = .NARGS_QUESTION then
    .ok () { s1 with now_entry_ := { s1.now_entry_ with const_value := const_value.item } }
  else if s1.now_entry_.action = .ACTION_STORE_CONST then
    .ok () { s1 with now_entry_ := { s1.now_entry_ with const_value := const_value.item } }
  else
    s1.check_error libc false "nargs must be '?' or action=store_const to supply const" (.ok () s1)

/-- The two overloads of `help`. -/
def ArgumentParser.help (s : ArgumentParser) (help : String) : Res Unit :=
  .ok () { s with now_entry_ := { s.now_entry_ with help := help } }

/-- The overload `nargs(const std::string &)`. -/
def ArgumentParser.nargs (libc : Libc) (s : ArgumentParser) (nargs_type : String) : Res Unit :=
  s.check_error libc (s.now_entry_.action = .NONE) "nargs error, unknown action" <|
  if nargs_type = "*" then
    .ok () { s with now_entry_ := { s.now_entry_ with nargs := .NARGS_STAR } }
  else if nargs_type = "+" then
    .ok () { s with now_entry_ := { s.now_entry_ with nargs := .NARGS_ADD } }
  else if nargs_type = "?" then
    .ok () { s with now_entry_ := { s.now_entry_ with nargs := .NARGS_QUESTION } }
  else
    s.check_error libc false (nargs_type ++ " does not match nargs") (.ok () s)

/-- The overload `nargs(const int)`. -/
def ArgumentParser.nargs_int (libc : Libc) (s : ArgumentParser) (nargs_number : Int) : Res Unit :=
  s.check_error libc (nargs_number > 0) "nargs for store actions must be > 0" <|
  .ok () { s with now_entry_ :=
      { s.now_entry_ with nargs := .NARGS_N, nargs_number := nargs_number } }

def ArgumentParser.action (libc : Libc) (s : ArgumentParser) (store_para : String) : Res Unit :=
  s.check_error libc (s.now_entry_.action = .NONE) "set action once!" <|
  s.check_error libc
    (s.now_entry_.choices_array.value_type ≠ .INT_ARRAY &&
      s.now_entry_.choices_array.value_type ≠ .STRING_ARRAY &&
      s.now_entry_.choices_array.value_type ≠ .BOOL_ARRAY &&
      s.now_entry_.choices_array.value_type ≠ .DOUBLE_ARRAY &&
      s.now_entry_.nargs = .NONE)
    "action error" <|
  if store_para = "store_false" then
    .ok () { s with now_entry_ := { s.now_entry_ with action := .ACTION_STORE_FALSE } }
  else if store_para = "store_true" then
    .ok () { s with now_entry_ := { s.now_entry_ with action := .ACTION_STORE_TRUE } }
  else if store_para = "store_const" then
    .ok () { s with now_entry_ := { s.now_entry_ with action := .ACTION_STORE_CONST } }
  else
    s.check_error libc false ("set action error: unknown action " ++ store_para) (.ok () s)

def ArgumentParser.dest (libc : Libc) (s : ArgumentParser) (dest : String) : Res Unit :=
  s.check_error libc (s.now_entry_.positional_key = "")
    "dest supplied twice for positional argument" <|
  .ok () { s with now_entry_ := { s.now_entry_ with key := dest } }

/-- The four overloads of `choices`. -/
def ArgumentParser.choices (libc : Libc) (s : ArgumentParser) (array : ChoiceList) : Res Unit :=
  s.check_error libc (s.now_entry_.value_type = .NONE || s.now_entry_.value_type = array.kind)
    "not boolean type" <|
  .ok () { s with now_entry_ :=
      { s.now_entry_ with value_type := array.kind, choices_array := array.item } }

def ArgumentParser.type (s : ArgumentParser) (value_type : ValueType) : Res Unit :=
  .ok () { s with now_entry_ := { s.now_entry_ with value_type := value_type } }

/-- The key `done()` writes to the current entry: the key set by `dest`, or else
the positional name, the long flag or the short flag, the later assignment in
the code winning. -/
def derived_key (e : ParamEntry) : String :=
  if e.key = "" then
    let k1 := if e.short_key ≠ "" then e.short_key else e.key
    let k2 := if e.long_key ≠ "" then e.long_key else k1
    if e.positional_key ≠ "" then e.positional_key else k2
  else e.key

/-- The three conditional table writes of `done()`: each non-empty identifier of
the current entry gets the value 1 in its table. -/
def ArgumentParser.register_now (s : ArgumentParser) : ArgumentParser :=
  { s with
    optional_short_key_ :=
      if s.now_entry_.short_key ≠ "" then
        map_set s.optional_short_key_ s.now_entry_.short_key 1
      else s.optional_short_key_
    optional_long_key_ :=
      if s.now_entry_.long_key ≠ "" then map_set s.optional_long_key_ s.now_entry_.long_key 1
      else s.optional_long_key_
    positional_key_ :=
      if s.now_entry_.positional_key ≠ "" then
        map_set s.positional_key_ s.now_entry_.positional_key 1
      else s.positional_key_ }

def ArgumentParser.done (libc : Libc) (s : ArgumentParser) : Res Unit :=
  let s1 := { s with now_entry_ := { s.now_entry_ with key := derived_key s.now_entry_ } }
  s1.check_error libc (s1.now_entry_.key ≠ "") "required positional argument" <|
  let s2 := s1.register_now
  s2.check_error libc
    (s2.now_entry_.action ≠ .ACTION_STORE_CONST ||
      s2.now_entry_.const_value.value_type ≠ .NONE)
    "required positional argument: 'const'" <|
  let s3 := { s2 with param_entries_ := s2.param_entries_ ++ [s2.now_entry_] }
  .ok () (ArgumentParser.init { s3 with now_entry_ := ParamEntry.blank })

/-- Run `g` after `f` returned; a throw or an exit of `f` ends the sequence. -/
def Res.and_then {α β : Type} (r : Res α) (g : ArgumentParser → Res β) : Res β :=
  match r with
  | .ok _ s => g s
  | .thrown e s => .thrown e s
  | .exited c m => .exited c m
  | .undefined => .undefined
  | .nofuel => .nofuel

def ArgumentParser.add_argument (libc : Libc) (s : ArgumentParser) (long_string : String)
    (default_string : String) (help_string : String) : Res Unit :=
  (s.long_name libc long_string).and_then fun s1 =>
  (s1.default_value libc (.string default_string)).and_then fun s2 =>
  (s2.help help_string).and_then fun s3 =>
  s3.done libc

/-! ## Coercion and choice validation -/

/-- How the code between the pre-pass and the return of a parse call ends. -/
inductive Chk (α : Type) where
  /-- The code runs to its end with `a`. -/
  | ok (a : α)
  /-- A call `check_error(false, error_msg)`. -/
  | fail (error_msg : String)
  /-- The help token: `print_help(); exit(0)`. -/
  | help
  /-- An index out of range or a null pointer. -/
  | undefined
  /-- The iteration bound of the model was reached. -/
  | nofuel
deriving DecidableEq, Repr

def Chk.bind {α β : Type} (r : Chk α) (f : α → Chk β) : Chk β :=
  match r with
  | .ok a => f a
  | .fail m => .fail m
  | .help => .help
  | .undefined => .undefined
  | .nofuel => .nofuel

instance : Monad Chk where
  pure := Chk.ok
  bind := Chk.bind

/-- The call `check_error(condition, error_msg)` inside a parse call. -/
def Chk.check_error (condition : Bool) (error_msg : String) : Chk Unit :=
  if condition then .ok () else .fail error_msg

/-- The method `parse(input, value_type)`. -/
def parse (libc : Libc) (input : String) (value_type : ValueType) : EntryItem :=
  if value_type = .DIGITS_INT then .int (atoi input)
  else if value_type = .DIGITS_DOUBLE then .double (libc.strtod input)
  else if value_type = .BOOLEAN then
    if input = "true" then .bool true else .bool false
  else .string input

/-- The size test and the element loop of `is_entry_item_equal` on two vectors. -/
def array_equal {α : Type} (eq : α → α → Bool) (a b : List α) : Bool :=
  a.length == b.length && (List.zipWith eq a b).all id

/-- The method `is_entry_item_equal(item1, item2)`. -/
def is_entry_item_equal (item1 item2 : EntryItem) : Bool :=
  if item1.value_type ≠ item2.value_type then false
  else if item1.is_int_array then
    array_equal (fun x y => x == y) item1.int_array_value item2.int_array_value
  else if item1.is_double_array then
    array_equal Double.eq item1.double_array_value item2.double_array_value
  else if item1.is_string_array then
    array_equal (fun x y => x == y) item1.string_array_value item2.string_array_value
  else if item1.is_bool_array then
    array_equal (fun x y => x == y) item1.bool_array_value item2.bool_array_value
  else if item1.is_bool && item1.bool_value != item2.bool_value then false
  else if item1.is_int && item1.digit_int_value != item2.digit_int_value then false
  else if item1.is_double && !Double.eq item1.digit_double_value item2.digit_double_value then false
  else if item1.is_string && item1.string_value != item2.string_value then false
  else true

/-- The method `parse_choices(item_value, entry)`: `true` when the entry has no
choice array or one of its elements equals the accessor of `item_value` for the
array's kind; otherwise `check_error(false, ...)`. -/
def parse_choices (libc : Libc) (item_value : EntryItem) (entry : ParamEntry) : Chk Bool :=
  let temp := entry.choices_array
  if !temp.is_int_array && !temp.is_double_array && !temp.is_string_array &&
      !temp.is_bool_array then .ok true
  else if temp.is_int_array &&
      temp.int_array_value.any (fun item => item == item_value.digit_int_value) then .ok true
  else if temp.is_double_array &&
      temp.double_array_value.any (fun item => Double.eq item item_value.digit_double_value) then
    .ok true
  else if temp.is_string_array &&
      temp.string_array_value.any (fun item => item == item_value.string_value) then .ok true
  else if temp.is_bool_array &&
      temp.bool_array_value.any (fun item => item == item_value.bool_value) then .ok true
  else
    match item_value.dump libc with
    | none => .undefined
    | some text => .fail ("argument " ++ entry.key ++ ": invalid choice: " ++ text)

/-! ## Multiplicity resolution -/

/-- The array value `parse_nargs` assembles from the collected items: none for no
item, else the array of the kind of the first item. -/
def collect (item_result : List EntryItem) : EntryItem :=
  match item_result with
  | [] => EMPTY_ENTRY_ITEM
  | first :: _ =>
    if first.is_int then .int_array (item_result.map EntryItem.digit_int_value)
    else if first.is_double then .double_array (item_result.map EntryItem.digit_double_value)
    else if first.is_string then .string_array (item_result.map EntryItem.string_value)
    else if first.is_bool then .bool_array (item_result.map EntryItem.bool_value)
    else EMPTY_ENTRY_ITEM

/-- The loop `while (true)` of `parse_nargs`; it returns the input index and the
collected items.  `fuel` bounds the number of iterations. -/
def nargs_loop (libc : Libc) (entry : ParamEntry) (argv : List String) :
    Nat → Int → Nat → List EntryItem → Chk (Nat × List EntryItem)
  | 0, _, _, _ => .nofuel
  | fuel + 1, count, p_input_index, item_result =>
    if count = 0 then .ok (p_input_index, item_result)
    else if p_input_index + 1 = argv.length then
      (Chk.check_error (count ≤ 0) ("the following arguments are required: " ++ entry.key)).bind
        fun _ => .ok (p_input_index, item_result)
    else
      match argv[p_input_index + 1]? with
      | none => .undefined
      | some input =>
        if starts_with input "-" then
          (Chk.check_error (count ≤ 0)
            ("the following arguments are required: " ++ entry.key)).bind
            fun _ => .ok (p_input_index, item_result)
        else
          let item_value := parse libc input entry.value_type
          (parse_choices libc item_value entry).bind fun _ =>
            nargs_loop libc entry argv fuel (count - 1) (p_input_index + 1)
              (item_result ++ [item_value])

/-- The method `parse_nargs(entry, p_input_index, argc, argv)`; it returns the
entry and the input index it leaves behind. -/
def parse_nargs (libc : Libc) (entry : ParamEntry) (p_input_index : Nat) (argv : List String) :
    Chk (ParamEntry × Nat) :=
  if entry.nargs = .NARGS_QUESTION then
    if p_input_index + 1 = argv.length then
      .ok ({ entry with value := entry.const_value }, p_input_index)
    else
      match argv[p_input_index + 1]? with
      | none => .undefined
      | some input =>
        if starts_with input "-" then
          .ok ({ entry with value := entry.const_value }, p_input_index)
        else
          let item_result := parse libc input entry.value_type
          (parse_choices libc item_result entry).bind fun _ =>
            .ok ({ entry with value := item_result }, p_input_index + 1)
  else
    let first_token : Chk Unit :=
      if entry.nargs = .NARGS_ADD ∨ entry.nargs = .NARGS_N then
        (Chk.check_error (p_input_index + 1 < argv.length)
          ("the following arguments are required: " ++ entry.key)).bind fun _ =>
          match argv[p_input_index + 1]? with
          | none => .undefined
          | some input =>
            Chk.check_error (!starts_with input "-")
              ("the following arguments are required: " ++ entry.key)
      else .ok ()
    first_token.bind fun _ =>
      let count : Int := if entry.nargs = .NARGS_N then entry.nargs_number else -1
      (nargs_loop libc entry argv (argv.length + 1) count p_input_index []).bind fun r =>
        .ok ({ entry with value := collect r.2 }, r.1)

/-! ## The token consumer -/

/-- The body of the pre-pass loop up to `positional_index`: it writes the index of
the entry to the tables of its non-empty identifiers. -/
def index_entry (s : ArgumentParser) (entry : ParamEntry) (p_entry_index : Nat) :
    ArgumentParser :=
  { s with
    optional_short_key_ :=
      if entry.short_key ≠ "" then map_set s.optional_short_key_ entry.short_key p_entry_index
      else s.optional_short_key_
    optional_long_key_ :=
      if entry.long_key ≠ "" then map_set s.optional_long_key_ entry.long_key p_entry_index
      else s.optional_long_key_
    positional_key_ :=
      if entry.positional_key ≠ "" then
        map_set s.positional_key_ entry.positional_key p_entry_index
      else s.positional_key_ }

/-- The pre-pass loop over the sorted entries: it indexes each entry and collects
the indices of the entries with a positional name. -/
def index_entries : List ParamEntry → Nat → ArgumentParser → List Nat → ArgumentParser × List Nat
  | [], _, s, positional_index => (s, positional_index)
  | entry :: rest, p_entry_index, s, positional_index =>
    index_entries rest (p_entry_index + 1) (index_entry s entry p_entry_index)
      (if entry.positional_key ≠ "" then positional_index ++ [p_entry_index]
        else positional_index)

/-- The pre-pass of a parse call: sort the registry, positional entries first,
and index it.  It returns the object and `positional_index`. -/
def ArgumentParser.prepass (s : ArgumentParser) : ArgumentParser × List Nat :=
  let s0 := { s with param_entries_ := stable_sort required_first s.param_entries_ }
  index_entries s0.param_entries_ 0 s0 []

/-- The local variables of the main loop: the working copy of the entries, the
positional cursor and the token cursor. -/
structure ParseState where
  param_entries : List ParamEntry
  p_entry_index : Nat
  p_input_index : Nat
deriving DecidableEq, Repr

/-- The inner loop that moves the positional cursor past entries with an
action.  `fuel` bounds the number of iterations. -/
def skip_actions (param_entries : List ParamEntry) (positional_index : List Nat) :
    Nat → Nat → Chk Nat
  | 0, _ => .nofuel
  | fuel + 1, p_entry_index =>
    if p_entry_index < positional_index.length then
      match positional_index[p_entry_index]? with
      | none => .undefined
      | some i =>
        match param_entries[i]? with
        | none => .undefined
        | some entry =>
          if entry.action ≠ .NONE then
            skip_actions param_entries positional_index fuel (p_entry_index + 1)
          else .ok p_entry_index
    else .ok p_entry_index

/-- The branch of the main loop for a token that does not start with `-`. -/
def positional_token (libc : Libc) (positional_index : List Nat) (argv : List String)
    (st : ParseState) (input : String) : Chk ParseState :=
  (skip_actions st.param_entries positional_index (positional_index.length + 1)
    st.p_entry_index).bind fun p_entry_index =>
  (Chk.check_error (p_entry_index < positional_index.length)
    ("unrecognized arguments: " ++ input)).bind fun _ =>
  match positional_index[p_entry_index]? with
  | none => .undefined
  | some i =>
    match st.param_entries[i]? with
    | none => .undefined
    | some entry =>
      if entry.action ≠ .NONE then
        let entry1 :=
          if entry.action = .ACTION_STORE_FALSE then { entry with value := .bool false }
          else if entry.action = .ACTION_STORE_TRUE then { entry with value := .bool true }
          else entry
        .ok { param_entries := st.param_entries.set i { entry1 with filled := true }
              p_entry_index := p_entry_index + 1
              p_input_index := st.p_input_index + 1 }
      else if entry.nargs ≠ .NONE then
        (parse_nargs libc entry (st.p_input_index - 1) argv).bind fun r =>
          .ok { param_entries := st.param_entries.set i { r.1 with filled := true }
                p_entry_index := p_entry_index + 1
                p_input_index := r.2 + 1 }
      else
        let item_result := parse libc input entry.value_type
        (parse_choices libc item_result entry).bind fun _ =>
          .ok { param_entries :=
                  st.param_entries.set i { entry with value := item_result, filled := true }
                p_entry_index := p_entry_index + 1
                p_input_index := st.p_input_index + 1 }

/-- The flag lookup of the main loop: the text after the dashes and the index
the table gives for it. -/
def lookup_flag (optional_short_key_ optional_long_key_ : List (String × Nat))
    (input : String) : Chk (String × Nat) :=
  if starts_with input "--" then
    let input1 := substr input 2
    match map_find optional_long_key_ input1 with
    | none => .fail ("unrecognized arguments: " ++ input1)
    | some input_key => .ok (input1, input_key)
  else if starts_with input "-" then
    let input1 := substr input 1
    match map_find optional_short_key_ input1 with
    | none => .fail ("unrecognized arguments: " ++ input1)
    | some input_key => .ok (input1, input_key)
  else .ok (input, 0)

/-- The branch of the main loop for a token that starts with `-`. -/
def optional_token (libc : Libc) (optional_short_key_ optional_long_key_ : List (String × Nat))
    (argv : List String) (st : ParseState) (input : String) : Chk ParseState :=
  (lookup_flag optional_short_key_ optional_long_key_ input).bind fun found =>
  match st.param_entries[found.2]? with
  | none => .undefined
  | some entry =>
    if entry.action ≠ .NONE then
      let entry1 :=
        if entry.action = .ACTION_STORE_FALSE then { entry with value := .bool false }
        else if entry.action = .ACTION_STORE_TRUE then { entry with value := .bool true }
        else if entry.action = .ACTION_STORE_CONST then { entry with value := entry.const_value }
        else entry
      .ok { st with
            param_entries := st.param_entries.set found.2 { entry1 with filled := true }
            p_input_index := st.p_input_index + 1 }
    else if entry.nargs ≠ .NONE then
      (parse_nargs libc entry st.p_input_index argv).bind fun r =>
        .ok { st with
              param_entries := st.param_entries.set found.2 { r.1 with filled := true }
              p_input_index := r.2 + 1 }
    else
      (Chk.check_error (st.p_input_index + 1 < argv.length)
        ("the following arguments are required: " ++ found.1)).bind fun _ =>
      match argv[st.p_input_index + 1]? with
      | none => .undefined
      | some value_text =>
        let item_result := parse libc value_text entry.value_type
        (parse_choices libc item_result entry).bind fun _ =>
          .ok { st with
                param_entries :=
                  st.param_entries.set found.2 { entry with value := item_result, filled := true }
                p_input_index := st.p_input_index + 1 + 1 }

/-- One iteration of the main loop `while (p_input_index < argc)`. -/
def parse_step (libc : Libc) (optional_short_key_ optional_long_key_ : List (String × Nat))
    (positional_index : List Nat) (argv : List String) (st : ParseState) : Chk ParseState :=
  match argv[st.p_input_index]? with
  | none => .undefined
  | some input =>
    if input = "--help" ∨ input = "-h" then .help
    else if !starts_with input "-" then
      positional_token libc positional_index argv st input
    else
      optional_token libc optional_short_key_ optional_long_key_ argv st input

/-- The main loop.  `fuel` bounds the number of iterations. -/
def main_loop (libc : Libc) (optional_short_key_ optional_long_key_ : List (String × Nat))
    (positional_index : List Nat) (argv : List String) : Nat → ParseState → Chk ParseState
  | 0, st => if st.p_input_index < argv.length then .nofuel else .ok st
  | fuel + 1, st =>
    if st.p_input_index < argv.length then
      (parse_step libc optional_short_key_ optional_long_key_ positional_index argv st).bind
        (main_loop libc optional_short_key_ optional_long_key_ positional_index argv fuel)
    else .ok st

/-! ## The finalizer -/

/-- The body of the loop over the entries after the main loop. -/
def finalize_entry (item : ParamEntry) : Chk ParamEntry :=
  if item.filled then .ok item
  else if item.positional_key ≠ "" then
    if item.nargs = .NARGS_QUESTION ∨ item.nargs = .NARGS_STAR then
      .ok { item with value := item.default_value, filled := true }
    else if item.action ≠ .NONE then
      if item.action = .ACTION_STORE_TRUE then
        .ok { item with value := .bool true, filled := true }
      else if item.action = .ACTION_STORE_FALSE then
        .ok { item with value := .bool false, filled := true }
      else if item.action = .ACTION_STORE_CONST then
        .ok { item with value := item.const_value, filled := true }
      else .ok item
    else .fail ("the following arguments are required: " ++ item.key)
  else
    if item.default_value.value_type ≠ .NONE then
      .ok { item with value := item.default_value, filled := true }
    else if item.action = .ACTION_STORE_TRUE then
      .ok { item with value := .bool false, filled := true }
    else if item.action = .ACTION_STORE_FALSE then
      .ok { item with value := .bool true, filled := true }
    else if item.action = .ACTION_STORE_CONST then
      .ok { item with value := item.const_value, filled := true }
    else .ok item

/-- The loop over the entries after the main loop; the first failure ends it. -/
def finalize : List ParamEntry → Chk (List ParamEntry)
  | [] => .ok []
  | item :: rest =>
    (finalize_entry item).bind fun item1 =>
      (finalize rest).bind fun rest1 => .ok (item1 :: rest1)

/-- The result map of `parse_args_any_type`: every filled entry under its key,
a later entry replacing an earlier one with the same key. -/
def build_result (param_entries : List ParamEntry) : List (String × ParamEntry) :=
  param_entries.foldl
    (fun result item => if item.filled then map_set result item.key item else result) []

/-- The result map of `parse_args_string`. -/
def build_string_result (param_entries : List ParamEntry) : List (String × String) :=
  param_entries.foldl
    (fun result item =>
      if item.filled then map_set result item.key item.value.string_value else result) []

/-- The main loop and the finalizer on the sorted, indexed registry `s1`. -/
def parse_entries (libc : Libc) (s1 : ArgumentParser) (positional_index : List Nat)
    (argv : List String) : Chk (List ParamEntry) :=
  (main_loop libc s1.optional_short_key_ s1.optional_long_key_ positional_index argv
    (argv.length + s1.param_entries_.length)
    { param_entries := s1.param_entries_, p_entry_index := 0, p_input_index := 1 }).bind
    fun st => finalize st.param_entries

/-- The end of a parse call: return the result, or fail as `check_error` does,
or exit with code 0 after the help. -/
def ArgumentParser.finish {α β : Type} (libc : Libc) (s1 : ArgumentParser) (r : Chk α) (result : α → β) :
    Res β :=
  match r with
  | .ok a => .ok (result a) s1
  | .fail error_msg => s1.raise libc error_msg
  | .help => .exited 0 ""
  | .undefined => .undefined
  | .nofuel => .nofuel

/-- The method `parse_args_any_type(argc, argv)`, with `argc = argv.length`. -/
def ArgumentParser.parse_args_any_type (libc : Libc) (s : ArgumentParser)
    (argv : List String) : Res ArgValue :=
  let pre := s.prepass
  pre.1.finish libc (parse_entries libc pre.1 pre.2 argv) fun entries => ⟨build_result entries⟩

/-- The method `parse_args_string(argc, argv)`, with `argc = argv.length`. -/
def ArgumentParser.parse_args_string (libc : Libc) (s : ArgumentParser)
    (argv : List String) : Res (List (String × String)) :=
  let pre := s.prepass
  pre.1.finish libc (parse_entries libc pre.1 pre.2 argv) build_string_result

/-- The method `get_value<T>(key)` up to the accessor: the value stored under
`key`, if any. -/
def ArgValue.find (r : ArgValue) (key : String) : Option EntryItem :=
  (map_find r.value_ key).map fun e => e.value

/-- The specialisation `get_value<int>(key)`. -/
def ArgValue.get_value_int (r : ArgValue) (key : String) : Int :=
  match map_find r.value_ key with
  | none => ERROR_INT
  | some temp => temp.value.digit_int_value

/-- The specialisation `get_value<double>(key)`. -/
def ArgValue.get_value_double (r : ArgValue) (key : String) : Double :=
  match map_find r.value_ key with
  | none => ERROR_DOUBLE
  | some temp => temp.value.digit_double_value

/-- The specialisation `get_value<std::string>(key)`. -/
def ArgValue.get_value_string (r : ArgValue) (key : String) : String :=
  match map_find r.value_ key with
  | none => ERROR_STRING
  | some temp => temp.value.string_value

/-- The specialisation `get_value<bool>(key)`. -/
def ArgValue.get_value_bool (r : ArgValue) (key : String) : Bool :=
  match map_find r.value_ key with
  | none => ERROR_BOOL
  | some temp => temp.value.bool_value

/-- The specialisation `get_value<std::vector<int>>(key)`. -/
def ArgValue.get_value_int_array (r : ArgValue) (key : String) : List Int :=
  match map_find r.value_ key with
  | none => []
  | some temp => temp.value.int_array_value

/-- The specialisation `get_value<std::vector<double>>(key)`. -/
def ArgValue.get_value_double_array (r : ArgValue) (key : String) : List Double :=
  match map_find r.value_ key with
  | none => []
  | some temp => temp.value.double_array_value

/-- The specialisation `get_value<std::vector<bool>>(key)`. -/
def ArgValue.get_value_bool_array (r : ArgValue) (key : String) : List Bool :=
  match map_find r.value_ key with
  | none => []
  | some temp => temp.value.bool_array_value

/-- The specialisation `get_value<std::vector<std::string>>(key)`. -/
def ArgValue.get_value_string_array (r : ArgValue) (key : String) : List String :=
  match map_find r.value_ key with
  | none => []
  | some temp => temp.value.string_array_value

/-! # Vocabulary of the statements -/

/-! ## Outcomes of calls -/

/-- The call ended in a failure signalled by `check_error`: a thrown exception,
or an exit with code 1. -/
def Res.failed {α : Type} : Res α → Prop
  | .thrown _ _ => True
  | .exited code _ => code = 1
  | _ => False

/-- The call ended in a failure signalled by `check_error` with the message
`error_msg`. -/
def Res.failed_with {α : Type} (r : Res α) (error_msg : String) : Prop :=
  match r with
  | .thrown e _ => e = ⟨.PERF_FAILURE, error_msg⟩
  | .exited code m => code = 1 ∧ m = error_msg
  | _ => False

instance Res.decidable_failed {α : Type} : (r : Res α) → Decidable r.failed
  | .ok _ _ => isFalse fun h => h
  | .thrown _ _ => isTrue trivial
  | .exited code _ => inferInstanceAs (Decidable (code = 1))
  | .undefined => isFalse fun h => h
  | .nofuel => isFalse fun h => h

instance Res.decidable_failed_with {α : Type} (error_msg : String) :
    (r : Res α) → Decidable (r.failed_with error_msg)
  | .ok _ _ => isFalse fun h => h
  | .thrown e _ => inferInstanceAs (Decidable (e = ⟨.PERF_FAILURE, error_msg⟩))
  | .exited code m => inferInstanceAs (Decidable (code = 1 ∧ m = error_msg))
  | .undefined => isFalse fun h => h
  | .nofuel => isFalse fun h => h

/-- The state of the object after the call, when the process lives on. -/
def Res.state {α : Type} : Res α → Option ArgumentParser
  | .ok _ s => some s
  | .thrown _ s => some s
  | _ => none

/-- The value a parse call resolves for `key`, when the call returns a result
that holds the key. -/
def Res.find (r : Res ArgValue) (key : String) : Option EntryItem :=
  match r with
  | .ok a _ => a.find key
  | _ => none

/-- The outcome of a call without the value it returns. -/
def Res.void {α : Type} : Res α → Res Unit
  | .ok _ s => .ok () s
  | .thrown e s => .thrown e s
  | .exited code m => .exited code m
  | .undefined => .undefined
  | .nofuel => .nofuel

/-! ## Calls and reachable states -/

/-- A call on the public interface of the parser object. -/
inductive Call where
  | set_error_mode (mode : ErrorMode)
  | long_name (long_name : String)
  | short_name (short_name : String)
  | positional_name (name : String)
  | default_value (default_value : Literal)
  | const_value (const_value : Literal)
  | help (help : String)
  | nargs (nargs_type : String)
  | nargs_int (nargs_number : Int)
  | action (store_para : String)
  | dest (dest : String)
  | choices (array : ChoiceList)
  | type (value_type : ValueType)
  | done
  | add_argument (long_string default_string help_string : String)
  | parse_args_any_type (argv : List String)
  | parse_args_string (argv : List String)

/-- The outcome of the call `c` on the object in state `s`. -/
def Call.run (libc : Libc) (c : Call) (s : ArgumentParser) : Res Unit :=
  match c with
  | .set_error_mode mode => s.set_error_mode mode
  | .long_name n => s.long_name libc n
  | .short_name n => s.short_name libc n
  | .positional_name n => s.positional_name libc n
  | .default_value v => s.default_value libc v
  | .const_value v => s.const_value libc v
  | .help h => s.help h
  | .nargs t => s.nargs libc t
  | .nargs_int n => s.nargs_int libc n
  | .action a => s.action libc a
  | .dest d => s.dest libc d
  | .choices a => s.choices libc a
  | .type t => s.type t
  | .done => s.done libc
  | .add_argument l d h => s.add_argument libc l d h
  | .parse_args_any_type argv => (s.parse_args_any_type libc argv).void
  | .parse_args_string argv => (s.parse_args_string libc argv).void

/-- The states of a parser object that a program can reach: the state the
constructor leaves, and every state in which a call on a reachable state
returns or throws. -/
inductive Reachable (libc : Libc) : ArgumentParser → Prop where
  | new : Reachable libc ArgumentParser.new
  | call (c : Call) {s s1 : ArgumentParser} :
      Reachable libc s → (c.run libc s).state = some s1 → Reachable libc s1

/-- The state `s1` is reached from the state `s` by a sequence of calls, each
taken up where the one before returned or threw. -/
inductive Later (libc : Libc) : ArgumentParser → ArgumentParser → Prop where
  | refl {s : ArgumentParser} : Later libc s s
  | call (c : Call) {s s1 s2 : ArgumentParser} :
      Later libc s s1 → (c.run libc s1).state = some s2 → Later libc s s2

/-- The state after a sequence of calls every one of which returned, starting
from `s`; `none` when a call did not return. -/
def chain (libc : Libc) (s : ArgumentParser) : List Call → Option ArgumentParser
  | [] => some s
  | c :: rest =>
    match c.run libc s with
    | .ok _ s1 => chain libc s1 rest
    | _ => none

/-! ## Invariants of the reachable states -/

/-- Every entry of `l` with a non-empty identifier `sel` has it in the table. -/
def registered (tab : List (String × Nat)) (sel : ParamEntry → String)
    (l : List ParamEntry) : Prop :=
  ∀ e ∈ l, sel e ≠ "" → (map_find tab (sel e)).isSome

/-- No two entries of `l` at different positions share a non-empty identifier
`sel`. -/
def distinct_keys (sel : ParamEntry → String) (l : List ParamEntry) : Prop :=
  l.Pairwise fun a b => sel a ≠ "" → sel a ≠ sel b

/-- The identifier `sel` of `now`, when not empty, is the one of no entry of `l`. -/
def fresh_key (sel : ParamEntry → String) (now : ParamEntry) (l : List ParamEntry) : Prop :=
  sel now ≠ "" → ∀ e ∈ l, sel e ≠ sel now

/-- The facts every reachable state satisfies that the theorems below use. -/
structure Inv (s : ArgumentParser) : Prop where
  long_registered : registered s.optional_long_key_ ParamEntry.long_key s.param_entries_
  short_registered : registered s.optional_short_key_ ParamEntry.short_key s.param_entries_
  positional_registered : registered s.positional_key_ ParamEntry.positional_key s.param_entries_
  long_distinct : distinct_keys ParamEntry.long_key s.param_entries_
  short_distinct : distinct_keys ParamEntry.short_key s.param_entries_
  positional_distinct : distinct_keys ParamEntry.positional_key s.param_entries_
  long_fresh : fresh_key ParamEntry.long_key s.now_entry_ s.param_entries_
  short_fresh : fresh_key ParamEntry.short_key s.now_entry_ s.param_entries_
  positional_fresh : fresh_key ParamEntry.positional_key s.now_entry_ s.param_entries_
  unfilled : ∀ e ∈ s.param_entries_, e.filled = false ∧ e.value = .empty
  now_unfilled : s.now_entry_.filled = false ∧ s.now_entry_.value = .empty
  positional_required : ∀ e ∈ s.param_entries_, e.positional_key ≠ "" → e.required = true
  now_positional_required : s.now_entry_.positional_key ≠ "" → s.now_entry_.required = true

/-- A change of state that keeps the registry up to its order, keeps every key
of the three tables, and keeps the identifiers, the marks and the value of the
current entry. -/
structure benign (s s1 : ArgumentParser) : Prop where
  perm : s1.param_entries_.Perm s.param_entries_
  long_kept : ∀ k, (map_find s.optional_long_key_ k).isSome →
    (map_find s1.optional_long_key_ k).isSome
  short_kept : ∀ k, (map_find s.optional_short_key_ k).isSome →
    (map_find s1.optional_short_key_ k).isSome
  positional_kept : ∀ k, (map_find s.positional_key_ k).isSome →
    (map_find s1.positional_key_ k).isSome
  long_key : s1.now_entry_.long_key = s.now_entry_.long_key
  short_key : s1.now_entry_.short_key = s.now_entry_.short_key
  positional_key : s1.now_entry_.positional_key = s.now_entry_.positional_key
  filled : s1.now_entry_.filled = s.now_entry_.filled
  value : s1.now_entry_.value = s.now_entry_.value
  required : s1.now_entry_.required = s.now_entry_.required

/-- The change of state of a `done()` call that returns. -/
structure committed (s s1 : ArgumentParser) : Prop where
  registry : s1.param_entries_ =
    s.param_entries_ ++ [{ s.now_entry_ with key := derived_key s.now_entry_ }]
  now : s1.now_entry_ = ParamEntry.blank
  long : s1.optional_long_key_ =
    if s.now_entry_.long_key ≠ "" then map_set s.optional_long_key_ s.now_entry_.long_key 1
    else s.optional_long_key_
  short : s1.optional_short_key_ =
    if s.now_entry_.short_key ≠ "" then map_set s.optional_short_key_ s.now_entry_.short_key 1
    else s.optional_short_key_
  positional : s1.positional_key_ =
    if s.now_entry_.positional_key ≠ "" then
      map_set s.positional_key_ s.now_entry_.positional_key 1
    else s.positional_key_
  mode : s1.error_mode_ = s.error_mode_
  key : derived_key s.now_entry_ ≠ ""
  const : s.now_entry_.action ≠ .ACTION_STORE_CONST ∨
    s.now_entry_.const_value.value_type ≠ .NONE

/-- What one call can do to the state, as far as the registry, the tables and
the identifiers of the current entry go. -/
inductive Effect : ArgumentParser → ArgumentParser → Prop where
  | benign {s s1 : ArgumentParser} : benign s s1 → Effect s s1
  | long_name {s : ArgumentParser} {k : String} :
      map_find s.optional_long_key_ k = none → s.now_entry_.positional_key = "" →
      Effect s { s with now_entry_ := { s.now_entry_ with long_key := k, required := false } }
  | short_name {s : ArgumentParser} {k : String} :
      map_find s.optional_short_key_ k = none → s.now_entry_.positional_key = "" →
      Effect s { s with now_entry_ := { s.now_entry_ with short_key := k, required := false } }
  | positional_name {s : ArgumentParser} {k : String} :
      map_find s.positional_key_ k = none →
      Effect s
        { s with now_entry_ := { s.now_entry_ with positional_key := k, required := true } }
  | committed {s s1 : ArgumentParser} : committed s s1 → Effect s s1
  | trans {s s1 s2 : ArgumentParser} : Effect s s1 → Effect s1 s2 → Effect s s2

/-! ## The token consumer and the finalizer -/

/-- The scalar values of a choice list. -/
def ChoiceList.elements : ChoiceList → List EntryItem
  | .string_array v => v.map EntryItem.string
  | .int_array v => v.map EntryItem.int
  | .double_array v => v.map EntryItem.double
  | .bool_array v => v.map EntryItem.bool

/-- The number of elements of an array value. -/
def EntryItem.array_length : EntryItem → Option Nat
  | .string_array v => some v.length
  | .int_array v => some v.length
  | .double_array v => some v.length
  | .bool_array v => some v.length
  | _ => none

/-- The value tokens available after position `p_input_index`: the longest run of
tokens from position `p_input_index + 1` on that do not start with `-`. -/
def value_run (argv : List String) (p_input_index : Nat) : List String :=
  (argv.drop (p_input_index + 1)).takeWhile fun t => !starts_with t "-"

/-- The main loop meets a flag token of `entry`: the token at the cursor is no
help token, starts with `-`, and the flag tables resolve it to the index `j`,
where the working list holds `entry`. -/
def at_flag (optional_short_key_ optional_long_key_ : List (String × Nat)) (argv : List String)
    (st : ParseState) (j : Nat) (entry : ParamEntry) : Prop :=
  ∃ input name, argv[st.p_input_index]? = some input ∧ input ≠ "--help" ∧ input ≠ "-h" ∧
    starts_with input "-" = true ∧
    lookup_flag optional_short_key_ optional_long_key_ input = .ok (name, j) ∧
    st.param_entries[j]? = some entry

/-- Every entry of `l` is still there in `l1`, at the same index and under the
same key, and still filled if it was. -/
def keeps (l l1 : List ParamEntry) : Prop :=
  ∀ (j : Nat) (e : ParamEntry), l[j]? = some e →
    ∃ e1 : ParamEntry, l1[j]? = some e1 ∧ e1.key = e.key ∧ (e.filled = true → e1.filled = true)

/-- An unfilled entry the finalizer rejects: it has a positional name, no action,
and a multiplicity other than `?` and `*`. -/
def needs_token (e : ParamEntry) : Prop :=
  e.positional_key ≠ "" ∧ e.action = .NONE ∧ e.nargs ≠ .NARGS_QUESTION ∧ e.nargs ≠ .NARGS_STAR

instance (e : ParamEntry) : Decidable (needs_token e) := by
  unfold needs_token
  infer_instance

/-- The indices, counted from `n`, of the entries with a positional name. -/
def positions : List ParamEntry → Nat → List Nat
  | [], _ => []
  | e :: l, n => if e.positional_key ≠ "" then n :: positions l (n + 1) else positions l (n + 1)

/-- A `Libc` for evaluating the model on inputs without doubles. -/
def Libc.zero : Libc where
  strtod := fun _ => ERROR_DOUBLE
  snprintf_f3 := fun _ => "0.000"
  sort := fun l => l.filter (fun e => e.required) ++ l.filter (fun e => !e.required)
  sort_perm := fun l => List.filter_append_perm _ l
  sort_sorted := by
    intro l
    rw [List.pairwise_append]
    refine ⟨?_, ?_, ?_⟩
    · exact List.Pairwise.imp_of_mem (fun ha _ _ => by
        simp [required_first, (List.mem_filter.mp ha).2]) (List.pairwise_of_forall fun _ _ => trivial)
    · exact List.Pairwise.imp_of_mem (fun _ hb _ => by
        have := (List.mem_filter.mp hb).2
        simp only [Bool.not_eq_true', Bool.not_eq_eq_eq_not, Bool.not_true] at this
        simp [required_first, this]) (List.pairwise_of_forall fun _ _ => trivial)
    · intro a ha b _
      simp [required_first, (List.mem_filter.mp ha).2]

/-- A parser object in throwing mode and without declarations. -/
def ArgumentParser.throwing : ArgumentParser :=
  { ArgumentParser.new with error_mode_ := .THROW_EXCEPTION }

/-- The entry of `long_name("--vals").nargs("+").type(DIGITS_INT).done()`. -/
def vals_entry : ParamEntry :=
  { ParamEntry.blank with
    long_key := "vals", key := "vals", nargs := .NARGS_ADD, value_type := .DIGITS_INT }

/-- The entry of `long_name("--x").nargs("*").done()`. -/
def star_entry : ParamEntry :=
  { ParamEntry.blank with long_key := "x", key := "x", nargs := .NARGS_STAR }

/-- The entry of `positional_name("n").choices({1, 2, 3}).done()`. -/
def choice_entry : ParamEntry :=
  { ParamEntry.blank with
    positional_key := "n", key := "n", required := true, value_type := .DIGITS_INT,
    choices_array := .int_array [1, 2, 3] }

/-- The entry of `positional_name("name").done()`. -/
def name_entry : ParamEntry :=
  { ParamEntry.blank with positional_key := "name", key := "name", required := true }

/-- The entry of `long_name("--count").default_value(1).type(DIGITS_INT).done()`. -/
def count_entry : ParamEntry :=
  { ParamEntry.blank with
    long_key := "count", key := "count", value_type := .DIGITS_INT, default_value := .int 1 }

/-- The object after the two declarations `name_entry` and `count_entry`. -/
def name_count_state : ArgumentParser :=
  { ArgumentParser.new with
    param_entries_ := [name_entry, count_entry]
    optional_long_key_ := [("count", 1)]
    positional_key_ := [("name", 1)] }

/-- The object, in throwing mode, after `long_name("--all").short_name("-a").done()`
and `positional_name("file").done()`. -/
def all_file_state : ArgumentParser :=
  { ArgumentParser.throwing with
    param_entries_ :=
      [{ ParamEntry.blank with long_key := "all", short_key := "a", key := "all" },
       { ParamEntry.blank with positional_key := "file", key := "file", required := true }]
    optional_long_key_ := [("all", 1)]
    optional_short_key_ := [("a", 1)]
    positional_key_ := [("file", 1)] }

/-! ## The current entry, call by call -/

/-- The current entry after the call `c` returned, as a function of the current
entry `e` before it. -/
def Call.on_entry (c : Call) (e : ParamEntry) : ParamEntry :=
  match c with
  | .long_name n => { e with long_key := substr n 2, required := false }
  | .short_name n => { e with short_key := substr n 1, required := false }
  | .positional_name n => { e with positional_key := n, required := true }
  | .default_value v => { e with value_type := v.kind, default_value := v.item }
  | .const_value v => { e with value_type := v.kind, const_value := v.item }
  | .help t => { e with help := t }
  | .nargs t =>
    { e with nargs := if t = "*" then .NARGS_STAR else if t = "+" then .NARGS_ADD
                      else .NARGS_QUESTION }
  | .nargs_int n => { e with nargs := .NARGS_N, nargs_number := n }
  | .action a =>
    { e with action := if a = "store_false" then .ACTION_STORE_FALSE
                       else if a = "store_true" then .ACTION_STORE_TRUE
                       else .ACTION_STORE_CONST }
  | .dest d => { e with key := d }
  | .choices a => { e with value_type := a.kind, choices_array := a.item }
  | .type t => { e with value_type := t }
  | .done => ParamEntry.blank
  | .add_argument _ _ _ => ParamEntry.blank
  | .set_error_mode _ => e
  | .parse_args_any_type _ => e
  | .parse_args_string _ => e

/-- The key an explicit `dest` call left on the current entry after the calls
`calls` on a new object: the argument of the last `dest` call that no `done()`
and no `add_argument` follows, and the empty string when there is none. -/
def explicit_dest (calls : List Call) : String :=
  calls.foldl
    (fun key c =>
      match c with
      | .dest d => d
      | .done => ""
      | .add_argument _ _ _ => ""
      | _ => key) ""

/-- The states of a parser object reached from the constructor's by calls that
all satisfy `allowed`, each taken up where the one before returned or threw. -/
inductive ReachableBy (libc : Libc) (allowed : Call → Bool) : ArgumentParser → Prop where
  | new : ReachableBy libc allowed ArgumentParser.new
  | call (c : Call) {s s1 : ArgumentParser} :
      ReachableBy libc allowed s → allowed c = true → (c.run libc s).state = some s1 →
      ReachableBy libc allowed s1

/-- The call is no `positional_name` call with the empty string. -/
def Call.names_positional : Call → Bool
  | .positional_name n => n ≠ ""
  | _ => true

/-- How the mark `required` of an entry goes with its identifiers: an entry with
a short or a long flag is not required. -/
def flags_optional (e : ParamEntry) : Prop :=
  e.short_key ≠ "" ∨ e.long_key ≠ "" → e.required = false

/-- A required entry has a positional name. -/
def required_named (e : ParamEntry) : Prop :=
  e.required = true → e.positional_key ≠ ""

/-- The object after `short_name("-c").long_name("--count")` on a new one. -/
def count_flags_state : ArgumentParser :=
  { ArgumentParser.new with
    now_entry_ := { ParamEntry.blank with short_key := "c", long_key := "count" } }

/-! ## Values and their equality -/

/-- The eight kind predicates of a value, in the order of their declaration. -/
def EntryItem.kind_predicates (v : EntryItem) : List Bool :=
  [v.is_bool, v.is_double, v.is_int, v.is_string, v.is_int_array, v.is_double_array,
    v.is_bool_array, v.is_string_array]

/-- Two vectors have equal lengths and, under `eq`, equal elements at every
index. -/
def same_elements {α : Type} (eq : α → α → Prop) (a b : List α) : Prop :=
  a.length = b.length ∧ ∀ (i : Nat) (h1 : i < a.length) (h2 : i < b.length), eq a[i] b[i]

/-- Structural equality of two values in the words of the specification: the
same kind and, for a scalar kind, equal payloads, for an array kind, equal
lengths and equal elements at every index.  Two doubles are equal when the C
comparison `==` says so. -/
def structurally_equal : EntryItem → EntryItem → Prop
  | .empty, .empty => True
  | .int x, .int y => x = y
  | .double x, .double y => Double.eq x y = true
  | .string x, .string y => x = y
  | .bool x, .bool y => x = y
  | .string_array x, .string_array y => same_elements (fun p q => p = q) x y
  | .int_array x, .int_array y => same_elements (fun p q => p = q) x y
  | .double_array x, .double_array y => same_elements (fun p q => Double.eq p q = true) x y
  | .bool_array x, .bool_array y => same_elements (fun p q => p = q) x y
  | _, _ => False

/-- The value is a scalar: an int, a double, a string or a bool. -/
def EntryItem.is_scalar (v : EntryItem) : Bool :=
  v.is_int || v.is_double || v.is_string || v.is_bool

/-- The value is an array of one of the four kinds. -/
def EntryItem.is_array (v : EntryItem) : Bool :=
  v.is_int_array || v.is_double_array || v.is_string_array || v.is_bool_array

/-- The value holds no double: it is no double and no array of doubles. -/
def EntryItem.no_double (v : EntryItem) : Bool :=
  !v.is_double && !v.is_double_array

/-- A quiet NaN. -/
def Double.nan : Double := ⟨0x7FF8000000000000⟩

/-- The first `k` iterations of the main loop, or all of them when the loop ends
before. -/
def iterations (libc : Libc) (optional_short_key_ optional_long_key_ : List (String × Nat))
    (positional_index : List Nat) (argv : List String) : Nat → ParseState → Chk ParseState
  | 0, st => .ok st
  | k + 1, st =>
    if st.p_input_index < argv.length then
      (parse_step libc optional_short_key_ optional_long_key_ positional_index argv st).bind
        (iterations libc optional_short_key_ optional_long_key_ positional_index argv k)
    else .ok st

/-- The state in which the main loop of a parse call on the object `s` starts:
the sorted registry, both cursors at their first position. -/
def ArgumentParser.start (s : ArgumentParser) : ParseState :=
  { param_entries := s.prepass.1.param_entries_, p_entry_index := 0, p_input_index := 1 }

/-- The main loop of a parse call on the object `s` with the vector `argv` is,
after some iterations, in the state `st` with a token left to read. -/
def ArgumentParser.loop_at (libc : Libc) (s : ArgumentParser) (argv : List String)
    (st : ParseState) : Prop :=
  st.p_input_index < argv.length ∧
  ∃ k, iterations libc s.prepass.1.optional_short_key_ s.prepass.1.optional_long_key_
    s.prepass.2 argv k s.start = .ok st

/-- What the builder checks of the policies of an entry: a multiplicity `?`, `*`
or `+` goes with no action, and a fixed count is positive. -/
def policy_ok (e : ParamEntry) : Prop :=
  (e.nargs = .NARGS_QUESTION ∨ e.nargs = .NARGS_STAR ∨ e.nargs = .NARGS_ADD →
    e.action = .NONE) ∧
  (e.nargs = .NARGS_N → 0 < e.nargs_number)

/-- An entry with the action `store_const` has a const. -/
def const_declared (e : ParamEntry) : Prop :=
  e.action = .ACTION_STORE_CONST → e.const_value.value_type ≠ .NONE

/-- What the checks of the builder establish of an object: every committed entry
and the current entry pass `policy_ok`, every committed entry has its const, and
the empty string is no key of the two flag tables. -/
structure Policy (s : ArgumentParser) : Prop where
  registry : ∀ e ∈ s.param_entries_, policy_ok e ∧ const_declared e
  now : policy_ok s.now_entry_
  short_named : map_find s.optional_short_key_ "" = none
  long_named : map_find s.optional_long_key_ "" = none

/-- The entry `e` of a working list is the declared entry `e0` up to the value
and the mark `filled`, which parsing writes. -/
def same_declaration (e0 e : ParamEntry) : Prop :=
  e = { e0 with value := e.value, filled := e.filled }

/-- The text of a flag token without its dashes: without the first two
characters when it starts with `--`, else without the first one. -/
def flag_name (input : String) : String :=
  if starts_with input "--" then substr input 2 else substr input 1

/-- The iteration of the main loop of a parse call on the object `s`, in the
state `st`. -/
def ArgumentParser.step (libc : Libc) (s : ArgumentParser) (argv : List String)
    (st : ParseState) : Chk ParseState :=
  parse_step libc s.prepass.1.optional_short_key_ s.prepass.1.optional_long_key_ s.prepass.2
    argv st

/-- The main loop of a parse call on the object `s` with the vector `argv` is in
the state `st` and meets there a flag token of `entry`, the entry at the index
`j` of the working list. -/
def ArgumentParser.meets_flag (libc : Libc) (s : ArgumentParser) (argv : List String)
    (st : ParseState) (j : Nat) (entry : ParamEntry) : Prop :=
  s.loop_at libc argv st ∧
    at_flag s.prepass.1.optional_short_key_ s.prepass.1.optional_long_key_ argv st j entry

/-- The main loop meets a token that does not start with `-` and binds it to
`entry`: the entries of `positional_index` from the positional cursor up to the
position `p1` have an action, and at `p1` stands the index `i`, where the working
list holds `entry`, which has none. -/
def at_positional (positional_index : List Nat) (argv : List String) (st : ParseState)
    (p1 i : Nat) (entry : ParamEntry) : Prop :=
  ∃ input, argv[st.p_input_index]? = some input ∧ starts_with input "-" = false ∧
    st.p_entry_index ≤ p1 ∧
    (∀ k, st.p_entry_index ≤ k → k < p1 →
      ∃ i1 e1, positional_index[k]? = some i1 ∧ st.param_entries[i1]? = some e1 ∧
        e1.action ≠ .NONE) ∧
    positional_index[p1]? = some i ∧ st.param_entries[i]? = some entry ∧ entry.action = .NONE

/-- The main loop of a parse call on the object `s` with the vector `argv` ends,
after it has read every token, in the state `st1`. -/
def ArgumentParser.loop_ends (libc : Libc) (s : ArgumentParser) (argv : List String)
    (st1 : ParseState) : Prop :=
  main_loop libc s.prepass.1.optional_short_key_ s.prepass.1.optional_long_key_ s.prepass.2 argv
    (argv.length + s.prepass.1.param_entries_.length) s.start = .ok st1

/-- No token of the vector that starts with `-` is resolved by the flag tables
of a parse call on the object `s` to the index `j` of the working list: no flag
of the entry at `j` appears in the vector. -/
def ArgumentParser.flag_absent (s : ArgumentParser) (argv : List String) (j : Nat) : Prop :=
  ∀ t ∈ argv, starts_with t "-" = true → ∀ name,
    lookup_flag s.prepass.1.optional_short_key_ s.prepass.1.optional_long_key_ t ≠ .ok (name, j)

/-- The entry at the index `j` of the working list of a parse call on the object
`s` is the only one with its key. -/
def ArgumentParser.key_unshared (s : ArgumentParser) (j : Nat) : Prop :=
  ∀ (e e1 : ParamEntry) (j1 : Nat), s.prepass.1.param_entries_[j]? = some e →
    s.prepass.1.param_entries_[j1]? = some e1 → e1.key = e.key → j1 = j

/-! ## More objects of the worked inputs -/

/-- The entry of `long_name("--opt").nargs("?").const_value(5).done()`. -/
def opt_entry : ParamEntry :=
  { ParamEntry.blank with
    long_key := "opt", key := "opt", nargs := .NARGS_QUESTION, value_type := .DIGITS_INT,
    const_value := .int 5 }

/-- The object after the declaration of `opt_entry`. -/
def opt_state : ArgumentParser :=
  { ArgumentParser.new with
    param_entries_ := [opt_entry]
    optional_long_key_ := [("opt", 1)] }

/-- The entry of `long_name("--mode").action("store_const").const_value(7).done()`. -/
def mode_entry : ParamEntry :=
  { ParamEntry.blank with
    long_key := "mode", key := "mode", action := .ACTION_STORE_CONST, value_type := .DIGITS_INT,
    const_value := .int 7 }

/-- The object after the declaration of `mode_entry`. -/
def mode_state : ArgumentParser :=
  { ArgumentParser.new with
    param_entries_ := [mode_entry]
    optional_long_key_ := [("mode", 1)] }

/-- The entry of `positional_name("verbose").action("store_true").done()`. -/
def verbose_entry : ParamEntry :=
  { ParamEntry.blank with
    positional_key := "verbose", key := "verbose", required := true,
    action := .ACTION_STORE_TRUE }

/-- The object after the two declarations `verbose_entry` and `name_entry`. -/
def verbose_name_state : ArgumentParser :=
  { ArgumentParser.new with
    param_entries_ := [verbose_entry, name_entry]
    positional_key_ := [("verbose", 1), ("name", 1)] }

/-! ## The tables of the pre-pass and the objects built by returning calls -/

/-- The table the pre-pass loop makes of the table `tab` for the identifier
`sel`: the entries of the list in turn, counted from `n`, write their index under
their identifier when it is not empty. -/
def table_fold (sel : ParamEntry → String) :
    List ParamEntry → Nat → List (String × Nat) → List (String × Nat)
  | [], _, tab => tab
  | entry :: rest, n, tab =>
    table_fold sel rest (n + 1) (if sel entry ≠ "" then map_set tab (sel entry) n else tab)

/-- Every key of the table is the identifier `sel` of an entry of `l`. -/
def table_exact (tab : List (String × Nat)) (sel : ParamEntry → String)
    (l : List ParamEntry) : Prop :=
  ∀ k, (map_find tab k).isSome → ∃ e ∈ l, sel e = k

/-- Every key of the two flag tables of the object is a flag of an entry of the
registry. -/
structure Exact (s : ArgumentParser) : Prop where
  short : table_exact s.optional_short_key_ ParamEntry.short_key s.param_entries_
  long : table_exact s.optional_long_key_ ParamEntry.long_key s.param_entries_

/-- The states of a parser object built by sequences of calls that all returned,
starting from the state the constructor leaves. -/
def Built (libc : Libc) (s : ArgumentParser) : Prop :=
  ∃ calls, chain libc ArgumentParser.new calls = some s

/-! ## Declarations that fail -/

/-- The call is one of the builder operations that declare an entry:
`long_name`, `short_name`, `positional_name`, `default_value`, `const_value`,
`nargs`, `action`, `dest`, `choices` or `done`. -/
def Call.declares : Call → Bool
  | .long_name _ => true
  | .short_name _ => true
  | .positional_name _ => true
  | .default_value _ => true
  | .const_value _ => true
  | .nargs _ => true
  | .nargs_int _ => true
  | .action _ => true
  | .dest _ => true
  | .choices _ => true
  | .done => true
  | _ => false

/-- The call gets past its first check in the state `s`, so that a failure of it
is one of its last check, which comes after a write to the object: a
`const_value` call whose kind fits the current entry, or a `done()` call on an
entry with a key. -/
def Call.fails_late (c : Call) (s : ArgumentParser) : Prop :=
  (∃ v, c = .const_value v ∧
    (s.now_entry_.value_type = .NONE ∨ s.now_entry_.value_type = v.kind)) ∨
  (c = .done ∧ derived_key s.now_entry_ ≠ "")

/-! ## The order of the declarations, and a sort that does not keep it -/

/-- The object `s` was built from the constructor's state by calls that satisfy
`allowed` and that all returned; `d` lists the entries these calls committed, in
the order of the commits: the registry in the order of the declarations.  A call
that returns appends one entry to the registry (`done`, `add_argument`) or
leaves its length as it is (every other call; a parse call sorts it). -/
inductive DeclaredBy (libc : Libc) (allowed : Call → Bool) :
    ArgumentParser → List ParamEntry → Prop where
  | new : DeclaredBy libc allowed ArgumentParser.new []
  | commit (c : Call) {s s1 : ArgumentParser} {d : List ParamEntry} (e : ParamEntry) :
      DeclaredBy libc allowed s d → allowed c = true → c.run libc s = .ok () s1 →
      s1.param_entries_ = s.param_entries_ ++ [e] → DeclaredBy libc allowed s1 (d ++ [e])
  | keep (c : Call) {s s1 : ArgumentParser} {d : List ParamEntry} :
      DeclaredBy libc allowed s d → allowed c = true → c.run libc s = .ok () s1 →
      s1.param_entries_.length = s.param_entries_.length → DeclaredBy libc allowed s1 d

/-- Every call is allowed. -/
def Call.any : Call → Bool := fun _ => true

/-- The entries that the calls of a sequence commit, in the order of the
commits, when the calls all return: after each call, what the registry holds
beyond its length before the call. -/
def declarations (libc : Libc) : ArgumentParser → List Call → List ParamEntry
  | _, [] => []
  | s, c :: rest =>
    match c.run libc s with
    | .ok _ s1 => s1.param_entries_.drop s.param_entries_.length ++ declarations libc s1 rest
    | _ => []

/-- The object after the declarations `count_entry` and `name_entry`, in this
order. -/
def count_name_state : ArgumentParser :=
  { ArgumentParser.new with
    param_entries_ := [count_entry, name_entry]
    optional_long_key_ := [("count", 1)]
    positional_key_ := [("name", 1)] }

/-- The choice set of the entry is the choice list `c`, and the kind of the entry
is the kind of `c`: what a `choices` call with `c`, with no `type` call after it,
leaves in the entry. -/
def has_choices (entry : ParamEntry) (c : ChoiceList) : Prop :=
  entry.value_type = c.kind ∧ entry.choices_array = c.item

/-- The bound on the number of tokens that `parse_nargs` collects for the entry:
the fixed count, or `-1` for no bound. -/
def nargs_count (entry : ParamEntry) : Int :=
  if entry.nargs = .NARGS_N then entry.nargs_number else -1

/-- Among the value tokens that the multiplicity resolution of the entry reads
from the position `p` on, `t` is the first whose coercion is no element of the
choice list `c`: the value tokens after `p` begin with `pre`, whose coercions are
all elements of `c`, then comes `t`; for the multiplicity `?` the token `t` is the
first one, and for a fixed count it is among the first `count` tokens. -/
def first_rejected (libc : Libc) (entry : ParamEntry) (c : ChoiceList) (argv : List String)
    (p : Nat) (t : String) : Prop :=
  ∃ pre post, value_run argv p = pre ++ t :: post ∧
    (∀ x ∈ pre, parse libc x entry.value_type ∈ c.elements) ∧
    parse libc t entry.value_type ∉ c.elements ∧
    (entry.nargs = .NARGS_QUESTION → pre = []) ∧
    (entry.nargs ≠ .NARGS_QUESTION →
      nargs_count entry < 0 ∨ (pre.length : Int) < nargs_count entry)

/-- A flag of the entry appears in the argument vector: the token `--<long flag>`
or the token `-<short flag>` of a flag that the entry has. -/
def flag_appears (entry : ParamEntry) (argv : List String) : Prop :=
  (entry.long_key ≠ "" ∧ "--" ++ entry.long_key ∈ argv) ∨
    (entry.short_key ≠ "" ∧ "-" ++ entry.short_key ∈ argv)

instance flag_appears_decidable (entry : ParamEntry) (argv : List String) :
    Decidable (flag_appears entry argv) := by
  unfold flag_appears
  infer_instance

/-- The entry of `long_name("--verbose").action("store_true").done()`. -/
def verbose_flag_entry : ParamEntry :=
  { ParamEntry.blank with long_key := "verbose", key := "verbose", action := .ACTION_STORE_TRUE }

/-- The object after the declaration of `verbose_flag_entry`. -/
def verbose_flag_state : ArgumentParser :=
  { ArgumentParser.new with
    param_entries_ := [verbose_flag_entry]
    optional_long_key_ := [("verbose", 1)] }

/-! ## The value of a double, and the C library on doubles -/

/-- The sign bit of the pattern. -/
def Double.sign (d : Double) : Bool :=
  (d.bits / 2 ^ 63) % 2 == 1

/-- The biased exponent field of the pattern. -/
def Double.exponent (d : Double) : Nat :=
  (d.bits / 2 ^ 52) % 2 ^ 11

/-- The fraction field of the pattern. -/
def Double.fraction (d : Double) : Nat :=
  d.bits % 2 ^ 52

/-- Either of the two infinities. -/
def Double.isInf (d : Double) : Bool :=
  d.exponent == 2 ^ 11 - 1 && d.fraction == 0

/-- The magnitude of a finite double, counted in units of `2 ^ -1074`, the
smallest positive double: the fraction of a subnormal, and
`(2 ^ 52 + fraction) * 2 ^ (exponent - 1)` for a normal double. -/
def Double.magnitude (d : Double) : Nat :=
  if d.exponent = 0 then d.fraction else (2 ^ 52 + d.fraction) * 2 ^ (d.exponent - 1)

/-- The quotient `p / q` rounded to the nearest integer, a tie to the even one. -/
def round_half_even (p q : Nat) : Nat :=
  if 2 * (p % q) < q then p / q
  else if q < 2 * (p % q) then p / q + 1
  else if (p / q) % 2 = 0 then p / q
  else p / q + 1

/-- The number of binary digits of `n`; `fuel` bounds it. -/
def bit_length : Nat → Nat → Nat
  | 0, _ => 0
  | fuel + 1, n => if n = 0 then 0 else bit_length fuel (n / 2) + 1

/-- The double with the sign `neg` and the magnitude `n` units of `2 ^ -1074`,
for an `n` that is the magnitude of a finite double. -/
def Double.of_magnitude (neg : Bool) (n : Nat) : Double :=
  let sign := if neg then 2 ^ 63 else 0
  if n < 2 ^ 52 then ⟨sign + n⟩
  else
    let shift := bit_length n n - 53
    ⟨sign + (shift + 1) * 2 ^ 52 + (n / 2 ^ shift - 2 ^ 52)⟩

/-- The infinity with the sign `neg`. -/
def Double.infinity (neg : Bool) : Double :=
  ⟨(if neg then 2 ^ 63 else 0) + (2 ^ 11 - 1) * 2 ^ 52⟩

/-- The double nearest to the quotient `p / q` of the sign `neg`, a tie to the
one with the even fraction (IEC 60559 round to nearest); a quotient that rounds
to `2 ^ 1024` or more gives the infinity. -/
def Double.round (neg : Bool) (p q : Nat) : Double :=
  let unit := p * 2 ^ 1074
  let shift := bit_length (unit / q) (unit / q) - 53
  let n := round_half_even unit (q * 2 ^ shift) * 2 ^ shift
  if 2 ^ 2098 ≤ n then Double.infinity neg else Double.of_magnitude neg n

/-- The decimal text with three fractional digits of `k / 1000`, with a minus
sign when `neg`. -/
def three_decimals (neg : Bool) (k : Nat) : String :=
  ⟨(if neg then ['-'] else []) ++ nat_digits (k / 1000 + 1) (k / 1000) ++
    ['.', digit_char (k / 100 % 10), digit_char (k / 10 % 10), digit_char (k % 10)]⟩

/-- The text that the format `"%.3f"` gives for a double: the value rounded to
three fractional digits (glibc rounds the exact value to nearest, a tie to
even), and `inf` or `nan` with the sign. -/
def format_f3 (v : Double) : String :=
  if v.isNaN then (if v.sign then "-nan" else "nan")
  else if v.isInf then (if v.sign then "-inf" else "inf")
  else three_decimals v.sign (round_half_even (1000 * v.magnitude) (2 ^ 1074))

/-- The constant `DOUBLE_TO_STRING_SIZE`. -/
def DOUBLE_TO_STRING_SIZE : Nat := 50

/-- What `snprintf(temp, size, ...)` leaves in `temp` of a text: its first
`size - 1` characters. -/
def snprintf_cut (size : Nat) (text : String) : String :=
  ⟨text.data.take (size - 1)⟩

/-- The call `snprintf(temp, DOUBLE_TO_STRING_SIZE, "%.3f", value_)` of
`DigitsDoubleValue::dump`. -/
def snprintf_f3 (v : Double) : String :=
  snprintf_cut DOUBLE_TO_STRING_SIZE (format_f3 v)

/-- The C `tolower` on the letters `A` to `Z`. -/
def tolower (c : Char) : Char :=
  if 65 ≤ c.toNat && c.toNat ≤ 90 then Char.ofNat (c.toNat + 32) else c

/-- The value of a hexadecimal digit. -/
def hex_digit (c : Char) : Option Nat :=
  if isdigit c then some (c.toNat - 48)
  else if 97 ≤ (tolower c).toNat && (tolower c).toNat ≤ 102 then some ((tolower c).toNat - 87)
  else none

/-- The value of a run of hexadecimal digits, most significant first. -/
def hex_value (ds : List Char) : Nat :=
  ds.foldl (fun acc c => acc * 16 + (hex_digit c).getD 0) 0

/-- An exponent part: after the letter, an optional sign and a run of digits that
is not empty; else there is no exponent part and the exponent is 0. -/
def exponent_part (letter : Char) (cs : List Char) : Int :=
  match cs with
  | c :: r =>
    if tolower c = letter then
      let body : Bool × List Char :=
        match r with
        | '-' :: r1 => (true, r1)
        | '+' :: r1 => (false, r1)
        | r1 => (false, r1)
      let n : Int := digits_value (body.2.takeWhile isdigit)
      if body.1 then -n else n
    else 0
  | [] => 0

/-- The double of a significand `n` in the base `b` scaled by `b ^ e`. -/
def scaled (neg : Bool) (n b : Nat) (e : Int) : Double :=
  if 0 ≤ e then Double.round neg (n * b ^ e.toNat) 1 else Double.round neg n (b ^ (-e).toNat)

/-- The text after `0x` when a hexadecimal number follows: a hexadecimal digit,
or a point and a hexadecimal digit.  The text is in lower case. -/
def hex_prefix (low : List Char) : Option (List Char) :=
  match low with
  | '0' :: 'x' :: c :: r =>
    if (hex_digit c).isSome then some (c :: r)
    else
      match c, r with
      | '.', c1 :: _ => if (hex_digit c1).isSome then some (c :: r) else none
      | _, _ => none
  | _ => none

/-- The double of a hexadecimal number: digits with an optional point, and an
optional binary exponent after `p`. -/
def hex_number (neg : Bool) (h : List Char) : Double :=
  let ip := h.takeWhile fun c => (hex_digit c).isSome
  let r1 := h.dropWhile fun c => (hex_digit c).isSome
  let fp :=
    match r1 with
    | '.' :: r => r.takeWhile fun c => (hex_digit c).isSome
    | _ => []
  let r2 :=
    match r1 with
    | '.' :: r => r.dropWhile fun c => (hex_digit c).isSome
    | _ => r1
  scaled neg (hex_value (ip ++ fp)) 2 (exponent_part 'p' r2 - 4 * fp.length)

/-- The double of a decimal number: digits with an optional point, and an
optional decimal exponent after `e`; a text without a digit gives 0. -/
def decimal_number (neg : Bool) (cs : List Char) : Double :=
  let ip := cs.takeWhile isdigit
  let r1 := cs.dropWhile isdigit
  let fp :=
    match r1 with
    | '.' :: r => r.takeWhile isdigit
    | _ => []
  let r2 :=
    match r1 with
    | '.' :: r => r.dropWhile isdigit
    | _ => r1
  if ip = [] ∧ fp = [] then ERROR_DOUBLE
  else scaled neg (digits_value (ip ++ fp)) 10 (exponent_part 'e' r2 - fp.length)

/-- The double that `strtod` reads after the sign: `inf` or `nan` (in any case), a
hexadecimal number after `0x`, or a decimal number. -/
def signless_number (neg : Bool) (cs : List Char) : Double :=
  let low := cs.map tolower
  if ['i', 'n', 'f'].isPrefixOf low then Double.infinity neg
  else if ['n', 'a', 'n'].isPrefixOf low then ⟨(if neg then 2 ^ 63 else 0) + 0x7FF8000000000000⟩
  else
    match hex_prefix low with
    | some h => hex_number neg h
    | none => decimal_number neg cs

/-- The call `std::strtod(text, nullptr)`: skip leading white space, read an
optional sign and then the longest text that is `inf` or `nan` (in any case), a
hexadecimal number after `0x`, or a decimal number with an optional fraction and
an optional exponent; the value is rounded to the nearest double, as glibc does;
a text without a number gives 0. -/
def strtod (s : String) : Double :=
  match s.data.dropWhile isspace with
  | '-' :: r => signless_number true r
  | '+' :: r => signless_number false r
  | r => signless_number false r

/-- The entry of `positional_name("mode").choices({"a", "b"}).done()`. -/
def mode_choice_entry : ParamEntry :=
  { ParamEntry.blank with
    positional_key := "mode", key := "mode", required := true, value_type := .STRING,
    choices_array := .string_array ["a", "b"] }

/-- The object, in throwing mode, after the declaration of `mode_choice_entry`. -/
def mode_choice_state : ArgumentParser :=
  { ArgumentParser.throwing with
    param_entries_ := [mode_choice_entry]
    positional_key_ := [("mode", 1)] }

/-! # Theorems -/

/-! ## Basic facts -/

theorem starts_with_append (p s : String) : starts_with (p ++ s) p = true := by
  unfold starts_with
  rw [String.data_append, List.isPrefixOf_iff_prefix]
  exact List.prefix_append _ _

theorem substr_append (p s : String) : substr (p ++ s) p.length = s := by
  unfold substr
  rw [String.data_append]
  have h : p.length = p.data.length := rfl
  rw [h, List.drop_left]

theorem map_find_set_same {α : Type} (m : List (String × α)) (k : String) (v : α) :
    map_find (map_set m k v) k = some v := by
  induction m with
  | nil => simp [map_set, map_find]
  | cons hd tl ih =>
    obtain ⟨k1, v1⟩ := hd
    by_cases h : k1 = k
    · simp [map_set, map_find, h]
    · simp [map_set, map_find, h, ih]

theorem map_find_set_other {α : Type} (m : List (String × α)) (k k2 : String) (v : α)
    (h : k ≠ k2) : map_find (map_set m k v) k2 = map_find m k2 := by
  induction m with
  | nil => simp [map_set, map_find, h]
  | cons hd tl ih =>
    obtain ⟨k1, v1⟩ := hd
    by_cases h1 : k1 = k
    · subst h1
      simp [map_set, map_find, h]
    · by_cases h2 : k1 = k2
      · subst h2
        simp [map_set, map_find, h1]
      · simp [map_set, map_find, h1, h2, ih]

theorem map_find_set_isSome {α : Type} (m : List (String × α)) (k k2 : String) (v : α)
    (h : (map_find m k2).isSome) : (map_find (map_set m k v) k2).isSome := by
  by_cases hk : k = k2
  · subst hk
    rw [map_find_set_same]
    rfl
  · rw [map_find_set_other m k k2 v hk]
    exact h

@[simp] theorem Chk.ok_bind {α β : Type} (a : α) (f : α → Chk β) : (Chk.ok a).bind f = f a := rfl

@[simp] theorem Chk.fail_bind {α β : Type} (m : String) (f : α → Chk β) :
    (Chk.fail m : Chk α).bind f = .fail m := rfl

@[simp] theorem Chk.help_bind {α β : Type} (f : α → Chk β) :
    (Chk.help : Chk α).bind f = .help := rfl

@[simp] theorem Chk.undefined_bind {α β : Type} (f : α → Chk β) :
    (Chk.undefined : Chk α).bind f = .undefined := rfl

@[simp] theorem Chk.nofuel_bind {α β : Type} (f : α → Chk β) :
    (Chk.nofuel : Chk α).bind f = .nofuel := rfl

theorem Chk.bind_eq_ok {α β : Type} {x : Chk α} {f : α → Chk β} {b : β}
    (h : x.bind f = .ok b) : ∃ a, x = .ok a ∧ f a = .ok b := by
  cases x with
  | ok a => exact ⟨a, rfl, h⟩
  | fail m => cases h
  | help => cases h
  | undefined => cases h
  | nofuel => cases h

theorem forall2_mem_right {α β : Type} {R : α → β → Prop} {l : List α} {l1 : List β}
    (h : List.Forall₂ R l l1) : ∀ x ∈ l1, ∃ y ∈ l, R y x := by
  induction h with
  | nil => intro x hx; cases hx
  | cons hr _ ih =>
    intro x hx
    rcases List.mem_cons.mp hx with h1 | h1
    · subst h1; exact ⟨_, List.mem_cons_self _ _, hr⟩
    · obtain ⟨y, hy, hxy⟩ := ih x h1
      exact ⟨y, List.mem_cons_of_mem _ hy, hxy⟩

theorem forall2_mem_left {α β : Type} {R : α → β → Prop} {l : List α} {l1 : List β}
    (h : List.Forall₂ R l l1) : ∀ y ∈ l, ∃ x ∈ l1, R y x := by
  induction h with
  | nil => intro x hx; cases hx
  | cons hr _ ih =>
    intro y hy
    rcases List.mem_cons.mp hy with h1 | h1
    · subst h1; exact ⟨_, List.mem_cons_self _ _, hr⟩
    · obtain ⟨x, hx, hxy⟩ := ih y h1
      exact ⟨x, List.mem_cons_of_mem _ hx, hxy⟩

/-! ## Failing calls -/

theorem check_error_failed {libc : Libc} {α : Type} (s : ArgumentParser) (m : String) (rest : Res α) :
    (s.check_error libc false m rest).failed ∧
      ∀ e s1, s.check_error libc false m rest = .thrown e s1 → s1 = s.print_help libc := by
  unfold ArgumentParser.check_error ArgumentParser.raise
  cases s.error_mode_ <;> simp [Res.failed]

theorem raise_failed {libc : Libc} {α : Type} (s : ArgumentParser) (m : String) :
    (s.raise libc m : Res α).failed := by
  unfold ArgumentParser.raise
  cases s.error_mode_ <;> simp [Res.failed]

theorem raise_failed_with {libc : Libc} {α : Type} (s : ArgumentParser) (m : String) :
    (s.raise libc m : Res α).failed_with m := by
  unfold ArgumentParser.raise
  cases s.error_mode_ <;> simp [Res.failed_with]

theorem check_error_failed_of {libc : Libc} {α : Type} (s : ArgumentParser) (c : Bool) (m : String)
    (rest : Res α) (h : rest.failed) : (s.check_error libc c m rest).failed := by
  unfold ArgumentParser.check_error
  split
  · exact h
  · exact raise_failed s m

theorem raise_state {libc : Libc} {α : Type} {s s1 : ArgumentParser} {m : String}
    (h : (s.raise libc m : Res α).state = some s1) : s1 = s.print_help libc := by
  unfold ArgumentParser.raise at h
  cases hm : s.error_mode_ <;> rw [hm] at h <;> simp [Res.state] at h
  exact h.symm

theorem check_error_state {libc : Libc} {α : Type} {s s1 : ArgumentParser} {c : Bool} {m : String}
    {rest : Res α} (h : (s.check_error libc c m rest).state = some s1) :
    rest.state = some s1 ∨ s1 = s.print_help libc := by
  unfold ArgumentParser.check_error at h
  split at h
  · exact Or.inl h
  · exact Or.inr (raise_state h)

theorem check_error_cases {libc : Libc} {α : Type} {s s1 : ArgumentParser} {c : Bool} {m : String}
    {rest : Res α} (h : (s.check_error libc c m rest).state = some s1) :
    (c = true ∧ rest.state = some s1) ∨ s1 = s.print_help libc := by
  unfold ArgumentParser.check_error at h
  split at h
  · rename_i hc; exact Or.inl ⟨hc, h⟩
  · exact Or.inr (raise_state h)

theorem ok_state {α : Type} {a : α} {s s1 : ArgumentParser}
    (h : (Res.ok a s).state = some s1) : s1 = s := by
  simp [Res.state] at h
  exact h.symm

theorem and_then_state {α β : Type} {r : Res α} {g : ArgumentParser → Res β}
    {s1 : ArgumentParser} (h : (r.and_then g).state = some s1) :
    (∃ a s2, r = .ok a s2 ∧ (g s2).state = some s1) ∨ (∃ e, r = .thrown e s1) := by
  cases r with
  | ok a s2 => exact Or.inl ⟨a, s2, rfl, h⟩
  | thrown e s2 =>
    right
    simp only [Res.and_then, Res.state, Option.some.injEq] at h
    exact ⟨e, by rw [h]⟩
  | exited c m => simp [Res.and_then, Res.state] at h
  | undefined => simp [Res.and_then, Res.state] at h
  | nofuel => simp [Res.and_then, Res.state] at h

theorem void_state {α : Type} (r : Res α) : r.void.state = r.state := by
  cases r <;> rfl

/-! ## The two sorts -/

theorem insert_sorted_perm {α : Type} (less : α → α → Bool) (a : α) (l : List α) :
    (insert_sorted less a l).Perm (a :: l) := by
  induction l with
  | nil => exact List.Perm.refl _
  | cons b l ih =>
    unfold insert_sorted
    split
    · exact ((List.Perm.cons b ih).trans (List.Perm.swap a b l))
    · exact List.Perm.refl _

theorem stable_sort_perm {α : Type} (less : α → α → Bool) (l : List α) :
    (stable_sort less l).Perm l := by
  induction l with
  | nil => exact List.Perm.refl _
  | cons a l ih =>
    unfold stable_sort
    exact (insert_sorted_perm less a _).trans (List.Perm.cons a ih)

theorem insert_sorted_required (a : ParamEntry) (l : List ParamEntry) :
    insert_sorted required_first a
        (l.filter (fun e => e.required) ++ l.filter (fun e => !e.required)) =
      if a.required then
        a :: (l.filter (fun e => e.required) ++ l.filter (fun e => !e.required))
      else l.filter (fun e => e.required) ++ a :: l.filter (fun e => !e.required) := by
  by_cases ha : a.required = true
  · rw [if_pos ha]
    cases hl : l.filter (fun e => e.required) ++ l.filter (fun e => !e.required) with
    | nil => rfl
    | cons b r => simp [insert_sorted, required_first, ha]
  · rw [if_neg ha]
    have hA : ∀ A : List ParamEntry, (∀ b ∈ A, b.required = true) →
        ∀ B : List ParamEntry, (∀ b ∈ B, b.required = false) →
        insert_sorted required_first a (A ++ B) = A ++ a :: B := by
      intro A
      induction A with
      | nil =>
        intro _ B hB
        cases B with
        | nil => rfl
        | cons b r =>
          simp [insert_sorted, required_first, hB b (List.mem_cons_self _ _)]
      | cons b A ih =>
        intro hA B hB
        simp only [List.cons_append, insert_sorted, required_first,
          hA b (List.mem_cons_self _ _), ha, Bool.not_false, Bool.and_self, if_true]
        exact congrArg _ (ih (fun x hx => hA x (List.mem_cons_of_mem _ hx)) B hB)
    exact hA _ (fun b hb => by simpa using (List.mem_filter.mp hb).2) _
      (fun b hb => by simpa using (List.mem_filter.mp hb).2)

/-- The stable sort of the registry puts the entries with `required` first and
keeps the order inside either group. -/
theorem stable_sort_required (l : List ParamEntry) :
    stable_sort required_first l =
      l.filter (fun e => e.required) ++ l.filter (fun e => !e.required) := by
  induction l with
  | nil => rfl
  | cons a l ih =>
    unfold stable_sort
    rw [ih, insert_sorted_required]
    by_cases ha : a.required = true
    · simp [ha]
    · simp [ha]

theorem benign_refl (s : ArgumentParser) : benign s s :=
  ⟨List.Perm.refl _, fun _ h => h, fun _ h => h, fun _ h => h, rfl, rfl, rfl, rfl, rfl, rfl⟩

theorem benign_trans {s s1 s2 : ArgumentParser} (h1 : benign s s1) (h2 : benign s1 s2) :
    benign s s2 :=
  ⟨h2.perm.trans h1.perm, fun k h => h2.long_kept k (h1.long_kept k h),
    fun k h => h2.short_kept k (h1.short_kept k h),
    fun k h => h2.positional_kept k (h1.positional_kept k h),
    h2.long_key.trans h1.long_key, h2.short_key.trans h1.short_key,
    h2.positional_key.trans h1.positional_key, h2.filled.trans h1.filled,
    h2.value.trans h1.value, h2.required.trans h1.required⟩

theorem benign_print_help {libc : Libc} (s : ArgumentParser) : benign s (s.print_help libc) :=
  ⟨libc.sort_perm _, fun _ h => h, fun _ h => h, fun _ h => h, rfl, rfl, rfl, rfl, rfl, rfl⟩

/-- The builder calls that write neither an identifier nor a mark nor the
registry. -/
theorem default_value_benign {libc : Libc} {s s1 : ArgumentParser} {v : Literal}
    (h : (s.default_value libc v).state = some s1) : benign s s1 := by
  unfold ArgumentParser.default_value at h
  rcases check_error_state h with h | h
  · rw [ok_state h]; exact ⟨List.Perm.refl _, fun _ h => h, fun _ h => h, fun _ h => h,
      rfl, rfl, rfl, rfl, rfl, rfl⟩
  · rw [h]; exact benign_print_help s

theorem choices_benign {libc : Libc} {s s1 : ArgumentParser} {v : ChoiceList}
    (h : (s.choices libc v).state = some s1) : benign s s1 := by
  unfold ArgumentParser.choices at h
  rcases check_error_state h with h | h
  · rw [ok_state h]; exact ⟨List.Perm.refl _, fun _ h => h, fun _ h => h, fun _ h => h,
      rfl, rfl, rfl, rfl, rfl, rfl⟩
  · rw [h]; exact benign_print_help s

theorem dest_benign {libc : Libc} {s s1 : ArgumentParser} {d : String}
    (h : (s.dest libc d).state = some s1) : benign s s1 := by
  unfold ArgumentParser.dest at h
  rcases check_error_state h with h | h
  · rw [ok_state h]; exact ⟨List.Perm.refl _, fun _ h => h, fun _ h => h, fun _ h => h,
      rfl, rfl, rfl, rfl, rfl, rfl⟩
  · rw [h]; exact benign_print_help s

theorem nargs_int_benign {libc : Libc} {s s1 : ArgumentParser} {n : Int}
    (h : (s.nargs_int libc n).state = some s1) : benign s s1 := by
  unfold ArgumentParser.nargs_int at h
  rcases check_error_state h with h | h
  · rw [ok_state h]; exact ⟨List.Perm.refl _, fun _ h => h, fun _ h => h, fun _ h => h,
      rfl, rfl, rfl, rfl, rfl, rfl⟩
  · rw [h]; exact benign_print_help s

theorem const_value_benign {libc : Libc} {s s1 : ArgumentParser} {v : Literal}
    (h : (s.const_value libc v).state = some s1) : benign s s1 := by
  unfold ArgumentParser.const_value at h
  rcases check_error_state h with h | h
  · dsimp only at h
    split at h
    · rw [ok_state h]; exact ⟨List.Perm.refl _, fun _ h => h, fun _ h => h, fun _ h => h,
        rfl, rfl, rfl, rfl, rfl, rfl⟩
    · split at h
      · rw [ok_state h]; exact ⟨List.Perm.refl _, fun _ h => h, fun _ h => h, fun _ h => h,
          rfl, rfl, rfl, rfl, rfl, rfl⟩
      · rcases check_error_state h with h | h
        · rw [ok_state h]; exact ⟨List.Perm.refl _, fun _ h => h, fun _ h => h, fun _ h => h,
            rfl, rfl, rfl, rfl, rfl, rfl⟩
        · rw [h]; exact ⟨libc.sort_perm _, fun _ h => h, fun _ h => h, fun _ h => h,
            rfl, rfl, rfl, rfl, rfl, rfl⟩
  · rw [h]; exact benign_print_help s

theorem nargs_benign {libc : Libc} {s s1 : ArgumentParser} {t : String}
    (h : (s.nargs libc t).state = some s1) : benign s s1 := by
  unfold ArgumentParser.nargs at h
  rcases check_error_state h with h | h
  · split_ifs at h
    · rw [ok_state h]; exact ⟨List.Perm.refl _, fun _ h => h, fun _ h => h, fun _ h => h,
        rfl, rfl, rfl, rfl, rfl, rfl⟩
    · rw [ok_state h]; exact ⟨List.Perm.refl _, fun _ h => h, fun _ h => h, fun _ h => h,
        rfl, rfl, rfl, rfl, rfl, rfl⟩
    · rw [ok_state h]; exact ⟨List.Perm.refl _, fun _ h => h, fun _ h => h, fun _ h => h,
        rfl, rfl, rfl, rfl, rfl, rfl⟩
    · rcases check_error_state h with h | h
      · rw [ok_state h]; exact benign_refl s
      · rw [h]; exact benign_print_help s
  · rw [h]; exact benign_print_help s

theorem action_benign {libc : Libc} {s s1 : ArgumentParser} {a : String}
    (h : (s.action libc a).state = some s1) : benign s s1 := by
  unfold ArgumentParser.action at h
  rcases check_error_state h with h | h
  · rcases check_error_state h with h | h
    · split_ifs at h
      · rw [ok_state h]; exact ⟨List.Perm.refl _, fun _ h => h, fun _ h => h, fun _ h => h,
          rfl, rfl, rfl, rfl, rfl, rfl⟩
      · rw [ok_state h]; exact ⟨List.Perm.refl _, fun _ h => h, fun _ h => h, fun _ h => h,
          rfl, rfl, rfl, rfl, rfl, rfl⟩
      · rw [ok_state h]; exact ⟨List.Perm.refl _, fun _ h => h, fun _ h => h, fun _ h => h,
          rfl, rfl, rfl, rfl, rfl, rfl⟩
      · rcases check_error_state h with h | h
        · rw [ok_state h]; exact benign_refl s
        · rw [h]; exact benign_print_help s
    · rw [h]; exact benign_print_help s
  · rw [h]; exact benign_print_help s

theorem help_benign {s s1 : ArgumentParser} {t : String}
    (h : (s.help t).state = some s1) : benign s s1 := by
  rw [ok_state h]
  exact ⟨List.Perm.refl _, fun _ h => h, fun _ h => h, fun _ h => h, rfl, rfl, rfl, rfl, rfl, rfl⟩

theorem type_benign {s s1 : ArgumentParser} {t : ValueType}
    (h : (s.type t).state = some s1) : benign s s1 := by
  rw [ok_state h]
  exact ⟨List.Perm.refl _, fun _ h => h, fun _ h => h, fun _ h => h, rfl, rfl, rfl, rfl, rfl, rfl⟩

theorem set_error_mode_benign {s s1 : ArgumentParser} {m : ErrorMode}
    (h : (s.set_error_mode m).state = some s1) : benign s s1 := by
  rw [ok_state h]
  exact ⟨List.Perm.refl _, fun _ h => h, fun _ h => h, fun _ h => h, rfl, rfl, rfl, rfl, rfl, rfl⟩

theorem index_entry_effect (s : ArgumentParser) (entry : ParamEntry) (n : Nat) :
    (index_entry s entry n).param_entries_ = s.param_entries_ ∧
    (index_entry s entry n).now_entry_ = s.now_entry_ ∧
    (index_entry s entry n).error_mode_ = s.error_mode_ ∧
    (∀ k, (map_find s.optional_long_key_ k).isSome →
      (map_find (index_entry s entry n).optional_long_key_ k).isSome) ∧
    (∀ k, (map_find s.optional_short_key_ k).isSome →
      (map_find (index_entry s entry n).optional_short_key_ k).isSome) ∧
    (∀ k, (map_find s.positional_key_ k).isSome →
      (map_find (index_entry s entry n).positional_key_ k).isSome) := by
  unfold index_entry
  dsimp only
  refine ⟨rfl, rfl, rfl, ?_, ?_, ?_⟩
  · intro k hk
    split_ifs <;> first | exact hk | exact map_find_set_isSome _ _ _ _ hk
  · intro k hk
    split_ifs <;> first | exact hk | exact map_find_set_isSome _ _ _ _ hk
  · intro k hk
    split_ifs <;> first | exact hk | exact map_find_set_isSome _ _ _ _ hk

/-- The pre-pass loop writes the tables only, and keeps every key in them. -/
theorem index_entries_effect (l : List ParamEntry) :
    ∀ (n : Nat) (s : ArgumentParser) (pi : List Nat),
      (index_entries l n s pi).1.param_entries_ = s.param_entries_ ∧
      (index_entries l n s pi).1.now_entry_ = s.now_entry_ ∧
      (index_entries l n s pi).1.error_mode_ = s.error_mode_ ∧
      (∀ k, (map_find s.optional_long_key_ k).isSome →
        (map_find (index_entries l n s pi).1.optional_long_key_ k).isSome) ∧
      (∀ k, (map_find s.optional_short_key_ k).isSome →
        (map_find (index_entries l n s pi).1.optional_short_key_ k).isSome) ∧
      (∀ k, (map_find s.positional_key_ k).isSome →
        (map_find (index_entries l n s pi).1.positional_key_ k).isSome) := by
  induction l with
  | nil => intro n s pi; exact ⟨rfl, rfl, rfl, fun _ h => h, fun _ h => h, fun _ h => h⟩
  | cons entry rest ih =>
    intro n s pi
    unfold index_entries
    obtain ⟨h1, h2, h3, h4, h5, h6⟩ := ih (n + 1) (index_entry s entry n)
      (if entry.positional_key ≠ "" then pi ++ [n] else pi)
    obtain ⟨g1, g2, g3, g4, g5, g6⟩ := index_entry_effect s entry n
    exact ⟨h1.trans g1, h2.trans g2, h3.trans g3, fun k hk => h4 k (g4 k hk),
      fun k hk => h5 k (g5 k hk), fun k hk => h6 k (g6 k hk)⟩

theorem prepass_benign (s : ArgumentParser) : benign s s.prepass.1 := by
  unfold ArgumentParser.prepass
  dsimp only
  obtain ⟨h1, h2, _, h4, h5, h6⟩ := index_entries_effect
    (stable_sort required_first s.param_entries_) 0
    { s with param_entries_ := stable_sort required_first s.param_entries_ } []
  refine ⟨?_, h4, h5, h6, ?_, ?_, ?_, ?_, ?_, ?_⟩
  · rw [h1]; exact stable_sort_perm _ _
  all_goals rw [h2]

theorem finish_benign {libc : Libc} {α β : Type} {s1 s2 : ArgumentParser} {r : Chk α} {f : α → β}
    (h : (s1.finish libc r f).state = some s2) : benign s1 s2 := by
  unfold ArgumentParser.finish at h
  cases r with
  | ok a => rw [ok_state h]; exact benign_refl _
  | fail m => rw [raise_state h]; exact benign_print_help _
  | help => simp [Res.state] at h
  | undefined => simp [Res.state] at h
  | nofuel => simp [Res.state] at h

theorem parse_args_any_type_benign {libc : Libc} {s s1 : ArgumentParser} {argv : List String}
    (h : (s.parse_args_any_type libc argv).state = some s1) : benign s s1 := by
  unfold ArgumentParser.parse_args_any_type at h
  exact benign_trans (prepass_benign s) (finish_benign h)

theorem parse_args_string_benign {libc : Libc} {s s1 : ArgumentParser} {argv : List String}
    (h : (s.parse_args_string libc argv).state = some s1) : benign s s1 := by
  unfold ArgumentParser.parse_args_string at h
  exact benign_trans (prepass_benign s) (finish_benign h)

theorem long_name_effect {libc : Libc} {s s1 : ArgumentParser} {n : String}
    (h : (s.long_name libc n).state = some s1) :
    benign s s1 ∨
      (map_find s.optional_long_key_ (substr n 2) = none ∧ s.now_entry_.positional_key = "" ∧
        s1 = { s with now_entry_ :=
                { s.now_entry_ with long_key := substr n 2, required := false } }) := by
  unfold ArgumentParser.long_name at h
  rcases check_error_cases h with ⟨_, h1⟩ | h1
  · rcases check_error_cases h1 with ⟨c2, h2⟩ | h2
    · dsimp only at h2
      rcases check_error_cases h2 with ⟨c3, h3⟩ | h3
      · exact Or.inr ⟨by simpa using c3, by simpa using c2, ok_state h3⟩
      · left; rw [h3]; exact benign_print_help s
    · left; rw [h2]; exact benign_print_help s
  · left; rw [h1]; exact benign_print_help s

theorem short_name_effect {libc : Libc} {s s1 : ArgumentParser} {n : String}
    (h : (s.short_name libc n).state = some s1) :
    benign s s1 ∨
      (map_find s.optional_short_key_ (substr n 1) = none ∧ s.now_entry_.positional_key = "" ∧
        s1 = { s with now_entry_ :=
                { s.now_entry_ with short_key := substr n 1, required := false } }) := by
  unfold ArgumentParser.short_name at h
  rcases check_error_cases h with ⟨_, h1⟩ | h1
  · rcases check_error_cases h1 with ⟨c2, h2⟩ | h2
    · dsimp only at h2
      rcases check_error_cases h2 with ⟨c3, h3⟩ | h3
      · exact Or.inr ⟨by simpa using c3, by simpa using c2, ok_state h3⟩
      · left; rw [h3]; exact benign_print_help s
    · left; rw [h2]; exact benign_print_help s
  · left; rw [h1]; exact benign_print_help s

theorem positional_name_effect {libc : Libc} {s s1 : ArgumentParser} {n : String}
    (h : (s.positional_name libc n).state = some s1) :
    benign s s1 ∨
      (map_find s.positional_key_ n = none ∧
        s1 = { s with now_entry_ :=
                { s.now_entry_ with positional_key := n, required := true } }) := by
  unfold ArgumentParser.positional_name at h
  rcases check_error_cases h with ⟨_, h1⟩ | h1
  · rcases check_error_cases h1 with ⟨_, h2⟩ | h2
    · rcases check_error_cases h2 with ⟨c3, h3⟩ | h3
      · rcases check_error_cases h3 with ⟨_, h4⟩ | h4
        · exact Or.inr ⟨by simpa using c3, ok_state h4⟩
        · left; rw [h4]; exact benign_print_help s
      · left; rw [h3]; exact benign_print_help s
    · left; rw [h2]; exact benign_print_help s
  · left; rw [h1]; exact benign_print_help s

theorem done_effect {libc : Libc} {s s1 : ArgumentParser} (h : (s.done libc).state = some s1) :
    benign s s1 ∨ committed s s1 := by
  unfold ArgumentParser.done at h
  dsimp only at h
  rcases check_error_cases h with ⟨c1, h1⟩ | h1
  · rcases check_error_cases h1 with ⟨c2, h2⟩ | h2
    · right
      have := ok_state h2
      subst this
      exact ⟨rfl, rfl, rfl, rfl, rfl, rfl, by simpa using c1, by simpa using c2⟩
    · left
      rw [h2]
      refine ⟨libc.sort_perm _, ?_, ?_, ?_, rfl, rfl, rfl, rfl, rfl, rfl⟩
      · intro k hk
        simp only [ArgumentParser.print_help, ArgumentParser.register_now]
        split_ifs <;> first | exact hk | exact map_find_set_isSome _ _ _ _ hk
      · intro k hk
        simp only [ArgumentParser.print_help, ArgumentParser.register_now]
        split_ifs <;> first | exact hk | exact map_find_set_isSome _ _ _ _ hk
      · intro k hk
        simp only [ArgumentParser.print_help, ArgumentParser.register_now]
        split_ifs <;> first | exact hk | exact map_find_set_isSome _ _ _ _ hk
  · left
    rw [h1]
    exact ⟨libc.sort_perm _, fun _ h => h, fun _ h => h, fun _ h => h,
      rfl, rfl, rfl, rfl, rfl, rfl⟩

theorem Call.effect (libc : Libc) (c : Call) {s s1 : ArgumentParser}
    (h : (c.run libc s).state = some s1) : Effect s s1 := by
  have long_case : ∀ {s s1 : ArgumentParser} {n : String},
      (s.long_name libc n).state = some s1 → Effect s s1 := by
    intro s s1 n h
    rcases long_name_effect h with hb | ⟨hk, hp, heq⟩
    · exact .benign hb
    · rw [heq]; exact .long_name hk hp
  have done_case : ∀ {s s1 : ArgumentParser}, (s.done libc).state = some s1 → Effect s s1 := by
    intro s s1 h
    rcases done_effect h with hb | hc
    · exact .benign hb
    · exact .committed hc
  cases c with
  | set_error_mode m => exact .benign (set_error_mode_benign h)
  | long_name n => exact long_case h
  | short_name n =>
    rcases short_name_effect h with hb | ⟨hk, hp, heq⟩
    · exact .benign hb
    · rw [heq]; exact .short_name hk hp
  | positional_name n =>
    rcases positional_name_effect h with hb | ⟨hk, heq⟩
    · exact .benign hb
    · rw [heq]; exact .positional_name hk
  | default_value v => exact .benign (default_value_benign h)
  | const_value v => exact .benign (const_value_benign h)
  | help t => exact .benign (help_benign h)
  | nargs t => exact .benign (nargs_benign h)
  | nargs_int n => exact .benign (nargs_int_benign h)
  | action a => exact .benign (action_benign h)
  | dest d => exact .benign (dest_benign h)
  | choices a => exact .benign (choices_benign h)
  | type t => exact .benign (type_benign h)
  | done => exact done_case h
  | add_argument l d t =>
    simp only [Call.run, ArgumentParser.add_argument] at h
    rcases and_then_state h with ⟨_, s2, h1, h2⟩ | ⟨e, h1⟩
    · have e2 : Effect s s2 := long_case (by rw [h1]; rfl)
      rcases and_then_state h2 with ⟨_, s3, h3, h4⟩ | ⟨e, h3⟩
      · have e3 : Effect s2 s3 := .benign (default_value_benign (by rw [h3]; rfl))
        rcases and_then_state h4 with ⟨_, s4, h5, h6⟩ | ⟨e, h5⟩
        · have e4 : Effect s3 s4 := .benign (help_benign (by rw [h5]; rfl))
          exact (e2.trans e3).trans (e4.trans (done_case h6))
        · exact (e2.trans e3).trans (.benign (help_benign (by rw [h5]; rfl)))
      · exact e2.trans (.benign (default_value_benign (by rw [h3]; rfl)))
    · exact long_case (by rw [h1]; rfl)
  | parse_args_any_type argv =>
    simp only [Call.run, void_state] at h
    exact .benign (parse_args_any_type_benign h)
  | parse_args_string argv =>
    simp only [Call.run, void_state] at h
    exact .benign (parse_args_string_benign h)

/-- No call removes an entry from the registry. -/
theorem Effect.entries_stay {s s1 : ArgumentParser} (he : Effect s s1) :
    ∀ e ∈ s.param_entries_, e ∈ s1.param_entries_ := by
  induction he with
  | benign hb => exact fun e h => hb.perm.mem_iff.mpr h
  | long_name _ _ => exact fun _ h => h
  | short_name _ _ => exact fun _ h => h
  | positional_name _ => exact fun _ h => h
  | committed hc =>
    intro e h
    rw [hc.registry]
    exact List.mem_append_left _ h
  | trans _ _ ih1 ih2 => exact fun e h => ih2 e (ih1 e h)

/-! ## The invariant of the reachable states -/

theorem distinct_keys_perm {sel : ParamEntry → String} {l l1 : List ParamEntry}
    (hp : l1.Perm l) (h : distinct_keys sel l) : distinct_keys sel l1 := by
  unfold distinct_keys at h ⊢
  refine (List.Perm.pairwise_iff ?_ hp).mpr h
  intro a b hab hb heq
  by_cases ha : sel a = ""
  · exact hb (heq.trans ha)
  · exact hab ha heq.symm

theorem distinct_keys_append {sel : ParamEntry → String} {l : List ParamEntry}
    {x now : ParamEntry} (hd : distinct_keys sel l) (hf : fresh_key sel now l)
    (hx : sel x = sel now) : distinct_keys sel (l ++ [x]) := by
  unfold distinct_keys at hd ⊢
  rw [List.pairwise_append]
  refine ⟨hd, List.pairwise_singleton _ _, ?_⟩
  intro a ha b hb hne heq
  rw [List.mem_singleton] at hb
  subst hb
  rw [hx] at heq
  exact hf (by rw [← heq]; exact hne) a ha heq

theorem distinct_keys_getElem {sel : ParamEntry → String} {l : List ParamEntry}
    (h : distinct_keys sel l) {i j : Nat} {a b : ParamEntry} (hij : i ≠ j)
    (ha : l[i]? = some a) (hb : l[j]? = some b) : sel a ≠ "" → sel a ≠ sel b := by
  unfold distinct_keys at h
  rw [List.pairwise_iff_getElem] at h
  obtain ⟨hi, rfl⟩ := List.getElem?_eq_some.mp ha
  obtain ⟨hj, rfl⟩ := List.getElem?_eq_some.mp hb
  rcases Nat.lt_or_gt_of_ne hij with hlt | hgt
  · exact h i j hi hj hlt
  · intro hne heq
    exact h j i hj hi hgt (by rw [← heq]; exact hne) heq.symm

theorem fresh_of_unregistered {tab : List (String × Nat)} {sel : ParamEntry → String}
    {l : List ParamEntry} {k : String} (hr : registered tab sel l)
    (hk : map_find tab k = none) : ∀ e ∈ l, k ≠ "" → sel e ≠ k := by
  intro e he hne heq
  have := hr e he (by rw [heq]; exact hne)
  rw [heq, hk] at this
  cases this

theorem registered_append {tab tab1 : List (String × Nat)} {sel : ParamEntry → String}
    {l : List ParamEntry} {x : ParamEntry} (hr : registered tab sel l)
    (htab : tab1 = if sel x ≠ "" then map_set tab (sel x) 1 else tab) :
    registered tab1 sel (l ++ [x]) := by
  intro e he hne
  rw [htab]
  rcases List.mem_append.mp he with h | h
  · split_ifs
    · exact map_find_set_isSome _ _ _ _ (hr e h hne)
    · exact hr e h hne
  · rw [List.mem_singleton] at h
    subst h
    rw [if_pos hne, map_find_set_same]
    rfl

theorem Inv.of_benign {s s1 : ArgumentParser} (hi : Inv s) (hb : benign s s1) : Inv s1 where
  long_registered := fun e he hne =>
    hb.long_kept _ (hi.long_registered e (hb.perm.mem_iff.mp he) hne)
  short_registered := fun e he hne =>
    hb.short_kept _ (hi.short_registered e (hb.perm.mem_iff.mp he) hne)
  positional_registered := fun e he hne =>
    hb.positional_kept _ (hi.positional_registered e (hb.perm.mem_iff.mp he) hne)
  long_distinct := distinct_keys_perm hb.perm hi.long_distinct
  short_distinct := distinct_keys_perm hb.perm hi.short_distinct
  positional_distinct := distinct_keys_perm hb.perm hi.positional_distinct
  long_fresh := by
    intro hne e he
    rw [hb.long_key] at hne ⊢
    exact hi.long_fresh hne e (hb.perm.mem_iff.mp he)
  short_fresh := by
    intro hne e he
    rw [hb.short_key] at hne ⊢
    exact hi.short_fresh hne e (hb.perm.mem_iff.mp he)
  positional_fresh := by
    intro hne e he
    rw [hb.positional_key] at hne ⊢
    exact hi.positional_fresh hne e (hb.perm.mem_iff.mp he)
  unfilled := fun e he => hi.unfilled e (hb.perm.mem_iff.mp he)
  now_unfilled := by
    rw [hb.filled, hb.value]
    exact hi.now_unfilled
  positional_required := fun e he => hi.positional_required e (hb.perm.mem_iff.mp he)
  now_positional_required := by
    rw [hb.positional_key, hb.required]
    exact hi.now_positional_required

theorem Inv.of_long_name {s : ArgumentParser} {k : String} (hi : Inv s)
    (hk : map_find s.optional_long_key_ k = none) (hp : s.now_entry_.positional_key = "") :
    Inv { s with now_entry_ := { s.now_entry_ with long_key := k, required := false } } where
  long_registered := hi.long_registered
  short_registered := hi.short_registered
  positional_registered := hi.positional_registered
  long_distinct := hi.long_distinct
  short_distinct := hi.short_distinct
  positional_distinct := hi.positional_distinct
  long_fresh := fun hne e he => fresh_of_unregistered hi.long_registered hk e he hne
  short_fresh := hi.short_fresh
  positional_fresh := hi.positional_fresh
  unfilled := hi.unfilled
  now_unfilled := hi.now_unfilled
  positional_required := hi.positional_required
  now_positional_required := fun h => absurd hp h

theorem Inv.of_short_name {s : ArgumentParser} {k : String} (hi : Inv s)
    (hk : map_find s.optional_short_key_ k = none) (hp : s.now_entry_.positional_key = "") :
    Inv { s with now_entry_ := { s.now_entry_ with short_key := k, required := false } } where
  long_registered := hi.long_registered
  short_registered := hi.short_registered
  positional_registered := hi.positional_registered
  long_distinct := hi.long_distinct
  short_distinct := hi.short_distinct
  positional_distinct := hi.positional_distinct
  long_fresh := hi.long_fresh
  short_fresh := fun hne e he => fresh_of_unregistered hi.short_registered hk e he hne
  positional_fresh := hi.positional_fresh
  unfilled := hi.unfilled
  now_unfilled := hi.now_unfilled
  positional_required := hi.positional_required
  now_positional_required := fun h => absurd hp h

theorem Inv.of_positional_name {s : ArgumentParser} {k : String} (hi : Inv s)
    (hk : map_find s.positional_key_ k = none) :
    Inv { s with now_entry_ := { s.now_entry_ with positional_key := k, required := true } } where
  long_registered := hi.long_registered
  short_registered := hi.short_registered
  positional_registered := hi.positional_registered
  long_distinct := hi.long_distinct
  short_distinct := hi.short_distinct
  positional_distinct := hi.positional_distinct
  long_fresh := hi.long_fresh
  short_fresh := hi.short_fresh
  positional_fresh := fun hne e he => fresh_of_unregistered hi.positional_registered hk e he hne
  unfilled := hi.unfilled
  now_unfilled := hi.now_unfilled
  positional_required := hi.positional_required
  now_positional_required := fun _ => rfl

theorem Inv.of_committed {s s1 : ArgumentParser} (hi : Inv s) (hc : committed s s1) :
    Inv s1 where
  long_registered := by
    rw [hc.registry]
    exact registered_append hi.long_registered hc.long
  short_registered := by
    rw [hc.registry]
    exact registered_append hi.short_registered hc.short
  positional_registered := by
    rw [hc.registry]
    exact registered_append hi.positional_registered hc.positional
  long_distinct := by
    rw [hc.registry]
    exact distinct_keys_append hi.long_distinct hi.long_fresh rfl
  short_distinct := by
    rw [hc.registry]
    exact distinct_keys_append hi.short_distinct hi.short_fresh rfl
  positional_distinct := by
    rw [hc.registry]
    exact distinct_keys_append hi.positional_distinct hi.positional_fresh rfl
  long_fresh := by
    rw [hc.now]
    exact fun h => absurd rfl h
  short_fresh := by
    rw [hc.now]
    exact fun h => absurd rfl h
  positional_fresh := by
    rw [hc.now]
    exact fun h => absurd rfl h
  unfilled := by
    rw [hc.registry]
    intro e he
    rcases List.mem_append.mp he with h | h
    · exact hi.unfilled e h
    · rw [List.mem_singleton] at h
      subst h
      exact hi.now_unfilled
  now_unfilled := by
    rw [hc.now]
    exact ⟨rfl, rfl⟩
  positional_required := by
    rw [hc.registry]
    intro e he
    rcases List.mem_append.mp he with h | h
    · exact hi.positional_required e h
    · rw [List.mem_singleton] at h
      subst h
      exact hi.now_positional_required
  now_positional_required := by
    rw [hc.now]
    exact fun h => absurd rfl h

theorem Inv.new : Inv ArgumentParser.new where
  long_registered := fun _ he => by cases he
  short_registered := fun _ he => by cases he
  positional_registered := fun _ he => by cases he
  long_distinct := List.Pairwise.nil
  short_distinct := List.Pairwise.nil
  positional_distinct := List.Pairwise.nil
  long_fresh := fun _ _ he => by cases he
  short_fresh := fun _ _ he => by cases he
  positional_fresh := fun _ _ he => by cases he
  unfilled := fun _ he => by cases he
  now_unfilled := ⟨rfl, rfl⟩
  positional_required := fun _ he => by cases he
  now_positional_required := fun h => absurd rfl h

theorem Inv.of_effect {s s1 : ArgumentParser} (he : Effect s s1) : Inv s → Inv s1 := by
  induction he with
  | benign hb => exact fun hi => hi.of_benign hb
  | long_name hk hp => exact fun hi => hi.of_long_name hk hp
  | short_name hk hp => exact fun hi => hi.of_short_name hk hp
  | positional_name hk => exact fun hi => hi.of_positional_name hk
  | committed hc => exact fun hi => hi.of_committed hc
  | trans _ _ ih1 ih2 => exact fun hi => ih2 (ih1 hi)

/-- Every reachable state satisfies the invariant. -/
theorem Reachable.inv {libc : Libc} {s : ArgumentParser} (h : Reachable libc s) : Inv s := by
  induction h with
  | new => exact Inv.new
  | call c _ hrun ih => exact Inv.of_effect (c.effect libc hrun) ih

theorem Later.reachable {libc : Libc} {s s1 : ArgumentParser} (hl : Later libc s s1)
    (h : Reachable libc s) : Reachable libc s1 := by
  induction hl with
  | refl => exact h
  | call c _ hrun ih => exact .call c (ih h) hrun

theorem Later.entries_persist {libc : Libc} {s s1 : ArgumentParser} (hl : Later libc s s1) :
    ∀ e ∈ s.param_entries_, e ∈ s1.param_entries_ := by
  induction hl with
  | refl => exact fun _ h => h
  | call c _ hrun ih => exact fun e h => (c.effect libc hrun).entries_stay e (ih e h)

theorem chain_reachable (libc : Libc) (calls : List Call) :
    ∀ {s s1 : ArgumentParser}, Reachable libc s → chain libc s calls = some s1 →
      Reachable libc s1 := by
  induction calls with
  | nil =>
    intro s s1 h hc
    simp only [chain, Option.some.injEq] at hc
    rw [← hc]
    exact h
  | cons c rest ih =>
    intro s s1 h hc
    unfold chain at hc
    split at hc
    · rename_i a s2 hrun
      exact ih (.call c h (by rw [hrun]; rfl)) hc
    · cases hc

theorem throwing_reachable (libc : Libc) : Reachable libc ArgumentParser.throwing :=
  .call (.set_error_mode .THROW_EXCEPTION) .new rfl

set_option maxRecDepth 100000 in
theorem name_count_state_reachable : Reachable Libc.zero name_count_state :=
  chain_reachable Libc.zero [.positional_name "name", .done, .long_name "--count",
    .default_value (.int 1), .type .DIGITS_INT, .done] .new (by decide)

set_option maxRecDepth 100000 in
theorem all_file_state_reachable : Reachable Libc.zero all_file_state :=
  chain_reachable Libc.zero [.long_name "--all", .short_name "-a", .done,
    .positional_name "file", .done] (throwing_reachable Libc.zero) (by decide)

/-! ## Multiplicity resolution on a run of value tokens -/

theorem drop_cons_facts {argv : List String} {n : Nat} {t : String} {r : List String}
    (h : argv.drop n = t :: r) :
    argv[n]? = some t ∧ n ≠ argv.length ∧ n < argv.length ∧ argv.drop (n + 1) = r := by
  have h1 : n < argv.length := by
    by_contra hc
    have : argv.drop n = [] := List.drop_eq_nil_iff.mpr (by omega)
    rw [this] at h
    cases h
  refine ⟨?_, by omega, h1, ?_⟩
  · have := List.head?_drop argv n
    rw [h] at this
    simpa using this.symm
  · have := List.tail_drop argv n
    rw [h] at this
    simpa using this.symm

theorem drop_after_run {argv run post : List String} {p : Nat}
    (h : argv.drop (p + 1) = run ++ post) : argv.drop (p + run.length + 1) = post := by
  have e : p + run.length + 1 = p + 1 + run.length := by omega
  rw [e, ← List.drop_drop, h, List.drop_left]

theorem value_run_split (argv : List String) (p : Nat) :
    ∃ post, argv.drop (p + 1) = value_run argv p ++ post ∧
      (post = [] ∨ ∃ t r, post = t :: r ∧ starts_with t "-" = true) := by
  refine ⟨(argv.drop (p + 1)).dropWhile fun t => !starts_with t "-", ?_, ?_⟩
  · unfold value_run
    exact (List.takeWhile_append_dropWhile _ _).symm
  · have h := List.head?_dropWhile_not (fun t => !starts_with t "-") (argv.drop (p + 1))
    cases hdw : (argv.drop (p + 1)).dropWhile fun t => !starts_with t "-" with
    | nil => left; rfl
    | cons t r =>
      right
      rw [hdw] at h
      simp at h
      exact ⟨t, r, rfl, h⟩

theorem value_run_eq_nil {argv : List String} {p : Nat}
    (h : p + 1 = argv.length ∨ ∃ t, argv[p + 1]? = some t ∧ starts_with t "-" = true) :
    value_run argv p = [] := by
  unfold value_run
  rcases h with h | ⟨t, ht, hd⟩
  · rw [List.drop_eq_nil_iff.mpr (by omega)]
    rfl
  · have hlt : p + 1 < argv.length := by
      by_contra hc
      rw [List.getElem?_eq_none (by omega)] at ht
      cases ht
    rw [List.drop_eq_getElem_cons hlt]
    have : argv[p + 1] = t := by
      rw [List.getElem?_eq_getElem hlt] at ht
      exact Option.some.inj ht
    rw [this, List.takeWhile_cons]
    simp [hd]

theorem value_run_of_drop {argv ts : List String} {p : Nat}
    (h : argv.drop (p + 1) = ts) (hd : ∀ t ∈ ts, starts_with t "-" = false) :
    value_run argv p = ts := by
  unfold value_run
  rw [h, List.takeWhile_eq_self_iff]
  intro t ht
  simp [hd t ht]

theorem nargs_loop_run (libc : Libc) (entry : ParamEntry) (argv : List String)
    (ts : List String) :
    ∀ (post : List String) (fuel : Nat) (count : Int) (p : Nat) (acc : List EntryItem),
      argv.drop (p + 1) = ts ++ post →
      (∀ t ∈ ts, starts_with t "-" = false) →
      (∀ t ∈ ts, parse_choices libc (parse libc t entry.value_type) entry = .ok true) →
      (count < 0 ∨ (ts.length : Int) ≤ count) →
      nargs_loop libc entry argv (fuel + ts.length) count p acc =
        nargs_loop libc entry argv fuel (count - ts.length) (p + ts.length)
          (acc ++ ts.map fun t => parse libc t entry.value_type) := by
  induction ts with
  | nil => intro post fuel count p acc _ _ _ _; simp
  | cons t ts ih =>
    intro post fuel count p acc hdrop hdash hch hcount
    obtain ⟨hget, hne, _, hrest⟩ := drop_cons_facts hdrop
    have hc0 : count ≠ 0 := by
      rcases hcount with h | h
      · omega
      · simp only [List.length_cons] at h; push_cast at h; omega
    have hfuel : fuel + (t :: ts).length = (fuel + ts.length) + 1 := by
      simp only [List.length_cons]; omega
    rw [hfuel, nargs_loop, if_neg hc0, if_neg hne, hget]
    simp only [hdash t (List.mem_cons_self _ _), hch t (List.mem_cons_self _ _), Chk.ok_bind]
    rw [ih post fuel (count - 1) (p + 1) (acc ++ [parse libc t entry.value_type]) hrest
      (fun x hx => hdash x (List.mem_cons_of_mem _ hx))
      (fun x hx => hch x (List.mem_cons_of_mem _ hx))
      (by
        rcases hcount with h | h
        · left; omega
        · right; simp only [List.length_cons] at h; push_cast at h; omega)]
    simp only [List.length_cons, List.map_cons, List.append_assoc, List.singleton_append]
    have e1 : count - 1 - (ts.length : Int) = count - ((ts.length + 1 : Nat) : Int) := by
      push_cast; omega
    have e2 : p + 1 + ts.length = p + (ts.length + 1) := by omega
    rw [e1, e2]
    simp

theorem nargs_loop_stop (libc : Libc) (entry : ParamEntry) (argv : List String)
    (fuel : Nat) (count : Int) (p : Nat) (acc : List EntryItem) (hp : p < argv.length)
    (hstop : count = 0 ∨ argv.drop (p + 1) = [] ∨
      ∃ t r, argv.drop (p + 1) = t :: r ∧ starts_with t "-" = true) :
    nargs_loop libc entry argv (fuel + 1) count p acc =
      if count ≤ 0 then .ok (p, acc)
      else .fail ("the following arguments are required: " ++ entry.key) := by
  unfold nargs_loop
  by_cases hc0 : count = 0
  · simp [hc0]
  · rw [if_neg hc0]
    rcases hstop with h | h | ⟨t, r, h, hd⟩
    · exact absurd h hc0
    · have hlen : p + 1 = argv.length := by
        have := List.drop_eq_nil_iff.mp h
        omega
      rw [if_pos hlen]
      by_cases hle : count ≤ 0 <;> simp [Chk.check_error, hle]
    · obtain ⟨hget, hne, _, _⟩ := drop_cons_facts h
      rw [if_neg hne, hget]
      simp only [hd, if_true]
      by_cases hle : count ≤ 0 <;> simp [Chk.check_error, hle]

theorem collect_parse (libc : Libc) (vt : ValueType) (ts : List String) (h : ts ≠ []) :
    (collect (ts.map fun t => parse libc t vt)).array_length = some ts.length := by
  cases ts with
  | nil => exact absurd rfl h
  | cons t ts =>
    by_cases h1 : vt = .DIGITS_INT
    · simp [collect, parse, h1, EntryItem.is_int, EntryItem.value_type, EntryItem.array_length]
    · by_cases h2 : vt = .DIGITS_DOUBLE
      · simp [collect, parse, h2, EntryItem.is_int, EntryItem.is_double, EntryItem.value_type,
          EntryItem.array_length]
      · by_cases h3 : vt = .BOOLEAN
        · by_cases ht : t = "true" <;>
          simp [collect, parse, h3, ht, EntryItem.is_int, EntryItem.is_double,
            EntryItem.is_string, EntryItem.is_bool, EntryItem.value_type,
            EntryItem.array_length]
        · simp [collect, parse, h1, h2, h3, EntryItem.is_int, EntryItem.is_double,
            EntryItem.is_string, EntryItem.value_type, EntryItem.array_length]

theorem collect_parse_int (libc : Libc) (ts : List String) (h : ts ≠ []) :
    collect (ts.map fun t => parse libc t .DIGITS_INT) = .int_array (ts.map atoi) := by
  cases ts with
  | nil => exact absurd rfl h
  | cons t ts =>
    simp [collect, parse, EntryItem.is_int, EntryItem.value_type, EntryItem.digit_int_value,
      Function.comp_def]

/-- The first-token test of `parse_nargs` for `+` and a fixed count. -/
theorem parse_nargs_no_token (libc : Libc) (entry : ParamEntry) (argv : List String) (p : Nat)
    (hn : entry.nargs = .NARGS_ADD ∨ entry.nargs = .NARGS_N) (hp : p < argv.length)
    (hrun : value_run argv p = []) :
    parse_nargs libc entry p argv =
      .fail ("the following arguments are required: " ++ entry.key) := by
  have hq : entry.nargs ≠ .NARGS_QUESTION := by rcases hn with h | h <;> simp [h]
  obtain ⟨post, hsplit, hpost⟩ := value_run_split argv p
  rw [hrun, List.nil_append] at hsplit
  unfold parse_nargs
  rw [if_neg hq]
  simp only [hn, if_true]
  rcases hpost with h | ⟨t, r, h, hd⟩
  · rw [h] at hsplit
    have hlen : ¬ (p + 1 < argv.length) := by
      have := List.drop_eq_nil_iff.mp hsplit
      omega
    simp [Chk.check_error, hlen]
  · rw [h] at hsplit
    obtain ⟨hget, _, hlt, _⟩ := drop_cons_facts hsplit
    simp [Chk.check_error, hlt, hget, hd]

/-- The loop of `parse_nargs` on a run of value tokens that the choice set accepts. -/
theorem parse_nargs_loop (libc : Libc) (entry : ParamEntry) (argv : List String) (p : Nat)
    (hq : entry.nargs ≠ .NARGS_QUESTION) (hp : p < argv.length)
    (hfirst : entry.nargs = .NARGS_STAR ∨ value_run argv p ≠ [])
    (count : Int) (hcount : count = if entry.nargs = .NARGS_N then entry.nargs_number else -1)
    (hc0 : count ≠ 0)
    (hch : ∀ t ∈ (if count < 0 then value_run argv p else (value_run argv p).take count.toNat),
      parse_choices libc (parse libc t entry.value_type) entry = .ok true) :
    parse_nargs libc entry p argv =
      if count < 0 then
        .ok ({ entry with value := collect ((value_run argv p).map fun t =>
                  parse libc t entry.value_type) }, p + (value_run argv p).length)
      else if count.toNat ≤ (value_run argv p).length then
        .ok ({ entry with value := collect (((value_run argv p).take count.toNat).map fun t =>
                  parse libc t entry.value_type) }, p + count.toNat)
      else .fail ("the following arguments are required: " ++ entry.key) := by
  obtain ⟨post, hsplit, hpost⟩ := value_run_split argv p
  have hdash : ∀ t ∈ value_run argv p, starts_with t "-" = false := by
    intro t ht
    have := List.mem_takeWhile_imp ht
    simpa using this
  have hguard : (if entry.nargs = .NARGS_ADD ∨ entry.nargs = .NARGS_N then
        (Chk.check_error (p + 1 < argv.length)
          ("the following arguments are required: " ++ entry.key)).bind fun _ =>
          match argv[p + 1]? with
          | none => Chk.undefined
          | some input =>
            Chk.check_error (!starts_with input "-")
              ("the following arguments are required: " ++ entry.key)
      else Chk.ok ()) = Chk.ok () := by
    by_cases hn : entry.nargs = .NARGS_ADD ∨ entry.nargs = .NARGS_N
    · rw [if_pos hn]
      have hne : value_run argv p ≠ [] := by
        rcases hfirst with h | h
        · rcases hn with h2 | h2 <;> simp [h] at h2
        · exact h
      obtain ⟨t, r, hr⟩ := List.exists_cons_of_ne_nil hne
      rw [hr] at hsplit
      obtain ⟨hget, _, hlt, _⟩ := drop_cons_facts hsplit
      have := hdash t (by rw [hr]; exact List.mem_cons_self _ _)
      simp [Chk.check_error, hlt, hget, this]
    · rw [if_neg hn]
  unfold parse_nargs
  rw [if_neg hq]
  simp only [hguard, Chk.ok_bind, ← hcount]
  by_cases hneg : count < 0
  · rw [if_pos hneg] at hch
    rw [if_pos hneg]
    have hfuel : argv.length + 1 = (argv.length - (value_run argv p).length) + 1 +
        (value_run argv p).length := by
      have : (value_run argv p).length ≤ (argv.drop (p + 1)).length := by
        rw [hsplit]; simp
      simp at this
      omega
    rw [hfuel, nargs_loop_run libc entry argv (value_run argv p) post _ count p [] hsplit hdash
      hch (Or.inl hneg)]
    rw [nargs_loop_stop libc entry argv _ _ _ _ (by
        have : (value_run argv p).length ≤ (argv.drop (p + 1)).length := by
          rw [hsplit]; simp
        simp at this
        omega) (by
        right
        rw [drop_after_run hsplit]
        exact hpost)]
    rw [if_pos (by omega)]
    simp
  · rw [if_neg hneg] at hch
    rw [if_neg hneg]
    have hcpos : 0 < count := by omega
    by_cases hle : count.toNat ≤ (value_run argv p).length
    · rw [if_pos hle]
      have hsplit2 : argv.drop (p + 1) =
          (value_run argv p).take count.toNat ++
            ((value_run argv p).drop count.toNat ++ post) := by
        rw [← List.append_assoc, List.take_append_drop]
        exact hsplit
      have hlen : ((value_run argv p).take count.toNat).length = count.toNat := by
        simp [hle]
      have hfuel : argv.length + 1 = (argv.length - count.toNat) + 1 +
          ((value_run argv p).take count.toNat).length := by
        have : (value_run argv p).length ≤ (argv.drop (p + 1)).length := by
          rw [hsplit]; simp
        simp at this
        rw [hlen]
        omega
      rw [hfuel, nargs_loop_run libc entry argv _ _ _ count p [] hsplit2
        (fun t ht => hdash t (List.mem_of_mem_take ht)) hch (Or.inr (by rw [hlen]; omega))]
      rw [hlen, nargs_loop_stop libc entry argv _ _ _ _ (by
          have : (value_run argv p).length ≤ (argv.drop (p + 1)).length := by
            rw [hsplit]; simp
          simp at this
          omega) (Or.inl (by omega))]
      rw [if_pos (by omega)]
      simp
    · rw [if_neg hle]
      have hfuel : argv.length + 1 = (argv.length - (value_run argv p).length) + 1 +
          (value_run argv p).length := by
        have : (value_run argv p).length ≤ (argv.drop (p + 1)).length := by
          rw [hsplit]; simp
        simp at this
        omega
      have hch2 : ∀ t ∈ value_run argv p,
          parse_choices libc (parse libc t entry.value_type) entry = .ok true := by
        intro t ht
        apply hch
        rw [List.take_of_length_le (by omega)]
        exact ht
      rw [hfuel, nargs_loop_run libc entry argv (value_run argv p) post _ count p [] hsplit hdash
        hch2 (Or.inr (by omega))]
      rw [nargs_loop_stop libc entry argv _ _ _ _ (by
          have : (value_run argv p).length ≤ (argv.drop (p + 1)).length := by
            rw [hsplit]; simp
          simp at this
          omega) (by
          right
          rw [drop_after_run hsplit]
          exact hpost)]
      rw [if_neg (by omega)]
      simp

/-- A `parse_nargs` call that returns changes only the value of the entry. -/
theorem parse_nargs_value_only {libc : Libc} {entry : ParamEntry} {p : Nat}
    {argv : List String} {r : ParamEntry × Nat} (h : parse_nargs libc entry p argv = .ok r) :
    ∃ v, r.1 = { entry with value := v } := by
  unfold parse_nargs at h
  split at h
  · split at h
    · cases h; exact ⟨_, rfl⟩
    · split at h
      · cases h
      · split at h
        · cases h; exact ⟨_, rfl⟩
        · obtain ⟨_, _, h2⟩ := Chk.bind_eq_ok h
          cases h2; exact ⟨_, rfl⟩
  · obtain ⟨_, _, h2⟩ := Chk.bind_eq_ok h
    obtain ⟨_, _, h3⟩ := Chk.bind_eq_ok h2
    cases h3; exact ⟨_, rfl⟩

/-! ## An iteration of the main loop -/

theorem at_flag_lt {short long : List (String × Nat)} {argv : List String} {st : ParseState}
    {j : Nat} {entry : ParamEntry} (h : at_flag short long argv st j entry) :
    st.p_input_index < argv.length := by
  obtain ⟨input, name, h1, _⟩ := h
  by_contra hc
  rw [List.getElem?_eq_none (by omega)] at h1
  cases h1

/-- The main loop at a flag token runs the flag branch on the resolved entry. -/
theorem parse_step_at_flag (libc : Libc) (short long : List (String × Nat))
    (positional_index : List Nat) (argv : List String) (st : ParseState) (j : Nat)
    (entry : ParamEntry) (h : at_flag short long argv st j entry) :
    ∃ name, parse_step libc short long positional_index argv st =
      if entry.action ≠ .NONE then
        .ok { st with
              param_entries := st.param_entries.set j
                { (if entry.action = .ACTION_STORE_FALSE then { entry with value := .bool false }
                  else if entry.action = .ACTION_STORE_TRUE then { entry with value := .bool true }
                  else if entry.action = .ACTION_STORE_CONST then
                    { entry with value := entry.const_value }
                  else entry) with filled := true }
              p_input_index := st.p_input_index + 1 }
      else if entry.nargs ≠ .NONE then
        (parse_nargs libc entry st.p_input_index argv).bind fun r =>
          .ok { st with
                param_entries := st.param_entries.set j { r.1 with filled := true }
                p_input_index := r.2 + 1 }
      else
        (Chk.check_error (st.p_input_index + 1 < argv.length)
          ("the following arguments are required: " ++ name)).bind fun _ =>
        match argv[st.p_input_index + 1]? with
        | none => .undefined
        | some value_text =>
          (parse_choices libc (parse libc value_text entry.value_type) entry).bind fun _ =>
            .ok { st with
                  param_entries := st.param_entries.set j
                    { entry with value := parse libc value_text entry.value_type, filled := true }
                  p_input_index := st.p_input_index + 1 + 1 } := by
  obtain ⟨input, name, h1, h2, h3, h4, h5, h6⟩ := h
  refine ⟨name, ?_⟩
  unfold parse_step
  rw [h1]
  simp only [h2, h3, h4, or_self, if_false, Bool.not_true, Bool.false_eq_true]
  unfold optional_token
  rw [h5]
  simp only [Chk.ok_bind, h6]

/-- An iteration of the main loop that does not fail writes one entry of the
working list, and in it only the value and the filled mark. -/
theorem parse_step_frame {libc : Libc} {short long : List (String × Nat)}
    {positional_index : List Nat} {argv : List String} {st st1 : ParseState}
    (h : parse_step libc short long positional_index argv st = .ok st1) :
    ∃ i entry v, st.param_entries[i]? = some entry ∧
      st1.param_entries = st.param_entries.set i { entry with value := v, filled := true } := by
  unfold parse_step at h
  split at h
  · cases h
  · split at h
    · cases h
    · split at h
      · unfold positional_token at h
        obtain ⟨pe, _, h1⟩ := Chk.bind_eq_ok h
        obtain ⟨_, _, h2⟩ := Chk.bind_eq_ok h1
        split at h2
        · cases h2
        · rename_i i hi
          split at h2
          · cases h2
          · rename_i entry he
            split at h2
            · cases h2
              refine ⟨i, entry, ?_, he, ?_⟩
              · exact (if entry.action = .ACTION_STORE_FALSE then .bool false
                  else if entry.action = .ACTION_STORE_TRUE then .bool true else entry.value)
              · simp only
                congr 1
                split_ifs <;> rfl
            · split at h2
              · obtain ⟨r, hr, h3⟩ := Chk.bind_eq_ok h2
                obtain ⟨v, hv⟩ := parse_nargs_value_only hr
                cases h3
                exact ⟨i, entry, v, he, by simp only [hv]⟩
              · obtain ⟨_, _, h3⟩ := Chk.bind_eq_ok h2
                cases h3
                exact ⟨i, entry, _, he, rfl⟩
      · unfold optional_token at h
        obtain ⟨found, _, h1⟩ := Chk.bind_eq_ok h
        split at h1
        · cases h1
        · rename_i entry he
          split at h1
          · cases h1
            refine ⟨found.2, entry, ?_, he, ?_⟩
            · exact (if entry.action = .ACTION_STORE_FALSE then .bool false
                else if entry.action = .ACTION_STORE_TRUE then .bool true
                else if entry.action = .ACTION_STORE_CONST then entry.const_value
                else entry.value)
            · simp only
              congr 1
              split_ifs <;> rfl
          · split at h1
            · obtain ⟨r, hr, h3⟩ := Chk.bind_eq_ok h1
              obtain ⟨v, hv⟩ := parse_nargs_value_only hr
              cases h3
              exact ⟨found.2, entry, v, he, by simp only [hv]⟩
            · obtain ⟨_, _, h3⟩ := Chk.bind_eq_ok h1
              split at h3
              · cases h3
              · obtain ⟨_, _, h4⟩ := Chk.bind_eq_ok h3
                cases h4
                exact ⟨found.2, entry, _, he, rfl⟩

theorem keeps_refl (l : List ParamEntry) : keeps l l :=
  fun _ e h => ⟨e, h, rfl, id⟩

theorem keeps_trans {l l1 l2 : List ParamEntry} (h1 : keeps l l1) (h2 : keeps l1 l2) :
    keeps l l2 := by
  intro j e he
  obtain ⟨e1, he1, hk1, hf1⟩ := h1 j e he
  obtain ⟨e2, he2, hk2, hf2⟩ := h2 j e1 he1
  exact ⟨e2, he2, hk2.trans hk1, fun h => hf2 (hf1 h)⟩

theorem keeps_set (l : List ParamEntry) (i : Nat) (entry : ParamEntry) (v : EntryItem)
    (h : l[i]? = some entry) : keeps l (l.set i { entry with value := v, filled := true }) := by
  intro j e he
  by_cases hij : i = j
  · subst hij
    have hlt : i < l.length := by
      by_contra hc
      rw [List.getElem?_eq_none (by omega)] at h
      cases h
    rw [h] at he
    cases he
    exact ⟨{ entry with value := v, filled := true }, by rw [List.getElem?_set_self hlt], rfl,
      fun _ => rfl⟩
  · exact ⟨e, by rw [List.getElem?_set_ne hij]; exact he, rfl, id⟩

theorem main_loop_keeps {libc : Libc} {short long : List (String × Nat)}
    {positional_index : List Nat} {argv : List String} :
    ∀ (fuel : Nat) (st st1 : ParseState),
      main_loop libc short long positional_index argv fuel st = .ok st1 →
      keeps st.param_entries st1.param_entries := by
  intro fuel
  induction fuel with
  | zero =>
    intro st st1 h
    unfold main_loop at h
    split at h
    · cases h
    · cases h; exact keeps_refl _
  | succ n ih =>
    intro st st1 h
    unfold main_loop at h
    split at h
    · obtain ⟨st2, hstep, hrest⟩ := Chk.bind_eq_ok h
      obtain ⟨i, entry, v, he, hset⟩ := parse_step_frame hstep
      have := ih st2 st1 hrest
      rw [hset] at this
      exact keeps_trans (keeps_set _ i entry v he) this
    · cases h; exact keeps_refl _

theorem main_loop_no_tokens (libc : Libc) (short long : List (String × Nat))
    (positional_index : List Nat) (argv : List String) (fuel : Nat) (st : ParseState)
    (h : argv.length ≤ st.p_input_index) :
    main_loop libc short long positional_index argv fuel st = .ok st := by
  cases fuel with
  | zero => unfold main_loop; rw [if_neg (by omega)]
  | succ n => unfold main_loop; rw [if_neg (by omega)]

/-! ## The pre-pass -/

theorem prepass_registry (s : ArgumentParser) :
    s.prepass.1.param_entries_ = stable_sort required_first s.param_entries_ := by
  unfold ArgumentParser.prepass
  exact (index_entries_effect _ 0 _ []).1

theorem index_entries_positions (l : List ParamEntry) :
    ∀ (n : Nat) (s : ArgumentParser) (pi : List Nat),
      (index_entries l n s pi).2 = pi ++ positions l n := by
  induction l with
  | nil => intro n s pi; simp [index_entries, positions]
  | cons e l ih =>
    intro n s pi
    unfold index_entries positions
    rw [ih]
    split_ifs <;> simp

theorem prepass_positions (s : ArgumentParser) :
    s.prepass.2 = positions (stable_sort required_first s.param_entries_) 0 := by
  unfold ArgumentParser.prepass
  dsimp only
  rw [index_entries_positions]
  rfl

theorem positions_length (l : List ParamEntry) (n : Nat) :
    (positions l n).length = (l.filter (fun e => e.positional_key ≠ "")).length := by
  induction l generalizing n with
  | nil => rfl
  | cons e l ih =>
    unfold positions
    by_cases hp : e.positional_key = ""
    · simp [hp, ih]
    · simp [hp, ih]

/-! ## The finalizer and the result map -/

theorem finalize_entry_keeps {item item1 : ParamEntry} (h : finalize_entry item = .ok item1) :
    item1.key = item.key ∧ (item.filled = true → item1.filled = true) := by
  unfold finalize_entry at h
  split_ifs at h <;> cases h <;> simp_all

theorem finalize_keeps : ∀ (l l1 : List ParamEntry), finalize l = .ok l1 → keeps l l1 := by
  intro l
  induction l with
  | nil =>
    intro l1 h
    cases h
    exact keeps_refl _
  | cons item rest ih =>
    intro l1 h
    unfold finalize at h
    obtain ⟨item1, h1, h2⟩ := Chk.bind_eq_ok h
    obtain ⟨rest1, h3, h4⟩ := Chk.bind_eq_ok h2
    cases h4
    intro j e he
    cases j with
    | zero =>
      simp only [List.getElem?_cons_zero, Option.some.injEq] at he
      subst he
      exact ⟨item1, by simp, finalize_entry_keeps h1⟩
    | succ j =>
      simp only [List.getElem?_cons_succ] at he ⊢
      exact ih rest1 h3 j e he

theorem finalize_entry_fail {e : ParamEntry} (hf : e.filled = false) (hn : needs_token e) :
    finalize_entry e = .fail ("the following arguments are required: " ++ e.key) := by
  obtain ⟨h1, h2, h3, h4⟩ := hn
  simp [finalize_entry, hf, h1, h2, h3, h4]

theorem finalize_entry_ok {e : ParamEntry} (hf : e.filled = false) (hn : ¬ needs_token e) :
    ∃ e1, finalize_entry e = .ok e1 ∧ e1.key = e.key ∧
      (e.positional_key = "" → e.default_value.value_type ≠ .NONE →
        e1 = { e with value := e.default_value, filled := true }) := by
  unfold needs_token at hn
  unfold finalize_entry
  rw [if_neg (by simp [hf])]
  by_cases hp : e.positional_key = ""
  · rw [if_neg (by simp [hp])]
    by_cases hd : e.default_value.value_type = .NONE
    · rw [if_neg (by simp [hd])]
      split_ifs <;> exact ⟨_, rfl, rfl, fun _ h => absurd hd h⟩
    · rw [if_pos hd]
      exact ⟨_, rfl, rfl, fun _ _ => rfl⟩
  · rw [if_pos hp]
    by_cases hq : e.nargs = .NARGS_QUESTION ∨ e.nargs = .NARGS_STAR
    · rw [if_pos hq]
      exact ⟨_, rfl, rfl, fun h => absurd h hp⟩
    · rw [if_neg hq]
      have ha : e.action ≠ .NONE := by
        intro ha
        apply hn
        push_neg at hq
        exact ⟨hp, ha, hq.1, hq.2⟩
      rw [if_pos ha]
      split_ifs <;> exact ⟨_, rfl, rfl, fun h => absurd h hp⟩

/-- On unfilled entries the finalizer fails at the first entry that needs a
token, with the message that names its key. -/
theorem finalize_fails (l : List ParamEntry) (hf : ∀ e ∈ l, e.filled = false)
    (hn : ∃ e ∈ l, needs_token e) :
    ∃ e ∈ l, needs_token e ∧
      finalize l = .fail ("the following arguments are required: " ++ e.key) := by
  induction l with
  | nil => obtain ⟨e, he, _⟩ := hn; cases he
  | cons x rest ih =>
    by_cases hx : needs_token x
    · refine ⟨x, List.mem_cons_self _ _, hx, ?_⟩
      unfold finalize
      rw [finalize_entry_fail (hf x (List.mem_cons_self _ _)) hx]
      rfl
    · obtain ⟨e, he, hne⟩ := hn
      have he1 : e ∈ rest := by
        rcases List.mem_cons.mp he with h | h
        · exact absurd (h ▸ hne) hx
        · exact h
      obtain ⟨e2, he2, hn2, hfin⟩ :=
        ih (fun y hy => hf y (List.mem_cons_of_mem _ hy)) ⟨e, he1, hne⟩
      refine ⟨e2, List.mem_cons_of_mem _ he2, hn2, ?_⟩
      obtain ⟨x1, hx1, _⟩ := finalize_entry_ok (hf x (List.mem_cons_self _ _)) hx
      unfold finalize
      rw [hx1, hfin]
      rfl

/-- On unfilled entries none of which needs a token the finalizer returns the
list of the finalized entries. -/
theorem finalize_succeeds (l : List ParamEntry) (hf : ∀ e ∈ l, e.filled = false)
    (hn : ∀ e ∈ l, ¬ needs_token e) :
    ∃ l1, finalize l = .ok l1 ∧ List.Forall₂ (fun e e1 => finalize_entry e = .ok e1) l l1 := by
  induction l with
  | nil => exact ⟨[], rfl, List.Forall₂.nil⟩
  | cons x rest ih =>
    obtain ⟨x1, hx1, _⟩ :=
      finalize_entry_ok (hf x (List.mem_cons_self _ _)) (hn x (List.mem_cons_self _ _))
    obtain ⟨rest1, hr1, hr2⟩ :=
      ih (fun y hy => hf y (List.mem_cons_of_mem _ hy))
        (fun y hy => hn y (List.mem_cons_of_mem _ hy))
    refine ⟨x1 :: rest1, ?_, List.Forall₂.cons hx1 hr2⟩
    unfold finalize
    rw [hx1, hr1]
    rfl

/-- A parse of the vector that holds the program name only is the finalizer on
the sorted registry. -/
theorem parse_entries_no_tokens (libc : Libc) (s1 : ArgumentParser) (pi : List Nat)
    (prog : String) : parse_entries libc s1 pi [prog] = finalize s1.param_entries_ := by
  unfold parse_entries
  rw [main_loop_no_tokens libc _ _ _ _ _ _ (by simp)]
  rfl

theorem build_result_foldl_isSome (l : List ParamEntry) :
    ∀ (acc : List (String × ParamEntry)) (k : String),
      ((map_find acc k).isSome ∨ ∃ e ∈ l, e.filled = true ∧ e.key = k) →
      (map_find (l.foldl (fun result item =>
        if item.filled then map_set result item.key item else result) acc) k).isSome := by
  induction l with
  | nil =>
    intro acc k h
    rcases h with h | ⟨e, he, _⟩
    · exact h
    · cases he
  | cons item rest ih =>
    intro acc k h
    simp only [List.foldl_cons]
    apply ih
    rcases h with h | ⟨e, he, hf, hk⟩
    · left
      split_ifs
      · exact map_find_set_isSome _ _ _ _ h
      · exact h
    · rcases List.mem_cons.mp he with h1 | h1
      · subst h1
        left
        rw [if_pos hf, hk, map_find_set_same]
        rfl
      · right
        exact ⟨e, h1, hf, hk⟩

/-- The key of every filled entry is in the result map. -/
theorem build_result_has_key (l : List ParamEntry) (e : ParamEntry) (he : e ∈ l)
    (hf : e.filled = true) : (map_find (build_result l) e.key).isSome :=
  build_result_foldl_isSome l [] e.key (Or.inr ⟨e, he, hf, rfl⟩)

/-- An entry that is filled at some point of the main loop has its key in the
result of every parse that goes on to return. -/
theorem filled_key_in_result {libc : Libc} {short long : List (String × Nat)}
    {positional_index : List Nat} {argv : List String} {fuel : Nat} {st st1 : ParseState}
    {final : List ParamEntry} {j : Nat} {e : ParamEntry}
    (he : st.param_entries[j]? = some e) (hf : e.filled = true)
    (hloop : main_loop libc short long positional_index argv fuel st = .ok st1)
    (hfin : finalize st1.param_entries = .ok final) :
    (map_find (build_result final) e.key).isSome := by
  obtain ⟨e1, he1, hk1, hf1⟩ :=
    keeps_trans (main_loop_keeps fuel st st1 hloop) (finalize_keeps _ _ hfin) j e he
  rw [← hk1]
  exact build_result_has_key final e1 (List.getElem?_mem he1) (hf1 hf)

theorem build_result_foldl_unique (k : String) (e1 : ParamEntry) (hf : e1.filled = true)
    (hk : e1.key = k) (l : List ParamEntry) :
    ∀ acc : List (String × ParamEntry),
      (∀ x ∈ l, x.key = k → x = e1) → (e1 ∈ l ∨ map_find acc k = some e1) →
      map_find (l.foldl (fun result item =>
        if item.filled then map_set result item.key item else result) acc) k = some e1 := by
  induction l with
  | nil =>
    intro acc _ h
    rcases h with h | h
    · cases h
    · exact h
  | cons x rest ih =>
    intro acc hu h
    simp only [List.foldl_cons]
    apply ih
    · exact fun y hy => hu y (List.mem_cons_of_mem _ hy)
    · by_cases hxk : x.key = k
      · have hx := hu x (List.mem_cons_self _ _) hxk
        right
        rw [hx, if_pos hf, hk, map_find_set_same]
      · rcases h with h | h
        · rcases List.mem_cons.mp h with h1 | h1
          · exact absurd (h1 ▸ hk) hxk
          · exact Or.inl h1
        · right
          split_ifs
          · rw [map_find_set_other _ _ _ _ hxk]; exact h
          · exact h

/-- A filled entry whose key no other entry of the list has is what the result
map holds under that key. -/
theorem build_result_unique (l : List ParamEntry) (e1 : ParamEntry) (he : e1 ∈ l)
    (hf : e1.filled = true) (hu : ∀ x ∈ l, x.key = e1.key → x = e1) :
    map_find (build_result l) e1.key = some e1 :=
  build_result_foldl_unique e1.key e1 hf rfl l [] hu (Or.inl he)

/-! ## Binding tokens to the entries with a positional name -/

theorem check_error_ok {libc : Libc} {α : Type} {s s1 : ArgumentParser} {c : Bool} {m : String}
    {rest : Res α} {a : α} (h : s.check_error libc c m rest = .ok a s1) :
    c = true ∧ rest = .ok a s1 := by
  unfold ArgumentParser.check_error at h
  cases c with
  | true => exact ⟨rfl, by simpa using h⟩
  | false =>
    simp only [Bool.false_eq_true, if_false, ArgumentParser.raise] at h
    split at h <;> cases h

theorem check_error_true {libc : Libc} {α : Type} (s : ArgumentParser) (m : String) (rest : Res α) :
    s.check_error libc true m rest = rest := by
  simp [ArgumentParser.check_error]

theorem check_error_false {libc : Libc} {α : Type} (s : ArgumentParser) (m : String) (rest : Res α) :
    s.check_error libc false m rest = s.raise libc m := by
  simp [ArgumentParser.check_error]

/-- A `done()` call that returns commits the current entry. -/
theorem done_ok {libc : Libc} {s s1 : ArgumentParser} (h : s.done libc = .ok () s1) : committed s s1 := by
  unfold ArgumentParser.done at h
  dsimp only at h
  obtain ⟨c1, h1⟩ := check_error_ok h
  obtain ⟨c2, h2⟩ := check_error_ok h1
  have e : s1 = _ := (Res.ok.inj h2).2.symm
  subst e
  exact ⟨rfl, rfl, rfl, rfl, rfl, rfl, by simpa using c1, by simpa using c2⟩

/-- A `done()` call on a current entry with a key and, for `store_const`, a const
returns. -/
theorem done_returns {libc : Libc} (s : ArgumentParser) (hk : derived_key s.now_entry_ ≠ "")
    (hc : s.now_entry_.action ≠ .ACTION_STORE_CONST ∨
      s.now_entry_.const_value.value_type ≠ .NONE) :
    ∃ s1, s.done libc = .ok () s1 := by
  unfold ArgumentParser.done
  dsimp only
  have c1 : (decide (derived_key s.now_entry_ ≠ "")) = true := by simpa using hk
  rw [c1, check_error_true]
  have c2 : (decide (s.now_entry_.action ≠ .ACTION_STORE_CONST) ||
      decide (s.now_entry_.const_value.value_type ≠ .NONE)) = true := by
    rcases hc with hc | hc <;> simp [hc]
  simp only [ArgumentParser.register_now]
  rw [c2, check_error_true]
  exact ⟨_, rfl⟩

theorem and_then_ok {α β : Type} {r : Res α} {g : ArgumentParser → Res β} {b : β}
    {s1 : ArgumentParser} (h : r.and_then g = .ok b s1) :
    ∃ a s2, r = .ok a s2 ∧ g s2 = .ok b s1 := by
  cases r with
  | ok a s2 => exact ⟨a, s2, rfl, h⟩
  | thrown e s2 => cases h
  | exited c m => cases h
  | undefined => cases h
  | nofuel => cases h

theorem raise_ne_ok {libc : Libc} {α : Type} (s s1 : ArgumentParser) (m : String) (a : α) :
    (s.raise libc m : Res α) ≠ .ok a s1 := by
  unfold ArgumentParser.raise
  split <;> simp

theorem finish_ok {libc : Libc} {α β : Type} {s1 s2 : ArgumentParser} {r : Chk α} {f : α → β} {b : β}
    (h : s1.finish libc r f = .ok b s2) : s2 = s1 := by
  unfold ArgumentParser.finish at h
  cases r with
  | ok a => exact (Res.ok.inj h).2.symm
  | fail m => exact absurd h (raise_ne_ok _ _ _ _)
  | help => cases h
  | undefined => cases h
  | nofuel => cases h

theorem prepass_now_entry (s : ArgumentParser) : s.prepass.1.now_entry_ = s.now_entry_ := by
  unfold ArgumentParser.prepass
  exact (index_entries_effect _ 0 _ []).2.1

theorem void_ok {α : Type} {r : Res α} {s1 : ArgumentParser} (h : r.void = .ok () s1) :
    ∃ a, r = .ok a s1 := by
  cases r with
  | ok a s2 =>
    simp only [Res.void, Res.ok.injEq, true_and] at h
    exact ⟨a, by rw [h]⟩
  | thrown e s2 => cases h
  | exited c m => cases h
  | undefined => cases h
  | nofuel => cases h

/-- The current entry after a call that returned. -/
theorem Call.run_ok_entry (libc : Libc) (c : Call) {s s1 : ArgumentParser}
    (h : c.run libc s = .ok () s1) : s1.now_entry_ = c.on_entry s.now_entry_ := by
  have long_case : ∀ {s s1 : ArgumentParser} {n : String}, s.long_name libc n = .ok () s1 →
      s1.now_entry_ = { s.now_entry_ with long_key := substr n 2, required := false } := by
    intro s s1 n h
    unfold ArgumentParser.long_name at h
    obtain ⟨_, h⟩ := check_error_ok h
    obtain ⟨_, h⟩ := check_error_ok h
    obtain ⟨_, h⟩ := check_error_ok h
    rw [← (Res.ok.inj h).2]
  cases c with
  | set_error_mode m =>
    simp only [Call.run, ArgumentParser.set_error_mode] at h
    rw [← (Res.ok.inj h).2]
    rfl
  | long_name n => exact long_case h
  | short_name n =>
    simp only [Call.run, ArgumentParser.short_name] at h
    obtain ⟨_, h⟩ := check_error_ok h
    obtain ⟨_, h⟩ := check_error_ok h
    obtain ⟨_, h⟩ := check_error_ok h
    rw [← (Res.ok.inj h).2]
    rfl
  | positional_name n =>
    simp only [Call.run, ArgumentParser.positional_name] at h
    obtain ⟨_, h⟩ := check_error_ok h
    obtain ⟨_, h⟩ := check_error_ok h
    obtain ⟨_, h⟩ := check_error_ok h
    obtain ⟨_, h⟩ := check_error_ok h
    rw [← (Res.ok.inj h).2]
    rfl
  | default_value v =>
    simp only [Call.run, ArgumentParser.default_value] at h
    obtain ⟨_, h⟩ := check_error_ok h
    rw [← (Res.ok.inj h).2]
    rfl
  | const_value v =>
    simp only [Call.run, ArgumentParser.const_value] at h
    obtain ⟨_, h⟩ := check_error_ok h
    split at h
    · rw [← (Res.ok.inj h).2]; rfl
    · split at h
      · rw [← (Res.ok.inj h).2]; rfl
      · exact absurd (check_error_ok h).1 (by simp)
  | help t =>
    simp only [Call.run, ArgumentParser.help] at h
    rw [← (Res.ok.inj h).2]
    rfl
  | nargs t =>
    simp only [Call.run, ArgumentParser.nargs] at h
    obtain ⟨_, h⟩ := check_error_ok h
    simp only [Call.on_entry]
    split_ifs at h ⊢
    · rw [← (Res.ok.inj h).2]
    · rw [← (Res.ok.inj h).2]
    · rw [← (Res.ok.inj h).2]
    · exact absurd (check_error_ok h).1 (by simp)
  | nargs_int n =>
    simp only [Call.run, ArgumentParser.nargs_int] at h
    obtain ⟨_, h⟩ := check_error_ok h
    rw [← (Res.ok.inj h).2]
    rfl
  | action a =>
    simp only [Call.run, ArgumentParser.action] at h
    obtain ⟨_, h⟩ := check_error_ok h
    obtain ⟨_, h⟩ := check_error_ok h
    simp only [Call.on_entry]
    split_ifs at h ⊢
    · rw [← (Res.ok.inj h).2]
    · rw [← (Res.ok.inj h).2]
    · rw [← (Res.ok.inj h).2]
    · exact absurd (check_error_ok h).1 (by simp)
  | dest d =>
    simp only [Call.run, ArgumentParser.dest] at h
    obtain ⟨_, h⟩ := check_error_ok h
    rw [← (Res.ok.inj h).2]
    rfl
  | choices a =>
    simp only [Call.run, ArgumentParser.choices] at h
    obtain ⟨_, h⟩ := check_error_ok h
    rw [← (Res.ok.inj h).2]
    rfl
  | type t =>
    simp only [Call.run, ArgumentParser.type] at h
    rw [← (Res.ok.inj h).2]
    rfl
  | done => exact (done_ok h).now
  | add_argument l d t =>
    simp only [Call.run, ArgumentParser.add_argument] at h
    obtain ⟨_, s2, _, h⟩ := and_then_ok h
    obtain ⟨_, s3, _, h⟩ := and_then_ok h
    obtain ⟨_, s4, _, h⟩ := and_then_ok h
    exact (done_ok h).now
  | parse_args_any_type argv =>
    simp only [Call.run] at h
    obtain ⟨a, h⟩ := void_ok h
    unfold ArgumentParser.parse_args_any_type at h
    rw [finish_ok h]
    exact prepass_now_entry s
  | parse_args_string argv =>
    simp only [Call.run] at h
    obtain ⟨a, h⟩ := void_ok h
    unfold ArgumentParser.parse_args_string at h
    rw [finish_ok h]
    exact prepass_now_entry s

theorem chain_key (libc : Libc) (calls : List Call) :
    ∀ (s s1 : ArgumentParser), chain libc s calls = some s1 →
      s1.now_entry_.key =
        calls.foldl
          (fun key c =>
            match c with
            | .dest d => d
            | .done => ""
            | .add_argument _ _ _ => ""
            | _ => key) s.now_entry_.key := by
  induction calls with
  | nil =>
    intro s s1 h
    simp only [chain, Option.some.injEq] at h
    rw [← h]
    rfl
  | cons c rest ih =>
    intro s s1 h
    simp only [chain] at h
    split at h
    · rename_i u s2 hrun
      rw [ih s2 s1 h, List.foldl_cons, Call.run_ok_entry libc c hrun]
      congr 1
      cases c <;> rfl
    · cases h

/-- The key of the current entry of an object built by returning calls is the
one its last `dest` call since the last commit set. -/
theorem chain_explicit_dest (libc : Libc) (calls : List Call) (s : ArgumentParser)
    (h : chain libc ArgumentParser.new calls = some s) :
    s.now_entry_.key = explicit_dest calls :=
  chain_key libc calls ArgumentParser.new s h

theorem derived_key_priority (e : ParamEntry) :
    derived_key e =
      if e.key ≠ "" then e.key
      else if e.positional_key ≠ "" then e.positional_key
      else if e.long_key ≠ "" then e.long_key
      else e.short_key := by
  unfold derived_key
  by_cases h1 : e.key = "" <;> by_cases h2 : e.positional_key = "" <;>
    by_cases h3 : e.long_key = "" <;> by_cases h4 : e.short_key = "" <;> simp [h1, h2, h3, h4]

/-! ## The mark `required` and the identifiers -/

theorem positional_name_cases {libc : Libc} {s s1 : ArgumentParser} {n : String}
    (h : (s.positional_name libc n).state = some s1) :
    benign s s1 ∨
      (s.now_entry_.short_key = "" ∧ s.now_entry_.long_key = "" ∧
        s1 = { s with now_entry_ :=
                { s.now_entry_ with positional_key := n, required := true } }) := by
  unfold ArgumentParser.positional_name at h
  rcases check_error_cases h with ⟨_, h1⟩ | h1
  · rcases check_error_cases h1 with ⟨c2, h2⟩ | h2
    · rcases check_error_cases h2 with ⟨_, h3⟩ | h3
      · rcases check_error_cases h3 with ⟨_, h4⟩ | h4
        · simp only [Bool.and_eq_true, decide_eq_true_eq] at c2
          exact Or.inr ⟨c2.1, c2.2, ok_state h4⟩
        · left; rw [h4]; exact benign_print_help s
      · left; rw [h3]; exact benign_print_help s
    · left; rw [h2]; exact benign_print_help s
  · left; rw [h1]; exact benign_print_help s

/-- A property of the object that the changes of the identifiers and the commit
keep is kept by every call. -/
theorem Call.preserves (libc : Libc) {P : ArgumentParser → Prop} (name_ok : String → Prop)
    (hb : ∀ {s s1 : ArgumentParser}, benign s s1 → P s → P s1)
    (hl : ∀ {s : ArgumentParser} (k : String), s.now_entry_.positional_key = "" → P s →
      P { s with now_entry_ := { s.now_entry_ with long_key := k, required := false } })
    (hs : ∀ {s : ArgumentParser} (k : String), s.now_entry_.positional_key = "" → P s →
      P { s with now_entry_ := { s.now_entry_ with short_key := k, required := false } })
    (hp : ∀ {s : ArgumentParser} (k : String), name_ok k → s.now_entry_.short_key = "" →
      s.now_entry_.long_key = "" → P s →
      P { s with now_entry_ := { s.now_entry_ with positional_key := k, required := true } })
    (hc : ∀ {s s1 : ArgumentParser}, committed s s1 → P s → P s1)
    (c : Call) (hok : ∀ n, c = .positional_name n → name_ok n) {s s1 : ArgumentParser}
    (h : (c.run libc s).state = some s1) : P s → P s1 := by
  have long_case : ∀ {s s1 : ArgumentParser} {n : String},
      (s.long_name libc n).state = some s1 → P s → P s1 := by
    intro s s1 n h
    rcases long_name_effect h with hb1 | ⟨_, hp1, heq⟩
    · exact hb hb1
    · rw [heq]; exact hl _ hp1
  have done_case : ∀ {s s1 : ArgumentParser}, (s.done libc).state = some s1 → P s → P s1 := by
    intro s s1 h
    rcases done_effect h with hb1 | hc1
    · exact hb hb1
    · exact hc hc1
  cases c with
  | set_error_mode m => exact hb (set_error_mode_benign h)
  | long_name n => exact long_case h
  | short_name n =>
    rcases short_name_effect h with hb1 | ⟨_, hp1, heq⟩
    · exact hb hb1
    · rw [heq]; exact hs _ hp1
  | positional_name n =>
    rcases positional_name_cases h with hb1 | ⟨h1, h2, heq⟩
    · exact hb hb1
    · rw [heq]; exact hp _ (hok n rfl) h1 h2
  | default_value v => exact hb (default_value_benign h)
  | const_value v => exact hb (const_value_benign h)
  | help t => exact hb (help_benign h)
  | nargs t => exact hb (nargs_benign h)
  | nargs_int n => exact hb (nargs_int_benign h)
  | action a => exact hb (action_benign h)
  | dest d => exact hb (dest_benign h)
  | choices a => exact hb (choices_benign h)
  | type t => exact hb (type_benign h)
  | done => exact done_case h
  | add_argument l d t =>
    simp only [Call.run, ArgumentParser.add_argument] at h
    intro hP
    rcases and_then_state h with ⟨_, s2, h1, h2⟩ | ⟨e, h1⟩
    · have e2 : P s2 := long_case (by rw [h1]; rfl) hP
      rcases and_then_state h2 with ⟨_, s3, h3, h4⟩ | ⟨e, h3⟩
      · have e3 : P s3 := hb (default_value_benign (by rw [h3]; rfl)) e2
        rcases and_then_state h4 with ⟨_, s4, h5, h6⟩ | ⟨e, h5⟩
        · exact done_case h6 (hb (help_benign (by rw [h5]; rfl)) e3)
        · exact hb (help_benign (by rw [h5]; rfl)) e3
      · exact hb (default_value_benign (by rw [h3]; rfl)) e2
    · exact long_case (by rw [h1]; rfl) hP
  | parse_args_any_type argv =>
    simp only [Call.run, void_state] at h
    exact hb (parse_args_any_type_benign h)
  | parse_args_string argv =>
    simp only [Call.run, void_state] at h
    exact hb (parse_args_string_benign h)

/-- A property of the registry and the current entry that looks at the
identifiers and the mark `required` only. -/
theorem Call.preserves_marks (libc : Libc) {Q : ParamEntry → Prop} (name_ok : String → Prop)
    (hfield : ∀ e e1 : ParamEntry, e1.short_key = e.short_key → e1.long_key = e.long_key →
      e1.positional_key = e.positional_key → e1.required = e.required → Q e → Q e1)
    (hblank : Q ParamEntry.blank)
    (hl : ∀ (e : ParamEntry) (k : String), e.positional_key = "" → Q e →
      Q { e with long_key := k, required := false })
    (hs : ∀ (e : ParamEntry) (k : String), e.positional_key = "" → Q e →
      Q { e with short_key := k, required := false })
    (hp : ∀ (e : ParamEntry) (k : String), name_ok k → e.short_key = "" → e.long_key = "" →
      Q e → Q { e with positional_key := k, required := true })
    (c : Call) (hok : ∀ n, c = .positional_name n → name_ok n) {s s1 : ArgumentParser}
    (h : (c.run libc s).state = some s1) :
    ((∀ e ∈ s.param_entries_, Q e) ∧ Q s.now_entry_) →
      ((∀ e ∈ s1.param_entries_, Q e) ∧ Q s1.now_entry_) := by
  refine Call.preserves libc
    (P := fun s => (∀ e ∈ s.param_entries_, Q e) ∧ Q s.now_entry_) name_ok ?_ ?_ ?_ ?_ ?_ c hok h
  · intro s s1 hb ⟨h1, h2⟩
    exact ⟨fun e he => h1 e (hb.perm.mem_iff.mp he),
      hfield _ _ hb.short_key hb.long_key hb.positional_key hb.required h2⟩
  · intro s k hpk ⟨h1, h2⟩
    exact ⟨h1, hl _ k hpk h2⟩
  · intro s k hpk ⟨h1, h2⟩
    exact ⟨h1, hs _ k hpk h2⟩
  · intro s k hk hsk hlk ⟨h1, h2⟩
    exact ⟨h1, hp _ k hk hsk hlk h2⟩
  · intro s s1 hc ⟨h1, h2⟩
    refine ⟨?_, by rw [hc.now]; exact hblank⟩
    intro e he
    rw [hc.registry, List.mem_append, List.mem_singleton] at he
    rcases he with he | he
    · exact h1 e he
    · rw [he]
      exact hfield s.now_entry_ _ rfl rfl rfl rfl h2

theorem ReachableBy.to_reachable {libc : Libc} {allowed : Call → Bool} {s : ArgumentParser}
    (h : ReachableBy libc allowed s) : Reachable libc s := by
  induction h with
  | new => exact .new
  | call c _ _ hrun ih => exact .call c ih hrun

theorem chain_reachable_by (libc : Libc) (allowed : Call → Bool) (calls : List Call) :
    ∀ {s s1 : ArgumentParser}, ReachableBy libc allowed s → (∀ c ∈ calls, allowed c = true) →
      chain libc s calls = some s1 → ReachableBy libc allowed s1 := by
  induction calls with
  | nil =>
    intro s s1 h _ hc
    simp only [chain, Option.some.injEq] at hc
    rw [← hc]
    exact h
  | cons c rest ih =>
    intro s s1 h hall hc
    unfold chain at hc
    split at hc
    · rename_i a s2 hrun
      exact ih (.call c h (hall c (List.mem_cons_self _ _)) (by rw [hrun]; rfl))
        (fun c1 h1 => hall c1 (List.mem_cons_of_mem _ h1)) hc
    · cases hc

/-- In every reachable state an entry with a short or a long flag is not
required. -/
theorem Reachable.flagged_optional {libc : Libc} {s : ArgumentParser} (h : Reachable libc s) :
    (∀ e ∈ s.param_entries_, flags_optional e) ∧ flags_optional s.now_entry_ := by
  induction h with
  | new => exact ⟨fun _ he => (by cases he), fun _ => rfl⟩
  | call c _ hrun ih =>
    refine Call.preserves_marks libc (fun _ => True) ?_ ?_ ?_ ?_ ?_ c
      (fun _ _ => trivial) hrun ih
    · intro e e1 h1 h2 _ h4 hq
      unfold flags_optional at *
      rw [h1, h2, h4]
      exact hq
    · exact fun _ => rfl
    · exact fun _ _ _ _ _ => rfl
    · exact fun _ _ _ _ _ => rfl
    · intro e k _ h1 h2 _ hf
      simp only [h1, h2, ne_eq, not_true_eq_false, or_self] at hf

/-- In every state reached without a `positional_name("")` call a required entry
has a positional name. -/
theorem ReachableBy.named_if_required {libc : Libc} {s : ArgumentParser}
    (h : ReachableBy libc Call.names_positional s) :
    (∀ e ∈ s.param_entries_, required_named e) ∧ required_named s.now_entry_ := by
  induction h with
  | new => exact ⟨fun _ he => (by cases he), fun hr => (by cases hr)⟩
  | call c _ hc hrun ih =>
    refine Call.preserves_marks libc (fun n => n ≠ "") ?_ ?_ ?_ ?_ ?_ c ?_ hrun ih
    · intro e e1 _ _ h3 h4 hq
      unfold required_named at *
      rw [h3, h4]
      exact hq
    · exact fun hr => by cases hr
    · exact fun _ _ _ _ hr => by cases hr
    · exact fun _ _ _ _ hr => by cases hr
    · exact fun _ _ hk _ _ _ _ => hk
    · intro n hn
      rw [hn] at hc
      simpa [Call.names_positional] using hc

/-! ## The integer coercion -/

theorem digits_value_append (l : List Char) (c : Char) :
    digits_value (l ++ [c]) = digits_value l * 10 + (c.toNat - 48) := by
  simp [digits_value, List.foldl_append]

theorem digit_char_isdigit (d : Nat) (h : d < 10) : isdigit (digit_char d) = true := by
  interval_cases d <;> decide

theorem digit_char_value (d : Nat) (h : d < 10) : (digit_char d).toNat - 48 = d := by
  interval_cases d <;> decide

theorem nat_digits_spec : ∀ (fuel n : Nat), n < fuel →
    (∀ c ∈ nat_digits fuel n, isdigit c = true) ∧ nat_digits fuel n ≠ [] ∧
      digits_value (nat_digits fuel n) = n := by
  intro fuel
  induction fuel with
  | zero => intro n h; omega
  | succ fuel ih =>
    intro n h
    rw [nat_digits]
    split
    · rename_i h10
      refine ⟨?_, by simp, ?_⟩
      · intro c hc
        rw [List.mem_singleton] at hc
        rw [hc]
        exact digit_char_isdigit n h10
      · simp [digits_value, digit_char_value n h10]
    · rename_i h10
      obtain ⟨h1, _, h3⟩ := ih (n / 10) (by omega)
      refine ⟨?_, by simp, ?_⟩
      · intro c hc
        rw [List.mem_append, List.mem_singleton] at hc
        rcases hc with hc | hc
        · exact h1 c hc
        · rw [hc]; exact digit_char_isdigit _ (Nat.mod_lt _ (by omega))
      · rw [digits_value_append, h3, digit_char_value _ (Nat.mod_lt _ (by omega))]
        omega

theorem isdigit_not_space {c : Char} (h : isdigit c = true) : isspace c = false := by
  simp only [isdigit, isspace, Bool.and_eq_true, decide_eq_true_eq, Bool.or_eq_false_iff,
    beq_eq_false_iff_ne, Bool.and_eq_false_iff, decide_eq_false_iff_not] at *
  omega

theorem fits_int (v : Int) (h1 : -(2 ^ 31) ≤ v) (h2 : v < 2 ^ 31) :
    wrap_signed 32 (clamp_signed 64 v) = v := by
  have e : clamp_signed 64 v = v := by
    simp only [clamp_signed]
    norm_num
    omega
  rw [e]
  simp only [wrap_signed]
  norm_num
  omega

theorem isdigit_not_sign {c : Char} (h : isdigit c = true) : c ≠ '-' ∧ c ≠ '+' := by
  constructor <;> intro hc <;> subst hc <;> revert h <;> decide

theorem takeWhile_digits (ds rest : List Char) (hds : ∀ c ∈ ds, isdigit c = true)
    (hrest : ∀ c, rest.head? = some c → isdigit c = false) :
    (ds ++ rest).takeWhile isdigit = ds := by
  rw [List.takeWhile_append_of_pos hds]
  cases rest with
  | nil => simp
  | cons c r => simp [List.takeWhile_cons, hrest c rfl]

/-- The call `atoi` on a run of digits followed by a text that starts with no digit. -/
theorem atoi_unsigned (ds rest : List Char) (hne : ds ≠ [])
    (hds : ∀ c ∈ ds, isdigit c = true)
    (hrest : ∀ c, rest.head? = some c → isdigit c = false) :
    atoi ⟨ds ++ rest⟩ = wrap_signed 32 (clamp_signed 64 (digits_value ds)) := by
  cases ds with
  | nil => exact absurd rfl hne
  | cons d ds1 =>
    have hd := hds d (List.mem_cons_self _ _)
    have hsp := isdigit_not_space hd
    obtain ⟨hm, hp⟩ := isdigit_not_sign hd
    have htw := takeWhile_digits (d :: ds1) rest hds hrest
    have key : ∀ b : Bool × List Char, b = (false, d :: (ds1 ++ rest)) →
        wrap_signed 32 (clamp_signed 64
          (if b.1 = true then -(digits_value (b.2.takeWhile isdigit) : Int)
           else (digits_value (b.2.takeWhile isdigit) : Int))) =
        wrap_signed 32 (clamp_signed 64 (digits_value (d :: ds1))) := by
      intro b hb
      rw [hb]
      simp only [List.cons_append] at htw
      simp [htw]
    unfold atoi
    simp only [List.cons_append, List.dropWhile_cons, hsp, Bool.false_eq_true, if_false]
    refine key _ ?_
    split
    · rename_i r heq
      simp at heq
      exact absurd heq.1 hm
    · rename_i r heq
      simp at heq
      exact absurd heq.1 hp
    · rfl

/-- The call `atoi` on `-`, a run of digits and a text that starts with no digit. -/
theorem atoi_minus (ds rest : List Char) (hds : ∀ c ∈ ds, isdigit c = true)
    (hrest : ∀ c, rest.head? = some c → isdigit c = false) :
    atoi ⟨'-' :: (ds ++ rest)⟩ = wrap_signed 32 (clamp_signed 64 (-(digits_value ds : Int))) := by
  have htw := takeWhile_digits ds rest hds hrest
  have hsp : isspace '-' = false := by decide
  unfold atoi
  simp [List.dropWhile_cons, hsp, htw]

/-- The call `atoi` on `+`, a run of digits and a text that starts with no digit. -/
theorem atoi_plus (ds rest : List Char) (hds : ∀ c ∈ ds, isdigit c = true)
    (hrest : ∀ c, rest.head? = some c → isdigit c = false) :
    atoi ⟨'+' :: (ds ++ rest)⟩ = wrap_signed 32 (clamp_signed 64 (digits_value ds)) := by
  have htw := takeWhile_digits ds rest hds hrest
  have hsp : isspace '+' = false := by decide
  unfold atoi
  simp [List.dropWhile_cons, hsp, htw]

/-- The call `atoi` on a text that starts with no white space, sign or digit. -/
theorem atoi_no_number (s : String)
    (h : ∀ c, s.data.head? = some c →
      isspace c = false ∧ c ≠ '-' ∧ c ≠ '+' ∧ isdigit c = false) :
    atoi s = 0 := by
  have key : ∀ b : Bool × List Char, b = (false, s.data) →
      wrap_signed 32 (clamp_signed 64
        (if b.1 = true then -(digits_value (b.2.takeWhile isdigit) : Int)
         else (digits_value (b.2.takeWhile isdigit) : Int))) = 0 := by
    intro b hb
    rw [hb]
    have : s.data.takeWhile isdigit = [] := by
      cases hs : s.data with
      | nil => rfl
      | cons c r =>
        rw [hs] at h
        simp [List.takeWhile_cons, (h c rfl).2.2.2]
    simp only [this]
    decide
  have hdrop : s.data.dropWhile isspace = s.data := by
    cases hs : s.data with
    | nil => rfl
    | cons c r =>
      rw [hs] at h
      simp [List.dropWhile_cons, (h c rfl).1]
  unfold atoi
  simp only [hdrop]
  refine key _ ?_
  split
  · rename_i r heq
    exact absurd rfl (h '-' (by rw [heq]; rfl)).2.1
  · rename_i r heq
    exact absurd rfl (h '+' (by rw [heq]; rfl)).2.2.1
  · rfl

/-! ## Structural equality and doubles -/

theorem array_equal_iff {α : Type} (eq : α → α → Bool) :
    ∀ a b : List α, array_equal eq a b = true ↔ same_elements (fun p q => eq p q = true) a b := by
  intro a
  induction a with
  | nil =>
    intro b
    cases b with
    | nil => simp [array_equal, same_elements]
    | cons y b => simp [array_equal, same_elements]
  | cons x a ih =>
    intro b
    cases b with
    | nil => simp [array_equal, same_elements]
    | cons y b =>
      have h := ih b
      simp only [array_equal, same_elements, List.length_cons, List.zipWith_cons_cons,
        List.all_cons, Bool.and_eq_true, beq_iff_eq, id, add_left_inj] at h ⊢
      constructor
      · rintro ⟨hl, hxy, hall⟩
        obtain ⟨_, h2⟩ := h.mp ⟨hl, hall⟩
        refine ⟨hl, ?_⟩
        intro i h1 h3
        cases i with
        | zero => simpa using hxy
        | succ i => simpa using h2 i (by omega) (by omega)
      · rintro ⟨hl, h2⟩
        have h0 := h2 0 (by omega) (by omega)
        obtain ⟨_, hall⟩ := h.mpr ⟨hl, fun i h1 h3 => by
          simpa using h2 (i + 1) (by omega) (by omega)⟩
        exact ⟨hl, by simpa using h0, hall⟩

theorem same_elements_eq {α : Type} (a b : List α) :
    same_elements (fun p q => p = q) a b ↔ a = b := by
  constructor
  · rintro ⟨hl, h⟩
    exact List.ext_getElem hl h
  · rintro rfl
    exact ⟨rfl, fun _ _ _ => rfl⟩

theorem is_entry_item_equal_iff (a b : EntryItem) :
    is_entry_item_equal a b = true ↔ structurally_equal a b := by
  cases a <;> cases b <;>
    simp [is_entry_item_equal, structurally_equal, EntryItem.value_type, EntryItem.is_int,
      EntryItem.is_double, EntryItem.is_bool, EntryItem.is_string, EntryItem.is_int_array,
      EntryItem.is_double_array, EntryItem.is_bool_array, EntryItem.is_string_array,
      EntryItem.digit_int_value, EntryItem.digit_double_value, EntryItem.bool_value,
      EntryItem.string_value, EntryItem.int_array_value, EntryItem.double_array_value,
      EntryItem.bool_array_value, EntryItem.string_array_value, array_equal_iff]

theorem structurally_equal_iff_eq (a b : EntryItem) (ha : a.no_double = true) :
    structurally_equal a b ↔ a = b := by
  cases a <;> cases b <;>
    simp_all [structurally_equal, same_elements_eq, EntryItem.no_double, EntryItem.is_double,
      EntryItem.is_double_array, EntryItem.value_type]

theorem value_run_cons {argv : List String} {p : Nat} {t : String}
    (ht : argv[p + 1]? = some t) (hd : starts_with t "-" = false) :
    value_run argv p = t :: value_run argv (p + 1) := by
  unfold value_run
  have hlt : p + 1 < argv.length := by
    by_contra hc
    rw [List.getElem?_eq_none (by omega)] at ht
    cases ht
  have hdrop : argv.drop (p + 1) = t :: argv.drop (p + 1 + 1) := by
    rw [List.drop_eq_getElem_cons hlt]
    congr 1
    rw [List.getElem?_eq_getElem hlt] at ht
    exact Option.some.inj ht
  rw [hdrop, List.takeWhile_cons]
  simp [hd]

theorem parse_choices_ok {libc : Libc} {item : EntryItem} {entry : ParamEntry} {b : Bool}
    (h : parse_choices libc item entry = .ok b) : b = true := by
  unfold parse_choices at h
  dsimp only at h
  split_ifs at h
  all_goals first
    | exact (Chk.ok.inj h).symm
    | (split at h <;> cases h)

/-- A run of the loop of `parse_nargs` that ends without a failure has taken a
prefix of the value tokens after the start position: all of them for a negative
count, `count` of them otherwise; the choice set accepted each. -/
theorem nargs_loop_ok (libc : Libc) (entry : ParamEntry) (argv : List String) :
    ∀ (fuel : Nat) (count : Int) (p : Nat) (acc : List EntryItem) (r : Nat × List EntryItem),
      nargs_loop libc entry argv fuel count p acc = .ok r →
      ∃ n, r.1 = p + n ∧ n ≤ (value_run argv p).length ∧
        r.2 = acc ++ ((value_run argv p).take n).map (fun t => parse libc t entry.value_type) ∧
        (∀ t ∈ (value_run argv p).take n,
          parse_choices libc (parse libc t entry.value_type) entry = .ok true) ∧
        (count < 0 → n = (value_run argv p).length) ∧ (0 ≤ count → (n : Int) = count) := by
  intro fuel
  induction fuel with
  | zero =>
    intro count p acc r h
    simp [nargs_loop] at h
  | succ fuel ih =>
    intro count p acc r h
    rw [nargs_loop] at h
    split at h
    · rename_i hc0
      cases h
      exact ⟨0, rfl, by omega, by simp, by simp, by omega, by omega⟩
    · rename_i hc0
      split at h
      · rename_i hend
        obtain ⟨_, hce, h1⟩ := Chk.bind_eq_ok h
        cases h1
        have hneg : count ≤ 0 := by
          unfold Chk.check_error at hce
          split at hce
          · rename_i hc; simpa using hc
          · cases hce
        have hrun := value_run_eq_nil (Or.inl hend)
        exact ⟨0, rfl, by omega, by simp, by simp, by rw [hrun]; simp, by omega⟩
      · rename_i hend
        split at h
        · cases h
        · rename_i input hin
          split at h
          · rename_i hdash
            obtain ⟨_, hce, h1⟩ := Chk.bind_eq_ok h
            cases h1
            have hneg : count ≤ 0 := by
              unfold Chk.check_error at hce
              split at hce
              · rename_i hc; simpa using hc
              · cases hce
            have hrun := value_run_eq_nil (Or.inr ⟨input, hin, hdash⟩)
            exact ⟨0, rfl, by omega, by simp, by simp, by rw [hrun]; simp, by omega⟩
          · rename_i hdash
            obtain ⟨b, hch, h1⟩ := Chk.bind_eq_ok h
            have hb := parse_choices_ok hch
            subst hb
            obtain ⟨n, e1, e2, e3, e4, e5, e6⟩ := ih _ _ _ _ h1
            have hcons := value_run_cons hin (by simpa using hdash)
            refine ⟨n + 1, by omega, by rw [hcons]; simp; omega, ?_, ?_, ?_, ?_⟩
            · rw [e3, hcons]
              simp
            · intro t ht
              rw [hcons, List.take_succ_cons, List.mem_cons] at ht
              rcases ht with ht | ht
              · rw [ht]; exact hch
              · exact e4 t ht
            · intro hc
              rw [hcons, List.length_cons, e5 (by omega)]
            · intro hc
              have := e6 (by omega)
              omega

theorem check_error_ok_iff {c : Bool} {m : String} {u : Unit}
    (h : Chk.check_error c m = .ok u) : c = true := by
  unfold Chk.check_error at h
  split at h
  · assumption
  · cases h

/-- What a call of `parse_nargs` that does not fail has done: it has taken the
first `n` value tokens after the start position, the choice set accepted each,
and only the value of the entry has changed. -/
theorem parse_nargs_ok {libc : Libc} {entry : ParamEntry} {p : Nat} {argv : List String}
    {r : ParamEntry × Nat} (h : parse_nargs libc entry p argv = .ok r) :
    ∃ n, r.2 = p + n ∧ n ≤ (value_run argv p).length ∧
      (∀ t ∈ (value_run argv p).take n,
        parse_choices libc (parse libc t entry.value_type) entry = .ok true) ∧
      (entry.nargs = .NARGS_QUESTION →
        (value_run argv p = [] ∧ n = 0 ∧ r.1 = { entry with value := entry.const_value }) ∨
        (∃ t rest, value_run argv p = t :: rest ∧ n = 1 ∧
          r.1 = { entry with value := parse libc t entry.value_type })) ∧
      (entry.nargs ≠ .NARGS_QUESTION →
        r.1.value = collect (((value_run argv p).take n).map fun t =>
          parse libc t entry.value_type) ∧
        r.1 = { entry with value := r.1.value } ∧
        (entry.nargs = .NARGS_ADD ∨ entry.nargs = .NARGS_N → value_run argv p ≠ []) ∧
        (entry.nargs ≠ .NARGS_N ∨ entry.nargs_number < 0 → n = (value_run argv p).length) ∧
        (entry.nargs = .NARGS_N → 0 ≤ entry.nargs_number → (n : Int) = entry.nargs_number)) := by
  unfold parse_nargs at h
  split at h
  · rename_i hq
    split at h
    · rename_i hend
      cases h
      have hrun := value_run_eq_nil (Or.inl hend)
      exact ⟨0, rfl, by omega, by simp, fun _ => Or.inl ⟨hrun, rfl, rfl⟩, fun hn => absurd hq hn⟩
    · split at h
      · cases h
      · rename_i input hin
        split at h
        · rename_i hdash
          cases h
          have hrun := value_run_eq_nil (Or.inr ⟨input, hin, hdash⟩)
          exact ⟨0, rfl, by omega, by simp, fun _ => Or.inl ⟨hrun, rfl, rfl⟩,
            fun hn => absurd hq hn⟩
        · rename_i hdash
          obtain ⟨b, hch, h1⟩ := Chk.bind_eq_ok h
          have hb := parse_choices_ok hch
          subst hb
          cases h1
          have hcons := value_run_cons hin (by simpa using hdash)
          refine ⟨1, rfl, by rw [hcons]; simp, ?_, fun _ => Or.inr ⟨input, _, hcons, rfl, rfl⟩,
            fun hn => absurd hq hn⟩
          intro t ht
          rw [hcons] at ht
          simp only [List.take_succ_cons, List.take_zero, List.mem_singleton] at ht
          rw [ht]
          exact hch
  · rename_i hq
    dsimp only at h
    obtain ⟨_, hfirst, h1⟩ := Chk.bind_eq_ok h
    obtain ⟨lr, hloop, h2⟩ := Chk.bind_eq_ok h1
    cases h2
    obtain ⟨n, e1, e2, e3, e4, e5, e6⟩ := nargs_loop_ok libc entry argv _ _ _ _ _ hloop
    refine ⟨n, e1, e2, e4, fun hn => absurd hn hq, fun _ => ⟨?_, rfl, ?_, ?_, ?_⟩⟩
    · rw [e3]
      simp
    · intro hn
      rw [if_pos hn] at hfirst
      obtain ⟨_, hc1, h3⟩ := Chk.bind_eq_ok hfirst
      have hlt := check_error_ok_iff hc1
      simp only [decide_eq_true_eq] at hlt
      split at h3
      · cases h3
      · rename_i input hin
        have hnd := check_error_ok_iff h3
        have hcons := value_run_cons hin (by simpa using hnd)
        rw [hcons]
        simp
    · intro hn
      apply e5
      rcases hn with hn | hn
      · rw [if_neg hn]; omega
      · by_cases hN : entry.nargs = .NARGS_N
        · rw [if_pos hN]; exact hn
        · rw [if_neg hN]; omega
    · intro hN h0
      have := e6 (by rw [if_pos hN]; exact h0)
      rw [if_pos hN] at this
      exact this

/-! ## What an iteration has done -/

/-- The inner loop over the entries with an action, when it ends without a
failure, has moved the positional cursor past entries with an action only, and
has stopped at the end of `positional_index` or at an entry without an action. -/
theorem skip_actions_ok (l : List ParamEntry) (pi : List Nat) :
    ∀ (fuel p p1 : Nat), skip_actions l pi fuel p = .ok p1 →
      p ≤ p1 ∧
      (∀ k, p ≤ k → k < p1 → ∃ i e, pi[k]? = some i ∧ l[i]? = some e ∧ e.action ≠ .NONE) ∧
      (p1 < pi.length → ∃ i e, pi[p1]? = some i ∧ l[i]? = some e ∧ e.action = .NONE) := by
  intro fuel
  induction fuel with
  | zero =>
    intro p p1 h
    simp [skip_actions] at h
  | succ fuel ih =>
    intro p p1 h
    rw [skip_actions] at h
    split at h
    · rename_i hlt
      split at h
      · cases h
      · rename_i i hi
        split at h
        · cases h
        · rename_i e he
          split at h
          · rename_i ha
            obtain ⟨h1, h2, h3⟩ := ih _ _ h
            refine ⟨by omega, ?_, h3⟩
            intro k hk1 hk2
            by_cases hkp : k = p
            · subst hkp
              exact ⟨i, e, hi, he, ha⟩
            · exact h2 k (by omega) hk2
          · rename_i ha
            cases h
            exact ⟨le_refl _, fun k h1 h2 => by omega, fun _ => ⟨i, e, hi, he, by simpa using ha⟩⟩
    · rename_i hlt
      cases h
      exact ⟨le_refl _, fun k h1 h2 => by omega, fun h => absurd h hlt⟩

/-- What an iteration of the main loop that does not fail has done. -/
theorem parse_step_ok {libc : Libc} {short long : List (String × Nat)}
    {positional_index : List Nat} {argv : List String} {st st1 : ParseState}
    (h : parse_step libc short long positional_index argv st = .ok st1) :
    ∃ input i entry v, argv[st.p_input_index]? = some input ∧ input ≠ "--help" ∧ input ≠ "-h" ∧
      st.param_entries[i]? = some entry ∧
      st1.param_entries = st.param_entries.set i { entry with value := v, filled := true } ∧
      ((starts_with input "-" = false ∧ entry.action = .NONE ∧
          (∃ p1, st.p_entry_index ≤ p1 ∧ positional_index[p1]? = some i ∧
            st1.p_entry_index = p1 + 1 ∧
            ∀ k, st.p_entry_index ≤ k → k < p1 →
              ∃ i1 e1, positional_index[k]? = some i1 ∧ st.param_entries[i1]? = some e1 ∧
                e1.action ≠ .NONE) ∧
          ((entry.nargs = .NONE ∧ st1.p_input_index = st.p_input_index + 1 ∧
              v = parse libc input entry.value_type ∧
              parse_choices libc (parse libc input entry.value_type) entry = .ok true) ∨
            (entry.nargs ≠ .NONE ∧
              ∃ r, parse_nargs libc entry (st.p_input_index - 1) argv = .ok r ∧
                st1.p_input_index = r.2 + 1 ∧ v = r.1.value))) ∨
        (starts_with input "-" = true ∧ st1.p_entry_index = st.p_entry_index ∧
          (∃ name, lookup_flag short long input = .ok (name, i)) ∧
          ((entry.action ≠ .NONE ∧ st1.p_input_index = st.p_input_index + 1) ∨
            (entry.action = .NONE ∧ entry.nargs ≠ .NONE ∧
              ∃ r, parse_nargs libc entry st.p_input_index argv = .ok r ∧
                st1.p_input_index = r.2 + 1 ∧ v = r.1.value) ∨
            (entry.action = .NONE ∧ entry.nargs = .NONE ∧
              st1.p_input_index = st.p_input_index + 2 ∧
              ∃ value_text, argv[st.p_input_index + 1]? = some value_text ∧
                v = parse libc value_text entry.value_type ∧
                parse_choices libc (parse libc value_text entry.value_type) entry =
                  .ok true)))) := by
  unfold parse_step at h
  split at h
  · cases h
  · rename_i input hin
    split at h
    · cases h
    · rename_i hhelp
      have hh1 : input ≠ "--help" := fun hc => hhelp (Or.inl hc)
      have hh2 : input ≠ "-h" := fun hc => hhelp (Or.inr hc)
      split at h
      · rename_i hdash
        have hnd : starts_with input "-" = false := by simpa using hdash
        unfold positional_token at h
        obtain ⟨p1, hskip, h1⟩ := Chk.bind_eq_ok h
        obtain ⟨_, hce, h2⟩ := Chk.bind_eq_ok h1
        have hlt := check_error_ok_iff hce
        simp only [decide_eq_true_eq] at hlt
        obtain ⟨s1, s2, s3⟩ := skip_actions_ok _ _ _ _ _ hskip
        obtain ⟨i0, e0, hi0, he0, ha0⟩ := s3 hlt
        rw [hi0] at h2
        simp only [he0] at h2
        rw [if_neg (by simp [ha0])] at h2
        split at h2
        · rename_i hn
          obtain ⟨r, hr, h3⟩ := Chk.bind_eq_ok h2
          obtain ⟨n, _, _, _, _, _⟩ := parse_nargs_ok hr
          obtain ⟨v, hv⟩ := parse_nargs_value_only hr
          cases h3
          refine ⟨input, i0, e0, v, hin, hh1, hh2, he0, by simp only [hv], Or.inl
            ⟨hnd, ha0, ⟨p1, s1, hi0, rfl, s2⟩, Or.inr ⟨hn, r, hr, rfl, by rw [hv]⟩⟩⟩
        · rename_i hn
          obtain ⟨b, hch, h3⟩ := Chk.bind_eq_ok h2
          have hb := parse_choices_ok hch
          subst hb
          cases h3
          exact ⟨input, i0, e0, _, hin, hh1, hh2, he0, rfl, Or.inl
            ⟨hnd, ha0, ⟨p1, s1, hi0, rfl, s2⟩, Or.inl ⟨by simpa using hn, rfl, rfl, hch⟩⟩⟩
      · rename_i hdash
        have hd : starts_with input "-" = true := by simpa using hdash
        unfold optional_token at h
        obtain ⟨found, hfound, h1⟩ := Chk.bind_eq_ok h
        split at h1
        · cases h1
        · rename_i entry he
          split at h1
          · rename_i ha
            cases h1
            refine ⟨input, found.2, entry,
              (if entry.action = .ACTION_STORE_FALSE then .bool false
                else if entry.action = .ACTION_STORE_TRUE then .bool true
                else if entry.action = .ACTION_STORE_CONST then entry.const_value
                else entry.value), hin, hh1, hh2, he, ?_, Or.inr
              ⟨hd, rfl, ⟨found.1, hfound⟩, Or.inl ⟨ha, rfl⟩⟩⟩
            simp only
            congr 1
            split_ifs <;> rfl
          · rename_i ha
            have ha1 : entry.action = .NONE := by simpa using ha
            split at h1
            · rename_i hn
              obtain ⟨r, hr, h3⟩ := Chk.bind_eq_ok h1
              obtain ⟨v, hv⟩ := parse_nargs_value_only hr
              cases h3
              exact ⟨input, found.2, entry, v, hin, hh1, hh2, he, by simp only [hv], Or.inr
                ⟨hd, rfl, ⟨found.1, hfound⟩, Or.inr (Or.inl ⟨ha1, hn, r, hr, rfl, by rw [hv]⟩)⟩⟩
            · rename_i hn
              obtain ⟨_, hce, h3⟩ := Chk.bind_eq_ok h1
              split at h3
              · cases h3
              · rename_i value_text hvt
                obtain ⟨b, hch, h4⟩ := Chk.bind_eq_ok h3
                have hb := parse_choices_ok hch
                subst hb
                cases h4
                exact ⟨input, found.2, entry, _, hin, hh1, hh2, he, rfl, Or.inr
                  ⟨hd, rfl, ⟨found.1, hfound⟩, Or.inr (Or.inr
                    ⟨ha1, by simpa using hn, rfl, value_text, hvt, rfl, hch⟩)⟩⟩

/-! ## The course of the main loop -/

theorem Chk.bind_assoc {α β γ : Type} (x : Chk α) (f : α → Chk β) (g : β → Chk γ) :
    (x.bind f).bind g = x.bind fun a => (f a).bind g := by
  cases x <;> rfl

theorem main_loop_iterations (libc : Libc) (short long : List (String × Nat))
    (pi : List Nat) (argv : List String) (fuel : Nat) :
    ∀ (k : Nat) (st : ParseState),
      main_loop libc short long pi argv (k + fuel) st =
        (iterations libc short long pi argv k st).bind (main_loop libc short long pi argv fuel) := by
  intro k
  induction k with
  | zero =>
    intro st
    simp [iterations]
  | succ k ih =>
    intro st
    have e : k + 1 + fuel = (k + fuel) + 1 := by omega
    rw [e, main_loop, iterations]
    split
    · rw [Chk.bind_assoc]
      congr 1
      funext st1
      exact ih st1
    · rename_i hlt
      simp only [Chk.ok_bind]
      cases fuel with
      | zero => simp [main_loop, hlt]
      | succ fuel => simp [main_loop, hlt]

/-- An iteration that does not fail moves the token cursor or the positional
cursor forward, and neither back. -/
theorem parse_step_progress {libc : Libc} {short long : List (String × Nat)}
    {pi : List Nat} {argv : List String} {st st1 : ParseState}
    (h : parse_step libc short long pi argv st = .ok st1) :
    st.p_input_index + st.p_entry_index < st1.p_input_index + st1.p_entry_index ∧
      st.p_input_index ≤ st1.p_input_index ∧ st.p_entry_index ≤ st1.p_entry_index ∧
      (st.p_entry_index ≤ pi.length → st1.p_entry_index ≤ pi.length) ∧
      st1.param_entries.length = st.param_entries.length := by
  obtain ⟨input, i, entry, v, _, _, _, _, hset, hcase⟩ := parse_step_ok h
  have hlen : st1.param_entries.length = st.param_entries.length := by
    rw [hset, List.length_set]
  rcases hcase with ⟨_, _, ⟨p1, hp1, hpi, hp2, _⟩, hc⟩ | ⟨_, hp, _, hc⟩
  · have hlt : p1 < pi.length := by
      by_contra hcon
      rw [List.getElem?_eq_none (by omega)] at hpi
      cases hpi
    rcases hc with ⟨_, hc, _⟩ | ⟨_, r, hr, hc, _⟩
    · exact ⟨by omega, by omega, by omega, fun _ => by omega, hlen⟩
    · obtain ⟨n, hn, _⟩ := parse_nargs_ok hr
      exact ⟨by omega, by omega, by omega, fun _ => by omega, hlen⟩
  · rcases hc with ⟨_, hc⟩ | ⟨_, _, r, hr, hc, _⟩ | ⟨_, _, hc, _⟩
    · exact ⟨by omega, by omega, by omega, fun h => by omega, hlen⟩
    · obtain ⟨n, hn, _⟩ := parse_nargs_ok hr
      exact ⟨by omega, by omega, by omega, fun h => by omega, hlen⟩
    · exact ⟨by omega, by omega, by omega, fun h => by omega, hlen⟩

/-- After `k` iterations with a token left to read, the two cursors have moved
by `k` at least between them. -/
theorem iterations_progress {libc : Libc} {short long : List (String × Nat)}
    {pi : List Nat} {argv : List String} :
    ∀ (k : Nat) (st st1 : ParseState),
      iterations libc short long pi argv k st = .ok st1 → st1.p_input_index < argv.length →
      st.p_input_index + st.p_entry_index + k ≤ st1.p_input_index + st1.p_entry_index ∧
        (st.p_entry_index ≤ pi.length → st1.p_entry_index ≤ pi.length) ∧
        st1.param_entries.length = st.param_entries.length := by
  intro k
  induction k with
  | zero =>
    intro st st1 h _
    simp only [iterations, Chk.ok.injEq] at h
    subst h
    exact ⟨by omega, fun h => h, rfl⟩
  | succ k ih =>
    intro st st1 h hlt
    rw [iterations] at h
    split at h
    · obtain ⟨st2, hstep, h1⟩ := Chk.bind_eq_ok h
      obtain ⟨p1, _, _, p4, p5⟩ := parse_step_progress hstep
      obtain ⟨q1, q2, q3⟩ := ih st2 st1 h1 hlt
      exact ⟨by omega, fun h => q2 (p4 h), by rw [q3, p5]⟩
    · rename_i hge
      simp only [Chk.ok.injEq] at h
      subst h
      exact absurd hlt hge

theorem prepass_positions_length (s : ArgumentParser) :
    s.prepass.2.length ≤ s.prepass.1.param_entries_.length := by
  rw [prepass_positions, prepass_registry, positions_length]
  exact List.length_filter_le _ _

/-- When the main loop of a parse call gets to a state whose iteration fails or
meets the help token, the main loop and the finalizer end in the same way. -/
theorem parse_entries_of_loop_at {libc : Libc} {s : ArgumentParser} {argv : List String}
    {st : ParseState} (h : s.loop_at libc argv st) :
    (∀ m, parse_step libc s.prepass.1.optional_short_key_ s.prepass.1.optional_long_key_
        s.prepass.2 argv st = .fail m →
      parse_entries libc s.prepass.1 s.prepass.2 argv = .fail m) ∧
    (parse_step libc s.prepass.1.optional_short_key_ s.prepass.1.optional_long_key_
        s.prepass.2 argv st = .help →
      parse_entries libc s.prepass.1 s.prepass.2 argv = .help) := by
  obtain ⟨hlt, k, hk⟩ := h
  obtain ⟨p1, p2, _⟩ := iterations_progress k _ _ hk hlt
  have hpi := prepass_positions_length s
  have hp0 : s.start.p_entry_index ≤ s.prepass.2.length := by
    simp [ArgumentParser.start]
  have hp := p2 hp0
  have hs1 : s.start.p_input_index = 1 := rfl
  have hs2 : s.start.p_entry_index = 0 := rfl
  obtain ⟨f, hf⟩ : ∃ f, argv.length + s.prepass.1.param_entries_.length = k + (f + 1) :=
    ⟨argv.length + s.prepass.1.param_entries_.length - k - 1, by omega⟩
  have key : ∀ x : Chk ParseState,
      parse_step libc s.prepass.1.optional_short_key_ s.prepass.1.optional_long_key_
          s.prepass.2 argv st = x →
      parse_entries libc s.prepass.1 s.prepass.2 argv =
        (x.bind (main_loop libc s.prepass.1.optional_short_key_ s.prepass.1.optional_long_key_
          s.prepass.2 argv f)).bind fun st1 => finalize st1.param_entries := by
    intro x hx
    unfold parse_entries
    rw [hf, main_loop_iterations]
    unfold ArgumentParser.start at hk
    rw [hk, Chk.ok_bind, main_loop, if_pos hlt, hx]
  exact ⟨fun m hm => by rw [key _ hm]; rfl, fun hm => by rw [key _ hm]; rfl⟩

/-- A parse call whose main loop gets to an iteration that fails, fails with the
message of the iteration; one whose main loop meets the help token exits with
code 0. -/
theorem parse_of_loop_at {libc : Libc} {s : ArgumentParser} {argv : List String}
    {st : ParseState} (h : s.loop_at libc argv st) :
    (∀ m, parse_step libc s.prepass.1.optional_short_key_ s.prepass.1.optional_long_key_
        s.prepass.2 argv st = .fail m →
      (s.parse_args_any_type libc argv).failed_with m) ∧
    (parse_step libc s.prepass.1.optional_short_key_ s.prepass.1.optional_long_key_
        s.prepass.2 argv st = .help →
      s.parse_args_any_type libc argv = .exited 0 "") := by
  obtain ⟨h1, h2⟩ := parse_entries_of_loop_at h
  constructor
  · intro m hm
    unfold ArgumentParser.parse_args_any_type
    simp only [h1 m hm, ArgumentParser.finish]
    exact raise_failed_with _ _
  · intro hm
    unfold ArgumentParser.parse_args_any_type
    simp only [h2 hm, ArgumentParser.finish]

/-- The main loop leaves alone every entry that is not in `positional_index` and
that no token of the vector that starts with `-` is looked up to. -/
theorem main_loop_untouched {libc : Libc} {short long : List (String × Nat)}
    {pi : List Nat} {argv : List String} (j : Nat) (hpi : j ∉ pi)
    (hflag : ∀ t ∈ argv, starts_with t "-" = true →
      ∀ name, lookup_flag short long t ≠ .ok (name, j)) :
    ∀ (fuel : Nat) (st st1 : ParseState),
      main_loop libc short long pi argv fuel st = .ok st1 →
      st1.param_entries[j]? = st.param_entries[j]? := by
  intro fuel
  induction fuel with
  | zero =>
    intro st st1 h
    rw [main_loop] at h
    split at h
    · cases h
    · cases h; rfl
  | succ fuel ih =>
    intro st st1 h
    rw [main_loop] at h
    split at h
    · obtain ⟨st2, hstep, h1⟩ := Chk.bind_eq_ok h
      rw [ih st2 st1 h1]
      obtain ⟨input, i, entry, v, hin, _, _, _, hset, hcase⟩ := parse_step_ok hstep
      have hne : i ≠ j := by
        rcases hcase with ⟨_, _, ⟨p1, _, hp, _⟩, _⟩ | ⟨hd, _, ⟨name, hl⟩, _⟩
        · intro hij
          rw [hij] at hp
          exact hpi (List.getElem?_mem hp)
        · intro hij
          rw [hij] at hl
          exact hflag input (List.getElem?_mem hin) hd name hl
      rw [hset, List.getElem?_set_ne hne]
    · cases h; rfl

/-! ## The checks of the builder in the reachable states -/

theorem Policy.of_print_help {libc : Libc} {s : ArgumentParser} (h : Policy s) : Policy (s.print_help libc) :=
  ⟨fun e he => h.registry e ((libc.sort_perm _).mem_iff.mp he), h.now, h.short_named,
    h.long_named⟩

theorem Policy.of_now {s : ArgumentParser} (h : Policy s) (e : ParamEntry)
    (he : policy_ok e) : Policy { s with now_entry_ := e } :=
  ⟨h.registry, he, h.short_named, h.long_named⟩

theorem policy_ok_blank : policy_ok ParamEntry.blank :=
  ⟨fun h => by simp [ParamEntry.blank] at h, fun h => by simp [ParamEntry.blank] at h⟩

theorem long_name_policy {libc : Libc} {s s1 : ArgumentParser} {n : String}
    (h : (s.long_name libc n).state = some s1) (hi : Policy s) : Policy s1 := by
  unfold ArgumentParser.long_name at h
  rcases check_error_cases h with ⟨_, h⟩ | h
  · rcases check_error_cases h with ⟨_, h⟩ | h
    · rcases check_error_cases h with ⟨_, h⟩ | h
      · rw [ok_state h]; exact hi.of_now _ hi.now
      · rw [h]; exact hi.of_print_help
    · rw [h]; exact hi.of_print_help
  · rw [h]; exact hi.of_print_help

theorem short_name_policy {libc : Libc} {s s1 : ArgumentParser} {n : String}
    (h : (s.short_name libc n).state = some s1) (hi : Policy s) : Policy s1 := by
  unfold ArgumentParser.short_name at h
  rcases check_error_cases h with ⟨_, h⟩ | h
  · rcases check_error_cases h with ⟨_, h⟩ | h
    · rcases check_error_cases h with ⟨_, h⟩ | h
      · rw [ok_state h]; exact hi.of_now _ hi.now
      · rw [h]; exact hi.of_print_help
    · rw [h]; exact hi.of_print_help
  · rw [h]; exact hi.of_print_help

theorem positional_name_policy {libc : Libc} {s s1 : ArgumentParser} {n : String}
    (h : (s.positional_name libc n).state = some s1) (hi : Policy s) : Policy s1 := by
  unfold ArgumentParser.positional_name at h
  rcases check_error_cases h with ⟨_, h⟩ | h
  · rcases check_error_cases h with ⟨_, h⟩ | h
    · rcases check_error_cases h with ⟨_, h⟩ | h
      · rcases check_error_cases h with ⟨_, h⟩ | h
        · rw [ok_state h]; exact hi.of_now _ hi.now
        · rw [h]; exact hi.of_print_help
      · rw [h]; exact hi.of_print_help
    · rw [h]; exact hi.of_print_help
  · rw [h]; exact hi.of_print_help

theorem default_value_policy {libc : Libc} {s s1 : ArgumentParser} {v : Literal}
    (h : (s.default_value libc v).state = some s1) (hi : Policy s) : Policy s1 := by
  unfold ArgumentParser.default_value at h
  rcases check_error_cases h with ⟨_, h⟩ | h
  · rw [ok_state h]; exact hi.of_now _ hi.now
  · rw [h]; exact hi.of_print_help

theorem const_value_policy {libc : Libc} {s s1 : ArgumentParser} {v : Literal}
    (h : (s.const_value libc v).state = some s1) (hi : Policy s) : Policy s1 := by
  unfold ArgumentParser.const_value at h
  rcases check_error_cases h with ⟨_, h⟩ | h
  · dsimp only at h
    split at h
    · rw [ok_state h]; exact hi.of_now _ hi.now
    · split at h
      · rw [ok_state h]; exact hi.of_now _ hi.now
      · rcases check_error_cases h with ⟨hc, _⟩ | h
        · cases hc
        · rw [h]
          refine Policy.of_print_help (Policy.of_now hi _ ?_)
          exact hi.now
  · rw [h]; exact hi.of_print_help

theorem help_policy {s s1 : ArgumentParser} {t : String}
    (h : (s.help t).state = some s1) (hi : Policy s) : Policy s1 := by
  unfold ArgumentParser.help at h
  rw [ok_state h]; exact hi.of_now _ hi.now

theorem nargs_policy {libc : Libc} {s s1 : ArgumentParser} {t : String}
    (h : (s.nargs libc t).state = some s1) (hi : Policy s) : Policy s1 := by
  unfold ArgumentParser.nargs at h
  rcases check_error_cases h with ⟨hc, h⟩ | h
  · have ha : s.now_entry_.action = .NONE := by simpa using hc
    split_ifs at h
    · rw [ok_state h]; exact hi.of_now _ ⟨fun _ => ha, fun hn => by cases hn⟩
    · rw [ok_state h]; exact hi.of_now _ ⟨fun _ => ha, fun hn => by cases hn⟩
    · rw [ok_state h]; exact hi.of_now _ ⟨fun _ => ha, fun hn => by cases hn⟩
    · rcases check_error_cases h with ⟨hc, _⟩ | h
      · cases hc
      · rw [h]; exact hi.of_print_help
  · rw [h]; exact hi.of_print_help

theorem nargs_int_policy {libc : Libc} {s s1 : ArgumentParser} {n : Int}
    (h : (s.nargs_int libc n).state = some s1) (hi : Policy s) : Policy s1 := by
  unfold ArgumentParser.nargs_int at h
  rcases check_error_cases h with ⟨hc, h⟩ | h
  · have hn : 0 < n := by simpa using hc
    rw [ok_state h]
    exact hi.of_now _ ⟨fun hq => by simp at hq, fun _ => hn⟩
  · rw [h]; exact hi.of_print_help

theorem action_policy {libc : Libc} {s s1 : ArgumentParser} {a : String}
    (h : (s.action libc a).state = some s1) (hi : Policy s) : Policy s1 := by
  unfold ArgumentParser.action at h
  rcases check_error_cases h with ⟨_, h⟩ | h
  · rcases check_error_cases h with ⟨hc, h⟩ | h
    · have hn : s.now_entry_.nargs = .NONE := by
        simp only [Bool.and_eq_true, decide_eq_true_eq] at hc
        exact hc.2
      split_ifs at h
      · rw [ok_state h]
        exact hi.of_now _ ⟨fun hq => by simp [hn] at hq, fun hq => by simp [hn] at hq⟩
      · rw [ok_state h]
        exact hi.of_now _ ⟨fun hq => by simp [hn] at hq, fun hq => by simp [hn] at hq⟩
      · rw [ok_state h]
        exact hi.of_now _ ⟨fun hq => by simp [hn] at hq, fun hq => by simp [hn] at hq⟩
      · rcases check_error_cases h with ⟨hc, _⟩ | h
        · cases hc
        · rw [h]; exact hi.of_print_help
    · rw [h]; exact hi.of_print_help
  · rw [h]; exact hi.of_print_help

theorem dest_policy {libc : Libc} {s s1 : ArgumentParser} {d : String}
    (h : (s.dest libc d).state = some s1) (hi : Policy s) : Policy s1 := by
  unfold ArgumentParser.dest at h
  rcases check_error_cases h with ⟨_, h⟩ | h
  · rw [ok_state h]; exact hi.of_now _ hi.now
  · rw [h]; exact hi.of_print_help

theorem choices_policy {libc : Libc} {s s1 : ArgumentParser} {v : ChoiceList}
    (h : (s.choices libc v).state = some s1) (hi : Policy s) : Policy s1 := by
  unfold ArgumentParser.choices at h
  rcases check_error_cases h with ⟨_, h⟩ | h
  · rw [ok_state h]; exact hi.of_now _ hi.now
  · rw [h]; exact hi.of_print_help

theorem type_policy {s s1 : ArgumentParser} {t : ValueType}
    (h : (s.type t).state = some s1) (hi : Policy s) : Policy s1 := by
  unfold ArgumentParser.type at h
  rw [ok_state h]; exact hi.of_now _ hi.now

theorem done_policy {libc : Libc} {s s1 : ArgumentParser} (h : (s.done libc).state = some s1) (hi : Policy s) :
    Policy s1 := by
  unfold ArgumentParser.done at h
  dsimp only at h
  rcases check_error_cases h with ⟨_, h⟩ | h
  · rcases check_error_cases h with ⟨hc, h⟩ | h
    · rw [ok_state h]
      refine ⟨?_, policy_ok_blank, ?_, ?_⟩
      rotate_left
      · simp only [ArgumentParser.init, ArgumentParser.register_now]
        split_ifs with hk
        · rw [map_find_set_other _ _ _ _ hk]; exact hi.short_named
        · exact hi.short_named
      · simp only [ArgumentParser.init, ArgumentParser.register_now]
        split_ifs with hk
        · rw [map_find_set_other _ _ _ _ hk]; exact hi.long_named
        · exact hi.long_named
      intro e he
      simp only [ArgumentParser.init, ArgumentParser.register_now, List.mem_append,
        List.mem_singleton] at he
      rcases he with he | he
      · exact hi.registry e he
      · rw [he]
        refine ⟨hi.now, ?_⟩
        intro ha
        simp only [ArgumentParser.register_now, Bool.or_eq_true, decide_eq_true_eq] at hc
        rcases hc with hc | hc
        · exact absurd ha hc
        · exact hc
    · rw [h]
      refine ⟨fun e he => hi.registry e ((libc.sort_perm _).mem_iff.mp he), hi.now, ?_, ?_⟩
      · simp only [ArgumentParser.print_help, ArgumentParser.register_now]
        split_ifs with hk
        · rw [map_find_set_other _ _ _ _ hk]; exact hi.short_named
        · exact hi.short_named
      · simp only [ArgumentParser.print_help, ArgumentParser.register_now]
        split_ifs with hk
        · rw [map_find_set_other _ _ _ _ hk]; exact hi.long_named
        · exact hi.long_named
  · rw [h]
    exact ⟨fun e he => hi.registry e ((libc.sort_perm _).mem_iff.mp he), hi.now,
      hi.short_named, hi.long_named⟩

theorem prepass_perm (s : ArgumentParser) : s.prepass.1.param_entries_.Perm s.param_entries_ := by
  rw [prepass_registry]
  exact stable_sort_perm _ _

theorem index_entries_named (l : List ParamEntry) :
    ∀ (n : Nat) (s : ArgumentParser) (pi : List Nat),
      map_find s.optional_short_key_ "" = none → map_find s.optional_long_key_ "" = none →
      map_find (index_entries l n s pi).1.optional_short_key_ "" = none ∧
        map_find (index_entries l n s pi).1.optional_long_key_ "" = none := by
  induction l with
  | nil => exact fun _ _ _ h1 h2 => ⟨h1, h2⟩
  | cons e l ih =>
    intro n s pi h1 h2
    rw [index_entries]
    apply ih
    · simp only [index_entry]
      split_ifs with hk
      · rw [map_find_set_other _ _ _ _ hk]; exact h1
      · exact h1
    · simp only [index_entry]
      split_ifs with hk
      · rw [map_find_set_other _ _ _ _ hk]; exact h2
      · exact h2

theorem Policy.of_prepass {s : ArgumentParser} (hi : Policy s) : Policy s.prepass.1 := by
  obtain ⟨h1, h2⟩ := index_entries_named (stable_sort required_first s.param_entries_) 0
    { s with param_entries_ := stable_sort required_first s.param_entries_ } []
    hi.short_named hi.long_named
  exact ⟨fun e he => hi.registry e ((prepass_perm s).mem_iff.mp he),
    by rw [prepass_now_entry]; exact hi.now, h1, h2⟩

theorem finish_policy {libc : Libc} {α β : Type} {s1 s2 : ArgumentParser} {r : Chk α} {f : α → β}
    (h : (s1.finish libc r f).state = some s2) (h1 : Policy s1) : Policy s2 := by
  unfold ArgumentParser.finish at h
  cases r with
  | ok a => rw [ok_state h]; exact h1
  | fail m => rw [raise_state h]; exact h1.of_print_help
  | help => simp [Res.state] at h
  | undefined => simp [Res.state] at h
  | nofuel => simp [Res.state] at h

/-- Every call keeps the policies of the entries. -/
theorem Call.keeps_policy (libc : Libc) (c : Call) {s s1 : ArgumentParser}
    (h : (c.run libc s).state = some s1) (hi : Policy s) : Policy s1 := by
  cases c with
  | set_error_mode m =>
    simp only [Call.run, ArgumentParser.set_error_mode] at h
    rw [ok_state h]; exact ⟨hi.registry, hi.now, hi.short_named, hi.long_named⟩
  | long_name n => exact long_name_policy h hi
  | short_name n => exact short_name_policy h hi
  | positional_name n => exact positional_name_policy h hi
  | default_value v => exact default_value_policy h hi
  | const_value v => exact const_value_policy h hi
  | help t => exact help_policy h hi
  | nargs t => exact nargs_policy h hi
  | nargs_int n => exact nargs_int_policy h hi
  | action a => exact action_policy h hi
  | dest d => exact dest_policy h hi
  | choices a => exact choices_policy h hi
  | type t => exact type_policy h hi
  | done => exact done_policy h hi
  | add_argument l d t =>
    simp only [Call.run, ArgumentParser.add_argument] at h
    rcases and_then_state h with ⟨_, s2, h1, h2⟩ | ⟨e, h1⟩
    · have e2 : Policy s2 := long_name_policy (by rw [h1]; rfl) hi
      rcases and_then_state h2 with ⟨_, s3, h3, h4⟩ | ⟨e, h3⟩
      · have e3 : Policy s3 := default_value_policy (by rw [h3]; rfl) e2
        rcases and_then_state h4 with ⟨_, s4, h5, h6⟩ | ⟨e, h5⟩
        · exact done_policy h6 (help_policy (by rw [h5]; rfl) e3)
        · exact help_policy (by rw [h5]; rfl) e3
      · exact default_value_policy (by rw [h3]; rfl) e2
    · exact long_name_policy (by rw [h1]; rfl) hi
  | parse_args_any_type argv =>
    simp only [Call.run, void_state] at h
    unfold ArgumentParser.parse_args_any_type at h
    exact finish_policy h hi.of_prepass
  | parse_args_string argv =>
    simp only [Call.run, void_state] at h
    unfold ArgumentParser.parse_args_string at h
    exact finish_policy h hi.of_prepass

/-- The policies of the entries hold in every reachable state. -/
theorem Reachable.policy {libc : Libc} {s : ArgumentParser} (h : Reachable libc s) :
    Policy s := by
  induction h with
  | new => exact ⟨fun _ he => (by cases he), policy_ok_blank, rfl, rfl⟩
  | call c _ hrun ih => exact c.keeps_policy libc hrun ih

theorem same_declaration_refl (e : ParamEntry) : same_declaration e e := rfl

theorem same_declaration_trans {e0 e1 e2 : ParamEntry} (h1 : same_declaration e0 e1)
    (h2 : same_declaration e1 e2) : same_declaration e0 e2 := by
  unfold same_declaration at *
  rw [h2, h1]

theorem same_declaration_policy {e0 e : ParamEntry} (h : same_declaration e0 e) :
    e.action = e0.action ∧ e.nargs = e0.nargs ∧ e.nargs_number = e0.nargs_number ∧
      e.const_value = e0.const_value ∧ e.default_value = e0.default_value ∧
      e.key = e0.key ∧ e.positional_key = e0.positional_key ∧ e.long_key = e0.long_key ∧
      e.short_key = e0.short_key ∧ e.value_type = e0.value_type ∧
      e.choices_array = e0.choices_array := by
  unfold same_declaration at h
  refine ⟨?_, ?_, ?_, ?_, ?_, ?_, ?_, ?_, ?_, ?_, ?_⟩ <;> rw [h]

/-- The iterations of the main loop write the value and the mark `filled` of the
entries only. -/
theorem iterations_declaration {libc : Libc} {short long : List (String × Nat)}
    {pi : List Nat} {argv : List String} :
    ∀ (k : Nat) (st st1 : ParseState),
      iterations libc short long pi argv k st = .ok st1 →
      ∀ (j : Nat) (e : ParamEntry), st1.param_entries[j]? = some e →
        ∃ e0, st.param_entries[j]? = some e0 ∧ same_declaration e0 e := by
  intro k
  induction k with
  | zero =>
    intro st st1 h j e he
    simp only [iterations, Chk.ok.injEq] at h
    subst h
    exact ⟨e, he, rfl⟩
  | succ k ih =>
    intro st st1 h j e he
    rw [iterations] at h
    split at h
    · obtain ⟨st2, hstep, h1⟩ := Chk.bind_eq_ok h
      obtain ⟨e2, he2, hd2⟩ := ih st2 st1 h1 j e he
      obtain ⟨input, i, entry, v, _, _, _, hent, hset, _⟩ := parse_step_ok hstep
      rw [hset] at he2
      by_cases hij : i = j
      · subst hij
        have hlt : i < st.param_entries.length := by
          by_contra hc
          rw [List.getElem?_eq_none (by omega)] at hent
          cases hent
        rw [List.getElem?_set_self hlt] at he2
        have e2eq := Option.some.inj he2
        refine ⟨entry, hent, same_declaration_trans ?_ hd2⟩
        rw [← e2eq]
        rfl
      · rw [List.getElem?_set_ne hij] at he2
        exact ⟨e2, he2, hd2⟩
    · simp only [Chk.ok.injEq] at h
      subst h
      exact ⟨e, he, rfl⟩

/-- Every entry of the working list of a parse call on a reachable object is a
committed entry up to its value and its mark `filled`, and passes the checks of
the builder. -/
theorem loop_at_entry {libc : Libc} {s : ArgumentParser} {argv : List String} {st : ParseState}
    (hr : Reachable libc s) (h : s.loop_at libc argv st) {j : Nat} {e : ParamEntry}
    (he : st.param_entries[j]? = some e) :
    (∃ e0 ∈ s.param_entries_, same_declaration e0 e) ∧ policy_ok e ∧ const_declared e := by
  obtain ⟨_, k, hk⟩ := h
  obtain ⟨e0, he0, hd⟩ := iterations_declaration k _ _ hk j e he
  have hmem : e0 ∈ s.param_entries_ :=
    (prepass_perm s).mem_iff.mp (List.getElem?_mem he0)
  obtain ⟨h1, h2⟩ := hr.policy.registry e0 hmem
  obtain ⟨p1, p2, p3, p4, _⟩ := same_declaration_policy hd
  refine ⟨⟨e0, hmem, hd⟩, ?_, ?_⟩
  · unfold policy_ok at *
    rw [p1, p2, p3]
    exact h1
  · unfold const_declared at *
    rw [p1, p4]
    exact h2

/-! ## Lemmas for the flags with a multiplicity -/

theorem at_flag_entry {short long : List (String × Nat)} {argv : List String} {st : ParseState}
    {j : Nat} {entry : ParamEntry} (h : at_flag short long argv st j entry) :
    st.param_entries[j]? = some entry := by
  obtain ⟨_, _, _, _, _, _, _, h6⟩ := h
  exact h6

/-- A flag token of an entry with a multiplicity that the main loop of a parse
call on a reachable object meets is handled by `parse_nargs`. -/
theorem step_nargs {libc : Libc} {s : ArgumentParser} (hr : Reachable libc s)
    {argv : List String} {st : ParseState} {j : Nat} {entry : ParamEntry}
    (hm : s.meets_flag libc argv st j entry)
    (hn : entry.nargs = .NARGS_QUESTION ∨ entry.nargs = .NARGS_STAR ∨
      entry.nargs = .NARGS_ADD) :
    entry.action = .NONE ∧
    s.step libc argv st =
      (parse_nargs libc entry st.p_input_index argv).bind fun r =>
        .ok { st with
              param_entries := st.param_entries.set j { r.1 with filled := true }
              p_input_index := r.2 + 1 } := by
  have hact : entry.action = .NONE :=
    (loop_at_entry hr hm.1 (at_flag_entry hm.2)).2.1.1 hn
  obtain ⟨name, hstep⟩ :=
    parse_step_at_flag libc _ _ s.prepass.2 argv st j entry hm.2
  refine ⟨hact, ?_⟩
  unfold ArgumentParser.step
  rw [hstep, if_neg (by simp [hact]), if_pos (by rcases hn with h | h | h <;> simp [h])]

theorem parse_nargs_question_none (libc : Libc) (entry : ParamEntry) (p : Nat)
    (argv : List String) (hn : entry.nargs = .NARGS_QUESTION)
    (h : p + 1 = argv.length ∨ ∃ t, argv[p + 1]? = some t ∧ starts_with t "-" = true) :
    parse_nargs libc entry p argv = .ok ({ entry with value := entry.const_value }, p) := by
  unfold parse_nargs
  rw [if_pos hn]
  rcases h with h | ⟨t, ht, hd⟩
  · rw [if_pos h]
  · have hne : p + 1 ≠ argv.length := by
      intro hc
      rw [List.getElem?_eq_none (by omega)] at ht
      cases ht
    rw [if_neg hne, ht]
    simp only [hd, if_true]

theorem parse_nargs_question_some (libc : Libc) (entry : ParamEntry) (p : Nat)
    (argv : List String) (hn : entry.nargs = .NARGS_QUESTION) (t : String)
    (ht : argv[p + 1]? = some t) (hd : starts_with t "-" = false) :
    parse_nargs libc entry p argv =
      (parse_choices libc (parse libc t entry.value_type) entry).bind fun _ =>
        .ok ({ entry with value := parse libc t entry.value_type }, p + 1) := by
  unfold parse_nargs
  have hne : p + 1 ≠ argv.length := by
    intro hc
    rw [List.getElem?_eq_none (by omega)] at ht
    cases ht
  rw [if_pos hn, if_neg hne, ht]
  simp only [hd, Bool.false_eq_true, if_false]

theorem parse_is_scalar (libc : Libc) (input : String) (value_type : ValueType) :
    (parse libc input value_type).is_scalar = true := by
  unfold parse
  split_ifs <;> rfl

set_option maxRecDepth 100000 in
theorem opt_state_reachable : Reachable Libc.zero opt_state :=
  chain_reachable Libc.zero
    [.long_name "--opt", .nargs "?", .const_value (.int 5), .done] .new (by decide)

/-! ## Tokens bound by position and the run of value tokens -/

/-- The inner loop over the entries with an action moves the positional cursor to
the first position whose entry has none, or to the end of `positional_index`. -/
theorem skip_actions_to (l : List ParamEntry) (pi : List Nat) (p1 : Nat)
    (hstop : p1 = pi.length ∨ ∃ i e, pi[p1]? = some i ∧ l[i]? = some e ∧ e.action = .NONE) :
    ∀ (fuel p : Nat), p ≤ p1 → p1 - p < fuel →
      (∀ k, p ≤ k → k < p1 → ∃ i e, pi[k]? = some i ∧ l[i]? = some e ∧ e.action ≠ .NONE) →
      skip_actions l pi fuel p = .ok p1 := by
  intro fuel
  induction fuel with
  | zero => intro p _ h; omega
  | succ fuel ih =>
    intro p hp hfuel hact
    rw [skip_actions]
    by_cases hpp : p = p1
    · subst hpp
      rcases hstop with hstop | ⟨i, e, hi, he, ha⟩
      · rw [if_neg (by omega)]
      · have hlt : p < pi.length := by
          by_contra hc
          rw [List.getElem?_eq_none (by omega)] at hi
          cases hi
        rw [if_pos hlt, hi]
        simp only [he]
        rw [if_neg (by simp [ha])]
    · obtain ⟨i, e, hi, he, ha⟩ := hact p (le_refl _) (by omega)
      have hlt : p < pi.length := by
        by_contra hc
        rw [List.getElem?_eq_none (by omega)] at hi
        cases hi
      rw [if_pos hlt, hi]
      simp only [he]
      rw [if_pos ha]
      exact ih (p + 1) (by omega) (by omega) fun k h1 h2 => hact k (by omega) h2

theorem at_positional_lt {pi : List Nat} {argv : List String} {st : ParseState} {p1 i : Nat}
    {entry : ParamEntry} (h : at_positional pi argv st p1 i entry) :
    st.p_input_index < argv.length ∧ p1 < pi.length := by
  obtain ⟨input, hin, _, _, _, hp, _⟩ := h
  constructor
  · by_contra hc
    rw [List.getElem?_eq_none (by omega)] at hin
    cases hin
  · by_contra hc
    rw [List.getElem?_eq_none (by omega)] at hp
    cases hp

/-- The iteration of the main loop on a token that it binds to an entry with a
positional name. -/
theorem parse_step_at_positional (libc : Libc) (short long : List (String × Nat))
    (pi : List Nat) (argv : List String) (st : ParseState) (p1 i : Nat) (entry : ParamEntry)
    (h : at_positional pi argv st p1 i entry) :
    ∃ input, argv[st.p_input_index]? = some input ∧ starts_with input "-" = false ∧
      parse_step libc short long pi argv st =
        if entry.nargs ≠ .NONE then
          (parse_nargs libc entry (st.p_input_index - 1) argv).bind fun r =>
            .ok { param_entries := st.param_entries.set i { r.1 with filled := true }
                  p_entry_index := p1 + 1
                  p_input_index := r.2 + 1 }
        else
          (parse_choices libc (parse libc input entry.value_type) entry).bind fun _ =>
            .ok { param_entries := st.param_entries.set i
                    { entry with value := parse libc input entry.value_type, filled := true }
                  p_entry_index := p1 + 1
                  p_input_index := st.p_input_index + 1 } := by
  have hlt := (at_positional_lt h).2
  obtain ⟨input, hin, hd, hp, hact, hpi, he, ha⟩ := h
  refine ⟨input, hin, hd, ?_⟩
  have hhelp : ¬ (input = "--help" ∨ input = "-h") := by
    rintro (hc | hc) <;> rw [hc] at hd <;> revert hd <;> decide
  unfold parse_step
  rw [hin]
  simp only [hhelp, if_false, hd, Bool.not_false, if_true]
  unfold positional_token
  rw [skip_actions_to st.param_entries pi p1 (Or.inr ⟨i, entry, hpi, he, ha⟩)
    (pi.length + 1) st.p_entry_index hp (by omega) hact]
  simp only [Chk.ok_bind, Chk.check_error, hlt, decide_True, if_true, hpi, he]
  rw [if_neg (by simp [ha])]

theorem iterations_cursor {libc : Libc} {short long : List (String × Nat)}
    {pi : List Nat} {argv : List String} :
    ∀ (k : Nat) (st st1 : ParseState),
      iterations libc short long pi argv k st = .ok st1 →
      st.p_input_index ≤ st1.p_input_index := by
  intro k
  induction k with
  | zero =>
    intro st st1 h
    simp only [iterations, Chk.ok.injEq] at h
    subst h
    exact le_refl _
  | succ k ih =>
    intro st st1 h
    rw [iterations] at h
    split at h
    · obtain ⟨st2, hstep, h1⟩ := Chk.bind_eq_ok h
      have := (parse_step_progress hstep).2.1
      have := ih st2 st1 h1
      omega
    · simp only [Chk.ok.injEq] at h
      subst h
      exact le_refl _

theorem loop_at_cursor {libc : Libc} {s : ArgumentParser} {argv : List String}
    {st : ParseState} (h : s.loop_at libc argv st) :
    1 ≤ st.p_input_index ∧ st.p_input_index < argv.length := by
  obtain ⟨hlt, k, hk⟩ := h
  exact ⟨iterations_cursor k _ _ hk, hlt⟩

/-- Behind the run of value tokens after a position the vector ends, or a token
that starts with `-` stands. -/
theorem value_run_end (argv : List String) (p : Nat) (hp : p < argv.length) :
    p + (value_run argv p).length + 1 = argv.length ∨
      ∃ t, argv[p + (value_run argv p).length + 1]? = some t ∧ starts_with t "-" = true := by
  obtain ⟨post, hsplit, hpost⟩ := value_run_split argv p
  have hdrop := drop_after_run hsplit
  rcases hpost with h | ⟨t, r, h, hd⟩
  · left
    rw [h] at hdrop
    have h1 := List.drop_eq_nil_iff.mp hdrop
    have h2 : (argv.drop (p + 1)).length = (value_run argv p).length + post.length := by
      rw [hsplit, List.length_append]
    rw [List.length_drop] at h2
    omega
  · right
    rw [h] at hdrop
    exact ⟨t, (drop_cons_facts hdrop).1, hd⟩

theorem value_run_no_dash {argv : List String} {p : Nat} :
    ∀ t ∈ value_run argv p, starts_with t "-" = false := by
  intro t ht
  have := List.mem_takeWhile_imp ht
  simpa using this

/-- What a call of `parse_nargs` for the multiplicity `+` or `*` that does not
fail has done. -/
theorem parse_nargs_run {libc : Libc} {entry : ParamEntry} {p : Nat} {argv : List String}
    (hn : entry.nargs = .NARGS_ADD ∨ entry.nargs = .NARGS_STAR)
    {r : ParamEntry × Nat} (h : parse_nargs libc entry p argv = .ok r) :
    r = ({ entry with value := collect ((value_run argv p).map fun t =>
            parse libc t entry.value_type) }, p + (value_run argv p).length) := by
  obtain ⟨n, h1, _, _, _, h5⟩ := parse_nargs_ok h
  have hq : entry.nargs ≠ .NARGS_QUESTION := by rcases hn with hn | hn <;> simp [hn]
  have hnn : entry.nargs ≠ .NARGS_N := by rcases hn with hn | hn <;> simp [hn]
  obtain ⟨e1, e2, _, e4, _⟩ := h5 hq
  have hlen := e4 (Or.inl hnn)
  rw [hlen, List.take_length] at e1
  rw [hlen] at h1
  rw [e1] at e2
  exact Prod.ext e2 h1

/-! ## Flag tokens and the flag tables -/

theorem lookup_flag_name {short long : List (String × Nat)} {input name : String} {j : Nat}
    (hd : starts_with input "-" = true) (h : lookup_flag short long input = .ok (name, j)) :
    name = flag_name input := by
  unfold lookup_flag at h
  unfold flag_name
  split at h
  · rename_i h2
    rw [if_pos h2]
    dsimp only at h
    split at h
    · cases h
    · cases h; rfl
  · rename_i h2
    rw [if_neg h2]
    dsimp only at h
    split at h
    · cases h
    · cases h; rfl

/-- The iteration of the main loop on the flag token of an entry without an
action and without a multiplicity. -/
theorem step_plain_flag {libc : Libc} {s : ArgumentParser} {argv : List String}
    {st : ParseState} {j : Nat} {entry : ParamEntry} {input : String}
    (hm : s.meets_flag libc argv st j entry) (hin : argv[st.p_input_index]? = some input)
    (hact : entry.action = .NONE) (hn : entry.nargs = .NONE) :
    s.step libc argv st =
      (Chk.check_error (st.p_input_index + 1 < argv.length)
        ("the following arguments are required: " ++ flag_name input)).bind fun _ =>
      match argv[st.p_input_index + 1]? with
      | none => .undefined
      | some value_text =>
        (parse_choices libc (parse libc value_text entry.value_type) entry).bind fun _ =>
          .ok { st with
                param_entries := st.param_entries.set j
                  { entry with value := parse libc value_text entry.value_type, filled := true }
                p_input_index := st.p_input_index + 1 + 1 } := by
  obtain ⟨input1, name, h1, h2, h3, h4, h5, h6⟩ := hm.2
  rw [hin] at h1
  cases h1
  have hname := lookup_flag_name h4 h5
  subst hname
  unfold ArgumentParser.step parse_step
  rw [hin]
  simp only [h2, h3, h4, or_self, if_false, Bool.not_true, Bool.false_eq_true]
  unfold optional_token
  rw [h5]
  simp only [Chk.ok_bind, h6]
  rw [if_neg (by simp [hact]), if_neg (by simp [hn])]

theorem map_find_eq_none {α : Type} (m : List (String × α)) (k : String)
    (h : ∀ p ∈ m, p.1 ≠ k) : map_find m k = none := by
  induction m with
  | nil => rfl
  | cons p rest ih =>
    obtain ⟨k1, v⟩ := p
    unfold map_find
    rw [if_neg (h (k1, v) (List.mem_cons_self _ _))]
    exact ih fun q hq => h q (List.mem_cons_of_mem _ hq)

theorem map_find_mem {α : Type} (m : List (String × α)) (k : String) (v : α)
    (h : map_find m k = some v) : (k, v) ∈ m := by
  induction m with
  | nil => cases h
  | cons p rest ih =>
    obtain ⟨k1, v1⟩ := p
    unfold map_find at h
    split at h
    · rename_i hk
      cases h
      rw [hk]
      exact List.mem_cons_self _ _
    · exact List.mem_cons_of_mem _ (ih h)

theorem starts_with_dash {input : String} (h : starts_with input "--" = true) :
    starts_with input "-" = true := by
  unfold starts_with at *
  have e1 : "--".data = ['-', '-'] := rfl
  have e2 : "-".data = ['-'] := rfl
  rw [e1] at h
  rw [e2]
  cases hx : input.data with
  | nil => rw [hx] at h; simp [List.isPrefixOf] at h
  | cons c rest =>
    rw [hx] at h
    simp [List.isPrefixOf] at h ⊢
    exact h.1

/-- The iteration of the main loop on a token that starts with `-`, is no help
token and that the flag table of its prefix does not hold. -/
theorem step_unknown_flag {libc : Libc} {s : ArgumentParser} {argv : List String}
    {st : ParseState} {input : String} (hin : argv[st.p_input_index]? = some input)
    (hh : input ≠ "--help" ∧ input ≠ "-h") (hd : starts_with input "-" = true)
    (hnone : if starts_with input "--" then
        map_find s.prepass.1.optional_long_key_ (substr input 2) = none
      else map_find s.prepass.1.optional_short_key_ (substr input 1) = none) :
    s.step libc argv st = .fail ("unrecognized arguments: " ++ flag_name input) := by
  unfold ArgumentParser.step parse_step
  rw [hin]
  simp only [hh.1, hh.2, hd, or_self, if_false, Bool.not_true, Bool.false_eq_true]
  unfold optional_token lookup_flag flag_name
  split at hnone
  · rename_i h2
    simp only [h2, if_true, hnone]
    rfl
  · rename_i h2
    simp only [h2, hd, if_true, if_false, hnone, Bool.false_eq_true]
    rfl

/-! ## The finalizer on the working list of a parse call -/

theorem positions_mem (l : List ParamEntry) :
    ∀ (n j : Nat), j ∈ positions l n →
      n ≤ j ∧ ∃ e, l[j - n]? = some e ∧ e.positional_key ≠ "" := by
  induction l with
  | nil => intro n j h; cases h
  | cons x rest ih =>
    intro n j h
    unfold positions at h
    split at h
    · rename_i hx
      rcases List.mem_cons.mp h with h1 | h1
      · subst h1
        exact ⟨le_refl _, x, by simp, hx⟩
      · obtain ⟨h2, e, he, hp⟩ := ih (n + 1) j h1
        refine ⟨by omega, e, ?_, hp⟩
        have : j - n = (j - (n + 1)) + 1 := by omega
        rw [this, List.getElem?_cons_succ]
        exact he
    · obtain ⟨h2, e, he, hp⟩ := ih (n + 1) j h
      refine ⟨by omega, e, ?_, hp⟩
      have : j - n = (j - (n + 1)) + 1 := by omega
      rw [this, List.getElem?_cons_succ]
      exact he

/-- An entry of the working list without a positional name is not in the
positional index. -/
theorem not_mem_prepass_positions {s : ArgumentParser} {j : Nat} {e : ParamEntry}
    (he : s.prepass.1.param_entries_[j]? = some e) (hp : e.positional_key = "") :
    j ∉ s.prepass.2 := by
  intro hj
  rw [prepass_positions] at hj
  obtain ⟨_, e1, he1, hp1⟩ := positions_mem _ 0 j hj
  rw [prepass_registry] at he
  rw [Nat.sub_zero, he] at he1
  cases he1
  exact hp1 hp

theorem finalize_forall : ∀ (l final : List ParamEntry), finalize l = .ok final →
    List.Forall₂ (fun e e1 => finalize_entry e = .ok e1) l final := by
  intro l
  induction l with
  | nil =>
    intro final h
    unfold finalize at h
    cases h
    exact List.Forall₂.nil
  | cons x rest ih =>
    intro final h
    unfold finalize at h
    obtain ⟨x1, hx1, h1⟩ := Chk.bind_eq_ok h
    obtain ⟨rest1, hr1, h2⟩ := Chk.bind_eq_ok h1
    cases h2
    exact List.Forall₂.cons hx1 (ih rest1 hr1)

theorem forall2_get {α β : Type} {R : α → β → Prop} {l : List α} {l1 : List β}
    (h : List.Forall₂ R l l1) :
    ∀ j : Nat, (∀ a, l[j]? = some a → ∃ b, l1[j]? = some b ∧ R a b) ∧
      (∀ b, l1[j]? = some b → ∃ a, l[j]? = some a ∧ R a b) := by
  induction h with
  | nil => intro j; simp
  | cons hab _ ih =>
    intro j
    cases j with
    | zero =>
      simp only [List.getElem?_cons_zero, Option.some.injEq]
      exact ⟨fun a ha => ⟨_, rfl, ha ▸ hab⟩, fun b hb => ⟨_, rfl, hb ▸ hab⟩⟩
    | succ j =>
      simp only [List.getElem?_cons_succ]
      exact ih j

/-- What the finalizer that returns has done to the entry at an index. -/
theorem finalize_get {l final : List ParamEntry} (h : finalize l = .ok final) (j : Nat) :
    (∀ e, l[j]? = some e → ∃ e1, final[j]? = some e1 ∧ finalize_entry e = .ok e1) ∧
    (∀ e1, final[j]? = some e1 → ∃ e, l[j]? = some e ∧ finalize_entry e = .ok e1) :=
  forall2_get (finalize_forall l final h) j

/-- The body of the finalizer returns the entry, or fails with the message that
names the key of the entry. -/
theorem finalize_entry_cases (e : ParamEntry) :
    (∃ e1, finalize_entry e = .ok e1) ∨
      (e.filled = false ∧ needs_token e ∧
        finalize_entry e = .fail ("the following arguments are required: " ++ e.key)) := by
  by_cases hf : e.filled = true
  · left
    unfold finalize_entry
    rw [if_pos hf]
    exact ⟨_, rfl⟩
  · have hf1 : e.filled = false := by simpa using hf
    by_cases hn : needs_token e
    · exact Or.inr ⟨hf1, hn, finalize_entry_fail hf1 hn⟩
    · obtain ⟨e1, h1, _⟩ := finalize_entry_ok hf1 hn
      exact Or.inl ⟨e1, h1⟩

/-- The finalizer fails at the first entry at which its body fails, with the
message of that entry. -/
theorem finalize_first_fail : ∀ (l : List ParamEntry) (j : Nat) (e : ParamEntry) (m : String),
    l[j]? = some e → finalize_entry e = .fail m →
    (∀ j1 e1, j1 < j → l[j1]? = some e1 → ∃ e2, finalize_entry e1 = .ok e2) →
    finalize l = .fail m := by
  intro l
  induction l with
  | nil => intro j e m h; simp at h
  | cons x rest ih =>
    intro j e m hj hfail hbefore
    unfold finalize
    cases j with
    | zero =>
      simp only [List.getElem?_cons_zero, Option.some.injEq] at hj
      subst hj
      rw [hfail]
      rfl
    | succ j =>
      obtain ⟨x1, hx1⟩ := hbefore 0 x (by omega) (by simp)
      rw [hx1, Chk.ok_bind]
      rw [ih j e m (by simpa using hj) hfail
        (fun j1 e1 h1 h2 => hbefore (j1 + 1) e1 (by omega) (by simpa using h2))]
      rfl

/-- The finalizer fails when its body fails at some entry. -/
theorem finalize_some_fail (l : List ParamEntry) (j : Nat) (e : ParamEntry) (m : String)
    (hj : l[j]? = some e) (hfail : finalize_entry e = .fail m) :
    ∃ (j1 : Nat) (e1 : ParamEntry), j1 ≤ j ∧ l[j1]? = some e1 ∧ e1.filled = false ∧
      needs_token e1 ∧
      finalize l = .fail ("the following arguments are required: " ++ e1.key) := by
  induction j using Nat.strong_induction_on generalizing e m with
  | _ j ih =>
    by_cases hb : ∀ j1 e1, j1 < j → l[j1]? = some e1 → ∃ e2, finalize_entry e1 = .ok e2
    · rcases finalize_entry_cases e with ⟨e1, h1⟩ | ⟨h1, h2, h3⟩
      · rw [h1] at hfail
        cases hfail
      · exact ⟨j, e, le_refl _, hj, h1, h2, finalize_first_fail l j e _ hj h3 hb⟩
    · push_neg at hb
      obtain ⟨j1, e1, hlt, he1, hno⟩ := hb
      rcases finalize_entry_cases e1 with ⟨e2, h2⟩ | ⟨_, _, h3⟩
      · exact absurd h2 (hno e2)
      · obtain ⟨j2, e2, h4, h5⟩ := ih j1 hlt e1 _ he1 h3
        exact ⟨j2, e2, by omega, h5⟩

theorem main_loop_ok_iterations {libc : Libc} {short long : List (String × Nat)}
    {pi : List Nat} {argv : List String} :
    ∀ (fuel : Nat) (st st1 : ParseState),
      main_loop libc short long pi argv fuel st = .ok st1 →
      iterations libc short long pi argv fuel st = .ok st1 ∧
        ¬ st1.p_input_index < argv.length := by
  intro fuel
  induction fuel with
  | zero =>
    intro st st1 h
    rw [main_loop] at h
    split at h
    · cases h
    · rename_i hlt
      cases h
      exact ⟨rfl, hlt⟩
  | succ fuel ih =>
    intro st st1 h
    rw [main_loop] at h
    rw [iterations]
    split at h
    · rename_i hlt
      rw [if_pos hlt]
      obtain ⟨st2, hstep, h1⟩ := Chk.bind_eq_ok h
      obtain ⟨h2, h3⟩ := ih st2 st1 h1
      rw [hstep, Chk.ok_bind]
      exact ⟨h2, h3⟩
    · rename_i hlt
      rw [if_neg hlt]
      cases h
      exact ⟨rfl, hlt⟩

/-- The parse call whose main loop ends in the state `st1` is the finalizer on
the working list of `st1`. -/
theorem parse_of_loop_ends {libc : Libc} {s : ArgumentParser} {argv : List String}
    {st1 : ParseState} (h : s.loop_ends libc argv st1) :
    s.parse_args_any_type libc argv =
      s.prepass.1.finish libc (finalize st1.param_entries) fun entries => ⟨build_result entries⟩ := by
  unfold ArgumentParser.loop_ends ArgumentParser.start at h
  unfold ArgumentParser.parse_args_any_type parse_entries
  simp only [h, Chk.ok_bind]

/-- A parse call that returns a result has run the main loop to its end and the
finalizer on the working list; the result is the map of the finalized list. -/
theorem parse_returns {libc : Libc} {s s1 : ArgumentParser} {argv : List String} {a : ArgValue}
    (h : s.parse_args_any_type libc argv = .ok a s1) :
    ∃ st1 final, s.loop_ends libc argv st1 ∧ finalize st1.param_entries = .ok final ∧
      a = ⟨build_result final⟩ := by
  unfold ArgumentParser.parse_args_any_type at h
  simp only at h
  cases hp : parse_entries libc s.prepass.1 s.prepass.2 argv with
  | ok final =>
    rw [hp] at h
    unfold parse_entries at hp
    obtain ⟨st1, h1, h2⟩ := Chk.bind_eq_ok hp
    refine ⟨st1, final, h1, h2, ?_⟩
    unfold ArgumentParser.finish at h
    exact (Res.ok.inj h).1.symm
  | fail m =>
    rw [hp] at h
    exact absurd h (raise_ne_ok _ _ _ _)
  | help => rw [hp] at h; cases h
  | undefined => rw [hp] at h; cases h
  | nofuel => rw [hp] at h; cases h

theorem build_result_foldl_isSome_inv (l : List ParamEntry) :
    ∀ (acc : List (String × ParamEntry)) (k : String),
      (map_find (l.foldl (fun result item =>
        if item.filled then map_set result item.key item else result) acc) k).isSome →
      ((map_find acc k).isSome ∨ ∃ e ∈ l, e.filled = true ∧ e.key = k) := by
  induction l with
  | nil => intro acc k h; exact Or.inl h
  | cons item rest ih =>
    intro acc k h
    simp only [List.foldl_cons] at h
    rcases ih _ k h with h1 | ⟨e, he, hf, hk⟩
    · by_cases hfi : item.filled = true
      · rw [if_pos hfi] at h1
        by_cases hkk : item.key = k
        · exact Or.inr ⟨item, List.mem_cons_self _ _, hfi, hkk⟩
        · rw [map_find_set_other _ _ _ _ hkk] at h1
          exact Or.inl h1
      · rw [if_neg hfi] at h1
        exact Or.inl h1
    · exact Or.inr ⟨e, List.mem_cons_of_mem _ he, hf, hk⟩

/-- The result map holds a key exactly when a filled entry of the list has it. -/
theorem build_result_isSome_iff (l : List ParamEntry) (k : String) :
    (map_find (build_result l) k).isSome ↔ ∃ e ∈ l, e.filled = true ∧ e.key = k := by
  constructor
  · intro h
    rcases build_result_foldl_isSome_inv l [] k h with h1 | h1
    · cases h1
    · exact h1
  · intro h
    exact build_result_foldl_isSome l [] k (Or.inr h)

theorem find_isSome_iff (l : List ParamEntry) (k : String) :
    ((ArgValue.mk (build_result l)).find k).isSome ↔ ∃ e ∈ l, e.filled = true ∧ e.key = k := by
  unfold ArgValue.find
  rw [Option.isSome_map']
  exact build_result_isSome_iff l k



/-- The main loop of a parse call on a reachable object leaves an entry without
a positional name and whose flags do not appear in the vector as it was
declared: unfilled. -/
theorem untouched_entry {libc : Libc} {s : ArgumentParser} (hr : Reachable libc s)
    {argv : List String} {st1 : ParseState} {j : Nat} {e : ParamEntry}
    (he : s.prepass.1.param_entries_[j]? = some e) (hp : e.positional_key = "")
    (habs : s.flag_absent argv j) (hloop : s.loop_ends libc argv st1) :
    st1.param_entries[j]? = some e ∧ e.filled = false := by
  constructor
  · rw [main_loop_untouched j (not_mem_prepass_positions he hp) habs _ _ _ hloop]
    exact he
  · exact ((Reachable.inv hr).unfilled e
      ((prepass_perm s).mem_iff.mp (List.getElem?_mem he))).1

/-- Every entry of the finalized list stands at the index of a declared entry
with the same key. -/
theorem final_entry_declared {libc : Libc} {s : ArgumentParser} {argv : List String}
    {st1 : ParseState} {final : List ParamEntry} (hloop : s.loop_ends libc argv st1)
    (hfin : finalize st1.param_entries = .ok final) {j : Nat} {x : ParamEntry}
    (hx : final[j]? = some x) :
    ∃ x0, s.prepass.1.param_entries_[j]? = some x0 ∧ x0.key = x.key := by
  obtain ⟨x1, hx1, hf⟩ := (finalize_get hfin j).2 x hx
  obtain ⟨x0, hx0, hd⟩ :=
    iterations_declaration _ _ _ (main_loop_ok_iterations _ _ _ hloop).1 j x1 hx1
  refine ⟨x0, hx0, ?_⟩
  rw [(finalize_entry_keeps hf).1, (same_declaration_policy hd).2.2.2.2.2.1]

/-- What a parse call that returns a result holds for the key of an entry
without a positional name whose flags do not appear in the vector: the mapping
the finalizer makes of the declared entry. -/
theorem absent_flag_result {libc : Libc} {s s1 : ArgumentParser} (hr : Reachable libc s)
    {argv : List String} {j : Nat} {e : ParamEntry} {a : ArgValue}
    (he : s.prepass.1.param_entries_[j]? = some e) (hp : e.positional_key = "")
    (habs : s.flag_absent argv j) (h : s.parse_args_any_type libc argv = .ok a s1) :
    ∃ e1, finalize_entry e = .ok e1 ∧ (e1.filled = true → (a.find e.key).isSome) ∧
      (s.key_unshared j → a.find e.key = if e1.filled then some e1.value else none) := by
  obtain ⟨st1, final, hloop, hfin, ha⟩ := parse_returns h
  obtain ⟨hst, _⟩ := untouched_entry hr he hp habs hloop
  obtain ⟨e1, he1, hf1⟩ := (finalize_get hfin j).1 e hst
  have hk1 : e1.key = e.key := (finalize_entry_keeps hf1).1
  have hmem : e1 ∈ final := List.getElem?_mem he1
  subst ha
  refine ⟨e1, hf1, ?_, ?_⟩
  · intro hfilled
    exact (find_isSome_iff final e.key).mpr ⟨e1, hmem, hfilled, hk1⟩
  · intro hu
    have honly : ∀ x ∈ final, x.key = e1.key → x = e1 := by
      intro x hx hk
      obtain ⟨j1, hj1⟩ := List.getElem?_of_mem hx
      obtain ⟨x0, hx0, hk0⟩ := final_entry_declared hloop hfin hj1
      have := hu e x0 j1 he hx0 (by rw [hk0, hk, hk1])
      subst this
      rw [he1] at hj1
      exact (Option.some.inj hj1).symm
    by_cases hfilled : e1.filled = true
    · rw [if_pos hfilled]
      unfold ArgValue.find
      rw [← hk1, build_result_unique final e1 hmem hfilled honly]
      rfl
    · rw [if_neg hfilled]
      have hnone : ¬ ((ArgValue.mk (build_result final)).find e.key).isSome := by
        rw [find_isSome_iff]
        rintro ⟨x, hx, hxf, hxk⟩
        have := honly x hx (by rw [hxk, hk1])
        subst this
        exact hfilled hxf
      simpa using hnone

set_option maxRecDepth 100000 in
theorem mode_state_reachable : Reachable Libc.zero mode_state :=
  chain_reachable Libc.zero
    [.long_name "--mode", .action "store_const", .const_value (.int 7), .done] .new (by decide)

theorem finalize_entry_positional {e e1 : ParamEntry} (hf : e.filled = false)
    (hp : e.positional_key ≠ "") (h : finalize_entry e = .ok e1) : e1.filled = true := by
  unfold finalize_entry at h
  rw [if_neg (by simp [hf]), if_pos hp] at h
  split at h
  · cases h; rfl
  · split at h
    · rename_i ha
      split at h
      · cases h; rfl
      · split at h
        · cases h; rfl
        · split at h
          · cases h; rfl
          · rename_i h1 h2 h3
            cases hact : e.action <;> simp [hact] at ha h1 h2 h3
    · cases h

theorem loop_ends_unique {libc : Libc} {s : ArgumentParser} {argv : List String}
    {st1 st2 : ParseState} (h1 : s.loop_ends libc argv st1) (h2 : s.loop_ends libc argv st2) :
    st2 = st1 := by
  unfold ArgumentParser.loop_ends at h1 h2
  rw [h1] at h2
  exact (Chk.ok.inj h2).symm

/-- The tokens at the positions of the run of value tokens after a position do
not start with `-`. -/
theorem value_run_token {argv : List String} {p q : Nat} {t : String} (h1 : p < q)
    (h2 : q ≤ p + (value_run argv p).length) (ht : argv[q]? = some t) :
    starts_with t "-" = false := by
  obtain ⟨post, hsplit, _⟩ := value_run_split argv p
  have e : q = p + 1 + (q - (p + 1)) := by omega
  rw [e, ← List.getElem?_drop, hsplit, List.getElem?_append_left (by omega)] at ht
  exact value_run_no_dash t (List.getElem?_mem ht)

theorem help_starts_with_dash {t : String} (h : t = "--help" ∨ t = "-h") :
    starts_with t "-" = true := by
  rcases h with h | h <;> subst h <;> decide

/-! ## The tables the pre-pass writes -/

/-- What the pre-pass loop returns: the object with the three tables it made,
and the indices of the entries with a positional name. -/
theorem index_entries_eq (l : List ParamEntry) :
    ∀ (n : Nat) (s : ArgumentParser) (pi : List Nat),
      index_entries l n s pi =
        ({ s with
           optional_short_key_ := table_fold ParamEntry.short_key l n s.optional_short_key_
           optional_long_key_ := table_fold ParamEntry.long_key l n s.optional_long_key_
           positional_key_ := table_fold ParamEntry.positional_key l n s.positional_key_ },
         pi ++ positions l n) := by
  induction l with
  | nil => intro n s pi; simp [index_entries, table_fold, positions]
  | cons e l ih =>
    intro n s pi
    unfold index_entries
    rw [ih]
    simp only [index_entry, table_fold, positions]
    congr 1
    split_ifs <;> simp

/-- The object and the positional index a pre-pass leaves. -/
theorem prepass_eq (s : ArgumentParser) :
    s.prepass =
      ({ s with
         param_entries_ := stable_sort required_first s.param_entries_
         optional_short_key_ := table_fold ParamEntry.short_key
           (stable_sort required_first s.param_entries_) 0 s.optional_short_key_
         optional_long_key_ := table_fold ParamEntry.long_key
           (stable_sort required_first s.param_entries_) 0 s.optional_long_key_
         positional_key_ := table_fold ParamEntry.positional_key
           (stable_sort required_first s.param_entries_) 0 s.positional_key_ },
       positions (stable_sort required_first s.param_entries_) 0) := by
  unfold ArgumentParser.prepass
  simp only [index_entries_eq, List.nil_append]

/-- The pre-pass loop leaves alone every key that is no identifier of the list. -/
theorem table_fold_frame (sel : ParamEntry → String) (l : List ParamEntry) :
    ∀ (n : Nat) (tab : List (String × Nat)) (k : String),
      (∀ e ∈ l, sel e ≠ "" → sel e ≠ k) →
      map_find (table_fold sel l n tab) k = map_find tab k := by
  induction l with
  | nil => intro n tab k _; rfl
  | cons e l ih =>
    intro n tab k h
    unfold table_fold
    rw [ih (n + 1) _ k fun x hx => h x (List.mem_cons_of_mem _ hx)]
    by_cases he : sel e = ""
    · rw [if_neg (by simp [he])]
    · rw [if_pos he, map_find_set_other _ _ _ _ (h e (List.mem_cons_self _ _) he)]

/-- The pre-pass loop maps the identifier of every entry to the index of the
entry, when no two entries share an identifier. -/
theorem table_fold_hit (sel : ParamEntry → String) (l : List ParamEntry) :
    distinct_keys sel l →
    ∀ (n : Nat) (tab : List (String × Nat)) (i : Nat) (e : ParamEntry),
      l[i]? = some e → sel e ≠ "" → map_find (table_fold sel l n tab) (sel e) = some (n + i) := by
  induction l with
  | nil => intro _ n tab i e h; simp at h
  | cons x l ih =>
    intro hd n tab i e hi he
    have hd1 := List.pairwise_cons.mp hd
    unfold table_fold
    cases i with
    | zero =>
      simp only [List.getElem?_cons_zero, Option.some.injEq] at hi
      subst hi
      rw [table_fold_frame sel l (n + 1) _ (sel x)
        (fun b hb _ hc => hd1.1 b hb he hc.symm), if_pos he, map_find_set_same]
      rfl
    | succ i =>
      simp only [List.getElem?_cons_succ] at hi
      rw [ih hd1.2 (n + 1) _ i e hi he]
      congr 1
      omega

/-- A key of the table the pre-pass loop makes is an identifier of an entry of
the list, or a key the table had before. -/
theorem table_fold_key (sel : ParamEntry → String) (l : List ParamEntry)
    (n : Nat) (tab : List (String × Nat)) (k : String) (j : Nat)
    (h : map_find (table_fold sel l n tab) k = some j) :
    (∃ e ∈ l, sel e ≠ "" ∧ sel e = k) ∨
      ((∀ e ∈ l, sel e ≠ "" → sel e ≠ k) ∧ map_find tab k = some j) := by
  by_cases hk : ∃ e ∈ l, sel e ≠ "" ∧ sel e = k
  · exact Or.inl hk
  · push_neg at hk
    right
    refine ⟨hk, ?_⟩
    rw [← table_fold_frame sel l n tab k hk]
    exact h

theorem map_set_of_find {α : Type} (m : List (String × α)) (k : String) (v : α)
    (h : map_find m k = some v) : map_set m k v = m := by
  induction m with
  | nil => cases h
  | cons p rest ih =>
    obtain ⟨k1, v1⟩ := p
    unfold map_find at h
    unfold map_set
    by_cases hk : k1 = k
    · rw [if_pos hk] at h
      rw [if_pos hk]
      cases h
      rw [hk]
    · rw [if_neg hk] at h
      rw [if_neg hk, ih h]

/-- The pre-pass loop changes nothing of a table that maps the identifier of
every entry to the index of the entry. -/
theorem table_fold_fixed (sel : ParamEntry → String) (l : List ParamEntry) :
    ∀ (n : Nat) (tab : List (String × Nat)),
      (∀ i e, l[i]? = some e → sel e ≠ "" → map_find tab (sel e) = some (n + i)) →
      table_fold sel l n tab = tab := by
  induction l with
  | nil => intro n tab _; rfl
  | cons x l ih =>
    intro n tab h
    unfold table_fold
    have hx : (if sel x ≠ "" then map_set tab (sel x) n else tab) = tab := by
      by_cases he : sel x = ""
      · rw [if_neg (by simp [he])]
      · rw [if_pos he]
        exact map_set_of_find _ _ _ (h 0 x (by simp) he)
    rw [hx]
    exact ih (n + 1) tab fun i e hi he => by
      have := h (i + 1) e (by simpa using hi) he
      rw [this]
      congr 1
      omega

theorem stable_sort_idem (l : List ParamEntry) :
    stable_sort required_first (stable_sort required_first l) =
      stable_sort required_first l := by
  rw [stable_sort_required (stable_sort required_first l), stable_sort_required l]
  simp [List.filter_append, List.filter_filter]

/-- The tables of a pre-pass on a reachable object map the non-empty identifiers
of the entry at every index of the working list to that index. -/
theorem prepass_tables {s : ArgumentParser} (hi : Inv s) {i : Nat} {e : ParamEntry}
    (he : s.prepass.1.param_entries_[i]? = some e) :
    (e.short_key ≠ "" → map_find s.prepass.1.optional_short_key_ e.short_key = some i) ∧
    (e.long_key ≠ "" → map_find s.prepass.1.optional_long_key_ e.long_key = some i) ∧
    (e.positional_key ≠ "" →
      map_find s.prepass.1.positional_key_ e.positional_key = some i) := by
  have hperm := stable_sort_perm required_first s.param_entries_
  rw [prepass_eq] at he ⊢
  dsimp only at he ⊢
  refine ⟨fun h => ?_, fun h => ?_, fun h => ?_⟩
  · have := table_fold_hit ParamEntry.short_key _ (distinct_keys_perm hperm hi.short_distinct)
      0 s.optional_short_key_ i e he h
    rw [this, Nat.zero_add]
  · have := table_fold_hit ParamEntry.long_key _ (distinct_keys_perm hperm hi.long_distinct)
      0 s.optional_long_key_ i e he h
    rw [this, Nat.zero_add]
  · have := table_fold_hit ParamEntry.positional_key _
      (distinct_keys_perm hperm hi.positional_distinct) 0 s.positional_key_ i e he h
    rw [this, Nat.zero_add]

/-- A second pre-pass changes nothing. -/
theorem prepass_idem {s : ArgumentParser} (hi : Inv s) : s.prepass.1.prepass = s.prepass := by
  have hperm := stable_sort_perm required_first s.param_entries_
  have hfix : ∀ (sel : ParamEntry → String) (tab : List (String × Nat)),
      distinct_keys sel s.param_entries_ →
      table_fold sel (stable_sort required_first s.param_entries_) 0
          (table_fold sel (stable_sort required_first s.param_entries_) 0 tab) =
        table_fold sel (stable_sort required_first s.param_entries_) 0 tab := by
    intro sel tab hd
    apply table_fold_fixed
    intro i e he hne
    exact table_fold_hit sel _ (distinct_keys_perm hperm hd) 0 tab i e he hne
  rw [prepass_eq s.prepass.1, prepass_eq s]
  dsimp only
  rw [stable_sort_idem, hfix _ _ hi.short_distinct, hfix _ _ hi.long_distinct,
    hfix _ _ hi.positional_distinct]

/-! ## Progress of the main loop -/

theorem Chk.bind_ne_nofuel {α β : Type} {x : Chk α} {f : α → Chk β} (hx : x ≠ .nofuel)
    (hf : ∀ a, x = .ok a → f a ≠ .nofuel) : x.bind f ≠ .nofuel := by
  cases x with
  | ok a => exact hf a rfl
  | fail m => intro h; cases h
  | help => intro h; cases h
  | undefined => intro h; cases h
  | nofuel => exact absurd rfl hx

theorem check_error_ne_nofuel (c : Bool) (m : String) : Chk.check_error c m ≠ .nofuel := by
  unfold Chk.check_error
  split <;> intro h <;> cases h

theorem parse_choices_ne_nofuel (libc : Libc) (v : EntryItem) (entry : ParamEntry) :
    parse_choices libc v entry ≠ .nofuel := by
  unfold parse_choices
  dsimp only
  split_ifs <;> first | (intro h; cases h) | (split <;> intro h <;> cases h)

/-- The loop of `parse_nargs` ends within the bound the model gives it. -/
theorem nargs_loop_ne_nofuel (libc : Libc) (entry : ParamEntry) (argv : List String) :
    ∀ (fuel : Nat) (count : Int) (p : Nat) (acc : List EntryItem),
      p + 1 ≤ argv.length → argv.length - (p + 1) < fuel →
      nargs_loop libc entry argv fuel count p acc ≠ .nofuel := by
  intro fuel
  induction fuel with
  | zero => intro count p acc _ h; omega
  | succ fuel ih =>
    intro count p acc hp hfuel
    rw [nargs_loop]
    split_ifs with h1 h2
    · intro h; cases h
    · exact Chk.bind_ne_nofuel (check_error_ne_nofuel _ _) fun _ _ h => by cases h
    · split
      · intro h; cases h
      · split_ifs
        · exact Chk.bind_ne_nofuel (check_error_ne_nofuel _ _) fun _ _ h => by cases h
        · exact Chk.bind_ne_nofuel (parse_choices_ne_nofuel _ _ _) fun _ _ =>
            ih _ _ _ (by omega) (by omega)

/-- The method `parse_nargs` ends, from every start position in the vector. -/
theorem parse_nargs_ne_nofuel (libc : Libc) (entry : ParamEntry) (p : Nat)
    (argv : List String) (hp : p < argv.length) : parse_nargs libc entry p argv ≠ .nofuel := by
  unfold parse_nargs
  by_cases hq : entry.nargs = .NARGS_QUESTION
  · rw [if_pos hq]
    by_cases hend : p + 1 = argv.length
    · rw [if_pos hend]
      intro h; cases h
    · rw [if_neg hend]
      split
      · intro h; cases h
      · split_ifs
        · intro h; cases h
        · exact Chk.bind_ne_nofuel (parse_choices_ne_nofuel _ _ _) fun _ _ h => by cases h
  · rw [if_neg hq]
    dsimp only
    refine Chk.bind_ne_nofuel ?_ fun _ _ => Chk.bind_ne_nofuel
      (nargs_loop_ne_nofuel libc entry argv _ _ p [] (by omega) (by omega))
      fun _ _ h => by cases h
    by_cases hfirst : entry.nargs = .NARGS_ADD ∨ entry.nargs = .NARGS_N
    · rw [if_pos hfirst]
      refine Chk.bind_ne_nofuel (check_error_ne_nofuel _ _) fun _ _ => ?_
      split
      · intro h; cases h
      · exact check_error_ne_nofuel _ _
    · rw [if_neg hfirst]
      intro h; cases h

/-- The inner loop over the entries with an action ends within the bound the
model gives it. -/
theorem skip_actions_ne_nofuel (l : List ParamEntry) (pi : List Nat) :
    ∀ (fuel p : Nat), pi.length - p < fuel → skip_actions l pi fuel p ≠ .nofuel := by
  intro fuel
  induction fuel with
  | zero => intro p h; omega
  | succ fuel ih =>
    intro p hfuel
    rw [skip_actions]
    split_ifs with hlt
    · split
      · intro h; cases h
      · split
        · intro h; cases h
        · split_ifs
          · exact ih (p + 1) (by omega)
          · intro h; cases h
    · intro h; cases h

/-- An iteration of the main loop with a token left to read ends. -/
theorem parse_step_ne_nofuel (libc : Libc) (short long : List (String × Nat)) (pi : List Nat)
    (argv : List String) (st : ParseState) (h1 : 1 ≤ st.p_input_index)
    (h2 : st.p_input_index < argv.length) :
    parse_step libc short long pi argv st ≠ .nofuel := by
  unfold parse_step
  split
  · intro h; cases h
  · rename_i input hin
    by_cases hh : input = "--help" ∨ input = "-h"
    · rw [if_pos hh]
      intro h; cases h
    · rw [if_neg hh]
      by_cases hd : (!starts_with input "-") = true
      · rw [if_pos hd]
        unfold positional_token
        refine Chk.bind_ne_nofuel (skip_actions_ne_nofuel _ _ _ _ (by omega)) fun p _ =>
          Chk.bind_ne_nofuel (check_error_ne_nofuel _ _) fun _ _ => ?_
        split
        · intro h; cases h
        · split
          · intro h; cases h
          · rename_i entry _
            by_cases ha : entry.action ≠ .NONE
            · rw [if_pos ha]
              intro h; cases h
            · rw [if_neg ha]
              by_cases hn : entry.nargs ≠ .NONE
              · rw [if_pos hn]
                exact Chk.bind_ne_nofuel (parse_nargs_ne_nofuel _ _ _ _ (by omega))
                  fun _ _ h => by cases h
              · rw [if_neg hn]
                exact Chk.bind_ne_nofuel (parse_choices_ne_nofuel _ _ _)
                  fun _ _ h => by cases h
      · rw [if_neg hd]
        unfold optional_token
        refine Chk.bind_ne_nofuel ?_ fun found _ => ?_
        · unfold lookup_flag
          split_ifs
          · dsimp only
            split <;> intro h <;> cases h
          · dsimp only
            split <;> intro h <;> cases h
          · intro h; cases h
        · split
          · intro h; cases h
          · rename_i entry _
            by_cases ha : entry.action ≠ .NONE
            · rw [if_pos ha]
              intro h; cases h
            · rw [if_neg ha]
              by_cases hn : entry.nargs ≠ .NONE
              · rw [if_pos hn]
                exact Chk.bind_ne_nofuel (parse_nargs_ne_nofuel _ _ _ _ h2)
                  fun _ _ h => by cases h
              · rw [if_neg hn]
                refine Chk.bind_ne_nofuel (check_error_ne_nofuel _ _) fun _ _ => ?_
                split
                · intro h; cases h
                · exact Chk.bind_ne_nofuel (parse_choices_ne_nofuel _ _ _)
                    fun _ _ h => by cases h

/-- The run of value tokens from the position before a token that does not
start with `-` begins with that token. -/
theorem value_run_current {argv : List String} {c : Nat} {input : String} (hc : 1 ≤ c)
    (hin : argv[c]? = some input) (hd : starts_with input "-" = false) :
    ∃ rest, value_run argv (c - 1) = input :: rest := by
  have hlt : c < argv.length := by
    by_contra hcon
    rw [List.getElem?_eq_none (by omega)] at hin
    cases hin
  have hcur : c - 1 + 1 = c := by omega
  unfold value_run
  rw [hcur]
  have hdrop : argv.drop c = input :: argv.drop (c + 1) := by
    rw [List.drop_eq_getElem_cons hlt]
    congr 1
    rw [List.getElem?_eq_getElem hlt] at hin
    exact Option.some.inj hin
  rw [hdrop, List.takeWhile_cons_of_pos (by simp [hd])]
  exact ⟨_, rfl⟩

/-- What `parse_nargs` returns from the position before a token that does not
start with `-`, for an entry that passes the checks of the builder: a position
at or after that of the token. -/
theorem parse_nargs_back {libc : Libc} {entry : ParamEntry} {argv : List String} {c : Nat}
    {input : String} {r : ParamEntry × Nat} (hc : 1 ≤ c) (hin : argv[c]? = some input)
    (hd : starts_with input "-" = false) (hpol : policy_ok entry)
    (h : parse_nargs libc entry (c - 1) argv = .ok r) : c ≤ r.2 := by
  obtain ⟨rest, hrest⟩ := value_run_current hc hin hd
  obtain ⟨n, h1, _, _, hq, hnq⟩ := parse_nargs_ok h
  have hn1 : 1 ≤ n := by
    by_cases hques : entry.nargs = .NARGS_QUESTION
    · rcases hq hques with ⟨h0, _⟩ | ⟨_, _, _, h2, _⟩
      · rw [hrest] at h0
        cases h0
      · omega
    · obtain ⟨_, _, _, h4, h5⟩ := hnq hques
      by_cases hN : entry.nargs = .NARGS_N
      · have hpos := hpol.2 hN
        have := h5 hN (by omega)
        omega
      · have := h4 (Or.inl hN)
        rw [this, hrest]
        simp
  omega

/-- An iteration of the main loop of a parse call on a reachable object that
does not fail moves the token cursor forward. -/
theorem step_cursor {libc : Libc} {s : ArgumentParser} (hr : Reachable libc s)
    {argv : List String} {st st1 : ParseState} (hl : s.loop_at libc argv st)
    (h : s.step libc argv st = .ok st1) : st.p_input_index < st1.p_input_index := by
  obtain ⟨hc1, _⟩ := loop_at_cursor hl
  obtain ⟨input, i, entry, v, hin, _, _, hentry, _, hcase⟩ := parse_step_ok h
  rcases hcase with ⟨hd, _, _, hc⟩ | ⟨_, _, _, hc⟩
  · rcases hc with ⟨_, hc, _⟩ | ⟨hn, r, hr1, hc, _⟩
    · omega
    · have := parse_nargs_back hc1 hin hd (loop_at_entry hr hl hentry).2.1 hr1
      omega
  · rcases hc with ⟨_, hc⟩ | ⟨_, _, r, hr1, hc, _⟩ | ⟨_, _, hc, _⟩
    · omega
    · obtain ⟨n, hn, _⟩ := parse_nargs_ok hr1
      omega
    · omega

theorem iterations_snoc {libc : Libc} {short long : List (String × Nat)} {pi : List Nat}
    {argv : List String} :
    ∀ (k : Nat) (st st1 : ParseState),
      iterations libc short long pi argv k st = .ok st1 → st1.p_input_index < argv.length →
      iterations libc short long pi argv (k + 1) st =
        parse_step libc short long pi argv st1 := by
  intro k
  induction k with
  | zero =>
    intro st st1 h hlt
    simp only [iterations, Chk.ok.injEq] at h
    subst h
    rw [iterations, if_pos hlt]
    cases parse_step libc short long pi argv st <;> rfl
  | succ k ih =>
    intro st st1 h hlt
    rw [iterations] at h
    rw [iterations]
    split at h
    · rename_i hst
      rw [if_pos hst]
      obtain ⟨st2, hstep, h1⟩ := Chk.bind_eq_ok h
      rw [hstep, Chk.ok_bind]
      exact ih st2 st1 h1 hlt
    · rename_i hst
      simp only [Chk.ok.injEq] at h
      subst h
      exact absurd hlt hst

/-- The state after an iteration that does not fail is a state of the main
loop, when a token is left to read. -/
theorem loop_at_step {libc : Libc} {s : ArgumentParser} {argv : List String}
    {st st1 : ParseState} (hl : s.loop_at libc argv st) (h : s.step libc argv st = .ok st1)
    (hlt : st1.p_input_index < argv.length) : s.loop_at libc argv st1 := by
  obtain ⟨h1, k, hk⟩ := hl
  refine ⟨hlt, k + 1, ?_⟩
  rw [iterations_snoc k _ _ hk h1]
  exact h

/-- The main loop of a parse call on a reachable object ends within as many
iterations as tokens are left to read. -/
theorem main_loop_ne_nofuel {libc : Libc} {s : ArgumentParser} (hr : Reachable libc s)
    {argv : List String} :
    ∀ (fuel : Nat) (st : ParseState),
      (st.p_input_index < argv.length → s.loop_at libc argv st) →
      argv.length - st.p_input_index ≤ fuel →
      main_loop libc s.prepass.1.optional_short_key_ s.prepass.1.optional_long_key_
        s.prepass.2 argv fuel st ≠ .nofuel := by
  intro fuel
  induction fuel with
  | zero =>
    intro st _ hfuel
    rw [main_loop, if_neg (by omega)]
    intro h; cases h
  | succ fuel ih =>
    intro st hl hfuel
    rw [main_loop]
    split_ifs with hlt
    · have hloop := hl hlt
      obtain ⟨hc1, _⟩ := loop_at_cursor hloop
      refine Chk.bind_ne_nofuel (parse_step_ne_nofuel _ _ _ _ _ _ hc1 hlt) fun st1 hstep => ?_
      have hcur := step_cursor hr hloop hstep
      exact ih st1 (fun h => loop_at_step hloop hstep h) (by omega)
    · intro h; cases h

/-- After `k` iterations of the main loop of a parse call on a reachable object
with a token left to read, the token cursor has moved by `k` at least. -/
theorem iterations_count {libc : Libc} {s : ArgumentParser} (hr : Reachable libc s)
    {argv : List String} :
    ∀ (k : Nat) (st0 st : ParseState), s.loop_at libc argv st0 →
      iterations libc s.prepass.1.optional_short_key_ s.prepass.1.optional_long_key_
        s.prepass.2 argv k st0 = .ok st →
      st.p_input_index < argv.length → st0.p_input_index + k ≤ st.p_input_index := by
  intro k
  induction k with
  | zero =>
    intro st0 st _ h _
    simp only [iterations, Chk.ok.injEq] at h
    subst h
    omega
  | succ k ih =>
    intro st0 st hl h hlt
    rw [iterations, if_pos hl.1] at h
    obtain ⟨st2, hstep, h1⟩ := Chk.bind_eq_ok h
    have hcur := step_cursor hr hl hstep
    by_cases h2 : st2.p_input_index < argv.length
    · have := ih st2 st (loop_at_step hl hstep h2) h1 hlt
      omega
    · have : st = st2 := by
        cases k with
        | zero =>
          simp only [iterations, Chk.ok.injEq] at h1
          exact h1.symm
        | succ k =>
          rw [iterations, if_neg h2] at h1
          simp only [Chk.ok.injEq] at h1
          exact h1.symm
      subst this
      exact absurd hlt h2

/-! ## The two result maps -/

theorem map_find_set {α : Type} (m : List (String × α)) (k k2 : String) (v : α) :
    map_find (map_set m k v) k2 = if k = k2 then some v else map_find m k2 := by
  by_cases h : k = k2
  · subst h
    rw [if_pos rfl, map_find_set_same]
  · rw [if_neg h, map_find_set_other _ _ _ _ h]

theorem build_string_result_foldl (l : List ParamEntry) :
    ∀ (acc1 : List (String × String)) (acc : List (String × ParamEntry)),
      (∀ k, map_find acc1 k = (map_find acc k).map fun e => e.value.string_value) →
      ∀ k, map_find (l.foldl (fun result item =>
          if item.filled then map_set result item.key item.value.string_value else result)
          acc1) k =
        (map_find (l.foldl (fun result item =>
          if item.filled then map_set result item.key item else result) acc) k).map
          fun e => e.value.string_value := by
  induction l with
  | nil => intro acc1 acc h k; exact h k
  | cons item rest ih =>
    intro acc1 acc h k
    simp only [List.foldl_cons]
    apply ih
    intro k2
    by_cases hf : item.filled = true
    · rw [if_pos hf, if_pos hf, map_find_set, map_find_set]
      by_cases hk : item.key = k2
      · rw [if_pos hk, if_pos hk]
        rfl
      · rw [if_neg hk, if_neg hk]
        exact h k2
    · rw [if_neg hf, if_neg hf]
      exact h k2

/-- The string result maps a key to the string accessor of what the typed result
holds under it. -/
theorem build_string_result_find (l : List ParamEntry) (k : String) :
    map_find (build_string_result l) k =
      ((ArgValue.mk (build_result l)).find k).map EntryItem.string_value := by
  unfold build_string_result build_result ArgValue.find
  rw [build_string_result_foldl l [] [] (fun _ => rfl) k, Option.map_map]
  rfl

/-- The two ends of a parse call on the same outcome of the main loop and the
finalizer. -/
theorem finish_agree {libc : Libc} (s1 : ArgumentParser) (r : Chk (List ParamEntry)) :
    (s1.finish libc r build_string_result).void =
      (s1.finish libc r fun entries => ArgValue.mk (build_result entries)).void ∧
    (∀ m, (s1.finish libc r build_string_result).failed_with m ↔
      (s1.finish libc r fun entries => ArgValue.mk (build_result entries)).failed_with m) ∧
    ((s1.finish libc r build_string_result).failed ↔
      (s1.finish libc r fun entries => ArgValue.mk (build_result entries)).failed) ∧
    (∀ a s2, (s1.finish libc r fun entries => ArgValue.mk (build_result entries)) = .ok a s2 →
      ∃ m1, s1.finish libc r build_string_result = .ok m1 s2 ∧
        (∀ k, map_find m1 k = (a.find k).map EntryItem.string_value) ∧
        (∀ k, (map_find m1 k).isSome ↔ (a.find k).isSome)) ∧
    (∀ m1 s2, s1.finish libc r build_string_result = .ok m1 s2 →
      ∃ a, (s1.finish libc r fun entries => ArgValue.mk (build_result entries)) = .ok a s2 ∧
        (∀ k, map_find m1 k = (a.find k).map EntryItem.string_value) ∧
        (∀ k, (map_find m1 k).isSome ↔ (a.find k).isSome)) := by
  have hrel : ∀ l : List ParamEntry,
      (∀ k, map_find (build_string_result l) k =
        ((ArgValue.mk (build_result l)).find k).map EntryItem.string_value) ∧
      (∀ k, (map_find (build_string_result l) k).isSome ↔
        ((ArgValue.mk (build_result l)).find k).isSome) := by
    intro l
    refine ⟨build_string_result_find l, fun k => ?_⟩
    rw [build_string_result_find l k, Option.isSome_map']
  cases r with
  | ok final =>
    refine ⟨rfl, fun m => Iff.rfl, Iff.rfl, ?_, ?_⟩
    · intro a s2 h
      obtain ⟨h1, h2⟩ := Res.ok.inj h
      subst h1 h2
      exact ⟨_, rfl, hrel final⟩
    · intro m1 s2 h
      obtain ⟨h1, h2⟩ := Res.ok.inj h
      subst h1 h2
      exact ⟨_, rfl, hrel final⟩
  | fail m =>
    simp only [ArgumentParser.finish, ArgumentParser.raise]
    cases s1.error_mode_ <;> simp [Res.void, Res.failed_with, Res.failed]
  | help => simp [ArgumentParser.finish, Res.void, Res.failed_with, Res.failed]
  | undefined => simp [ArgumentParser.finish, Res.void, Res.failed_with, Res.failed]
  | nofuel => simp [ArgumentParser.finish, Res.void, Res.failed_with, Res.failed]

/-! ## Declarations that throw -/

/-- The sort of the help printing on two entries of which the second only is
required: every `std::sort` swaps them. -/
theorem sort_pair (libc : Libc) (a b : ParamEntry) (ha : a.required = false)
    (hb : b.required = true) : libc.sort [a, b] = [b, a] := by
  have hp := libc.sort_perm [a, b]
  have hs := libc.sort_sorted [a, b]
  obtain ⟨x, y, hxy⟩ := List.length_eq_two.mp hp.length_eq
  rw [hxy] at hp hs ⊢
  have hx : x ∈ [a, b] := hp.mem_iff.mp (by simp)
  have hy : y ∈ [a, b] := hp.mem_iff.mp (by simp)
  have hb1 : b ∈ [x, y] := hp.mem_iff.mpr (by simp)
  have ha1 : a ∈ [x, y] := hp.mem_iff.mpr (by simp)
  have hne : a ≠ b := by
    intro h
    rw [h, hb] at ha
    cases ha
  have hord : required_first y x = false := by simpa using hs
  simp only [List.mem_cons, List.mem_singleton, List.not_mem_nil, or_false] at hx hy ha1 hb1
  have hxb : x = b := by
    rcases hx with h | h
    · exfalso
      rcases hb1 with h1 | h1
      · exact hne (h.symm.trans h1.symm)
      · rw [h, ← h1] at hord
        simp [required_first, ha, hb] at hord
    · exact h
  have hya : y = a := by
    rcases ha1 with h | h
    · exact absurd (h.trans hxb) hne
    · exact h.symm
  rw [hxb, hya]

theorem check_error_thrown {libc : Libc} {α : Type} {s s1 : ArgumentParser} {c : Bool} {m : String}
    {rest : Res α} {e : Exception} (h : s.check_error libc c m rest = .thrown e s1) :
    (c = true ∧ rest = .thrown e s1) ∨
      (c = false ∧ s1 = s.print_help libc ∧ s.error_mode_ = .THROW_EXCEPTION) := by
  unfold ArgumentParser.check_error at h
  split at h
  · rename_i hc
    exact Or.inl ⟨hc, h⟩
  · rename_i hc
    right
    unfold ArgumentParser.raise at h
    cases hm : s.error_mode_ <;> rw [hm] at h
    · cases h
    · exact ⟨by simpa using hc, (Res.thrown.inj h).2.symm, rfl⟩

theorem derived_key_empty {e : ParamEntry} (h : derived_key e = "") :
    { e with key := derived_key e } = e := by
  have hk : e.key = "" := by
    by_contra hc
    unfold derived_key at h
    rw [if_neg hc] at h
    exact hc h
  rw [h, ← hk]

/-! ## Objects built by calls that all returned -/

/-- What a call that returned has done to the registry and the tables: nothing,
or a commit of the current entry, or the pre-pass of a parse call. -/
theorem Call.run_ok_state (libc : Libc) (c : Call) {s s1 : ArgumentParser}
    (h : c.run libc s = .ok () s1) :
    (s1.param_entries_ = s.param_entries_ ∧ s1.optional_short_key_ = s.optional_short_key_ ∧
      s1.optional_long_key_ = s.optional_long_key_ ∧ s1.positional_key_ = s.positional_key_) ∨
    (∃ s0 : ArgumentParser, s0.param_entries_ = s.param_entries_ ∧
      s0.optional_short_key_ = s.optional_short_key_ ∧
      s0.optional_long_key_ = s.optional_long_key_ ∧ s0.positional_key_ = s.positional_key_ ∧
      committed s0 s1) ∨
    s1 = s.prepass.1 := by
  have long_case : ∀ {s s1 : ArgumentParser} {n : String}, s.long_name libc n = .ok () s1 →
      s1.param_entries_ = s.param_entries_ ∧ s1.optional_short_key_ = s.optional_short_key_ ∧
      s1.optional_long_key_ = s.optional_long_key_ ∧ s1.positional_key_ = s.positional_key_ := by
    intro s s1 n h
    unfold ArgumentParser.long_name at h
    obtain ⟨_, h⟩ := check_error_ok h
    obtain ⟨_, h⟩ := check_error_ok h
    obtain ⟨_, h⟩ := check_error_ok h
    rw [← (Res.ok.inj h).2]
    exact ⟨rfl, rfl, rfl, rfl⟩
  have default_case : ∀ {s s1 : ArgumentParser} {v : Literal}, s.default_value libc v = .ok () s1 →
      s1.param_entries_ = s.param_entries_ ∧ s1.optional_short_key_ = s.optional_short_key_ ∧
      s1.optional_long_key_ = s.optional_long_key_ ∧ s1.positional_key_ = s.positional_key_ := by
    intro s s1 v h
    unfold ArgumentParser.default_value at h
    obtain ⟨_, h⟩ := check_error_ok h
    rw [← (Res.ok.inj h).2]
    exact ⟨rfl, rfl, rfl, rfl⟩
  have help_case : ∀ {s s1 : ArgumentParser} {t : String}, s.help t = .ok () s1 →
      s1.param_entries_ = s.param_entries_ ∧ s1.optional_short_key_ = s.optional_short_key_ ∧
      s1.optional_long_key_ = s.optional_long_key_ ∧ s1.positional_key_ = s.positional_key_ := by
    intro s s1 t h
    unfold ArgumentParser.help at h
    rw [← (Res.ok.inj h).2]
    exact ⟨rfl, rfl, rfl, rfl⟩
  cases c with
  | set_error_mode m =>
    simp only [Call.run, ArgumentParser.set_error_mode] at h
    rw [← (Res.ok.inj h).2]
    exact Or.inl ⟨rfl, rfl, rfl, rfl⟩
  | long_name n => exact Or.inl (long_case h)
  | short_name n =>
    simp only [Call.run, ArgumentParser.short_name] at h
    obtain ⟨_, h⟩ := check_error_ok h
    obtain ⟨_, h⟩ := check_error_ok h
    obtain ⟨_, h⟩ := check_error_ok h
    rw [← (Res.ok.inj h).2]
    exact Or.inl ⟨rfl, rfl, rfl, rfl⟩
  | positional_name n =>
    simp only [Call.run, ArgumentParser.positional_name] at h
    obtain ⟨_, h⟩ := check_error_ok h
    obtain ⟨_, h⟩ := check_error_ok h
    obtain ⟨_, h⟩ := check_error_ok h
    obtain ⟨_, h⟩ := check_error_ok h
    rw [← (Res.ok.inj h).2]
    exact Or.inl ⟨rfl, rfl, rfl, rfl⟩
  | default_value v => exact Or.inl (default_case h)
  | const_value v =>
    simp only [Call.run, ArgumentParser.const_value] at h
    obtain ⟨_, h⟩ := check_error_ok h
    split at h
    · rw [← (Res.ok.inj h).2]
      exact Or.inl ⟨rfl, rfl, rfl, rfl⟩
    · split at h
      · rw [← (Res.ok.inj h).2]
        exact Or.inl ⟨rfl, rfl, rfl, rfl⟩
      · exact absurd (check_error_ok h).1 (by simp)
  | help t => exact Or.inl (help_case h)
  | nargs t =>
    simp only [Call.run, ArgumentParser.nargs] at h
    obtain ⟨_, h⟩ := check_error_ok h
    split_ifs at h
    · rw [← (Res.ok.inj h).2]
      exact Or.inl ⟨rfl, rfl, rfl, rfl⟩
    · rw [← (Res.ok.inj h).2]
      exact Or.inl ⟨rfl, rfl, rfl, rfl⟩
    · rw [← (Res.ok.inj h).2]
      exact Or.inl ⟨rfl, rfl, rfl, rfl⟩
    · exact absurd (check_error_ok h).1 (by simp)
  | nargs_int n =>
    simp only [Call.run, ArgumentParser.nargs_int] at h
    obtain ⟨_, h⟩ := check_error_ok h
    rw [← (Res.ok.inj h).2]
    exact Or.inl ⟨rfl, rfl, rfl, rfl⟩
  | action a =>
    simp only [Call.run, ArgumentParser.action] at h
    obtain ⟨_, h⟩ := check_error_ok h
    obtain ⟨_, h⟩ := check_error_ok h
    split_ifs at h
    · rw [← (Res.ok.inj h).2]
      exact Or.inl ⟨rfl, rfl, rfl, rfl⟩
    · rw [← (Res.ok.inj h).2]
      exact Or.inl ⟨rfl, rfl, rfl, rfl⟩
    · rw [← (Res.ok.inj h).2]
      exact Or.inl ⟨rfl, rfl, rfl, rfl⟩
    · exact absurd (check_error_ok h).1 (by simp)
  | dest d =>
    simp only [Call.run, ArgumentParser.dest] at h
    obtain ⟨_, h⟩ := check_error_ok h
    rw [← (Res.ok.inj h).2]
    exact Or.inl ⟨rfl, rfl, rfl, rfl⟩
  | choices a =>
    simp only [Call.run, ArgumentParser.choices] at h
    obtain ⟨_, h⟩ := check_error_ok h
    rw [← (Res.ok.inj h).2]
    exact Or.inl ⟨rfl, rfl, rfl, rfl⟩
  | type t =>
    simp only [Call.run, ArgumentParser.type] at h
    rw [← (Res.ok.inj h).2]
    exact Or.inl ⟨rfl, rfl, rfl, rfl⟩
  | done => exact Or.inr (Or.inl ⟨s, rfl, rfl, rfl, rfl, done_ok h⟩)
  | add_argument l d t =>
    simp only [Call.run, ArgumentParser.add_argument] at h
    obtain ⟨_, s2, h1, h2⟩ := and_then_ok h
    obtain ⟨_, s3, h3, h4⟩ := and_then_ok h2
    obtain ⟨_, s4, h5, h6⟩ := and_then_ok h4
    obtain ⟨a1, a2, a3, a4⟩ := long_case h1
    obtain ⟨b1, b2, b3, b4⟩ := default_case h3
    obtain ⟨c1, c2, c3, c4⟩ := help_case h5
    exact Or.inr (Or.inl ⟨s4, by rw [c1, b1, a1], by rw [c2, b2, a2], by rw [c3, b3, a3],
      by rw [c4, b4, a4], done_ok h6⟩)
  | parse_args_any_type argv =>
    simp only [Call.run] at h
    obtain ⟨a, ha⟩ := void_ok h
    unfold ArgumentParser.parse_args_any_type at ha
    exact Or.inr (Or.inr (finish_ok ha))
  | parse_args_string argv =>
    simp only [Call.run] at h
    obtain ⟨a, ha⟩ := void_ok h
    unfold ArgumentParser.parse_args_string at ha
    exact Or.inr (Or.inr (finish_ok ha))

theorem table_exact_commit {tab : List (String × Nat)} {sel : ParamEntry → String}
    {l : List ParamEntry} (h : table_exact tab sel l) (x : ParamEntry) :
    table_exact (if sel x ≠ "" then map_set tab (sel x) 1 else tab) sel (l ++ [x]) := by
  intro k hk
  by_cases hx : sel x = k
  · exact ⟨x, by simp, hx⟩
  · have hk1 : (map_find tab k).isSome := by
      split_ifs at hk
      · rw [map_find_set_other _ _ _ _ hx] at hk
        exact hk
      · exact hk
    obtain ⟨e, he, hek⟩ := h k hk1
    exact ⟨e, List.mem_append_left _ he, hek⟩

theorem table_exact_fold {tab : List (String × Nat)} {sel : ParamEntry → String}
    {l l1 : List ParamEntry} (h : table_exact tab sel l) (hp : l1.Perm l) :
    table_exact (table_fold sel l1 0 tab) sel l1 := by
  intro k hk
  obtain ⟨j, hj⟩ := Option.isSome_iff_exists.mp hk
  rcases table_fold_key sel l1 0 tab k j hj with ⟨e, he, _, hek⟩ | ⟨_, h1⟩
  · exact ⟨e, he, hek⟩
  · obtain ⟨e, he, hek⟩ := h k (by rw [h1]; rfl)
    exact ⟨e, hp.mem_iff.mpr he, hek⟩

theorem Exact.after_prepass {s : ArgumentParser} (h : Exact s) : Exact s.prepass.1 := by
  have hp := stable_sort_perm required_first s.param_entries_
  rw [prepass_eq]
  exact ⟨table_exact_fold h.short hp, table_exact_fold h.long hp⟩

/-- A call that returns keeps the flag tables exact. -/
theorem Call.keeps_exact (libc : Libc) (c : Call) {s s1 : ArgumentParser}
    (h : c.run libc s = .ok () s1) (he : Exact s) : Exact s1 := by
  rcases Call.run_ok_state libc c h with ⟨h1, h2, h3, _⟩ | ⟨s0, h1, h2, h3, _, hc⟩ | h1
  · exact ⟨by rw [h1, h2]; exact he.short, by rw [h1, h3]; exact he.long⟩
  · constructor
    · rw [hc.registry, hc.short, h1, h2]
      exact table_exact_commit he.short { s0.now_entry_ with key := derived_key s0.now_entry_ }
    · rw [hc.registry, hc.long, h1, h3]
      exact table_exact_commit he.long { s0.now_entry_ with key := derived_key s0.now_entry_ }
  · rw [h1]
    exact he.after_prepass

theorem chain_preserves (libc : Libc) {P : ArgumentParser → Prop}
    (hstep : ∀ (c : Call) (s s1 : ArgumentParser), c.run libc s = .ok () s1 → P s → P s1)
    (calls : List Call) :
    ∀ {s s1 : ArgumentParser}, P s → chain libc s calls = some s1 → P s1 := by
  induction calls with
  | nil =>
    intro s s1 h hc
    simp only [chain, Option.some.injEq] at hc
    rw [← hc]
    exact h
  | cons c rest ih =>
    intro s s1 h hc
    unfold chain at hc
    split at hc
    · rename_i u s2 hrun
      exact ih (hstep c s s2 hrun h) hc
    · cases hc

theorem Built.exact {libc : Libc} {s : ArgumentParser} (h : Built libc s) : Exact s := by
  obtain ⟨calls, hc⟩ := h
  refine chain_preserves libc (fun c s s1 hrun he => Call.keeps_exact libc c hrun he) calls ?_ hc
  exact Exact.mk (fun k hk => by cases hk) (fun k hk => by cases hk)

theorem Built.to_reachable_state {libc : Libc} {s : ArgumentParser} (h : Built libc s) :
    Reachable libc s := by
  obtain ⟨calls, hc⟩ := h
  exact chain_reachable libc calls .new hc

/-- A key of a flag table of the pre-pass on an object with exact tables is
mapped to the index of the entry that carries it. -/
theorem prepass_exact {s : ArgumentParser} (hi : Inv s) (hp : Policy s) (he : Exact s)
    {k : String} {j : Nat} :
    (map_find s.prepass.1.optional_short_key_ k = some j →
      ∃ e, s.prepass.1.param_entries_[j]? = some e ∧ e.short_key = k ∧ k ≠ "") ∧
    (map_find s.prepass.1.optional_long_key_ k = some j →
      ∃ e, s.prepass.1.param_entries_[j]? = some e ∧ e.long_key = k ∧ k ≠ "") := by
  have hperm := stable_sort_perm required_first s.param_entries_
  have key : ∀ (sel : ParamEntry → String) (tab : List (String × Nat)),
      distinct_keys sel s.param_entries_ → table_exact tab sel s.param_entries_ →
      map_find tab "" = none →
      map_find (table_fold sel (stable_sort required_first s.param_entries_) 0 tab) k =
        some j →
      ∃ e, (stable_sort required_first s.param_entries_)[j]? = some e ∧ sel e = k ∧ k ≠ "" := by
    intro sel tab hd hex hnone hfind
    have hcase : ∃ e ∈ stable_sort required_first s.param_entries_, sel e ≠ "" ∧ sel e = k := by
      rcases table_fold_key sel _ 0 tab k j hfind with h1 | ⟨h1, h2⟩
      · exact h1
      · obtain ⟨e, hmem, hek⟩ := hex k (by rw [h2]; rfl)
        have hne : k ≠ "" := by
          intro hc
          rw [hc, hnone] at h2
          cases h2
        exact ⟨e, hperm.mem_iff.mpr hmem, by rw [hek]; exact hne, hek⟩
    obtain ⟨e, hmem, hne, hek⟩ := hcase
    obtain ⟨i, hi1⟩ := List.getElem?_of_mem hmem
    have := table_fold_hit sel _ (distinct_keys_perm hperm hd) 0 tab i e hi1 hne
    rw [hek, hfind, Nat.zero_add] at this
    cases this
    exact ⟨e, hi1, hek, by rw [← hek]; exact hne⟩
  rw [prepass_eq]
  exact ⟨key _ _ hi.short_distinct he.short hp.short_named,
    key _ _ hi.long_distinct he.long hp.long_named⟩

/-- What the flag lookup of a token that starts with `-` has found. -/
theorem lookup_flag_ok {short long : List (String × Nat)} {input name : String} {j : Nat}
    (hd : starts_with input "-" = true) (h : lookup_flag short long input = .ok (name, j)) :
    name = flag_name input ∧
      if starts_with input "--" then map_find long name = some j
      else map_find short name = some j := by
  refine ⟨lookup_flag_name hd h, ?_⟩
  unfold lookup_flag at h
  split at h
  · rename_i h2
    rw [if_pos h2]
    dsimp only at h
    split at h
    · cases h
    · rename_i v hv
      cases h
      exact hv
  · rename_i h2
    rw [if_neg h2]
    dsimp only at h
    split at h
    · cases h
    · rename_i v hv
      cases h
      exact hv

/-- On an object built by calls that all returned, a flag token resolves only
to an entry that carries the flag, which has no positional name. -/
theorem Built.lookup {libc : Libc} {s : ArgumentParser} (h : Built libc s) {t name : String}
    {j : Nat} (hd : starts_with t "-" = true)
    (hl : lookup_flag s.prepass.1.optional_short_key_ s.prepass.1.optional_long_key_ t =
      .ok (name, j)) :
    ∃ e, s.prepass.1.param_entries_[j]? = some e ∧ name = flag_name t ∧ name ≠ "" ∧
      (if starts_with t "--" then e.long_key = name else e.short_key = name) ∧
      e.positional_key = "" := by
  have hr := h.to_reachable_state
  obtain ⟨hname, hfind⟩ := lookup_flag_ok hd hl
  have hex := prepass_exact (k := name) (j := j) hr.inv hr.policy h.exact
  have hpos : ∀ e, s.prepass.1.param_entries_[j]? = some e →
      e.short_key ≠ "" ∨ e.long_key ≠ "" → e.positional_key = "" := by
    intro e he hflag
    have hmem : e ∈ s.param_entries_ := (prepass_perm s).mem_iff.mp (List.getElem?_mem he)
    by_contra hp
    have h1 := hr.inv.positional_required e hmem hp
    have h2 := hr.flagged_optional.1 e hmem hflag
    rw [h1] at h2
    cases h2
  split at hfind
  · rename_i h2
    obtain ⟨e, he, hk, hne⟩ := hex.2 hfind
    refine ⟨e, he, hname, hne, ?_, hpos e he (Or.inr (by rw [hk]; exact hne))⟩
    rw [if_pos h2]
    exact hk
  · rename_i h2
    obtain ⟨e, he, hk, hne⟩ := hex.1 hfind
    refine ⟨e, he, hname, hne, ?_, hpos e he (Or.inl (by rw [hk]; exact hne))⟩
    rw [if_neg h2]
    exact hk

/-- On an object built by calls that all returned, no token resolves to an
entry with a positional name. -/
theorem Built.positional_unflagged {libc : Libc} {s : ArgumentParser} (h : Built libc s)
    (argv : List String) {j : Nat} {e : ParamEntry}
    (he : s.prepass.1.param_entries_[j]? = some e) (hp : e.positional_key ≠ "") :
    s.flag_absent argv j := by
  intro t _ hd name hl
  obtain ⟨e1, he1, _, _, _, hp1⟩ := h.lookup hd hl
  rw [he] at he1
  cases he1
  exact hp hp1

/-- The iterations of the main loop leave alone every entry with an action that
no token of the vector that starts with `-` is looked up to. -/
theorem iterations_skips {libc : Libc} {short long : List (String × Nat)}
    {pi : List Nat} {argv : List String} (j : Nat) (e : ParamEntry) (ha : e.action ≠ .NONE)
    (hflag : ∀ t ∈ argv, starts_with t "-" = true →
      ∀ name, lookup_flag short long t ≠ .ok (name, j)) :
    ∀ (k : Nat) (st st1 : ParseState),
      iterations libc short long pi argv k st = .ok st1 →
      st.param_entries[j]? = some e → st1.param_entries[j]? = some e := by
  intro k
  induction k with
  | zero =>
    intro st st1 h hj
    simp only [iterations, Chk.ok.injEq] at h
    rw [← h]
    exact hj
  | succ k ih =>
    intro st st1 h hj
    rw [iterations] at h
    split at h
    · obtain ⟨st2, hstep, h1⟩ := Chk.bind_eq_ok h
      apply ih st2 st1 h1
      obtain ⟨input, i, entry, v, hin, _, _, hentry, hset, hcase⟩ := parse_step_ok hstep
      have hne : i ≠ j := by
        rcases hcase with ⟨_, hact, _, _⟩ | ⟨hd, _, ⟨name, hl⟩, _⟩
        · intro hij
          rw [hij, hj] at hentry
          cases hentry
          exact ha hact
        · intro hij
          rw [hij] at hl
          exact hflag input (List.getElem?_mem hin) hd name hl
      rw [hset, List.getElem?_set_ne hne]
      exact hj
    · cases h; exact hj

/-- What a parse call that returns a result holds for the key of an entry that
the main loop has left as it was declared: the mapping the finalizer makes of
the declared entry. -/
theorem untouched_result {libc : Libc} {s s1 : ArgumentParser} {argv : List String} {j : Nat}
    {e : ParamEntry} {a : ArgValue}
    (hst : ∀ st1, s.loop_ends libc argv st1 → st1.param_entries[j]? = some e)
    (h : s.parse_args_any_type libc argv = .ok a s1) :
    ∃ e1, finalize_entry e = .ok e1 ∧ (e1.filled = true → (a.find e.key).isSome) ∧
      (s.key_unshared j → s.prepass.1.param_entries_[j]? = some e →
        a.find e.key = if e1.filled then some e1.value else none) := by
  obtain ⟨st1, final, hloop, hfin, ha⟩ := parse_returns h
  obtain ⟨e1, he1, hf1⟩ := (finalize_get hfin j).1 e (hst st1 hloop)
  have hk1 : e1.key = e.key := (finalize_entry_keeps hf1).1
  have hmem : e1 ∈ final := List.getElem?_mem he1
  subst ha
  refine ⟨e1, hf1, ?_, ?_⟩
  · intro hfilled
    exact (find_isSome_iff final e.key).mpr ⟨e1, hmem, hfilled, hk1⟩
  · intro hu he
    have honly : ∀ x ∈ final, x.key = e1.key → x = e1 := by
      intro x hx hk
      obtain ⟨j1, hj1⟩ := List.getElem?_of_mem hx
      obtain ⟨x0, hx0, hk0⟩ := final_entry_declared hloop hfin hj1
      have := hu e x0 j1 he hx0 (by rw [hk0, hk, hk1])
      subst this
      rw [he1] at hj1
      exact (Option.some.inj hj1).symm
    by_cases hfilled : e1.filled = true
    · rw [if_pos hfilled]
      unfold ArgValue.find
      rw [← hk1, build_result_unique final e1 hmem hfilled honly]
      rfl
    · rw [if_neg hfilled]
      have hnone : ¬ ((ArgValue.mk (build_result final)).find e.key).isSome := by
        rw [find_isSome_iff]
        rintro ⟨x, hx, hxf, hxk⟩
        have := honly x hx (by rw [hxk, hk1])
        subst this
        exact hfilled hxf
      simpa using hnone

/-- What the finalizer makes of an unfilled entry with a positional name and an
action. -/
theorem finalize_entry_action {e : ParamEntry} (hf : e.filled = false)
    (hp : e.positional_key ≠ "") (ha : e.action ≠ .NONE) (hpol : policy_ok e) :
    finalize_entry e = .ok { e with
      value :=
        if e.action = .ACTION_STORE_TRUE then .bool true
        else if e.action = .ACTION_STORE_FALSE then .bool false
        else e.const_value
      filled := true } := by
  have hn : ¬ (e.nargs = .NARGS_QUESTION ∨ e.nargs = .NARGS_STAR) := by
    rintro (h | h)
    · exact ha (hpol.1 (Or.inl h))
    · exact ha (hpol.1 (Or.inr (Or.inl h)))
  unfold finalize_entry
  rw [if_neg (by simp [hf]), if_pos hp, if_neg hn, if_pos ha]
  cases hact : e.action
  · exact absurd hact ha
  · simp
  · simp
  · simp

theorem positions_append (l1 l2 : List ParamEntry) :
    ∀ n, positions (l1 ++ l2) n = positions l1 n ++ positions l2 (n + l1.length) := by
  induction l1 with
  | nil => intro n; simp [positions]
  | cons x l1 ih =>
    intro n
    simp only [List.cons_append, positions, List.length_cons]
    have ih1 := ih (n + 1)
    simp only [List.append_eq] at ih1 ⊢
    rw [ih1]
    have e : n + 1 + l1.length = n + (l1.length + 1) := by omega
    rw [e]
    split_ifs <;> simp

theorem positions_all (l : List ParamEntry) (h : ∀ e ∈ l, e.positional_key ≠ "") :
    ∀ n, positions l n = List.range' n l.length := by
  induction l with
  | nil => intro n; rfl
  | cons x l ih =>
    intro n
    unfold positions
    rw [if_pos (h x (List.mem_cons_self _ _)),
      ih (fun e he => h e (List.mem_cons_of_mem _ he)) (n + 1)]
    rfl

theorem positions_none (l : List ParamEntry) (h : ∀ e ∈ l, e.positional_key = "") :
    ∀ n, positions l n = [] := by
  induction l with
  | nil => intro n; rfl
  | cons x l ih =>
    intro n
    unfold positions
    rw [if_neg (by simp [h x (List.mem_cons_self _ _)]),
      ih (fun e he => h e (List.mem_cons_of_mem _ he)) (n + 1)]

/-- Without a `positional_name("")` call the mark `required` of a registered
entry says that it has a positional name. -/
theorem ReachableBy.required_iff {libc : Libc} {s : ArgumentParser}
    (h : ReachableBy libc Call.names_positional s) :
    ∀ e ∈ s.param_entries_, (e.required = true ↔ e.positional_key ≠ "") :=
  fun e he => ⟨h.named_if_required.1 e he, h.to_reachable.inv.positional_required e he⟩

theorem ReachableBy.prepass_split {libc : Libc} {s : ArgumentParser}
    (h : ReachableBy libc Call.names_positional s) :
    s.prepass.1.param_entries_ =
      s.param_entries_.filter (fun e => e.positional_key ≠ "") ++
        s.param_entries_.filter (fun e => e.positional_key = "") := by
  rw [prepass_registry, stable_sort_required]
  congr 1
  · apply List.filter_congr
    intro e he
    have := h.required_iff e he
    by_cases hp : e.positional_key = ""
    · have hr : e.required = false := by
        cases hreq : e.required
        · rfl
        · exact absurd hp (this.mp hreq)
      simp [hp, hr]
    · simp [hp, this.mpr hp]
  · apply List.filter_congr
    intro e he
    have := h.required_iff e he
    by_cases hp : e.positional_key = ""
    · have hr : e.required = false := by
        cases hreq : e.required
        · rfl
        · exact absurd hp (this.mp hreq)
      simp [hp, hr]
    · simp [hp, this.mpr hp]

theorem ReachableBy.prepass_range {libc : Libc} {s : ArgumentParser}
    (h : ReachableBy libc Call.names_positional s) :
    s.prepass.2 =
      List.range (s.param_entries_.filter (fun e => e.positional_key ≠ "")).length := by
  rw [prepass_positions, ← prepass_registry, h.prepass_split, positions_append,
    positions_all _ (fun e he => by simpa using (List.mem_filter.mp he).2),
    positions_none _ (fun e he => by simpa using (List.mem_filter.mp he).2),
    List.append_nil, List.range_eq_range']

theorem verbose_name_state_built : Built Libc.zero verbose_name_state :=
  ⟨[.positional_name "verbose", .action "store_true", .done, .positional_name "name", .done],
    by decide⟩

/-! ## The declaration with `add_argument` -/

theorem starts_with_eq_append {t p : String} (h : starts_with t p = true) :
    t = p ++ substr t p.length := by
  unfold starts_with at h
  rw [List.isPrefixOf_iff_prefix] at h
  obtain ⟨r, hr⟩ := h
  apply String.ext
  unfold substr
  rw [String.data_append]
  have e : p.length = p.data.length := rfl
  rw [e, ← hr, List.drop_left]

theorem chain_append (libc : Libc) (l1 l2 : List Call) :
    ∀ (s s1 s2 : ArgumentParser), chain libc s l1 = some s1 → chain libc s1 l2 = some s2 →
      chain libc s (l1 ++ l2) = some s2 := by
  induction l1 with
  | nil =>
    intro s s1 s2 h1 h2
    simp only [chain, Option.some.injEq] at h1
    rw [h1]
    exact h2
  | cons c rest ih =>
    intro s s1 s2 h1 h2
    rw [List.cons_append]
    unfold chain at h1 ⊢
    split at h1
    · exact ih _ s1 s2 h1 h2
    · cases h1

theorem Built.call {libc : Libc} {s s1 : ArgumentParser} (h : Built libc s) (c : Call)
    (hrun : c.run libc s = .ok () s1) : Built libc s1 := by
  obtain ⟨calls, hc⟩ := h
  refine ⟨calls ++ [c], chain_append libc calls [c] _ s s1 hc ?_⟩
  unfold chain
  rw [hrun]
  rfl

/-- What `add_argument` does on a blank current entry with a fresh long flag. -/
theorem add_argument_ok {libc : Libc} (s : ArgumentParser) (n d h : String)
    (hblank : s.now_entry_ = ParamEntry.blank) (hn : n ≠ "")
    (hnew : map_find s.optional_long_key_ n = none) :
    s.add_argument libc ("--" ++ n) d h = .ok ()
      { s with
        param_entries_ := s.param_entries_ ++
          [{ ParamEntry.blank with
            long_key := n, key := n, value_type := .STRING, default_value := .string d,
            help := h }]
        optional_long_key_ := map_set s.optional_long_key_ n 1
        now_entry_ := ParamEntry.blank } := by
  have h1 : starts_with ("--" ++ n) "--" = true := starts_with_append _ _
  have h2 : substr ("--" ++ n) 2 = n := substr_append "--" n
  obtain ⟨now, reg, short, long, pos, mode⟩ := s
  dsimp only at hblank hnew
  subst hblank
  simp only [ArgumentParser.add_argument, ArgumentParser.long_name, h1, check_error_true, h2, hnew,
    decide_True, Res.and_then, ArgumentParser.default_value, ArgumentParser.help,
    ArgumentParser.done, ArgumentParser.register_now, derived_key, ParamEntry.blank,
    Literal.kind, Literal.item, ArgumentParser.init]
  simp [hn, ArgumentParser.check_error]

theorem stable_sort_optional_last (l : List ParamEntry) (e : ParamEntry)
    (he : e.required = false) :
    stable_sort required_first (l ++ [e]) = stable_sort required_first l ++ [e] := by
  rw [stable_sort_required, stable_sort_required, List.filter_append, List.filter_append]
  simp [he]

theorem build_result_last (l : List ParamEntry) (e : ParamEntry) (hf : e.filled = true) :
    map_find (build_result (l ++ [e])) e.key = some e := by
  unfold build_result
  rw [List.foldl_append]
  simp only [List.foldl_cons, List.foldl_nil, hf, if_true]
  exact map_find_set_same _ _ _

theorem list_eq_take_concat {α : Type} (l : List α) (j : Nat) (x : α) (h1 : l[j]? = some x)
    (h2 : l[j + 1]? = none) : l = l.take j ++ [x] := by
  have hlen : l.length ≤ j + 1 := List.getElem?_eq_none_iff.mp h2
  obtain ⟨hlt, hx⟩ := List.getElem?_eq_some.mp h1
  have hd : l.drop j = [x] := by
    rw [List.drop_eq_getElem_cons hlt, hx, List.drop_eq_nil_of_le hlen]
  conv_lhs => rw [← List.take_append_drop j l, hd]

/-- On entries none of which is unfilled and needs a token the finalizer
returns. -/
theorem finalize_total (l : List ParamEntry)
    (h : ∀ e ∈ l, e.filled = false → ¬ needs_token e) : ∃ l1, finalize l = .ok l1 := by
  induction l with
  | nil => exact ⟨[], rfl⟩
  | cons x rest ih =>
    obtain ⟨rest1, hr1⟩ := ih (fun y hy => h y (List.mem_cons_of_mem _ hy))
    rcases finalize_entry_cases x with ⟨x1, hx1⟩ | ⟨hf, hn, _⟩
    · refine ⟨x1 :: rest1, ?_⟩
      unfold finalize
      rw [hx1, hr1]
      rfl
    · exact absurd hn (h x (List.mem_cons_self _ _) hf)

/-- A parse call whose main loop ends on entries none of which is unfilled and
needs a token returns a result. -/
theorem parse_returns_of_loop {libc : Libc} {s : ArgumentParser} {argv : List String}
    {st1 : ParseState} (hloop : s.loop_ends libc argv st1)
    (h : ∀ e ∈ st1.param_entries, e.filled = false → ¬ needs_token e) :
    ∃ a s1, s.parse_args_any_type libc argv = .ok a s1 := by
  obtain ⟨final, hfin⟩ := finalize_total _ h
  rw [parse_of_loop_ends hloop, hfin]
  exact ⟨_, _, rfl⟩

/-- The registry after the declaration of an entry that is not required: the
entry is the last one of the working list of a parse call. -/
theorem declared_last {s1 : ArgumentParser} {l : List ParamEntry} {e : ParamEntry}
    (hreg : s1.param_entries_ = l ++ [e]) (he : e.required = false) :
    s1.prepass.1.param_entries_ = stable_sort required_first l ++ [e] ∧
      s1.prepass.1.param_entries_[l.length]? = some e ∧
      s1.prepass.1.param_entries_[l.length + 1]? = none := by
  have hlen : (stable_sort required_first l).length = l.length :=
    (stable_sort_perm required_first l).length_eq
  rw [prepass_registry, hreg, stable_sort_optional_last l e he]
  refine ⟨rfl, ?_, ?_⟩
  · rw [List.getElem?_append_right (by omega), hlen, Nat.sub_self]
    rfl
  · rw [List.getElem?_eq_none_iff, List.length_append, hlen]
    simp

/-- The result of a parse call maps the key of the last entry of the working
list, when it is filled, to the value of this entry. -/
theorem last_entry_result {libc : Libc} {s1 : ArgumentParser} {argv : List String}
    {st1 : ParseState} {final : List ParamEntry} (hloop : s1.loop_ends libc argv st1)
    (hfin : finalize st1.param_entries = .ok final) {j : Nat} {x : ParamEntry}
    (hj : final[j]? = some x) (hlast : s1.prepass.1.param_entries_[j + 1]? = none)
    (hf : x.filled = true) :
    (ArgValue.mk (build_result final)).find x.key = some x.value := by
  have hnone : final[j + 1]? = none := by
    cases hy : final[j + 1]? with
    | none => rfl
    | some y =>
      obtain ⟨x0, hx0, _⟩ := final_entry_declared hloop hfin hy
      rw [hlast] at hx0
      cases hx0
  unfold ArgValue.find
  rw [list_eq_take_concat final j x hj hnone, build_result_last _ x hf]
  rfl

/-- On an object built by calls that all returned, no token of a vector without
the long flag of an entry that has no short flag resolves to this entry. -/
theorem long_flag_absent {libc : Libc} {s1 : ArgumentParser} (hb : Built libc s1) {j : Nat}
    {e : ParamEntry} (he : s1.prepass.1.param_entries_[j]? = some e) (hshort : e.short_key = "")
    {argv : List String} (habs : "--" ++ e.long_key ∉ argv) : s1.flag_absent argv j := by
  intro t ht hd name hl
  obtain ⟨e1, he1, hname, hne, hif, _⟩ := hb.lookup hd hl
  rw [he] at he1
  cases he1
  split at hif
  · rename_i h2
    have e2 : t = "--" ++ substr t 2 := starts_with_eq_append h2
    have e3 : flag_name t = substr t 2 := by
      unfold flag_name
      rw [if_pos h2]
    rw [hif, hname, e3, ← e2] at habs
    exact habs ht
  · rw [hshort] at hif
    exact hne hif.symm

theorem finalize_entry_default {e : ParamEntry} (hf : e.filled = false)
    (hp : e.positional_key = "") (hd : e.default_value.value_type ≠ .NONE) :
    finalize_entry e = .ok { e with value := e.default_value, filled := true } := by
  unfold finalize_entry
  rw [if_neg (by simp [hf]), if_neg (by simp [hp]), if_pos hd]

theorem finalize_entry_filled {e : ParamEntry} (hf : e.filled = true) :
    finalize_entry e = .ok e := by
  unfold finalize_entry
  rw [if_pos hf]

/-- The main loop on `[prog, --n, v]` when the long flag `n` is the one of a
plain entry without choices at the index `j`: one iteration, which binds `v`. -/
theorem loop_on_flag_and_value {libc : Libc} {s1 : ArgumentParser} (hr : Reachable libc s1)
    {j : Nat} {e : ParamEntry} (he : s1.prepass.1.param_entries_[j]? = some e)
    (hn : e.long_key ≠ "") (hhelp : e.long_key ≠ "help") (hact : e.action = .NONE)
    (hnargs : e.nargs = .NONE) (hch : e.choices_array = .empty) (prog v : String) :
    s1.loop_ends libc [prog, "--" ++ e.long_key, v]
      { param_entries := s1.prepass.1.param_entries_.set j
          { e with value := parse libc v e.value_type, filled := true }
        p_entry_index := 0
        p_input_index := 3 } := by
  have hsw : starts_with ("--" ++ e.long_key) "--" = true := starts_with_append _ _
  have hsub : substr ("--" ++ e.long_key) 2 = e.long_key := substr_append "--" _
  have hne1 : "--" ++ e.long_key ≠ "--help" := by
    intro hc
    have := congrArg (fun t => substr t 2) hc
    simp only [hsub] at this
    exact hhelp (this.trans (by decide))
  have hne2 : "--" ++ e.long_key ≠ "-h" := by
    intro hc
    rw [hc] at hsw
    revert hsw
    decide
  have hlook : lookup_flag s1.prepass.1.optional_short_key_ s1.prepass.1.optional_long_key_
      ("--" ++ e.long_key) = .ok (e.long_key, j) := by
    unfold lookup_flag
    rw [if_pos hsw]
    dsimp only
    rw [hsub, (prepass_tables hr.inv he).2.1 hn]
  have hmeets : s1.meets_flag libc [prog, "--" ++ e.long_key, v] s1.start j e :=
    ⟨⟨by simp [ArgumentParser.start], 0, rfl⟩,
      ⟨"--" ++ e.long_key, e.long_key, rfl, hne1, hne2, starts_with_dash hsw, hlook, he⟩⟩
  have hstep := @step_plain_flag libc s1 _ s1.start j e ("--" ++ e.long_key) hmeets rfl hact hnargs
  have hpc : parse_choices libc (parse libc v e.value_type) e = .ok true := by
    unfold parse_choices
    rw [hch]
    rfl
  have hstep1 : s1.step libc [prog, "--" ++ e.long_key, v] s1.start =
      .ok { param_entries := s1.prepass.1.param_entries_.set j
              { e with value := parse libc v e.value_type, filled := true }
            p_entry_index := 0
            p_input_index := 3 } := by
    rw [hstep]
    simp [ArgumentParser.start, Chk.check_error, Chk.bind, hpc]
  unfold ArgumentParser.loop_ends
  have hfuel : [prog, "--" ++ e.long_key, v].length + s1.prepass.1.param_entries_.length =
      (2 + s1.prepass.1.param_entries_.length) + 1 := by
    simp only [List.length_cons, List.length_nil]
    omega
  rw [hfuel, main_loop, if_pos (by simp [ArgumentParser.start])]
  unfold ArgumentParser.step at hstep1
  rw [hstep1]
  exact main_loop_no_tokens libc _ _ _ _ _ _ (by simp)



theorem add_argument_chain (libc : Libc) (s s1 : ArgumentParser) (l d h : String) :
    s.add_argument libc l d h = .ok () s1 ↔
      chain libc s [.long_name l, .default_value (.string d), .help h, .done] = some s1 := by
  simp only [chain, Call.run, ArgumentParser.add_argument]
  cases h1 : s.long_name libc l with
  | ok u s2 =>
    simp only [Res.and_then]
    cases h2 : s2.default_value libc (.string d) with
    | ok u s3 =>
      simp only [Res.and_then, ArgumentParser.help]
      cases h3 : ArgumentParser.done libc { s3 with now_entry_ := { s3.now_entry_ with help := h } }
        <;> simp
    | _ => simp [Res.and_then]
  | _ => simp [Res.and_then]

theorem add_argument_fails {libc : Libc} (s : ArgumentParser) (l d h : String)
    (hl : starts_with l "--" = false) :
    (s.add_argument libc l d h).failed_with ("invaild option string " ++ l) := by
  unfold ArgumentParser.add_argument ArgumentParser.long_name
  rw [hl, check_error_false]
  unfold ArgumentParser.raise
  cases s.error_mode_ <;> simp [Res.and_then, Res.failed_with]

/-! ## The registry in the order of the declarations -/

theorem DeclaredBy.built {libc : Libc} {allowed : Call → Bool} {s : ArgumentParser}
    {d : List ParamEntry} (h : DeclaredBy libc allowed s d) : Built libc s := by
  induction h with
  | new => exact ⟨[], rfl⟩
  | commit c e _ _ hrun _ ih => exact ih.call c hrun
  | keep c _ _ hrun _ ih => exact ih.call c hrun

theorem DeclaredBy.reachable_by {libc : Libc} {allowed : Call → Bool} {s : ArgumentParser}
    {d : List ParamEntry} (h : DeclaredBy libc allowed s d) : ReachableBy libc allowed s := by
  induction h with
  | new => exact .new
  | commit c e _ ha hrun _ ih => exact .call c ih ha (by rw [hrun]; rfl)
  | keep c _ ha hrun _ ih => exact .call c ih ha (by rw [hrun]; rfl)

/-- The registry holds the declared entries; the required ones are in the
order of their declarations, and so are the others. -/
theorem DeclaredBy.order {libc : Libc} {allowed : Call → Bool} {s : ArgumentParser}
    {d : List ParamEntry} (h : DeclaredBy libc allowed s d) :
    s.param_entries_.filter (fun e => e.required) = d.filter (fun e => e.required) ∧
      s.param_entries_.filter (fun e => !e.required) = d.filter (fun e => !e.required) := by
  induction h with
  | new => exact ⟨rfl, rfl⟩
  | commit c e _ _ _ hreg ih =>
    rw [hreg, List.filter_append, List.filter_append, List.filter_append, List.filter_append,
      ih.1, ih.2]
    exact ⟨rfl, rfl⟩
  | @keep c s s1 d _ _ hrun hlen ih =>
    rcases Call.run_ok_state libc c hrun with ⟨h1, _⟩ | ⟨s0, h1, _, _, _, hc⟩ | h1
    · rw [h1]
      exact ih
    · exfalso
      rw [hc.registry, List.length_append, h1] at hlen
      simp at hlen
    · rw [h1, prepass_registry, stable_sort_required, List.filter_append, List.filter_append,
        List.filter_filter, List.filter_filter, List.filter_filter, List.filter_filter]
      simp only [Bool.and_self, Bool.and_not_self, Bool.not_and_self, List.filter_false,
        List.append_nil, List.nil_append]
      exact ih

theorem filter_required_append_perm (l : List ParamEntry) :
    (l.filter (fun e => e.required) ++ l.filter (fun e => !e.required)).Perm l :=
  List.filter_append_perm _ l

theorem DeclaredBy.perm {libc : Libc} {allowed : Call → Bool} {s : ArgumentParser}
    {d : List ParamEntry} (h : DeclaredBy libc allowed s d) : d.Perm s.param_entries_ := by
  refine (filter_required_append_perm d).symm.trans ?_
  rw [← h.order.1, ← h.order.2]
  exact filter_required_append_perm _

/-- The entries of the registry with a positional name are in the order of
their declarations. -/
theorem DeclaredBy.positional_order {libc : Libc} {allowed : Call → Bool}
    {s : ArgumentParser} {d : List ParamEntry} (h : DeclaredBy libc allowed s d) :
    s.param_entries_.filter (fun e => e.positional_key ≠ "") =
      d.filter (fun e => e.positional_key ≠ "") := by
  have hi := h.built.to_reachable_state.inv
  have key : ∀ l : List ParamEntry, (∀ e ∈ l, e.positional_key ≠ "" → e.required = true) →
      l.filter (fun e => e.positional_key ≠ "") =
        (l.filter (fun e => e.required)).filter (fun e => e.positional_key ≠ "") := by
    intro l hl
    rw [List.filter_filter]
    apply List.filter_congr
    intro e he
    by_cases hp : e.positional_key = ""
    · simp [hp]
    · simp [hp, hl e he hp]
  rw [key _ hi.positional_required,
    key d (fun e he => hi.positional_required e (h.perm.mem_iff.mp he)), h.order.1]

/-- Every object built by calls that all returned has its list of
declarations. -/
theorem Built.declared {libc : Libc} {s : ArgumentParser} (h : Built libc s) :
    ∃ d, DeclaredBy libc Call.any s d := by
  obtain ⟨calls, hc⟩ := h
  have key : ∀ (calls : List Call) (s0 s : ArgumentParser) (d0 : List ParamEntry),
      DeclaredBy libc Call.any s0 d0 → chain libc s0 calls = some s →
      ∃ d, DeclaredBy libc Call.any s d := by
    intro calls
    induction calls with
    | nil =>
      intro s0 s d0 h0 hc
      simp only [chain, Option.some.injEq] at hc
      rw [← hc]
      exact ⟨d0, h0⟩
    | cons c rest ih =>
      intro s0 s d0 h0 hc
      unfold chain at hc
      split at hc
      · rename_i u s2 hrun
        rcases Call.run_ok_state libc c hrun with ⟨h1, _⟩ | ⟨s3, h1, _, _, _, hcm⟩ | h1
        · exact ih s2 s d0 (.keep c h0 rfl hrun (by rw [h1])) hc
        · exact ih s2 s _ (.commit c _ h0 rfl hrun (by rw [hcm.registry, h1])) hc
        · exact ih s2 s d0
            (.keep c h0 rfl hrun (by rw [h1]; exact (prepass_perm s0).length_eq)) hc
      · cases hc
  exact key calls _ s [] .new hc



theorem DeclaredBy.of_chain {libc : Libc} {allowed : Call → Bool} (calls : List Call) :
    ∀ {s0 s : ArgumentParser} {d0 : List ParamEntry}, DeclaredBy libc allowed s0 d0 →
      (∀ c ∈ calls, allowed c = true) → chain libc s0 calls = some s →
      DeclaredBy libc allowed s (d0 ++ declarations libc s0 calls) := by
  induction calls with
  | nil =>
    intro s0 s d0 h0 _ hc
    simp only [chain, Option.some.injEq] at hc
    rw [← hc, declarations, List.append_nil]
    exact h0
  | cons c rest ih =>
    intro s0 s d0 h0 ha hc
    unfold chain at hc
    rw [declarations]
    split at hc
    · rename_i u s2 hrun
      rw [← List.append_assoc]
      refine ih ?_ (fun c1 h1 => ha c1 (List.mem_cons_of_mem _ h1)) hc
      have hall := ha c (List.mem_cons_self _ _)
      rcases Call.run_ok_state libc c hrun with ⟨h1, _⟩ | ⟨s3, h1, _, _, _, hcm⟩ | h1
      · rw [h1, List.drop_length, List.append_nil]
        exact .keep c h0 hall hrun (by rw [h1])
      · rw [hcm.registry, h1, List.drop_left]
        exact .commit c _ h0 hall hrun (by rw [hcm.registry, h1])
      · have hlen : s2.param_entries_.length = s0.param_entries_.length := by
          rw [h1]
          exact (prepass_perm s0).length_eq
        rw [List.drop_eq_nil_of_le (by omega), List.append_nil]
        exact .keep c h0 hall hrun hlen
    · cases hc

set_option maxRecDepth 100000 in
theorem name_count_state_declared :
    DeclaredBy Libc.zero Call.names_positional name_count_state [name_entry, count_entry] := by
  have h := DeclaredBy.of_chain
    [.positional_name "name", .done, .long_name "--count", .default_value (.int 1),
      .type .DIGITS_INT, .done]
    (DeclaredBy.new : DeclaredBy Libc.zero Call.names_positional _ _)
    (by decide) (by decide : chain Libc.zero _ _ = some name_count_state)
  have e : ([] : List ParamEntry) ++ declarations Libc.zero ArgumentParser.new
      [.positional_name "name", .done, .long_name "--count", .default_value (.int 1),
        .type .DIGITS_INT, .done] = [name_entry, count_entry] := by decide
  rw [e] at h
  exact h

/-- Without a `positional_name("")` call the entries of the registry without a
positional name are in the order of their declarations. -/
theorem DeclaredBy.other_order {libc : Libc} {s : ArgumentParser} {d : List ParamEntry}
    (h : DeclaredBy libc Call.names_positional s d) :
    s.param_entries_.filter (fun e => e.positional_key = "") =
      d.filter (fun e => e.positional_key = "") := by
  have hiff := h.reachable_by.required_iff
  have key : ∀ l : List ParamEntry,
      (∀ e ∈ l, (e.required = true ↔ e.positional_key ≠ "")) →
      l.filter (fun e => e.positional_key = "") = l.filter (fun e => !e.required) := by
    intro l hl
    apply List.filter_congr
    intro e he
    have := hl e he
    by_cases hp : e.positional_key = ""
    · have hr : e.required = false := by
        cases hreq : e.required
        · rfl
        · exact absurd hp (this.mp hreq)
      simp [hp, hr]
    · simp [hp, this.mpr hp]
  rw [key _ hiff, key d (fun e he => hiff e (h.perm.mem_iff.mp he)), h.order.2]

set_option maxRecDepth 100000 in
theorem count_name_state_declared :
    DeclaredBy Libc.zero Call.names_positional count_name_state [count_entry, name_entry] := by
  have h := DeclaredBy.of_chain
    [.long_name "--count", .default_value (.int 1), .type .DIGITS_INT, .done,
      .positional_name "name", .done]
    (DeclaredBy.new : DeclaredBy Libc.zero Call.names_positional _ _)
    (by decide) (by decide : chain Libc.zero _ _ = some count_name_state)
  have e : ([] : List ParamEntry) ++ declarations Libc.zero ArgumentParser.new
      [.long_name "--count", .default_value (.int 1), .type .DIGITS_INT, .done,
        .positional_name "name", .done] = [count_entry, name_entry] := by decide
  rw [e] at h
  exact h

/-- The validation of a coerced token against a choice list of ints, strings or
bools: it accepts exactly the elements of the list, and rejects the others with
the "invalid choice" message. -/
theorem parse_choices_elements (libc : Libc) (c : ChoiceList)
    (hc : ∀ v, c ≠ .double_array v) (entry : ParamEntry) (h : has_choices entry c)
    (input : String) :
    (parse libc input entry.value_type ∈ c.elements →
      parse_choices libc (parse libc input entry.value_type) entry = .ok true) ∧
    (parse libc input entry.value_type ∉ c.elements →
      ∃ text, (parse libc input entry.value_type).dump libc = some text ∧
        parse_choices libc (parse libc input entry.value_type) entry =
          .fail ("argument " ++ entry.key ++ ": invalid choice: " ++ text)) := by
  obtain ⟨hkind, hch⟩ := h
  cases c with
  | double_array v => exact absurd rfl (hc v)
  | string_array v =>
    simp only [ChoiceList.kind, ChoiceList.item] at hkind hch
    simp [parse, parse_choices, hkind, hch, ChoiceList.elements, EntryItem.is_int_array,
      EntryItem.is_double_array, EntryItem.is_string_array, EntryItem.is_bool_array,
      EntryItem.value_type, EntryItem.string_array_value, EntryItem.string_value,
      EntryItem.dump]
  | int_array v =>
    simp only [ChoiceList.kind, ChoiceList.item] at hkind hch
    simp [parse, parse_choices, hkind, hch, ChoiceList.elements, EntryItem.is_int_array,
      EntryItem.is_double_array, EntryItem.is_string_array, EntryItem.is_bool_array,
      EntryItem.value_type, EntryItem.int_array_value, EntryItem.digit_int_value,
      EntryItem.dump]
  | bool_array v =>
    simp only [ChoiceList.kind, ChoiceList.item] at hkind hch
    by_cases ht : input = "true"
    · simp [parse, parse_choices, hkind, hch, ChoiceList.elements, EntryItem.is_int_array,
        EntryItem.is_double_array, EntryItem.is_string_array, EntryItem.is_bool_array,
        EntryItem.value_type, EntryItem.bool_array_value, EntryItem.bool_value,
        EntryItem.dump, ht]
    · simp [parse, parse_choices, hkind, hch, ChoiceList.elements, EntryItem.is_int_array,
        EntryItem.is_double_array, EntryItem.is_string_array, EntryItem.is_bool_array,
        EntryItem.value_type, EntryItem.bool_array_value, EntryItem.bool_value,
        EntryItem.dump, ht]

theorem parse_choices_accepts {libc : Libc} {c : ChoiceList} (hc : ∀ v, c ≠ .double_array v)
    {entry : ParamEntry} (h : has_choices entry c) {input : String}
    (hok : parse_choices libc (parse libc input entry.value_type) entry = .ok true) :
    parse libc input entry.value_type ∈ c.elements := by
  by_contra hn
  obtain ⟨text, _, hf⟩ := (parse_choices_elements libc c hc entry h input).2 hn
  rw [hf] at hok
  cases hok

/-- The multiplicity resolution fails at the first value token it reads whose
coercion is no element of the choice list, with the message for this token. -/
theorem parse_nargs_rejects {libc : Libc} {c : ChoiceList} (hc : ∀ v, c ≠ .double_array v)
    {entry : ParamEntry} (h : has_choices entry c) {argv : List String} {p : Nat} {t : String}
    (hr : first_rejected libc entry c argv p t) :
    ∃ text, (parse libc t entry.value_type).dump libc = some text ∧
      parse_nargs libc entry p argv =
        .fail ("argument " ++ entry.key ++ ": invalid choice: " ++ text) := by
  obtain ⟨pre, post, hrun, hpre, ht, hq, hcount⟩ := hr
  obtain ⟨text, htext, hfail⟩ := (parse_choices_elements libc c hc entry h t).2 ht
  refine ⟨text, htext, ?_⟩
  obtain ⟨post2, hsplit, _⟩ := value_run_split argv p
  have hdash : ∀ x ∈ value_run argv p, starts_with x "-" = false := by
    intro x hx
    have := List.mem_takeWhile_imp hx
    simpa using this
  rw [hrun] at hsplit hdash
  have hsplit1 : argv.drop (p + 1) = pre ++ (t :: (post ++ post2)) := by
    rw [hsplit]
    simp
  have htd : starts_with t "-" = false := hdash t (by simp)
  unfold parse_nargs
  by_cases hqq : entry.nargs = .NARGS_QUESTION
  · rw [if_pos hqq]
    have hpre0 := hq hqq
    subst hpre0
    obtain ⟨hget, hne, _, _⟩ := drop_cons_facts hsplit1
    rw [if_neg hne, hget]
    simp only [htd, Bool.false_eq_true, if_false, hfail, Chk.fail_bind]
  · rw [if_neg hqq]
    have hfirst : ∃ x rest, argv.drop (p + 1) = x :: rest ∧ starts_with x "-" = false := by
      cases pre with
      | nil => exact ⟨t, _, hsplit1, htd⟩
      | cons x pre1 => exact ⟨x, _, hsplit1, hdash x (by simp)⟩
    obtain ⟨x, rest, hx, hxd⟩ := hfirst
    obtain ⟨hgetx, _, hltx, _⟩ := drop_cons_facts hx
    dsimp only
    have hlen : pre.length ≤ argv.length := by
      have := congrArg List.length hsplit1
      simp only [List.length_drop, List.length_append, List.length_cons] at this
      omega
    have hfuel : argv.length + 1 = (argv.length - pre.length) + 1 + pre.length := by omega
    have hcnt := hcount hqq
    unfold nargs_count at hcnt
    rw [hfuel, nargs_loop_run libc entry argv pre _ _ _ p [] hsplit1
      (fun x hx => hdash x (by simp [hx]))
      (fun x hx => (parse_choices_elements libc c hc entry h x).1 (hpre x hx))
      (by rcases hcnt with h1 | h1
          · exact Or.inl h1
          · exact Or.inr (le_of_lt h1))]
    have hdrop2 := drop_after_run hsplit1
    obtain ⟨hget, hne, _, _⟩ := drop_cons_facts hdrop2
    have hc0 : (if entry.nargs = .NARGS_N then entry.nargs_number else -1) -
        (pre.length : Int) ≠ 0 := by
      rcases hcnt with h1 | h1
      · intro h2
        have : (0 : Int) ≤ (pre.length : Int) := Int.natCast_nonneg _
        omega
      · intro h2
        omega
    rw [nargs_loop, if_neg hc0, if_neg hne, hget]
    simp only [htd, Bool.false_eq_true, if_false, hfail, Chk.fail_bind]
    by_cases hh : entry.nargs = .NARGS_ADD ∨ entry.nargs = .NARGS_N
    · simp [hh, Chk.check_error, hltx, hgetx, hxd]
    · simp [hh]

/-- On an object built by calls that all returned, no token of a vector in which
no flag of an entry appears resolves to this entry. -/
theorem Built.no_flag_resolves {libc : Libc} {s : ArgumentParser} (hb : Built libc s) {j : Nat}
    {e : ParamEntry} (he : s.prepass.1.param_entries_[j]? = some e)
    {argv : List String} (habs : ¬ flag_appears e argv) : s.flag_absent argv j := by
  intro t ht hd name hl
  obtain ⟨e1, he1, hname, hne, hif, _⟩ := hb.lookup hd hl
  rw [he] at he1
  cases he1
  apply habs
  split at hif
  · rename_i h2
    have e2 : t = "--" ++ substr t 2 := starts_with_eq_append h2
    have e3 : flag_name t = substr t 2 := by
      unfold flag_name
      rw [if_pos h2]
    refine Or.inl ⟨by rw [hif]; exact hne, ?_⟩
    rw [hif, hname, e3, ← e2]
    exact ht
  · rename_i h2
    have e2 : t = "-" ++ substr t 1 := starts_with_eq_append hd
    have e3 : flag_name t = substr t 1 := by
      unfold flag_name
      rw [if_neg h2]
    refine Or.inr ⟨by rw [hif]; exact hne, ?_⟩
    rw [hif, hname, e3, ← e2]
    exact ht

/-- What a parse call that returns a result holds for the key of an optional
entry with the action store_true or store_false and no default that no token of
the vector resolves to. -/
theorem absent_action_result {libc : Libc} {s s1 : ArgumentParser} (hr : Reachable libc s)
    {argv : List String} {j : Nat} {e : ParamEntry} {a : ArgValue}
    (he : s.prepass.1.param_entries_[j]? = some e) (hp : e.positional_key = "")
    (hd : e.default_value.value_type = .NONE) (habs : s.flag_absent argv j)
    (h : s.parse_args_any_type libc argv = .ok a s1) :
    (e.action = .ACTION_STORE_TRUE →
      (a.find e.key).isSome ∧ (s.key_unshared j → a.find e.key = some (.bool false))) ∧
    (e.action = .ACTION_STORE_FALSE →
      (a.find e.key).isSome ∧ (s.key_unshared j → a.find e.key = some (.bool true))) := by
  have hmem : e ∈ s.param_entries_ := (prepass_perm s).mem_iff.mp (List.getElem?_mem he)
  have hf : e.filled = false := ((Reachable.inv hr).unfilled e hmem).1
  obtain ⟨e1, h1, h2, h3⟩ := absent_flag_result hr he hp habs h
  constructor
  · intro ha
    have hfin : finalize_entry e = .ok { e with value := .bool false, filled := true } := by
      simp [finalize_entry, hf, hp, ha, hd]
    rw [hfin] at h1
    cases h1
    exact ⟨h2 rfl, fun hu => by rw [h3 hu]; rfl⟩
  · intro ha
    have hfin : finalize_entry e = .ok { e with value := .bool true, filled := true } := by
      simp [finalize_entry, hf, hp, ha, hd]
    rw [hfin] at h1
    cases h1
    exact ⟨h2 rfl, fun hu => by rw [h3 hu]; rfl⟩

set_option maxRecDepth 100000 in
theorem verbose_flag_state_built : Built Libc.zero verbose_flag_state :=
  ⟨[.long_name "--verbose", .action "store_true", .done], by decide⟩

/-! ## Doubles: fields, magnitudes and the grid of the doubles -/

/-- C2, as amended.  For every optional entry with an action: when the main loop
meets its flag token (a token other than `--help` and `-h` that the flag tables
resolve to the entry), the iteration assigns the action's implied value (`true`
for store_true, `false` for store_false, the entry's const for store_const),
marks the entry filled and moves the token cursor by exactly one, so no
following token is consumed.  When the entry has no default, is declared on an
object built by calls that all returned, and no flag of it appears in the
argument vector, a parse call that returns a result has a mapping for its key:
to `false` for a store_true entry and to `true` for a store_false entry, given
that no other entry shares the key.  The same holds on every reachable object
when no token of the vector is resolved by the flag tables to the entry.  It is
the finalizer that fills such an entry, which it meets unfilled. -/
theorem action_flag_value (libc : Libc) :
    (∀ (short long : List (String × Nat)) (positional_index : List Nat) (argv : List String)
        (st : ParseState) (j : Nat) (entry : ParamEntry),
      at_flag short long argv st j entry → entry.action ≠ .NONE →
      ∃ v, (entry.action = .ACTION_STORE_TRUE → v = .bool true) ∧
        (entry.action = .ACTION_STORE_FALSE → v = .bool false) ∧
        (entry.action = .ACTION_STORE_CONST → v = entry.const_value) ∧
        parse_step libc short long positional_index argv st =
          .ok { st with
                param_entries := st.param_entries.set j { entry with value := v, filled := true }
                p_input_index := st.p_input_index + 1 }) ∧
    (∀ (s s1 : ArgumentParser) (argv : List String) (j : Nat) (e : ParamEntry) (a : ArgValue),
      Built libc s → s.prepass.1.param_entries_[j]? = some e → e.positional_key = "" →
      e.default_value.value_type = .NONE → ¬ flag_appears e argv →
      s.parse_args_any_type libc argv = .ok a s1 →
      (e.action = .ACTION_STORE_TRUE →
        (a.find e.key).isSome ∧ (s.key_unshared j → a.find e.key = some (.bool false))) ∧
      (e.action = .ACTION_STORE_FALSE →
        (a.find e.key).isSome ∧ (s.key_unshared j → a.find e.key = some (.bool true)))) ∧
    (∀ (s s1 : ArgumentParser) (argv : List String) (j : Nat) (e : ParamEntry) (a : ArgValue),
      Reachable libc s → s.prepass.1.param_entries_[j]? = some e → e.positional_key = "" →
      e.default_value.value_type = .NONE → s.flag_absent argv j →
      s.parse_args_any_type libc argv = .ok a s1 →
      (e.action = .ACTION_STORE_TRUE →
        (a.find e.key).isSome ∧ (s.key_unshared j → a.find e.key = some (.bool false))) ∧
      (e.action = .ACTION_STORE_FALSE →
        (a.find e.key).isSome ∧ (s.key_unshared j → a.find e.key = some (.bool true)))) ∧
    (∀ item : ParamEntry, item.filled = false → item.positional_key = "" →
      item.default_value = .empty →
      (item.action = .ACTION_STORE_TRUE →
        finalize_entry item = .ok { item with value := .bool false, filled := true }) ∧
      (item.action = .ACTION_STORE_FALSE →
        finalize_entry item = .ok { item with value := .bool true, filled := true })) := by
  refine ⟨?_, ?_, ?_, ?_⟩
  · intro short long positional_index argv st j entry hflag hact
    obtain ⟨name, hstep⟩ := parse_step_at_flag libc short long positional_index argv st j entry hflag
    rw [hstep, if_pos hact]
    cases ha : entry.action with
    | NONE => exact absurd ha hact
    | ACTION_STORE_TRUE => exact ⟨.bool true, by simp⟩
    | ACTION_STORE_FALSE => exact ⟨.bool false, by simp⟩
    | ACTION_STORE_CONST => exact ⟨entry.const_value, by simp⟩
  · intro s s1 argv j e a hb he hp hd habs h
    exact absent_action_result hb.to_reachable_state he hp hd (hb.no_flag_resolves he habs) h
  · intro s s1 argv j e a hr he hp hd habs h
    exact absent_action_result hr he hp hd habs h
  · intro item hf hp hd
    constructor
    · intro ha
      simp [finalize_entry, hf, hp, hd, ha, EntryItem.value_type]
    · intro ha
      simp [finalize_entry, hf, hp, hd, ha, EntryItem.value_type]

set_option maxRecDepth 100000 in
/-- The claim C2 as stated fails when the flag token is not met by the main loop
as a flag.  With `--count` of kind int and `--verbose` with store_true, the
vector `[prog, --count, --verbose]` holds the flag token of `--verbose`, but the
token is consumed as the value of `--count` and `verbose` resolves to `false`.
And an entry declared as `long_name("--help").action("store_true")` is never
resolved from its flag: on `[prog, --help]` the parse exits with code 0. -/
theorem action_flag_not_met :
    (∃ s, chain Libc.zero ArgumentParser.throwing
        [.long_name "--count", .type .DIGITS_INT, .done,
          .long_name "--verbose", .action "store_true",
          .done] = some s ∧
      (s.parse_args_any_type Libc.zero ["prog", "--count", "--verbose"]).find "verbose" =
        some (.bool false)) ∧
    (∃ s, chain Libc.zero ArgumentParser.throwing
        [.long_name "--help", .action "store_true",
          .done] = some s ∧
      s.parse_args_any_type Libc.zero ["prog", "--help"] = .exited 0 "") :=
  ⟨⟨_, rfl, by decide⟩, ⟨_, rfl, by decide⟩⟩

set_option maxRecDepth 100000 in
theorem action_flag_value_witness :
    (chain Libc.zero ArgumentParser.new
        [.long_name "--verbose", .action "store_true", .done] = some verbose_flag_state ∧
      (verbose_flag_state.parse_args_any_type Libc.zero ["prog", "--verbose"]).find "verbose" =
        some (.bool true)) ∧
    ¬ flag_appears verbose_flag_entry ["prog"] ∧
    (∃ a s1, verbose_flag_state.parse_args_any_type Libc.zero ["prog"] = .ok a s1 ∧
      a.find "verbose" = some (.bool false)) :=
  ⟨⟨by decide, by decide⟩, by decide, _, _, rfl,
    (((action_flag_value Libc.zero).2.1 verbose_flag_state _ ["prog"] 0
      verbose_flag_entry _ verbose_flag_state_built (by decide) rfl rfl (by decide) rfl).1 rfl).2
      (fun e e1 j1 _ h1 _ => by
        have hl : verbose_flag_state.prepass.1.param_entries_ = [verbose_flag_entry] := by
          decide
        rw [hl] at h1
        cases j1 with
        | zero => rfl
        | succ n => simp at h1)⟩

/-! ## C3: one or more integers -/

/-- C3, as amended.  For every optional entry with nargs `+` and declared kind
int, when the main loop meets its flag token (a token other than `--help` and
`-h` that the flag tables resolve to the entry): if the flag is followed by
`k ≥ 1` tokens that do not start with `-` and then the end of input, and the
entry's choice set, if it has one, accepts each of them, the iteration resolves
the entry to the int array of the `k` integer coercions, in input order, and
moves the cursor to the end of input; if the flag is the last token, or the
token after it starts with `-`, the iteration fails with the message "the
following arguments are required: <key>". -/
theorem plus_int_flag (libc : Libc) (short long : List (String × Nat))
    (positional_index : List Nat) (argv : List String) (st : ParseState) (j : Nat)
    (entry : ParamEntry) (hflag : at_flag short long argv st j entry)
    (hact : entry.action = .NONE) (hn : entry.nargs = .NARGS_ADD)
    (hk : entry.value_type = .DIGITS_INT) :
    (∀ ts : List String, ts ≠ [] → argv.drop (st.p_input_index + 1) = ts →
      (∀ t ∈ ts, starts_with t "-" = false) →
      (∀ t ∈ ts, parse_choices libc (parse libc t entry.value_type) entry = .ok true) →
      parse_step libc short long positional_index argv st =
        .ok { st with
              param_entries := st.param_entries.set j
                { entry with value := .int_array (ts.map atoi), filled := true }
              p_input_index := st.p_input_index + ts.length + 1 }) ∧
    ((st.p_input_index + 1 = argv.length ∨
        ∃ t, argv[st.p_input_index + 1]? = some t ∧ starts_with t "-" = true) →
      parse_step libc short long positional_index argv st =
        .fail ("the following arguments are required: " ++ entry.key)) := by
  obtain ⟨name, hstep⟩ := parse_step_at_flag libc short long positional_index argv st j entry hflag
  have hp := at_flag_lt hflag
  have hq : entry.nargs ≠ .NARGS_QUESTION := by simp [hn]
  rw [hstep, if_neg (by simp [hact]), if_pos (by simp [hn])]
  constructor
  · intro ts hne hdrop hdash hch
    have hrun := value_run_of_drop hdrop hdash
    have hmap : (ts.map fun t => parse libc t entry.value_type) =
        ts.map fun t => parse libc t .DIGITS_INT := by rw [hk]
    rw [parse_nargs_loop libc entry argv st.p_input_index hq hp (Or.inr (by rw [hrun]; exact hne))
      (-1) (by simp [hn]) (by omega) (by rw [if_pos (by omega), hrun]; exact hch)]
    rw [if_pos (by omega), hrun, hmap, collect_parse_int libc ts hne]
    rfl
  · intro hnone
    rw [parse_nargs_no_token libc entry argv st.p_input_index (Or.inl hn) hp
      (value_run_eq_nil hnone)]
    rfl

set_option maxRecDepth 100000 in
/-- The claim C3 as stated fails on an entry with a choice set: for `--vals` with
`nargs("+")` and `choices({1, 2})`, which makes the kind int, the vector
`[prog, --vals, 3]` has one value token after the flag, and the parse fails with
an "invalid choice" message instead of resolving to `[3]`.  It also fails for a
flag named `--help`: on `[prog, --help, 1]` the parse exits with code 0. -/
theorem plus_int_invalid_choice :
    (∃ s, chain Libc.zero ArgumentParser.throwing
        [.long_name "--vals", .nargs "+",
          .choices (.int_array [1, 2]), .done] = some s ∧
      (∀ e ∈ s.param_entries_, e.nargs = .NARGS_ADD ∧ e.value_type = .DIGITS_INT) ∧
      (s.parse_args_any_type Libc.zero ["prog", "--vals", "3"]).failed_with
        "argument vals: invalid choice: 3") ∧
    (∃ s, chain Libc.zero ArgumentParser.throwing
        [.long_name "--help", .nargs "+",
          .type .DIGITS_INT, .done] = some s ∧
      s.parse_args_any_type Libc.zero ["prog", "--help", "1"] = .exited 0 "") :=
  ⟨⟨_, rfl, by decide, by decide⟩, ⟨_, rfl, by decide⟩⟩

theorem plus_int_flag_witness :
    parse_step Libc.zero [] [("vals", 0)] [] ["prog", "--vals", "1", "2", "3"]
        ⟨[vals_entry], 0, 1⟩ =
      .ok ⟨[{ vals_entry with value := .int_array [1, 2, 3], filled := true }], 0, 5⟩ ∧
    parse_step Libc.zero [] [("vals", 0)] [] ["prog", "--vals"] ⟨[vals_entry], 0, 1⟩ =
      .fail "the following arguments are required: vals" :=
  ⟨(plus_int_flag Libc.zero [] [("vals", 0)] [] ["prog", "--vals", "1", "2", "3"]
      ⟨[vals_entry], 0, 1⟩ 0 vals_entry
      ⟨"--vals", "vals", rfl, by decide, by decide, by decide, rfl, rfl⟩ rfl rfl rfl).1
      ["1", "2", "3"] (by decide) rfl (by decide) (by decide),
   (plus_int_flag Libc.zero [] [("vals", 0)] [] ["prog", "--vals"]
      ⟨[vals_entry], 0, 1⟩ 0 vals_entry
      ⟨"--vals", "vals", rfl, by decide, by decide, by decide, rfl, rfl⟩ rfl rfl rfl).2
      (Or.inl rfl)⟩

/-! ## C4: fixed-count multiplicity -/

/-- C4, as amended.  For an entry with fixed-count multiplicity `N ≥ 1` whose
choice set, if it has one, accepts the first `N` value tokens available after the
start position `p`: when at least `N` tokens that do not start with `-` follow
`p`, `parse_nargs` succeeds, consumes exactly the first `N` of them (the cursor
ends at `p + N`) and the resolved value is an array of `N` elements; when fewer
than `N` follow, it fails with the message "the following arguments are
required: <key>".  Since a result is not a failure, it succeeds iff at least `N`
such tokens are available. -/
theorem parse_nargs_fixed_count (libc : Libc) (entry : ParamEntry) (argv : List String) (p : Nat)
    (hN : entry.nargs = .NARGS_N) (hpos : 0 < entry.nargs_number) (hp : p < argv.length)
    (hch : ∀ t ∈ (value_run argv p).take entry.nargs_number.toNat,
      parse_choices libc (parse libc t entry.value_type) entry = .ok true) :
    (entry.nargs_number.toNat ≤ (value_run argv p).length →
      parse_nargs libc entry p argv =
        .ok ({ entry with
               value := collect (((value_run argv p).take entry.nargs_number.toNat).map
                 fun t => parse libc t entry.value_type) }, p + entry.nargs_number.toNat) ∧
      (collect (((value_run argv p).take entry.nargs_number.toNat).map fun t =>
          parse libc t entry.value_type)).array_length = some entry.nargs_number.toNat) ∧
    ((value_run argv p).length < entry.nargs_number.toNat →
      parse_nargs libc entry p argv =
        .fail ("the following arguments are required: " ++ entry.key)) := by
  have hq : entry.nargs ≠ .NARGS_QUESTION := by simp [hN]
  have hnpos : 0 < entry.nargs_number.toNat := by omega
  constructor
  · intro hle
    have hne : value_run argv p ≠ [] := by
      intro h
      rw [h] at hle
      simp at hle
      omega
    constructor
    · rw [parse_nargs_loop libc entry argv p hq hp (Or.inr hne) entry.nargs_number
        (by simp [hN]) (by omega) (by rw [if_neg (by omega)]; exact hch)]
      rw [if_neg (by omega), if_pos hle]
    · have hlen : ((value_run argv p).take entry.nargs_number.toNat).length =
          entry.nargs_number.toNat := by simp [hle]
      have := collect_parse libc entry.value_type
        ((value_run argv p).take entry.nargs_number.toNat) (by
          intro h
          rw [h] at hlen
          simp at hlen
          omega)
      rw [this, hlen]
  · intro hlt
    by_cases hne : value_run argv p = []
    · exact parse_nargs_no_token libc entry argv p (Or.inr hN) hp hne
    · rw [parse_nargs_loop libc entry argv p hq hp (Or.inr hne) entry.nargs_number
        (by simp [hN]) (by omega) (by rw [if_neg (by omega)]; exact hch)]
      rw [if_neg (by omega), if_neg (by omega)]

set_option maxRecDepth 100000 in
/-- The claim C4 as stated fails on an entry with a choice set: `--n` with
`nargs(2)` and `choices({1, 2})` followed by the two value tokens `1` and `5`
has its two tokens available, and the parse fails, with an "invalid choice"
message. -/
theorem fixed_count_invalid_choice :
    ∃ s, chain Libc.zero ArgumentParser.throwing
        [.long_name "--n", .nargs_int 2,
          .choices (.int_array [1, 2]), .done] = some s ∧
      (value_run ["prog", "--n", "1", "5"] 1).length = 2 ∧
      (s.parse_args_any_type Libc.zero ["prog", "--n", "1", "5"]).failed_with
        "argument n: invalid choice: 5" := by
  refine ⟨_, rfl, by decide, ?_⟩
  decide

theorem parse_nargs_fixed_count_witness :
    parse_nargs Libc.zero { ParamEntry.blank with nargs := .NARGS_N, nargs_number := 2, key := "n" }
        0 ["--n", "x"] =
      .fail "the following arguments are required: n" :=
  (parse_nargs_fixed_count Libc.zero
    { ParamEntry.blank with nargs := .NARGS_N, nargs_number := 2, key := "n" }
    ["--n", "x"] 0 rfl (by decide) (by decide) (by decide)).2 (by decide)

/-! ## C5: a `*` flag without a value token -/

/-- C5, as amended.  For every optional entry with nargs `*`, when the main loop
meets its flag token (a token other than `--help` and `-h` that the flag tables
resolve to the entry) and no value token follows (the flag is the last token, or
the next token starts with `-`): the iteration succeeds, moves the cursor past
the flag only, marks the entry filled and resolves it to the absent value, of
kind `NONE`, which is no array of any kind; and the entry's destination key is
in the result of every parse that goes on from there to return a result. -/
theorem star_flag_without_value (libc : Libc) (short long : List (String × Nat))
    (positional_index : List Nat) (argv : List String) (st : ParseState) (j : Nat)
    (entry : ParamEntry) (hflag : at_flag short long argv st j entry)
    (hact : entry.action = .NONE) (hn : entry.nargs = .NARGS_STAR)
    (hnone : st.p_input_index + 1 = argv.length ∨
      ∃ t, argv[st.p_input_index + 1]? = some t ∧ starts_with t "-" = true) :
    ∃ st1, parse_step libc short long positional_index argv st = .ok st1 ∧
      st1 = { st with
              param_entries := st.param_entries.set j
                { entry with value := EMPTY_ENTRY_ITEM, filled := true }
              p_input_index := st.p_input_index + 1 } ∧
      EMPTY_ENTRY_ITEM.value_type = .NONE ∧ EMPTY_ENTRY_ITEM.array_length = none ∧
      ∀ (fuel : Nat) (st2 : ParseState) (final : List ParamEntry),
        main_loop libc short long positional_index argv fuel st1 = .ok st2 →
        finalize st2.param_entries = .ok final →
        (map_find (build_result final) entry.key).isSome := by
  obtain ⟨name, hstep⟩ := parse_step_at_flag libc short long positional_index argv st j entry hflag
  have hp := at_flag_lt hflag
  have hq : entry.nargs ≠ .NARGS_QUESTION := by simp [hn]
  have hrun := value_run_eq_nil hnone
  have hj : j < st.param_entries.length := by
    obtain ⟨_, _, _, _, _, _, _, h6⟩ := hflag
    by_contra hc
    rw [List.getElem?_eq_none (by omega)] at h6
    cases h6
  refine ⟨_, ?_, rfl, rfl, rfl, ?_⟩
  · rw [hstep, if_neg (by simp [hact]), if_pos (by simp [hn])]
    rw [parse_nargs_loop libc entry argv st.p_input_index hq hp (Or.inl hn)
      (-1) (by simp [hn]) (by omega) (by rw [if_pos (by omega), hrun]; simp)]
    rw [if_pos (by omega), hrun]
    rfl
  · intro fuel st2 final hloop hfin
    exact filled_key_in_result
      (j := j) (e := { entry with value := EMPTY_ENTRY_ITEM, filled := true })
      (by simp [List.getElem?_set_self hj]) rfl hloop hfin

set_option maxRecDepth 100000 in
/-- The claim C5 as stated fails when the token after the flag starts with `-`
and is no declared flag, such as a negative number: for
`long_name("--x").nargs("*")` the vector `[prog, --x, -5]` has the flag followed
by no value token, and the parse fails with an "unrecognized arguments" message.
It also fails for a flag named `--help`, on which the parse exits with code 0. -/
theorem star_flag_then_unknown_flag :
    (∃ s, chain Libc.zero ArgumentParser.throwing
        [.long_name "--x", .nargs "*", .done] = some s ∧
      (s.parse_args_any_type Libc.zero ["prog", "--x", "-5"]).failed_with
        "unrecognized arguments: 5") ∧
    (∃ s, chain Libc.zero ArgumentParser.throwing
        [.long_name "--help", .nargs "*", .done] = some s ∧
      s.parse_args_any_type Libc.zero ["prog", "--help"] = .exited 0 "") :=
  ⟨⟨_, rfl, by decide⟩, ⟨_, rfl, by decide⟩⟩

theorem star_flag_without_value_witness :
    parse_step Libc.zero [] [("x", 0)] [] ["prog", "--x"] ⟨[star_entry], 0, 1⟩ =
      .ok ⟨[{ star_entry with value := .empty, filled := true }], 0, 2⟩ := by
  obtain ⟨st1, h1, h2, _⟩ := star_flag_without_value Libc.zero [] [("x", 0)] [] ["prog", "--x"]
    ⟨[star_entry], 0, 1⟩ 0 star_entry
    ⟨"--x", "x", rfl, by decide, by decide, by decide, rfl, rfl⟩ rfl rfl (Or.inl rfl)
  rw [h1, h2]
  rfl

/-! ## C6: choice validation -/

/-- C6.  For an entry whose kind is the one its `choices` call established, with
a choice list `c` of ints, strings or bools: (1) the validation of a coerced
token accepts it when the coerced value is an element of `c` and otherwise
fails with "argument <key>: invalid choice: <display of the coerced value>";
(2) an iteration of the main loop that binds value tokens to the entry and
returns has bound tokens whose coercions are elements of `c`: the current token
for a plain positional entry, the token after the flag for a plain option, the
tokens that the multiplicity resolution collected for an entry with a
multiplicity; (3) at each of these four binding sites, the first token to bind
whose coercion is no element of `c` makes the iteration fail with that message;
(4) an iteration of a parse call that fails makes the parse call fail with its
message. -/
theorem parse_choices_iff (libc : Libc) (c : ChoiceList) (hc : ∀ v, c ≠ .double_array v)
    (entry : ParamEntry) (h : has_choices entry c) :
    (∀ input : String,
      (parse libc input entry.value_type ∈ c.elements →
        parse_choices libc (parse libc input entry.value_type) entry = .ok true) ∧
      (parse libc input entry.value_type ∉ c.elements →
        ∃ text, (parse libc input entry.value_type).dump libc = some text ∧
          parse_choices libc (parse libc input entry.value_type) entry =
            .fail ("argument " ++ entry.key ++ ": invalid choice: " ++ text))) ∧
    (∀ (short long : List (String × Nat)) (pi : List Nat) (argv : List String)
        (st st1 : ParseState),
      parse_step libc short long pi argv st = .ok st1 →
      (∀ p1 i, at_positional pi argv st p1 i entry →
        (entry.nargs = .NONE → ∀ t, argv[st.p_input_index]? = some t →
          parse libc t entry.value_type ∈ c.elements) ∧
        (entry.nargs ≠ .NONE → ∃ r n,
          parse_nargs libc entry (st.p_input_index - 1) argv = .ok r ∧
          r.2 = st.p_input_index - 1 + n ∧ st1.p_input_index = r.2 + 1 ∧
          ∀ t ∈ (value_run argv (st.p_input_index - 1)).take n,
            parse libc t entry.value_type ∈ c.elements)) ∧
      (∀ j, at_flag short long argv st j entry → entry.action = .NONE →
        (entry.nargs = .NONE → ∀ t, argv[st.p_input_index + 1]? = some t →
          parse libc t entry.value_type ∈ c.elements) ∧
        (entry.nargs ≠ .NONE → ∃ r n,
          parse_nargs libc entry st.p_input_index argv = .ok r ∧
          r.2 = st.p_input_index + n ∧ st1.p_input_index = r.2 + 1 ∧
          ∀ t ∈ (value_run argv st.p_input_index).take n,
            parse libc t entry.value_type ∈ c.elements))) ∧
    (∀ (short long : List (String × Nat)) (pi : List Nat) (argv : List String)
        (st : ParseState) (t : String),
      (∀ p1 i, at_positional pi argv st p1 i entry →
        (entry.nargs = .NONE ∧ argv[st.p_input_index]? = some t ∧
            parse libc t entry.value_type ∉ c.elements) ∨
          (entry.nargs ≠ .NONE ∧ first_rejected libc entry c argv (st.p_input_index - 1) t) →
        ∃ text, (parse libc t entry.value_type).dump libc = some text ∧
          parse_step libc short long pi argv st =
            .fail ("argument " ++ entry.key ++ ": invalid choice: " ++ text)) ∧
      (∀ j, at_flag short long argv st j entry → entry.action = .NONE →
        (entry.nargs = .NONE ∧ argv[st.p_input_index + 1]? = some t ∧
            parse libc t entry.value_type ∉ c.elements) ∨
          (entry.nargs ≠ .NONE ∧ first_rejected libc entry c argv st.p_input_index t) →
        ∃ text, (parse libc t entry.value_type).dump libc = some text ∧
          parse_step libc short long pi argv st =
            .fail ("argument " ++ entry.key ++ ": invalid choice: " ++ text))) ∧
    (∀ (s : ArgumentParser) (argv : List String) (st : ParseState) (m : String),
      s.loop_at libc argv st → s.step libc argv st = .fail m →
      (s.parse_args_any_type libc argv).failed_with m) := by
  refine ⟨parse_choices_elements libc c hc entry h, ?_, ?_, ?_⟩
  · intro short long pi argv st st1 hstep
    constructor
    · intro p1 i hat
      obtain ⟨input, hin, _, heq⟩ := parse_step_at_positional libc short long pi argv st p1 i
        entry hat
      rw [heq] at hstep
      constructor
      · intro hn t ht
        rw [if_neg (by simp [hn])] at hstep
        obtain ⟨b, hb, _⟩ := Chk.bind_eq_ok hstep
        rw [hin] at ht
        cases ht
        rw [parse_choices_ok hb] at hb
        exact parse_choices_accepts hc h hb
      · intro hn
        rw [if_pos hn] at hstep
        obtain ⟨r, hr, hst⟩ := Chk.bind_eq_ok hstep
        obtain ⟨n, h1, _, h3, _⟩ := parse_nargs_ok hr
        refine ⟨r, n, hr, h1, ?_, fun t ht => parse_choices_accepts hc h (h3 t ht)⟩
        cases hst
        rfl
    · intro j hat hact
      obtain ⟨name, heq⟩ := parse_step_at_flag libc short long pi argv st j entry hat
      rw [heq, if_neg (by simp [hact])] at hstep
      constructor
      · intro hn t ht
        rw [if_neg (by simp [hn])] at hstep
        obtain ⟨_, _, hstep⟩ := Chk.bind_eq_ok hstep
        rw [ht] at hstep
        obtain ⟨b, hb, _⟩ := Chk.bind_eq_ok hstep
        rw [parse_choices_ok hb] at hb
        exact parse_choices_accepts hc h hb
      · intro hn
        rw [if_pos hn] at hstep
        obtain ⟨r, hr, hst⟩ := Chk.bind_eq_ok hstep
        obtain ⟨n, h1, _, h3, _⟩ := parse_nargs_ok hr
        refine ⟨r, n, hr, h1, ?_, fun t ht => parse_choices_accepts hc h (h3 t ht)⟩
        cases hst
        rfl
  · intro short long pi argv st t
    constructor
    · intro p1 i hat hrej
      obtain ⟨input, hin, _, heq⟩ := parse_step_at_positional libc short long pi argv st p1 i
        entry hat
      rw [heq]
      rcases hrej with ⟨hn, ht, hnot⟩ | ⟨hn, hfirst⟩
      · rw [hin] at ht
        have hit : input = t := Option.some.inj ht
        subst hit
        obtain ⟨text, h1, h2⟩ := (parse_choices_elements libc c hc entry h input).2 hnot
        refine ⟨text, h1, ?_⟩
        rw [if_neg (by simp [hn]), h2]
        rfl
      · obtain ⟨text, h1, h2⟩ := parse_nargs_rejects hc h hfirst
        refine ⟨text, h1, ?_⟩
        rw [if_pos hn, h2]
        rfl
    · intro j hat hact hrej
      obtain ⟨name, heq⟩ := parse_step_at_flag libc short long pi argv st j entry hat
      rw [heq, if_neg (by simp [hact])]
      rcases hrej with ⟨hn, ht, hnot⟩ | ⟨hn, hfirst⟩
      · obtain ⟨text, h1, h2⟩ := (parse_choices_elements libc c hc entry h t).2 hnot
        refine ⟨text, h1, ?_⟩
        have hlt : st.p_input_index + 1 < argv.length := by
          by_contra hc1
          rw [List.getElem?_eq_none (by omega)] at ht
          cases ht
        rw [if_neg (by simp [hn])]
        simp [Chk.check_error, hlt, ht, h2]
      · obtain ⟨text, h1, h2⟩ := parse_nargs_rejects hc h hfirst
        refine ⟨text, h1, ?_⟩
        rw [if_pos hn, h2]
        rfl
  · intro s argv st m hat hfail
    exact (parse_of_loop_at hat).1 m hfail

set_option maxRecDepth 100000 in
theorem parse_choices_iff_witness :
    has_choices choice_entry (.int_array [1, 2, 3]) ∧
    parse_choices Libc.zero (parse Libc.zero "4" .DIGITS_INT) choice_entry =
      .fail "argument n: invalid choice: 4" ∧
    chain Libc.zero ArgumentParser.throwing
      [.positional_name "mode", .choices (.string_array ["a", "b"]), .done] =
        some mode_choice_state ∧
    has_choices mode_choice_entry (.string_array ["a", "b"]) ∧
    parse_step Libc.zero mode_choice_state.prepass.1.optional_short_key_
      mode_choice_state.prepass.1.optional_long_key_ mode_choice_state.prepass.2 ["prog", "c"]
      mode_choice_state.start = .fail "argument mode: invalid choice: c" ∧
    (mode_choice_state.parse_args_any_type Libc.zero ["prog", "c"]).failed_with
      "argument mode: invalid choice: c" ∧
    (mode_choice_state.parse_args_any_type Libc.zero ["prog", "a"]).find "mode" =
      some (.string "a") := by
  have hstep : parse_step Libc.zero mode_choice_state.prepass.1.optional_short_key_
      mode_choice_state.prepass.1.optional_long_key_ mode_choice_state.prepass.2 ["prog", "c"]
      mode_choice_state.start = .fail "argument mode: invalid choice: c" := by
    obtain ⟨text, h1, h2⟩ := ((parse_choices_iff Libc.zero (.string_array ["a", "b"])
      (fun v h => by cases h) mode_choice_entry ⟨rfl, rfl⟩).2.2.1
      mode_choice_state.prepass.1.optional_short_key_
      mode_choice_state.prepass.1.optional_long_key_ mode_choice_state.prepass.2 ["prog", "c"]
      mode_choice_state.start "c").1 0 0
      ⟨"c", by decide, by decide, le_refl _, fun k h1 h2 => by
        have : mode_choice_state.start.p_entry_index = 0 := rfl
        omega, by decide, by decide, rfl⟩
      (Or.inl ⟨rfl, by decide, by decide⟩)
    have h3 : some "c" = some text := h1
    cases h3
    exact h2
  refine ⟨⟨rfl, rfl⟩, ?_, by decide, ⟨rfl, rfl⟩, hstep, ?_, by decide⟩
  · obtain ⟨text, h1, h2⟩ := ((parse_choices_iff Libc.zero (.int_array [1, 2, 3])
      (fun v h => by cases h) choice_entry ⟨rfl, rfl⟩).1 "4").2 (by decide)
    have h3 : some "4" = some text := h1
    cases h3
    exact h2
  · exact (parse_choices_iff Libc.zero (.string_array ["a", "b"])
      (fun v h => by cases h) mode_choice_entry ⟨rfl, rfl⟩).2.2.2 mode_choice_state
      ["prog", "c"] mode_choice_state.start _ ⟨by decide, 0, rfl⟩ hstep

/-! ## C7: the vector with the program name only -/

/-- C7, as amended.  For every reachable registry, parsing the vector that holds
only the program name fails with "the following arguments are required: <key>"
when the registry has an entry with a positional name, no action and a
multiplicity other than `?` and `*` (`needs_token`); otherwise it returns a
result, and for every entry without a positional name, with a non-absent default
and with a destination key that no other entry of the registry has, the result
maps the key to that default. -/
theorem parse_program_name_only (libc : Libc) (s : ArgumentParser) (h : Reachable libc s)
    (prog : String) :
    ((∃ e ∈ s.param_entries_, needs_token e) →
      ∃ e ∈ s.param_entries_, needs_token e ∧
        (s.parse_args_any_type libc [prog]).failed_with
          ("the following arguments are required: " ++ e.key)) ∧
    ((¬ ∃ e ∈ s.param_entries_, needs_token e) →
      ∃ r s1, s.parse_args_any_type libc [prog] = .ok r s1 ∧
        ∀ e ∈ s.param_entries_, e.positional_key = "" → e.default_value.value_type ≠ .NONE →
          (∀ x ∈ s.param_entries_, x.key = e.key → x = e) →
          r.find e.key = some e.default_value) := by
  have hi := h.inv
  have hperm : (stable_sort required_first s.param_entries_).Perm s.param_entries_ :=
    stable_sort_perm _ _
  have hunf : ∀ e ∈ stable_sort required_first s.param_entries_, e.filled = false :=
    fun e he => (hi.unfilled e (hperm.mem_iff.mp he)).1
  constructor
  · rintro ⟨e, he, hne⟩
    obtain ⟨e2, he2, hn2, hfin⟩ := finalize_fails _ hunf ⟨e, hperm.mem_iff.mpr he, hne⟩
    refine ⟨e2, hperm.mem_iff.mp he2, hn2, ?_⟩
    unfold ArgumentParser.parse_args_any_type
    dsimp only
    rw [parse_entries_no_tokens, prepass_registry, hfin]
    exact raise_failed_with _ _
  · intro hnone
    have hn : ∀ e ∈ stable_sort required_first s.param_entries_, ¬ needs_token e :=
      fun e he hne => hnone ⟨e, hperm.mem_iff.mp he, hne⟩
    obtain ⟨l1, hfin, hall⟩ := finalize_succeeds _ hunf hn
    refine ⟨⟨build_result l1⟩, s.prepass.1, ?_, ?_⟩
    · unfold ArgumentParser.parse_args_any_type
      dsimp only
      rw [parse_entries_no_tokens, prepass_registry, hfin]
      rfl
    · intro e he hp hd hu
      have hne : ¬ needs_token e := fun hne => hnone ⟨e, he, hne⟩
      obtain ⟨e1, he1, _, hdef⟩ := finalize_entry_ok (hi.unfilled e he).1 hne
      have heq := hdef hp hd
      subst heq
      obtain ⟨x, hx, hex⟩ := forall2_mem_left hall e (hperm.mem_iff.mpr he)
      rw [he1] at hex
      cases hex
      have hfind := build_result_unique l1 _ hx rfl (by
        intro x hx hxk
        obtain ⟨y, hy, hyx⟩ := forall2_mem_right hall x hx
        have hy1 := hu y (hperm.mem_iff.mp hy) ((finalize_entry_keeps hyx).1.symm.trans hxk)
        subst hy1
        rw [he1] at hyx
        cases hyx
        rfl)
      simp only [ArgValue.find, hfind, Option.map_some']

set_option maxRecDepth 100000 in
/-- The claim C7 as stated fails when two entries share a destination key: after
`long_name("--a").default_value(1).dest("k").done()` and
`long_name("--b").default_value(2).dest("k").done()` no entry needs a token,
the parse of `[prog]` returns, and the result maps `k` to 2, the default of the
later entry, not to the default 1 of the first. -/
theorem default_under_shared_key :
    ∃ s, chain Libc.zero ArgumentParser.throwing
        [.long_name "--a", .default_value (.int 1), .dest "k", .done,
          .long_name "--b", .default_value (.int 2), .dest "k", .done] = some s ∧
      (¬ ∃ e ∈ s.param_entries_, needs_token e) ∧
      (∃ e ∈ s.param_entries_, e.positional_key = "" ∧ e.key = "k" ∧
        e.default_value = .int 1) ∧
      (s.parse_args_any_type Libc.zero ["prog"]).find "k" = some (.int 2) :=
  ⟨_, rfl, by decide, by decide, by decide⟩

set_option maxRecDepth 100000 in
theorem parse_program_name_only_witness :
    ∃ e ∈ name_count_state.param_entries_, needs_token e ∧
      (name_count_state.parse_args_any_type Libc.zero ["prog"]).failed_with
        ("the following arguments are required: " ++ e.key) :=
  (parse_program_name_only Libc.zero name_count_state
    name_count_state_reachable "prog").1 (by decide)

/-! ## C8: identifiers are unique -/

/-- C8.  In every reachable state `s`: for every committed entry and every state
`s1` reached from `s` by further calls, a `long_name` call with `--` and the
entry's non-empty long flag fails in the call itself, and so do a `short_name`
call with `-` and its non-empty short flag and a `positional_name` call with its
non-empty positional name; and any two entries at different positions of the
registry differ in their non-empty long flags, in their non-empty short flags
and in their non-empty positional names. -/
theorem identifiers_unique (libc : Libc) (s : ArgumentParser) (h : Reachable libc s) :
    (∀ e ∈ s.param_entries_, ∀ s1 : ArgumentParser, Later libc s s1 →
      (e.long_key ≠ "" → (s1.long_name libc ("--" ++ e.long_key)).failed) ∧
      (e.short_key ≠ "" → (s1.short_name libc ("-" ++ e.short_key)).failed) ∧
      (e.positional_key ≠ "" → (s1.positional_name libc e.positional_key).failed)) ∧
    (∀ (i j : Nat) (a b : ParamEntry), i ≠ j →
      s.param_entries_[i]? = some a → s.param_entries_[j]? = some b →
      (a.long_key ≠ "" → a.long_key ≠ b.long_key) ∧
      (a.short_key ≠ "" → a.short_key ≠ b.short_key) ∧
      (a.positional_key ≠ "" → a.positional_key ≠ b.positional_key)) := by
  constructor
  · intro e he s1 hl
    have hi := (hl.reachable h).inv
    have he1 := hl.entries_persist e he
    refine ⟨fun hne => ?_, fun hne => ?_, fun hne => ?_⟩
    · have hreg := hi.long_registered e he1 hne
      unfold ArgumentParser.long_name
      apply check_error_failed_of
      apply check_error_failed_of
      dsimp only
      have e2 : substr ("--" ++ e.long_key) 2 = e.long_key := substr_append "--" e.long_key
      rw [e2]
      have : decide (map_find s1.optional_long_key_ e.long_key = none) = false := by
        cases hm : map_find s1.optional_long_key_ e.long_key with
        | none => rw [hm] at hreg; cases hreg
        | some _ => simp
      rw [this]
      exact (check_error_failed s1 _ _).1
    · have hreg := hi.short_registered e he1 hne
      unfold ArgumentParser.short_name
      apply check_error_failed_of
      apply check_error_failed_of
      dsimp only
      have e2 : substr ("-" ++ e.short_key) 1 = e.short_key := substr_append "-" e.short_key
      rw [e2]
      have : decide (map_find s1.optional_short_key_ e.short_key = none) = false := by
        cases hm : map_find s1.optional_short_key_ e.short_key with
        | none => rw [hm] at hreg; cases hreg
        | some _ => simp
      rw [this]
      exact (check_error_failed s1 _ _).1
    · have hreg := hi.positional_registered e he1 hne
      unfold ArgumentParser.positional_name
      apply check_error_failed_of
      apply check_error_failed_of
      have : decide (map_find s1.positional_key_ e.positional_key = none) = false := by
        cases hm : map_find s1.positional_key_ e.positional_key with
        | none => rw [hm] at hreg; cases hreg
        | some _ => simp
      rw [this]
      exact (check_error_failed s1 _ _).1
  · intro i j a b hij ha hb
    have hi := h.inv
    exact ⟨distinct_keys_getElem hi.long_distinct hij ha hb,
      distinct_keys_getElem hi.short_distinct hij ha hb,
      distinct_keys_getElem hi.positional_distinct hij ha hb⟩

set_option maxRecDepth 100000 in
theorem identifiers_unique_witness :
    (all_file_state.long_name Libc.zero "--all").failed ∧ (all_file_state.short_name Libc.zero "-a").failed ∧
      (all_file_state.positional_name Libc.zero "file").failed := by
  have h := (identifiers_unique Libc.zero all_file_state
    all_file_state_reachable).1
  exact ⟨(h _ (List.mem_cons_self _ _) _ .refl).1 (by decide),
    (h _ (List.mem_cons_self _ _) _ .refl).2.1 (by decide),
    (h _ (List.mem_cons_of_mem _ (List.mem_cons_self _ _)) _ .refl).2.2 (by decide)⟩

/-! ## C9: agreement of kinds -/

/-- C9, as amended.  Once the current entry has a kind `K`, every later
`default_value`, `const_value` or `choices` call whose argument has another kind
fails, through `check_error`, and when the object lives on the kind of the entry
is still `K`.  A later `type(K1)` call never fails: it sets the kind to `K1`,
whatever `K` was. -/
theorem kind_mismatch {libc : Libc} (s : ArgumentParser) (K : ValueType)
    (hK : s.now_entry_.value_type = K) (hne : K ≠ .NONE) :
    (∀ v : Literal, v.kind ≠ K →
      (s.default_value libc v).failed ∧
        ∀ e s1, s.default_value libc v = .thrown e s1 → s1.now_entry_.value_type = K) ∧
    (∀ v : Literal, v.kind ≠ K →
      (s.const_value libc v).failed ∧
        ∀ e s1, s.const_value libc v = .thrown e s1 → s1.now_entry_.value_type = K) ∧
    (∀ c : ChoiceList, c.kind ≠ K →
      (s.choices libc c).failed ∧
        ∀ e s1, s.choices libc c = .thrown e s1 → s1.now_entry_.value_type = K) ∧
    (∀ K1 : ValueType,
      s.type K1 = .ok () { s with now_entry_ := { s.now_entry_ with value_type := K1 } }) := by
  subst hK
  refine ⟨?_, ?_, ?_, fun _ => rfl⟩
  · intro v hv
    have hc : (decide (s.now_entry_.value_type = .NONE) ||
        decide (s.now_entry_.value_type = v.kind)) = false := by
      simp [hne, Ne.symm hv]
    unfold ArgumentParser.default_value
    rw [hc]
    refine ⟨(check_error_failed s _ _).1, fun e s1 h => ?_⟩
    rw [(check_error_failed s _ _).2 e s1 h]
    rfl
  · intro v hv
    have hc : (decide (s.now_entry_.value_type = .NONE) ||
        decide (s.now_entry_.value_type = v.kind)) = false := by
      simp [hne, Ne.symm hv]
    unfold ArgumentParser.const_value
    rw [hc]
    refine ⟨(check_error_failed s _ _).1, fun e s1 h => ?_⟩
    rw [(check_error_failed s _ _).2 e s1 h]
    rfl
  · intro c hv
    have hc : (decide (s.now_entry_.value_type = .NONE) ||
        decide (s.now_entry_.value_type = c.kind)) = false := by
      simp [hne, Ne.symm hv]
    unfold ArgumentParser.choices
    rw [hc]
    refine ⟨(check_error_failed s _ _).1, fun e s1 h => ?_⟩
    rw [(check_error_failed s _ _).2 e s1 h]
    rfl

/-- The claim C9 as stated fails for `type`: after `default_value(1)` made the kind
of the current entry int, `type(STRING)` returns and the kind is string. -/
theorem type_after_default_value :
    ∃ s1 s2, ArgumentParser.new.default_value Libc.zero (.int 1) = .ok () s1 ∧
      s1.now_entry_.value_type = .DIGITS_INT ∧
      s1.type .STRING = .ok () s2 ∧ s2.now_entry_.value_type = .STRING :=
  ⟨_, _, rfl, rfl, rfl, rfl⟩

theorem kind_mismatch_witness :
    (({ ArgumentParser.throwing with
        now_entry_ := { ParamEntry.blank with value_type := .DIGITS_INT } } :
      ArgumentParser).default_value Libc.zero (.string "a")).failed :=
  ((kind_mismatch
    { ArgumentParser.throwing with
      now_entry_ := { ParamEntry.blank with value_type := .DIGITS_INT } }
    .DIGITS_INT rfl (by decide)).1 (.string "a") (by decide)).1

/-! ## C10: where a const may be set -/

/-- C10.  `const_value(v)` returns and stores `v` as the const of the current
entry (and the kind of `v` as its kind) when the kind of the entry is unset or is
the kind of `v` and, besides, its multiplicity is `?` or its action is
store_const.  In every other state the call fails, through `check_error`, and
the const of the entry is what it was before the call, so an absent const stays
absent.  A call that returns does not fail, so it returns iff the condition
holds. -/
theorem const_value_succeeds_iff {libc : Libc} (s : ArgumentParser) (v : Literal) :
    ((s.now_entry_.value_type = .NONE ∨ s.now_entry_.value_type = v.kind) ∧
        (s.now_entry_.nargs = .NARGS_QUESTION ∨ s.now_entry_.action = .ACTION_STORE_CONST) →
      s.const_value libc v = .ok ()
        { s with now_entry_ :=
            { s.now_entry_ with value_type := v.kind, const_value := v.item } }) ∧
    (¬ ((s.now_entry_.value_type = .NONE ∨ s.now_entry_.value_type = v.kind) ∧
        (s.now_entry_.nargs = .NARGS_QUESTION ∨ s.now_entry_.action = .ACTION_STORE_CONST)) →
      (s.const_value libc v).failed ∧
        ∀ e s1, s.const_value libc v = .thrown e s1 →
          s1.now_entry_.const_value = s.now_entry_.const_value) := by
  constructor
  · rintro ⟨hk, hc⟩
    have hk1 : (decide (s.now_entry_.value_type = .NONE) ||
        decide (s.now_entry_.value_type = v.kind)) = true := by
      rcases hk with h | h <;> simp [h]
    unfold ArgumentParser.const_value ArgumentParser.check_error
    rw [if_pos hk1]
    rcases hc with h | h
    · simp [h]
    · by_cases h2 : s.now_entry_.nargs = .NARGS_QUESTION
      · simp [h2]
      · simp [h, h2]
  · intro hn
    unfold ArgumentParser.const_value ArgumentParser.check_error ArgumentParser.raise
      ArgumentParser.print_help
    by_cases hk1 : (decide (s.now_entry_.value_type = .NONE) ||
        decide (s.now_entry_.value_type = v.kind)) = true
    · have hk : s.now_entry_.value_type = .NONE ∨ s.now_entry_.value_type = v.kind := by
        simpa using hk1
      have hc : ¬ (s.now_entry_.nargs = .NARGS_QUESTION ∨
          s.now_entry_.action = .ACTION_STORE_CONST) := fun h => hn ⟨hk, h⟩
      push_neg at hc
      rw [if_pos hk1]
      simp only [hc.1, hc.2, if_false]
      cases hm : s.error_mode_ <;> simp [Res.failed]
    · rw [if_neg hk1]
      cases hm : s.error_mode_ <;> simp [Res.failed]

/-! ## C11: an action next to a multiplicity or a choice set -/

set_option maxRecDepth 100000 in
/-- C11 at its failing inputs.  The declaration
`long_name("--x").action("store_true").nargs(2).done()` returns and commits an
entry with the action `store_true` and the multiplicity `N`, and
`long_name("--x").action("store_true").choices({1, 2}).done()` commits one with
the action and a choice set.  The other orders are guarded: on a current entry
with an action `nargs(string)` fails, and on a current entry with a multiplicity
or a choice array `action` fails. -/
theorem action_beside_count_or_choices :
    (∃ s, chain Libc.zero ArgumentParser.new
        [.long_name "--x", .action "store_true", .nargs_int 2, .done] = some s ∧
      s.param_entries_ =
        [{ ParamEntry.blank with
           long_key := "x", key := "x", action := .ACTION_STORE_TRUE, nargs := .NARGS_N,
           nargs_number := 2 }]) ∧
    (∃ s, chain Libc.zero ArgumentParser.new
        [.long_name "--x", .action "store_true", .choices (.int_array [1, 2]), .done] = some s ∧
      s.param_entries_ =
        [{ ParamEntry.blank with
           long_key := "x", key := "x", action := .ACTION_STORE_TRUE,
           value_type := .DIGITS_INT, choices_array := .int_array [1, 2] }]) ∧
    (∀ (s : ArgumentParser) (nargs_type : String), s.now_entry_.action ≠ .NONE →
      (s.nargs Libc.zero nargs_type).failed_with "nargs error, unknown action") ∧
    (∀ (s : ArgumentParser) (store_para : String), s.now_entry_.action = .NONE →
      s.now_entry_.nargs ≠ .NONE ∨ s.now_entry_.choices_array.array_length.isSome →
      (s.action Libc.zero store_para).failed_with "action error") := by
  refine ⟨⟨_, rfl, by decide⟩, ⟨_, rfl, by decide⟩, ?_, ?_⟩
  · intro s t h
    unfold ArgumentParser.nargs
    have c : decide (s.now_entry_.action = .NONE) = false := by simpa using h
    rw [c, check_error_false]
    exact raise_failed_with _ _
  · intro s a h1 h2
    unfold ArgumentParser.action
    have c1 : decide (s.now_entry_.action = .NONE) = true := by simpa using h1
    rw [c1, check_error_true]
    have c2 : (decide (s.now_entry_.choices_array.value_type ≠ .INT_ARRAY) &&
        decide (s.now_entry_.choices_array.value_type ≠ .STRING_ARRAY) &&
        decide (s.now_entry_.choices_array.value_type ≠ .BOOL_ARRAY) &&
        decide (s.now_entry_.choices_array.value_type ≠ .DOUBLE_ARRAY) &&
        decide (s.now_entry_.nargs = .NONE)) = false := by
      rcases h2 with h2 | h2
      · simp [h2]
      · cases hc : s.now_entry_.choices_array <;>
          simp_all [EntryItem.array_length, EntryItem.value_type]
    rw [c2, check_error_false]
    exact raise_failed_with _ _

/-! ## C12: the mark `required` -/

/-- C12, as amended.  For every entry committed by any sequence of builder
calls: an entry with a non-empty positional name is required, and an entry with
a non-empty short or long flag is not required, with or without a default.  When
no `positional_name` call of the sequence was given the empty string, an entry is
required exactly when its positional name is not empty. -/
theorem required_iff_positional (libc : Libc) (s : ArgumentParser) :
    (Reachable libc s → ∀ e ∈ s.param_entries_,
      (e.positional_key ≠ "" → e.required = true) ∧
      (e.short_key ≠ "" ∨ e.long_key ≠ "" → e.required = false)) ∧
    (ReachableBy libc Call.names_positional s → ∀ e ∈ s.param_entries_,
      (e.required = true ↔ e.positional_key ≠ "")) := by
  constructor
  · intro h e he
    exact ⟨h.inv.positional_required e he, h.flagged_optional.1 e he⟩
  · intro h e he
    exact ⟨h.named_if_required.1 e he, h.to_reachable.inv.positional_required e he⟩

set_option maxRecDepth 100000 in
/-- The claim C12 as stated fails for a `positional_name` call with the empty
string: `positional_name("").dest("x").done()` commits an entry that is required
and has no positional name. -/
theorem required_without_name :
    ∃ s, chain Libc.zero ArgumentParser.new [.positional_name "", .dest "x", .done] = some s ∧
      s.param_entries_ = [{ ParamEntry.blank with key := "x", required := true }] ∧
      ¬ (∀ e ∈ s.param_entries_, (e.required = true ↔ e.positional_key ≠ "")) :=
  ⟨_, rfl, by decide, by decide⟩

set_option maxRecDepth 100000 in
theorem required_iff_positional_witness :
    (name_entry.required = true ↔ name_entry.positional_key ≠ "") ∧
    (count_entry.required = true ↔ count_entry.positional_key ≠ "") ∧
    count_entry.required = false := by
  have h : ReachableBy Libc.zero Call.names_positional name_count_state :=
    chain_reachable_by Libc.zero Call.names_positional
      [.positional_name "name", .done, .long_name "--count", .default_value (.int 1),
        .type .DIGITS_INT, .done] .new (by decide) (by decide)
  have h2 := (required_iff_positional Libc.zero name_count_state).2 h
  have h1 := (required_iff_positional Libc.zero name_count_state).1 h.to_reachable
  exact ⟨h2 name_entry (by simp [name_count_state]),
    h2 count_entry (by simp [name_count_state]),
    (h1 count_entry (by simp [name_count_state])).2 (Or.inr (by decide))⟩

/-! ## C13: the destination key -/

/-- The destination key of a commit.  After a `done()` call that returned, the
registry ends with the entry of the call, which keeps the identifiers of the
current entry and whose destination key is not empty: it is the key that the
current entry had before the call if that is not empty, otherwise the
positional name if not empty, otherwise the long flag if not empty, otherwise
the short flag.  On an object built by calls that all returned, the key of the
current entry is the argument of the last `dest` call since the last commit.  The calls `short_name` and `long_name`
return in one order exactly when they do in the other, with the same object.
A `done()` call on a current entry without a key and without an identifier fails
with the message "required positional argument". -/
theorem done_destination_key (libc : Libc) :
    (∀ s s1 : ArgumentParser, s.done libc = .ok () s1 →
      ∃ e, s1.param_entries_ = s.param_entries_ ++ [e] ∧ e.key ≠ "" ∧
        e.positional_key = s.now_entry_.positional_key ∧
        e.long_key = s.now_entry_.long_key ∧ e.short_key = s.now_entry_.short_key ∧
        e.key =
          if s.now_entry_.key ≠ "" then s.now_entry_.key
          else if e.positional_key ≠ "" then e.positional_key
          else if e.long_key ≠ "" then e.long_key
          else e.short_key) ∧
    (∀ (calls : List Call) (s : ArgumentParser),
      chain libc ArgumentParser.new calls = some s → s.now_entry_.key = explicit_dest calls) ∧
    (∀ (s s2 : ArgumentParser) (a b : String),
      (s.short_name libc a).and_then (fun s1 => s1.long_name libc b) = .ok () s2 ↔
        (s.long_name libc b).and_then (fun s1 => s1.short_name libc a) = .ok () s2) ∧
    (∀ s : ArgumentParser, s.now_entry_.key = "" → s.now_entry_.positional_key = "" →
      s.now_entry_.long_key = "" → s.now_entry_.short_key = "" →
      (s.done libc).failed_with "required positional argument") := by
  refine ⟨?_, chain_explicit_dest libc, ?_, ?_⟩
  · intro s s1 h
    have hc := done_ok h
    refine ⟨_, hc.registry, hc.key, rfl, rfl, rfl, ?_⟩
    exact derived_key_priority s.now_entry_
  · intro s s2 a b
    unfold ArgumentParser.short_name ArgumentParser.long_name ArgumentParser.check_error
      ArgumentParser.raise
    by_cases h1 : starts_with a "-" = true <;> by_cases h2 : starts_with b "--" = true <;>
      by_cases h3 : s.now_entry_.positional_key = "" <;>
      by_cases h4 : map_find s.optional_short_key_ (substr a 1) = none <;>
      by_cases h5 : map_find s.optional_long_key_ (substr b 2) = none <;>
      cases hm : s.error_mode_ <;>
      simp [h1, h2, h3, h4, h5, hm, Res.and_then]
  · intro s hk hp hl hs
    unfold ArgumentParser.done
    have hd : derived_key s.now_entry_ = "" := by
      simp [derived_key, hk, hp, hl, hs]
    simp only [hd, ne_eq, not_true_eq_false, decide_False, check_error_false]
    exact raise_failed_with _ _

theorem done_destination_key_witness :
    chain Libc.zero ArgumentParser.new [.short_name "-c", .long_name "--count"] =
      some count_flags_state ∧
    ∃ s1 e, count_flags_state.done Libc.zero = .ok () s1 ∧ s1.param_entries_ = [e] ∧
      e.key = "count" := by
  obtain ⟨s1, h⟩ := done_returns count_flags_state (by decide) (by decide)
  obtain ⟨e, h1, _, hp, hl, hs, h6⟩ := (done_destination_key Libc.zero).1 _ _ h
  refine ⟨by decide, s1, e, h, h1, ?_⟩
  rw [h6, hp, hl, hs]
  decide

set_option maxRecDepth 100000 in
/-- C13 on the failing input.  On a new object in throwing mode the calls
`long_name("--x").action("store_const")` return and `done()` throws
"required positional argument: 'const'": it has already written the derived key
`x` to the current entry, and the failure leaves it there.  The calls
`long_name("--z")`, `const_value(1)` and `done()` then return, with no `dest`
call at all, and the entry that this `done()` commits has the long flag `z`, no
positional name, no short flag, and the destination key `x`: a parse of
`[prog, --z]` maps `x` to 1 and has no mapping for `z`. -/
theorem stale_destination_key :
    ∃ s e s1 s2 entry, chain Libc.zero ArgumentParser.throwing
        [.long_name "--x", .action "store_const"] = some s ∧
      s.done Libc.zero = .thrown e s1 ∧ e.msg_ = "required positional argument: 'const'" ∧
      s1.param_entries_ = [] ∧ s1.now_entry_.key = "x" ∧
      chain Libc.zero s1 [.long_name "--z", .const_value (.int 1), .done] = some s2 ∧
      explicit_dest [.long_name "--z", .const_value (.int 1), .done] = "" ∧
      s2.param_entries_ = [entry] ∧ entry.positional_key = "" ∧ entry.long_key = "z" ∧
      entry.short_key = "" ∧ entry.key = "x" ∧
      (s2.parse_args_any_type Libc.zero ["prog", "--z"]).find "x" = some (.int 1) ∧
      (s2.parse_args_any_type Libc.zero ["prog", "--z"]).find "z" = none :=
  ⟨_, _, _, _, _, rfl, rfl, rfl, rfl, rfl, rfl, rfl, rfl, rfl, rfl, rfl, rfl, by decide,
    by decide⟩

/-! ## C14: what a commit does -/

/-- C14.  A `done()` call that returned has appended one entry to the end of the
registry, the current entry with its derived key, and has left the entries
before it as they were and in their order; each non-empty identifier of the
entry is in its table, with the value 1, and the tables are otherwise as before;
the current entry is blank again: identifiers and key empty, `filled` and
`required` false, kind, action and multiplicity `NONE`, value, const, default and
choices absent.  A `done()` call on a current entry with action `store_const`
and no const fails. -/
theorem done_commits {libc : Libc} :
    (∀ s s1 : ArgumentParser, s.done libc = .ok () s1 →
      s1.param_entries_ =
        s.param_entries_ ++ [{ s.now_entry_ with key := derived_key s.now_entry_ }] ∧
      (s.now_entry_.short_key ≠ "" →
        map_find s1.optional_short_key_ s.now_entry_.short_key = some 1) ∧
      (s.now_entry_.long_key ≠ "" →
        map_find s1.optional_long_key_ s.now_entry_.long_key = some 1) ∧
      (s.now_entry_.positional_key ≠ "" →
        map_find s1.positional_key_ s.now_entry_.positional_key = some 1) ∧
      (∀ k, k ≠ s.now_entry_.short_key ∨ k = "" →
        map_find s1.optional_short_key_ k = map_find s.optional_short_key_ k) ∧
      (∀ k, k ≠ s.now_entry_.long_key ∨ k = "" →
        map_find s1.optional_long_key_ k = map_find s.optional_long_key_ k) ∧
      (∀ k, k ≠ s.now_entry_.positional_key ∨ k = "" →
        map_find s1.positional_key_ k = map_find s.positional_key_ k) ∧
      s1.error_mode_ = s.error_mode_ ∧
      s1.now_entry_ =
        { filled := false, required := false, short_key := "", long_key := "",
          positional_key := "", key := "", value := .empty, value_type := .NONE, help := "",
          nargs := .NONE, action := .NONE, nargs_number := 0, const_value := .empty,
          default_value := .empty, choices_array := .empty }) ∧
    (∀ s : ArgumentParser, s.now_entry_.action = .ACTION_STORE_CONST →
      s.now_entry_.const_value = .empty → (s.done libc).failed) := by
  constructor
  · intro s s1 h
    have hc := done_ok h
    have tab : ∀ (t t1 : List (String × Nat)) (id : String),
        (t1 = if id ≠ "" then map_set t id 1 else t) →
        (id ≠ "" → map_find t1 id = some 1) ∧
        (∀ k, k ≠ id ∨ k = "" → map_find t1 k = map_find t k) := by
      intro t t1 id ht
      constructor
      · intro hne
        rw [ht, if_pos hne, map_find_set_same]
      · intro k hk
        by_cases hid : id = ""
        · rw [ht, if_neg (by simp [hid])]
        · rw [ht, if_pos hid]
          rcases hk with hk | hk
          · exact map_find_set_other _ _ _ _ (Ne.symm hk)
          · exact map_find_set_other _ _ _ _ (by rw [hk]; exact hid)
    obtain ⟨s1a, s1b⟩ := tab _ _ _ hc.short
    obtain ⟨l1a, l1b⟩ := tab _ _ _ hc.long
    obtain ⟨p1a, p1b⟩ := tab _ _ _ hc.positional
    exact ⟨hc.registry, s1a, l1a, p1a, s1b, l1b, p1b, hc.mode, hc.now⟩
  · intro s ha hc
    unfold ArgumentParser.done
    dsimp only
    apply check_error_failed_of
    have c2 : (decide (s.now_entry_.action ≠ .ACTION_STORE_CONST) ||
        decide (s.now_entry_.const_value.value_type ≠ .NONE)) = false := by
      simp [ha, hc, EntryItem.value_type]
    simp only [ArgumentParser.register_now]
    rw [c2, check_error_false]
    exact raise_failed _ _

theorem done_commits_witness :
    ∃ s1, count_flags_state.done Libc.zero = .ok () s1 ∧
      s1.param_entries_ =
        [{ ParamEntry.blank with short_key := "c", long_key := "count", key := "count" }] ∧
      s1.now_entry_ = ParamEntry.blank ∧
      map_find s1.optional_long_key_ "count" = some 1 := by
  obtain ⟨s1, h⟩ := done_returns count_flags_state (by decide) (by decide)
  obtain ⟨h1, _, h3, _, _, _, _, _, h9⟩ := done_commits.1 _ _ h
  exact ⟨s1, h, h1, h9, h3 (by decide)⟩

/-! ## C15: display and coercion of ints, bools and strings -/

/-- C15.  Round trip through the display string: for every 32-bit signed integer
`v` the int value `v` has a display string, and coercing it with kind int gives
the int value `v` again; for every boolean `b` the display string of the bool
value `b` is `"true"` or `"false"` and coercing it with kind bool gives the bool
value `b`; for every string `s` the display string of the string value `s`
coerced with kind string gives the string value `s`. -/
theorem display_round_trip (libc : Libc) :
    (∀ v : Int, -(2 ^ 31) ≤ v → v < 2 ^ 31 →
      ∃ text, (EntryItem.int v).dump libc = some text ∧
        parse libc text .DIGITS_INT = .int v) ∧
    (∀ b : Bool,
      ∃ text, (EntryItem.bool b).dump libc = some text ∧
        (text = "true" ∨ text = "false") ∧ parse libc text .BOOLEAN = .bool b) ∧
    (∀ s : String,
      ∃ text, (EntryItem.string s).dump libc = some text ∧
        parse libc text .STRING = .string s) := by
  refine ⟨?_, ?_, ?_⟩
  · intro v h1 h2
    refine ⟨snprintf_d v, rfl, ?_⟩
    have hp : parse libc (snprintf_d v) .DIGITS_INT = .int (atoi (snprintf_d v)) := by
      simp [parse]
    rw [hp]
    congr 1
    obtain ⟨hd, hne, hv⟩ := nat_digits_spec (v.natAbs + 1) v.natAbs (by omega)
    unfold snprintf_d
    by_cases hneg : v < 0
    · rw [if_pos hneg]
      have e : (['-'] ++ nat_digits (v.natAbs + 1) v.natAbs) =
          '-' :: (nat_digits (v.natAbs + 1) v.natAbs ++ []) := by simp
      rw [e, atoi_minus _ _ hd (by simp), hv]
      have : -(v.natAbs : Int) = v := by omega
      rw [this]
      exact fits_int v h1 h2
    · rw [if_neg hneg]
      have e : ([] ++ nat_digits (v.natAbs + 1) v.natAbs) =
          nat_digits (v.natAbs + 1) v.natAbs ++ [] := by simp
      rw [e, atoi_unsigned _ _ hne hd (by simp), hv]
      have : (v.natAbs : Int) = v := by omega
      rw [this]
      exact fits_int v h1 h2
  · intro b
    cases b
    · exact ⟨"false", rfl, Or.inr rfl, by simp [parse]⟩
    · exact ⟨"true", rfl, Or.inl rfl, by simp [parse]⟩
  · intro s
    exact ⟨s, rfl, by simp [parse]⟩

theorem display_round_trip_witness :
    (EntryItem.int (-2147483648)).dump Libc.zero = some "-2147483648" ∧
      parse Libc.zero "-2147483648" .DIGITS_INT = .int (-2147483648) := by
  obtain ⟨text, h1, h2⟩ :=
    (display_round_trip Libc.zero).1 (-2147483648) (by decide) (by decide)
  have e : text = "-2147483648" := by
    have : (EntryItem.int (-2147483648)).dump Libc.zero = some "-2147483648" := by decide
    rw [this] at h1
    exact (Option.some.inj h1).symm
  rw [e] at h2
  exact ⟨by decide, h2⟩

/-! ## C16: display and coercion of doubles -/

/-- C17.  The coercion `parse` gives, for every token text and every declared
kind, a scalar value and no failure: an int value for kind `DIGITS_INT`, a double
value for `DIGITS_DOUBLE`, a bool value for `BOOLEAN`, and for every other kind
(`STRING`, the undeclared kind `NONE` and the four array kinds) the string value
of the verbatim token; it is never the absent value.  For kind `BOOLEAN` the
result is true when the token is exactly `"true"` and false otherwise, so the
tokens `"True"`, `"1"` and `"true "` give false. -/
theorem parse_total (libc : Libc) (input : String) (value_type : ValueType) :
    (value_type = .DIGITS_INT → ∃ v, parse libc input value_type = .int v) ∧
    (value_type = .DIGITS_DOUBLE → ∃ v, parse libc input value_type = .double v) ∧
    (value_type = .BOOLEAN →
      parse libc input value_type = .bool (decide (input = "true"))) ∧
    (value_type ≠ .DIGITS_INT → value_type ≠ .DIGITS_DOUBLE → value_type ≠ .BOOLEAN →
      parse libc input value_type = .string input) ∧
    parse libc input value_type ≠ .empty ∧
    (parse libc input value_type).is_scalar = true ∧
    parse libc "True" .BOOLEAN = .bool false ∧
    parse libc "1" .BOOLEAN = .bool false ∧
    parse libc "true " .BOOLEAN = .bool false ∧
    parse libc "true" .BOOLEAN = .bool true := by
  refine ⟨?_, ?_, ?_, ?_, ?_, ?_, rfl, rfl, rfl, rfl⟩
  · intro h
    exact ⟨atoi input, by simp [parse, h]⟩
  · intro h
    exact ⟨libc.strtod input, by simp [parse, h]⟩
  · intro h
    by_cases ht : input = "true" <;> simp [parse, h, ht]
  · intro h1 h2 h3
    simp [parse, h1, h2, h3]
  · unfold parse
    split_ifs <;> simp
  · unfold parse
    split_ifs <;> rfl

theorem parse_total_witness :
    parse Libc.zero "12" .DIGITS_INT = .int 12 ∧
    parse Libc.zero "x" .INT_ARRAY = .string "x" ∧
    parse Libc.zero "x" .NONE = .string "x" := by
  obtain ⟨_, _, _, h4, _⟩ := parse_total Libc.zero "x" .INT_ARRAY
  obtain ⟨_, _, _, h5, _⟩ := parse_total Libc.zero "x" .NONE
  exact ⟨by decide, h4 (by decide) (by decide) (by decide),
    h5 (by decide) (by decide) (by decide)⟩

/-! ## C18: the leading integer of a token -/

/-- C18.  For every token made of an optional sign (`+` or `-`), one or more
decimal digits whose signed value fits a 32-bit signed int, and then either
nothing or a text that starts with no digit, the coercion with kind int gives
that integer; for every token that is empty or whose first character is no
white space, no sign and no digit, it gives 0. -/
theorem parse_leading_integer (libc : Libc) :
    (∀ sign ds rest : List Char, (sign = [] ∨ sign = ['+'] ∨ sign = ['-']) →
      ds ≠ [] → (∀ c ∈ ds, isdigit c = true) →
      (∀ c, rest.head? = some c → isdigit c = false) →
      -(2 ^ 31) ≤ (if sign = ['-'] then -(digits_value ds : Int) else digits_value ds) →
      (if sign = ['-'] then -(digits_value ds : Int) else digits_value ds) < 2 ^ 31 →
      parse libc ⟨sign ++ ds ++ rest⟩ .DIGITS_INT =
        .int (if sign = ['-'] then -(digits_value ds : Int) else digits_value ds)) ∧
    (∀ input : String,
      (∀ c, input.data.head? = some c →
        isspace c = false ∧ c ≠ '-' ∧ c ≠ '+' ∧ isdigit c = false) →
      parse libc input .DIGITS_INT = .int 0) := by
  constructor
  · intro sign ds rest hs hne hds hrest h1 h2
    have hp : ∀ t, parse libc t .DIGITS_INT = .int (atoi t) := fun t => by simp [parse]
    rw [hp]
    congr 1
    rcases hs with hs | hs | hs
    · subst hs
      simp only [List.nil_append] at *
      rw [atoi_unsigned ds rest hne hds hrest]
      simp only [List.nil_eq, reduceCtorEq, if_false] at h1 h2 ⊢
      exact fits_int _ h1 h2
    · subst hs
      have e : ['+'] ++ ds ++ rest = '+' :: (ds ++ rest) := by simp
      rw [e, atoi_plus ds rest hds hrest]
      have hn : ¬ (['+'] = ['-']) := by decide
      simp only [hn, if_false] at h1 h2 ⊢
      exact fits_int _ h1 h2
    · subst hs
      have e : ['-'] ++ ds ++ rest = '-' :: (ds ++ rest) := by simp
      rw [e, atoi_minus ds rest hds hrest]
      simp only [if_true] at h1 h2 ⊢
      exact fits_int _ h1 h2
  · intro input h
    have hp : parse libc input .DIGITS_INT = .int (atoi input) := by simp [parse]
    rw [hp, atoi_no_number input h]

theorem parse_leading_integer_witness :
    parse Libc.zero "12abc" .DIGITS_INT = .int 12 ∧
    parse Libc.zero "-7" .DIGITS_INT = .int (-7) ∧
    parse Libc.zero "abc" .DIGITS_INT = .int 0 ∧
    parse Libc.zero "" .DIGITS_INT = .int 0 :=
  ⟨(parse_leading_integer Libc.zero).1 [] ['1', '2'] ['a', 'b', 'c'] (Or.inl rfl)
      (by decide) (by decide) (by decide) (by decide) (by decide),
    (parse_leading_integer Libc.zero).1 ['-'] ['7'] [] (Or.inr (Or.inr rfl))
      (by decide) (by decide) (by decide) (by decide) (by decide),
    (parse_leading_integer Libc.zero).2 "abc" (by decide),
    (parse_leading_integer Libc.zero).2 "" (by decide)⟩

/-! ## C19: the typed accessors -/

/-- C19.  Each of the eight typed accessors returns the stored payload on a value
of its kind, and on every value of another kind, the absent value among them, it
returns its sentinel: `0`, `0.0`, `false`, the empty string or the empty array.
Exactly one of the eight kind predicates holds of a value that is not absent,
and none holds of the absent value. -/
theorem accessors_permissive (v : EntryItem) :
    ((∀ p, v = .int p → v.digit_int_value = p) ∧
      (v.is_int = false → v.digit_int_value = 0)) ∧
    ((∀ p, v = .double p → v.digit_double_value = p) ∧
      (v.is_double = false → v.digit_double_value = ⟨0⟩)) ∧
    ((∀ p, v = .bool p → v.bool_value = p) ∧
      (v.is_bool = false → v.bool_value = false)) ∧
    ((∀ p, v = .string p → v.string_value = p) ∧
      (v.is_string = false → v.string_value = "")) ∧
    ((∀ p, v = .int_array p → v.int_array_value = p) ∧
      (v.is_int_array = false → v.int_array_value = [])) ∧
    ((∀ p, v = .double_array p → v.double_array_value = p) ∧
      (v.is_double_array = false → v.double_array_value = [])) ∧
    ((∀ p, v = .bool_array p → v.bool_array_value = p) ∧
      (v.is_bool_array = false → v.bool_array_value = [])) ∧
    ((∀ p, v = .string_array p → v.string_array_value = p) ∧
      (v.is_string_array = false → v.string_array_value = [])) ∧
    (v.is_int = true ↔ ∃ p, v = .int p) ∧
    (v.is_double = true ↔ ∃ p, v = .double p) ∧
    (v.is_bool = true ↔ ∃ p, v = .bool p) ∧
    (v.is_string = true ↔ ∃ p, v = .string p) ∧
    (v.is_int_array = true ↔ ∃ p, v = .int_array p) ∧
    (v.is_double_array = true ↔ ∃ p, v = .double_array p) ∧
    (v.is_bool_array = true ↔ ∃ p, v = .bool_array p) ∧
    (v.is_string_array = true ↔ ∃ p, v = .string_array p) ∧
    v.kind_predicates.count true = (if v = .empty then 0 else 1) := by
  cases v <;>
    simp [EntryItem.digit_int_value, EntryItem.digit_double_value, EntryItem.bool_value,
      EntryItem.string_value, EntryItem.int_array_value, EntryItem.double_array_value,
      EntryItem.bool_array_value, EntryItem.string_array_value, EntryItem.is_int,
      EntryItem.is_double, EntryItem.is_bool, EntryItem.is_string, EntryItem.is_int_array,
      EntryItem.is_double_array, EntryItem.is_bool_array, EntryItem.is_string_array,
      EntryItem.value_type, EntryItem.kind_predicates, ERROR_INT, ERROR_DOUBLE, ERROR_BOOL,
      ERROR_STRING]

theorem accessors_permissive_witness :
    (EntryItem.int 5).digit_int_value = 5 ∧ (EntryItem.string "5").digit_int_value = 0 ∧
      EntryItem.empty.digit_int_value = 0 ∧ EntryItem.empty.int_array_value = [] :=
  ⟨(accessors_permissive (.int 5)).1.1 5 rfl, (accessors_permissive (.string "5")).1.2 rfl,
    (accessors_permissive .empty).1.2 rfl, (accessors_permissive .empty).2.2.2.2.1.2 rfl⟩

/-! ## C20: structural equality -/

/-- C20.  The method `is_entry_item_equal` returns true exactly on two values
that are structurally equal: of the same kind and, for a scalar kind, with equal
payloads, for an array kind, with equal lengths and equal elements at every
index.  Two absent values are equal; a scalar and an array are never equal, in
either order, and the int `1` is not equal to the int array `[1]`.  On values
that hold no double the relation is reflexive, symmetric and transitive. -/
theorem is_entry_item_equal_structural :
    (∀ a b, is_entry_item_equal a b = true ↔ structurally_equal a b) ∧
    (∀ a b, is_entry_item_equal a b = true → a.value_type = b.value_type) ∧
    is_entry_item_equal .empty .empty = true ∧
    (∀ a b, a.is_scalar = true → b.is_array = true →
      is_entry_item_equal a b = false ∧ is_entry_item_equal b a = false) ∧
    is_entry_item_equal (.int 1) (.int_array [1]) = false ∧
    (∀ a, a.no_double = true → is_entry_item_equal a a = true) ∧
    (∀ a b, a.no_double = true → b.no_double = true →
      is_entry_item_equal a b = true → is_entry_item_equal b a = true) ∧
    (∀ a b c, a.no_double = true → b.no_double = true → c.no_double = true →
      is_entry_item_equal a b = true → is_entry_item_equal b c = true →
      is_entry_item_equal a c = true) := by
  have kind : ∀ a b, is_entry_item_equal a b = true → a.value_type = b.value_type := by
    intro a b h
    by_contra hne
    simp [is_entry_item_equal, hne] at h
  refine ⟨is_entry_item_equal_iff, kind, rfl, ?_, rfl, ?_, ?_, ?_⟩
  · intro a b ha hb
    have hne : a.value_type ≠ b.value_type := by
      cases a <;> cases b <;>
        simp_all [EntryItem.is_scalar, EntryItem.is_array, EntryItem.value_type,
          EntryItem.is_int, EntryItem.is_double, EntryItem.is_bool, EntryItem.is_string,
          EntryItem.is_int_array, EntryItem.is_double_array, EntryItem.is_bool_array,
          EntryItem.is_string_array]
    constructor
    · simp [is_entry_item_equal, hne]
    · simp [is_entry_item_equal, Ne.symm hne]
  · intro a ha
    exact (is_entry_item_equal_iff a a).mpr ((structurally_equal_iff_eq a a ha).mpr rfl)
  · intro a b ha hb h
    have e := (structurally_equal_iff_eq a b ha).mp ((is_entry_item_equal_iff a b).mp h)
    exact (is_entry_item_equal_iff b a).mpr ((structurally_equal_iff_eq b a hb).mpr e.symm)
  · intro a b c ha hb _ h1 h2
    have e1 := (structurally_equal_iff_eq a b ha).mp ((is_entry_item_equal_iff a b).mp h1)
    have e2 := (structurally_equal_iff_eq b c hb).mp ((is_entry_item_equal_iff b c).mp h2)
    exact (is_entry_item_equal_iff a c).mpr
      ((structurally_equal_iff_eq a c ha).mpr (e1.trans e2))

theorem is_entry_item_equal_structural_witness :
    is_entry_item_equal (.string_array ["a", "b"]) (.string_array ["a", "b"]) = true ∧
    is_entry_item_equal (.string "a") (.string_array ["a"]) = false ∧
    is_entry_item_equal (.double Double.nan) (.double Double.nan) = false :=
  ⟨is_entry_item_equal_structural.2.2.2.2.2.1 (.string_array ["a", "b"]) rfl,
    (is_entry_item_equal_structural.2.2.2.1 (.string "a") (.string_array ["a"]) rfl rfl).1,
    by decide⟩

/-! ## C21: a flag with the multiplicity `?` -/

/-- C21, as amended.  For every optional entry with multiplicity `?`, when the
main loop of a parse call meets its flag token (a token other than `--help` and
`-h` that is the current token of an iteration and that the flag tables resolve
to the entry): if the flag is the last token or the next token starts with `-`,
the iteration assigns the const of the entry, absent when none was declared,
marks the entry filled and moves the token cursor past the flag only; otherwise
it coerces the next token to the kind of the entry and validates it against the
choice set: an accepted token is assigned as a scalar and the cursor moves past
it, a rejected one makes the iteration and the parse call fail with the message
of the validation. -/
theorem question_flag (libc : Libc) (s : ArgumentParser) (hr : Reachable libc s)
    (argv : List String) (st : ParseState) (j : Nat) (entry : ParamEntry)
    (hm : s.meets_flag libc argv st j entry) (hn : entry.nargs = .NARGS_QUESTION) :
    ((st.p_input_index + 1 = argv.length ∨
        ∃ t, argv[st.p_input_index + 1]? = some t ∧ starts_with t "-" = true) →
      s.step libc argv st =
        .ok { st with
              param_entries := st.param_entries.set j
                { entry with value := entry.const_value, filled := true }
              p_input_index := st.p_input_index + 1 }) ∧
    (∀ t, argv[st.p_input_index + 1]? = some t → starts_with t "-" = false →
      (parse libc t entry.value_type).is_scalar = true ∧
      (parse_choices libc (parse libc t entry.value_type) entry = .ok true →
        s.step libc argv st =
          .ok { st with
                param_entries := st.param_entries.set j
                  { entry with value := parse libc t entry.value_type, filled := true }
                p_input_index := st.p_input_index + 2 }) ∧
      (∀ m, parse_choices libc (parse libc t entry.value_type) entry = .fail m →
        s.step libc argv st = .fail m ∧ (s.parse_args_any_type libc argv).failed_with m)) := by
  obtain ⟨_, hstep⟩ := step_nargs hr hm (Or.inl hn)
  constructor
  · intro h
    rw [hstep, parse_nargs_question_none libc entry _ argv hn h]
    rfl
  · intro t ht hd
    have hp := parse_nargs_question_some libc entry _ argv hn t ht hd
    refine ⟨parse_is_scalar libc t entry.value_type, ?_, ?_⟩
    · intro hch
      rw [hstep, hp, hch]
      rfl
    · intro m hch
      have hfail : s.step libc argv st = .fail m := by
        rw [hstep, hp, hch]
        rfl
      exact ⟨hfail, (parse_of_loop_at hm.1).1 m hfail⟩

set_option maxRecDepth 100000 in
/-- The claim C21 as stated fails for a flag token that the main loop does not
meet as a flag: after `long_name("--count").done()` and
`long_name("--opt").nargs("?").const_value(5).done()` the vector
`[prog, --count, --opt]` has the flag of `opt` at its last position, and the
parse binds the token as the value of `count` and leaves `opt` out of the result.
It also fails for a flag named `--help`, on which the parse exits with code 0. -/
theorem question_flag_not_met :
    (∃ s, chain Libc.zero ArgumentParser.throwing
        [.long_name "--count", .done,
          .long_name "--opt", .nargs "?", .const_value (.int 5), .done] = some s ∧
      (s.parse_args_any_type Libc.zero ["prog", "--count", "--opt"]).find "opt" = none ∧
      (s.parse_args_any_type Libc.zero ["prog", "--count", "--opt"]).find "count" =
        some (.string "--opt")) ∧
    (∃ s, chain Libc.zero ArgumentParser.throwing
        [.long_name "--help", .nargs "?", .const_value (.int 5), .done] = some s ∧
      s.parse_args_any_type Libc.zero ["prog", "--help"] = .exited 0 "") :=
  ⟨⟨_, rfl, by decide, by decide⟩, ⟨_, rfl, by decide⟩⟩

set_option maxRecDepth 100000 in
theorem question_flag_witness :
    opt_state.step Libc.zero ["prog", "--opt"] opt_state.start =
      .ok ⟨[{ opt_entry with value := .int 5, filled := true }], 0, 2⟩ ∧
    opt_state.step Libc.zero ["prog", "--opt", "7"] opt_state.start =
      .ok ⟨[{ opt_entry with value := .int 7, filled := true }], 0, 3⟩ :=
  ⟨(question_flag Libc.zero opt_state opt_state_reachable ["prog", "--opt"] opt_state.start 0
      opt_entry ⟨⟨by decide, 0, rfl⟩, "--opt", "opt", by decide, by decide, by decide,
        by decide, by decide, by decide⟩ rfl).1 (Or.inl rfl),
    ((question_flag Libc.zero opt_state opt_state_reachable ["prog", "--opt", "7"]
      opt_state.start 0 opt_entry ⟨⟨by decide, 0, rfl⟩, "--opt", "opt", by decide, by decide,
        by decide, by decide, by decide, by decide⟩ rfl).2 "7" rfl rfl).2.1 (by decide)⟩

/-! ## C22: the run of value tokens of `+` and `*` -/

/-- C22.  For every entry with multiplicity `+` or `*`: a call of `parse_nargs`
from the start position `p` that returns has collected exactly the run of value
tokens after `p`, which is the longest run of consecutive tokens that do not
start with `-` (every token of the run starts otherwise, and behind the run the
vector ends or a token that starts with `-` stands, a negative number too), and
it returns when the start position lies in the vector, the run is not empty for
`+`, and the choice set accepts every token of the run.  In the main loop of a
parse call the iteration that binds such an entry, by its flag or by a token
that does not start with `-`, returns under the same conditions, and when it
returns it has assigned the array of the coerced tokens of the run and left the
cursor at the end of the vector or on the token that ended the run; an iteration
on a token that starts with `-` is the help exit for the two help tokens and the
flag branch otherwise. -/
theorem run_of_value_tokens (libc : Libc) :
    (∀ (entry : ParamEntry) (p : Nat) (argv : List String),
      entry.nargs = .NARGS_ADD ∨ entry.nargs = .NARGS_STAR →
      (∀ r, parse_nargs libc entry p argv = .ok r →
        r = ({ entry with value := collect ((value_run argv p).map fun t =>
                parse libc t entry.value_type) }, p + (value_run argv p).length)) ∧
      (p < argv.length → (entry.nargs = .NARGS_ADD → value_run argv p ≠ []) →
        (∀ t ∈ value_run argv p,
          parse_choices libc (parse libc t entry.value_type) entry = .ok true) →
        ∃ r, parse_nargs libc entry p argv = .ok r) ∧
      (∀ t ∈ value_run argv p, starts_with t "-" = false) ∧
      (∃ post, argv.drop (p + 1) = value_run argv p ++ post ∧
        (post = [] ∨ ∃ t rest, post = t :: rest ∧ starts_with t "-" = true))) ∧
    (∀ (s : ArgumentParser) (argv : List String) (st : ParseState) (j : Nat)
        (entry : ParamEntry),
      Reachable libc s → s.meets_flag libc argv st j entry →
      entry.nargs = .NARGS_ADD ∨ entry.nargs = .NARGS_STAR →
      ∃ st1 : ParseState,
        st1 = { st with
                param_entries := st.param_entries.set j
                  { entry with
                    value := collect ((value_run argv st.p_input_index).map fun t =>
                      parse libc t entry.value_type)
                    filled := true }
                p_input_index :=
                  st.p_input_index + (value_run argv st.p_input_index).length + 1 } ∧
        (st1.p_input_index = argv.length ∨
          ∃ t, argv[st1.p_input_index]? = some t ∧ starts_with t "-" = true) ∧
        (∀ st2, s.step libc argv st = .ok st2 → st2 = st1) ∧
        ((entry.nargs = .NARGS_ADD → value_run argv st.p_input_index ≠ []) →
          (∀ t ∈ value_run argv st.p_input_index,
            parse_choices libc (parse libc t entry.value_type) entry = .ok true) →
          s.step libc argv st = .ok st1)) ∧
    (∀ (s : ArgumentParser) (argv : List String) (st : ParseState) (p1 i : Nat)
        (entry : ParamEntry),
      s.loop_at libc argv st → at_positional s.prepass.2 argv st p1 i entry →
      entry.nargs = .NARGS_ADD ∨ entry.nargs = .NARGS_STAR →
      (∃ input rest, argv[st.p_input_index]? = some input ∧
        value_run argv (st.p_input_index - 1) = input :: rest) ∧
      ∃ st1 : ParseState,
        st1 = { param_entries := st.param_entries.set i
                  { entry with
                    value := collect ((value_run argv (st.p_input_index - 1)).map fun t =>
                      parse libc t entry.value_type)
                    filled := true }
                p_entry_index := p1 + 1
                p_input_index :=
                  st.p_input_index + (value_run argv (st.p_input_index - 1)).length } ∧
        (st1.p_input_index = argv.length ∨
          ∃ t, argv[st1.p_input_index]? = some t ∧ starts_with t "-" = true) ∧
        (∀ st2, s.step libc argv st = .ok st2 → st2 = st1) ∧
        ((∀ t ∈ value_run argv (st.p_input_index - 1),
            parse_choices libc (parse libc t entry.value_type) entry = .ok true) →
          s.step libc argv st = .ok st1)) ∧
    (∀ (short long : List (String × Nat)) (positional_index : List Nat) (argv : List String)
        (st : ParseState) (t : String),
      argv[st.p_input_index]? = some t → starts_with t "-" = true →
      parse_step libc short long positional_index argv st =
        if t = "--help" ∨ t = "-h" then .help
        else optional_token libc short long argv st t) := by
  have hret : ∀ (entry : ParamEntry) (p : Nat) (argv : List String),
      entry.nargs = .NARGS_ADD ∨ entry.nargs = .NARGS_STAR → p < argv.length →
      (entry.nargs = .NARGS_ADD → value_run argv p ≠ []) →
      (∀ t ∈ value_run argv p,
        parse_choices libc (parse libc t entry.value_type) entry = .ok true) →
      parse_nargs libc entry p argv =
        .ok ({ entry with value := collect ((value_run argv p).map fun t =>
                parse libc t entry.value_type) }, p + (value_run argv p).length) := by
    intro entry p argv hn hp hne hch
    have hq : entry.nargs ≠ .NARGS_QUESTION := by rcases hn with hn | hn <;> simp [hn]
    have hnn : entry.nargs ≠ .NARGS_N := by rcases hn with hn | hn <;> simp [hn]
    have hfirst : entry.nargs = .NARGS_STAR ∨ value_run argv p ≠ [] := by
      rcases hn with hn | hn
      · exact Or.inr (hne hn)
      · exact Or.inl hn
    have := parse_nargs_loop libc entry argv p hq hp hfirst (-1) (by rw [if_neg hnn])
      (by omega) (by rw [if_pos (by omega)]; exact hch)
    rw [if_pos (by omega)] at this
    exact this
  refine ⟨?_, ?_, ?_, ?_⟩
  · intro entry p argv hn
    exact ⟨fun r h => parse_nargs_run hn h,
      fun hp hne hch => ⟨_, hret entry p argv hn hp hne hch⟩,
      fun t ht => value_run_no_dash t ht, value_run_split argv p⟩
  · intro s argv st j entry hr hm hn
    obtain ⟨_, hs⟩ := step_nargs hr hm (Or.inr (Or.symm hn))
    refine ⟨_, rfl, value_run_end argv st.p_input_index (at_flag_lt hm.2), ?_, ?_⟩
    · intro st2 hstep
      rw [hs] at hstep
      obtain ⟨r, hr1, hr2⟩ := Chk.bind_eq_ok hstep
      have hrun := parse_nargs_run hn hr1
      subst hrun
      simp only [Chk.ok.injEq] at hr2
      subst hr2
      rfl
    · intro hne hch
      rw [hs, hret entry _ argv hn (at_flag_lt hm.2) hne hch]
      rfl
  · intro s argv st p1 i entry hl hp hn
    obtain ⟨input, hin, hd, hs⟩ :=
      parse_step_at_positional libc s.prepass.1.optional_short_key_
        s.prepass.1.optional_long_key_ s.prepass.2 argv st p1 i entry hp
    have hnone : entry.nargs ≠ .NONE := by rcases hn with hn | hn <;> simp [hn]
    rw [if_pos hnone] at hs
    obtain ⟨hc1, hc2⟩ := loop_at_cursor hl
    have hcur : st.p_input_index - 1 + 1 = st.p_input_index := by omega
    have hcons : ∃ rest, value_run argv (st.p_input_index - 1) = input :: rest := by
      unfold value_run
      rw [hcur]
      have hdrop : argv.drop st.p_input_index = input :: argv.drop (st.p_input_index + 1) := by
        rw [List.drop_eq_getElem_cons hc2]
        congr 1
        rw [List.getElem?_eq_getElem hc2] at hin
        exact Option.some.inj hin
      rw [hdrop, List.takeWhile_cons_of_pos (by simp [hd])]
      exact ⟨_, rfl⟩
    obtain ⟨rest, hrest⟩ := hcons
    have hend := value_run_end argv (st.p_input_index - 1) (by omega)
    have hlen : 0 < (value_run argv (st.p_input_index - 1)).length := by
      rw [hrest]; simp
    have e : st.p_input_index - 1 + (value_run argv (st.p_input_index - 1)).length + 1 =
        st.p_input_index + (value_run argv (st.p_input_index - 1)).length := by omega
    rw [e] at hend
    refine ⟨⟨input, rest, hin, hrest⟩, _, rfl, hend, ?_, ?_⟩
    · intro st2 hstep
      unfold ArgumentParser.step at hstep
      rw [hs] at hstep
      obtain ⟨r, hr1, hr2⟩ := Chk.bind_eq_ok hstep
      have hrun := parse_nargs_run hn hr1
      subst hrun
      simp only [Chk.ok.injEq] at hr2
      subst hr2
      show ParseState.mk _ _ _ = ParseState.mk _ _ _
      congr 1
    · intro hch
      unfold ArgumentParser.step
      rw [hs, hret entry _ argv hn (by omega) (fun _ => by rw [hrest]; simp) hch, Chk.ok_bind]
      dsimp only
      rw [e]
  · intro short long pi argv st t ht hd
    unfold parse_step
    rw [ht]
    simp only [hd, Bool.not_true, Bool.false_eq_true, if_false]

set_option maxRecDepth 100000 in
theorem run_of_value_tokens_witness :
    value_run ["prog", "--vals", "1", "-2", "3"] 1 = ["1"] ∧
    (∃ r, parse_nargs Libc.zero vals_entry 1 ["prog", "--vals", "1", "-2", "3"] = .ok r ∧
      r = ({ vals_entry with value := .int_array [1] }, 2)) ∧
    (∃ s, chain Libc.zero ArgumentParser.throwing
        [.long_name "--vals", .nargs "+", .type .DIGITS_INT, .done] = some s ∧
      (s.parse_args_any_type Libc.zero ["prog", "--vals", "1", "-2", "3"]).failed_with
        "unrecognized arguments: 2") ∧
    (∃ s, chain Libc.zero ArgumentParser.throwing
        [.long_name "--vals", .nargs "+", .type .DIGITS_INT, .done,
          .short_name "-2", .action "store_true", .done,
          .positional_name "rest", .done] = some s ∧
      (s.parse_args_any_type Libc.zero ["prog", "--vals", "1", "-2", "3"]).find "vals" =
        some (.int_array [1]) ∧
      (s.parse_args_any_type Libc.zero ["prog", "--vals", "1", "-2", "3"]).find "2" =
        some (.bool true) ∧
      (s.parse_args_any_type Libc.zero ["prog", "--vals", "1", "-2", "3"]).find "rest" =
        some (.string "3")) :=
  ⟨by decide,
    (((run_of_value_tokens Libc.zero).1 vals_entry 1 ["prog", "--vals", "1", "-2", "3"]
      (Or.inl rfl)).2.1 (by decide) (by decide) (by decide)).imp fun r h =>
      ⟨h, (((run_of_value_tokens Libc.zero).1 vals_entry 1 ["prog", "--vals", "1", "-2", "3"]
        (Or.inl rfl)).1 r h).trans (by decide)⟩,
    ⟨_, rfl, by decide⟩, ⟨_, rfl, by decide, by decide, by decide⟩⟩

/-! ## C23: a flag without an action and without a multiplicity -/

/-- C23, as amended.  For every optional entry with no action and no
multiplicity, when the main loop of a parse call meets its flag token at the
position `i` (a token other than `--help` and `-h` that is the current token of
an iteration and that the flag tables resolve to the entry): if `i` is the last
position, the iteration and the parse call fail with "the following arguments
are required: " and the flag token without its dashes; otherwise the token at
`i + 1` is taken as the value whatever its text, coerced to the kind of the
entry and validated against the choice set: an accepted token is assigned, the
entry is marked filled and the cursor moves to `i + 2`, a rejected one makes the
iteration and the parse call fail with the message of the validation. -/
theorem plain_flag_value (libc : Libc) (s : ArgumentParser) (argv : List String)
    (st : ParseState) (j : Nat) (entry : ParamEntry) (input : String)
    (hm : s.meets_flag libc argv st j entry) (hin : argv[st.p_input_index]? = some input)
    (hact : entry.action = .NONE) (hn : entry.nargs = .NONE) :
    (st.p_input_index + 1 = argv.length →
      s.step libc argv st =
        .fail ("the following arguments are required: " ++ flag_name input) ∧
      (s.parse_args_any_type libc argv).failed_with
        ("the following arguments are required: " ++ flag_name input)) ∧
    (∀ t, argv[st.p_input_index + 1]? = some t →
      (parse_choices libc (parse libc t entry.value_type) entry = .ok true →
        s.step libc argv st =
          .ok { st with
                param_entries := st.param_entries.set j
                  { entry with value := parse libc t entry.value_type, filled := true }
                p_input_index := st.p_input_index + 2 }) ∧
      (∀ m, parse_choices libc (parse libc t entry.value_type) entry = .fail m →
        s.step libc argv st = .fail m ∧ (s.parse_args_any_type libc argv).failed_with m)) := by
  have hstep := step_plain_flag hm hin hact hn
  constructor
  · intro hlast
    have hfail : s.step libc argv st =
        .fail ("the following arguments are required: " ++ flag_name input) := by
      rw [hstep]
      simp [Chk.check_error, hlast]
    exact ⟨hfail, (parse_of_loop_at hm.1).1 _ hfail⟩
  · intro t ht
    have hlt : st.p_input_index + 1 < argv.length := by
      by_contra hc
      rw [List.getElem?_eq_none (by omega)] at ht
      cases ht
    have hstep1 : s.step libc argv st =
        (parse_choices libc (parse libc t entry.value_type) entry).bind fun _ =>
          .ok { st with
                param_entries := st.param_entries.set j
                  { entry with value := parse libc t entry.value_type, filled := true }
                p_input_index := st.p_input_index + 2 } := by
      rw [hstep]
      simp only [Chk.check_error, hlt, decide_True, if_true, Chk.ok_bind, ht]
    constructor
    · intro hch
      rw [hstep1, hch]
      rfl
    · intro m hch
      have hfail : s.step libc argv st = .fail m := by
        rw [hstep1, hch]
        rfl
      exact ⟨hfail, (parse_of_loop_at hm.1).1 m hfail⟩

set_option maxRecDepth 100000 in
/-- The claim C23 as stated fails for a flag token that the main loop does not
meet as a flag: after `long_name("--a").done()` and `long_name("--b").done()`
the vector `[prog, --a, --b]` has the flag of `b` at its last position, and the
parse does not fail: it binds the token as the value of `a` and leaves `b` out of
the result.  It also fails for a flag named `--help`, on which the parse exits
with code 0. -/
theorem plain_flag_not_met :
    (∃ s, chain Libc.zero ArgumentParser.throwing
        [.long_name "--a", .done, .long_name "--b", .done] = some s ∧
      (s.parse_args_any_type Libc.zero ["prog", "--a", "--b"]).find "a" =
        some (.string "--b") ∧
      (s.parse_args_any_type Libc.zero ["prog", "--a", "--b"]).find "b" = none) ∧
    (∃ s, chain Libc.zero ArgumentParser.throwing [.long_name "--help", .done] = some s ∧
      s.parse_args_any_type Libc.zero ["prog", "--help"] = .exited 0 "") :=
  ⟨⟨_, rfl, by decide, by decide⟩, ⟨_, rfl, by decide⟩⟩

set_option maxRecDepth 100000 in
theorem plain_flag_value_witness :
    name_count_state.step Libc.zero ["prog", "--count", "-5"] name_count_state.start =
      .ok ⟨[name_entry, { count_entry with value := .int (-5), filled := true }], 0, 3⟩ ∧
    name_count_state.step Libc.zero ["prog", "--count"] name_count_state.start =
      .fail "the following arguments are required: count" :=
  ⟨((plain_flag_value Libc.zero name_count_state ["prog", "--count", "-5"]
      name_count_state.start 1 count_entry "--count"
      ⟨⟨by decide, 0, rfl⟩, "--count", "count", by decide, by decide, by decide, by decide,
        by decide, by decide⟩ (by decide) rfl rfl).2 "-5" (by decide)).1 (by decide),
    ((plain_flag_value Libc.zero name_count_state ["prog", "--count"]
      name_count_state.start 1 count_entry "--count"
      ⟨⟨by decide, 0, rfl⟩, "--count", "count", by decide, by decide, by decide, by decide,
        by decide, by decide⟩ (by decide) rfl rfl).1 (by decide)).1⟩

/-! ## C24: unrecognized arguments -/

/-- C24, as amended.  When the main loop of a parse call meets a token other
than `--help` and `-h` as the current token of an iteration, the iteration and
the parse call fail with "unrecognized arguments: " and the text named below in
each of these situations: (a) the token does not start with `-` and every entry
of the positional index at or after the positional cursor has an action: the
text is the token; (b) the token starts with `--` and no key of the long-flag
table equals the text after the two-character prefix: the text is what follows
the prefix; (c) the token starts with a single `-` and no key of the short-flag
table equals the text after the one-character prefix: the text is what follows
the prefix.  On a reachable object the bare tokens `-` and `--` fail so with the
empty text.  A token that resolves to an index of the flag tables has a key of
its table as the text after its prefix: no abbreviation and no prefix of a key
is accepted. -/
theorem unrecognized_arguments (libc : Libc) (s : ArgumentParser) (argv : List String)
    (st : ParseState) (input : String) (hl : s.loop_at libc argv st)
    (hin : argv[st.p_input_index]? = some input)
    (hh : input ≠ "--help" ∧ input ≠ "-h") :
    (starts_with input "-" = false →
      (∀ k, st.p_entry_index ≤ k → k < s.prepass.2.length →
        ∃ i e, s.prepass.2[k]? = some i ∧ st.param_entries[i]? = some e ∧ e.action ≠ .NONE) →
      s.step libc argv st = .fail ("unrecognized arguments: " ++ input) ∧
      (s.parse_args_any_type libc argv).failed_with ("unrecognized arguments: " ++ input)) ∧
    (starts_with input "--" = true →
      (∀ p ∈ s.prepass.1.optional_long_key_, p.1 ≠ substr input 2) →
      s.step libc argv st = .fail ("unrecognized arguments: " ++ substr input 2) ∧
      (s.parse_args_any_type libc argv).failed_with
        ("unrecognized arguments: " ++ substr input 2)) ∧
    (starts_with input "-" = true → starts_with input "--" = false →
      (∀ p ∈ s.prepass.1.optional_short_key_, p.1 ≠ substr input 1) →
      s.step libc argv st = .fail ("unrecognized arguments: " ++ substr input 1) ∧
      (s.parse_args_any_type libc argv).failed_with
        ("unrecognized arguments: " ++ substr input 1)) ∧
    (Reachable libc s → input = "-" ∨ input = "--" →
      s.step libc argv st = .fail "unrecognized arguments: " ∧
      (s.parse_args_any_type libc argv).failed_with "unrecognized arguments: ") ∧
    (∀ name j, starts_with input "-" = true →
      lookup_flag s.prepass.1.optional_short_key_ s.prepass.1.optional_long_key_ input =
        .ok (name, j) →
      name = flag_name input ∧
      if starts_with input "--" then (name, j) ∈ s.prepass.1.optional_long_key_
      else (name, j) ∈ s.prepass.1.optional_short_key_) := by
  have fails : ∀ m, s.step libc argv st = .fail m →
      s.step libc argv st = .fail m ∧ (s.parse_args_any_type libc argv).failed_with m :=
    fun m h => ⟨h, (parse_of_loop_at hl).1 m h⟩
  refine ⟨?_, ?_, ?_, ?_, ?_⟩
  · intro hd hact
    apply fails
    have hhelp : ¬ (input = "--help" ∨ input = "-h") := by
      rintro (hc | hc)
      · exact hh.1 hc
      · exact hh.2 hc
    unfold ArgumentParser.step parse_step
    rw [hin]
    simp only [hhelp, if_false, hd, Bool.not_false, if_true]
    unfold positional_token
    rw [skip_actions_to st.param_entries s.prepass.2 s.prepass.2.length (Or.inl rfl)
      (s.prepass.2.length + 1) st.p_entry_index ?_ (by omega) hact]
    · simp [Chk.check_error]
    · obtain ⟨hlt, k, hk⟩ := hl
      have := (iterations_progress k _ _ hk hlt).2.1 (by simp [ArgumentParser.start])
      exact this
  · intro h2 hnone
    apply fails
    have hd := starts_with_dash h2
    have := @step_unknown_flag libc s argv st input hin hh hd
      (by rw [if_pos h2]; exact map_find_eq_none _ _ hnone)
    unfold flag_name at this
    rw [if_pos h2] at this
    exact this
  · intro hd h2 hnone
    apply fails
    have := @step_unknown_flag libc s argv st input hin hh hd
      (by rw [if_neg (by simp [h2])]; exact map_find_eq_none _ _ hnone)
    unfold flag_name at this
    rw [if_neg (by simp [h2])] at this
    exact this
  · intro hr hbare
    apply fails
    have hp := Policy.of_prepass (Reachable.policy hr)
    rcases hbare with hb | hb
    · subst hb
      exact step_unknown_flag hin hh (by decide) hp.short_named
    · subst hb
      exact step_unknown_flag hin hh (by decide) hp.long_named
  · intro name j hd hlook
    refine ⟨lookup_flag_name hd hlook, ?_⟩
    unfold lookup_flag at hlook
    split at hlook
    · rename_i h2
      rw [if_pos h2]
      dsimp only at hlook
      split at hlook
      · cases hlook
      · rename_i v hv
        cases hlook
        exact map_find_mem _ _ _ hv
    · rename_i h2
      rw [if_neg h2]
      dsimp only at hlook
      split at hlook
      · cases hlook
      · rename_i v hv
        cases hlook
        exact map_find_mem _ _ _ hv

set_option maxRecDepth 100000 in
/-- The claim C24 as stated fails for a token that the main loop does not meet
as the current token of an iteration: after `long_name("--count").done()` the
vector `[prog, --count, --zzz]` holds a token that starts with `--` and whose
text after the prefix is no registered long flag, and the parse returns a result
that binds the token as the value of `count`; likewise for the token `-z` and
the bare tokens `-` and `--`. -/
theorem unrecognized_taken_as_value :
    ∃ s, chain Libc.zero ArgumentParser.throwing [.long_name "--count", .done] = some s ∧
      (s.parse_args_any_type Libc.zero ["prog", "--count", "--zzz"]).find "count" =
        some (.string "--zzz") ∧
      (s.parse_args_any_type Libc.zero ["prog", "--count", "-z"]).find "count" =
        some (.string "-z") ∧
      (s.parse_args_any_type Libc.zero ["prog", "--count", "-"]).find "count" =
        some (.string "-") ∧
      (s.parse_args_any_type Libc.zero ["prog", "--count", "--"]).find "count" =
        some (.string "--") :=
  ⟨_, rfl, by decide, by decide, by decide, by decide⟩

set_option maxRecDepth 100000 in
theorem unrecognized_arguments_witness :
    (all_file_state.parse_args_any_type Libc.zero ["prog", "--al"]).failed_with
      "unrecognized arguments: al" ∧
    (all_file_state.parse_args_any_type Libc.zero ["prog", "-x"]).failed_with
      "unrecognized arguments: x" ∧
    (all_file_state.parse_args_any_type Libc.zero ["prog", "x", "y"]).failed_with
      "unrecognized arguments: y" :=
  ⟨((unrecognized_arguments Libc.zero all_file_state ["prog", "--al"] all_file_state.start
      "--al" ⟨by decide, 0, rfl⟩ rfl (by decide)).2.1 (by decide) (by decide)).2,
    ((unrecognized_arguments Libc.zero all_file_state ["prog", "-x"] all_file_state.start
      "-x" ⟨by decide, 0, rfl⟩ rfl (by decide)).2.2.1 (by decide) (by decide) (by decide)).2,
    ((unrecognized_arguments Libc.zero all_file_state ["prog", "x", "y"]
      ⟨[{ ParamEntry.blank with
            positional_key := "file", key := "file", required := true, value := .string "x",
            filled := true },
          { ParamEntry.blank with long_key := "all", short_key := "a", key := "all" }], 1, 2⟩
      "y" ⟨by decide, 1, by decide⟩ rfl (by decide)).1 (by decide)
        (fun k h1 h2 => by
          have e : all_file_state.prepass.2.length = 1 := by decide
          have h3 : 1 ≤ k := h1
          rw [e] at h2
          omega)).2⟩

/-! ## C25: an optional `store_const` entry whose flag does not appear -/

/-- C25, as amended.  For every optional entry with the action `store_const` and
no default, declared on a reachable object, whose flags do not appear in the
argument vector: the main loop leaves the entry unfilled and the finalizer fills
it with its const, which is not absent, so a parse call that returns a result
has a mapping for its destination key, to the const when no other entry shares
the key (like `store_true` and `store_false`, which the finalizer fills with
false and true). -/
theorem const_without_flag (libc : Libc) (s : ArgumentParser) (hr : Reachable libc s)
    (argv : List String) (j : Nat) (e : ParamEntry)
    (he : s.prepass.1.param_entries_[j]? = some e) (hp : e.positional_key = "")
    (ha : e.action = .ACTION_STORE_CONST) (hd : e.default_value.value_type = .NONE)
    (habs : s.flag_absent argv j) :
    e.filled = false ∧ e.const_value.value_type ≠ .NONE ∧
    (∀ st1, s.loop_ends libc argv st1 → st1.param_entries[j]? = some e) ∧
    finalize_entry e = .ok { e with value := e.const_value, filled := true } ∧
    (∀ a s1, s.parse_args_any_type libc argv = .ok a s1 →
      (a.find e.key).isSome ∧ (s.key_unshared j → a.find e.key = some e.const_value)) ∧
    (∀ item : ParamEntry, item.filled = false → item.positional_key = "" →
      item.default_value.value_type = .NONE →
      (item.action = .ACTION_STORE_TRUE →
        finalize_entry item = .ok { item with value := .bool false, filled := true }) ∧
      (item.action = .ACTION_STORE_FALSE →
        finalize_entry item = .ok { item with value := .bool true, filled := true })) := by
  have hmem : e ∈ s.param_entries_ := (prepass_perm s).mem_iff.mp (List.getElem?_mem he)
  have hf : e.filled = false := ((Reachable.inv hr).unfilled e hmem).1
  have hfin : finalize_entry e = .ok { e with value := e.const_value, filled := true } := by
    simp [finalize_entry, hf, hp, ha, hd]
  refine ⟨hf, ((Reachable.policy hr).registry e hmem).2 ha,
    fun st1 hloop => (untouched_entry hr he hp habs hloop).1, hfin, ?_, ?_⟩
  · intro a s1 h
    obtain ⟨e1, h1, h2, h3⟩ := absent_flag_result hr he hp habs h
    rw [hfin] at h1
    cases h1
    exact ⟨h2 rfl, fun hu => by rw [h3 hu]; rfl⟩
  · intro item hf1 hp1 hd1
    constructor
    · intro ha1
      simp [finalize_entry, hf1, hp1, ha1, hd1]
    · intro ha1
      simp [finalize_entry, hf1, hp1, ha1, hd1]

set_option maxRecDepth 100000 in
/-- The claim C25 as stated fails: after
`long_name("--mode").action("store_const").const_value(7).done()` the parse of
the vector `[prog]`, in which the flag does not appear, returns a result that
maps `mode` to 7. -/
theorem const_filled_without_flag :
    ∃ s, chain Libc.zero ArgumentParser.throwing
        [.long_name "--mode", .action "store_const", .const_value (.int 7), .done] = some s ∧
      (∀ e ∈ s.param_entries_, e.action = .ACTION_STORE_CONST ∧
        e.default_value.value_type = .NONE ∧ e.positional_key = "") ∧
      (s.parse_args_any_type Libc.zero ["prog"]).find "mode" = some (.int 7) :=
  ⟨_, rfl, by decide, by decide⟩

set_option maxRecDepth 100000 in
theorem const_without_flag_witness :
    ∃ a s1, mode_state.parse_args_any_type Libc.zero ["prog"] = .ok a s1 ∧
      a.find "mode" = some (.int 7) :=
  ⟨_, _, rfl,
    ((const_without_flag Libc.zero mode_state mode_state_reachable ["prog"] 0 mode_entry
      (by decide) rfl rfl rfl
      (fun t ht hd => by
        simp only [List.mem_singleton] at ht
        subst ht
        exact absurd hd (by decide))).2.2.2.2.1 _ _ rfl).2
      (fun e e1 j1 _ h1 _ => by
        have hl : mode_state.prepass.1.param_entries_ = [mode_entry] := by decide
        rw [hl] at h1
        cases j1 with
        | zero => rfl
        | succ n => simp at h1)⟩

/-! ## C26: the keys of the result -/

/-- The keys of a parse result.  A parse call that returns a result has run the
main loop to its end and the finalizer on the working list, and the result has
a mapping for a key exactly when some entry of the finalized list with that key
is filled.  The finalizer returns an unfilled optional entry with absent default
and no action as it is, without a failure, and when the entry is declared on a
reachable object and no token of the argument vector is resolved by the flag
tables to the entry, the entry stays unfilled to the end and a parse call that
returns a result has no mapping for its key, given that no other entry shares
the key.  On an object built by calls that all returned this is so whenever no
flag of the entry appears in the vector. -/
theorem result_keys (libc : Libc) :
    (∀ (s s1 : ArgumentParser) (argv : List String) (a : ArgValue),
      s.parse_args_any_type libc argv = .ok a s1 →
      ∃ st1 final, s.loop_ends libc argv st1 ∧ finalize st1.param_entries = .ok final ∧
        a = ⟨build_result final⟩ ∧
        ∀ k, (a.find k).isSome ↔ ∃ e ∈ final, e.filled = true ∧ e.key = k) ∧
    (∀ e : ParamEntry, e.filled = false → e.positional_key = "" →
      e.default_value.value_type = .NONE → e.action = .NONE → finalize_entry e = .ok e) ∧
    (∀ (s s1 : ArgumentParser) (argv : List String) (j : Nat) (e : ParamEntry) (a : ArgValue),
      Reachable libc s → s.prepass.1.param_entries_[j]? = some e → e.positional_key = "" →
      e.default_value.value_type = .NONE → e.action = .NONE → s.flag_absent argv j →
      s.parse_args_any_type libc argv = .ok a s1 →
      (∃ st1 final, s.loop_ends libc argv st1 ∧ finalize st1.param_entries = .ok final ∧
        st1.param_entries[j]? = some e ∧ final[j]? = some e ∧ e.filled = false) ∧
      (s.key_unshared j → a.find e.key = none)) ∧
    (∀ (s s1 : ArgumentParser) (argv : List String) (j : Nat) (e : ParamEntry) (a : ArgValue),
      Built libc s → s.prepass.1.param_entries_[j]? = some e → e.positional_key = "" →
      e.default_value.value_type = .NONE → e.action = .NONE → ¬ flag_appears e argv →
      s.parse_args_any_type libc argv = .ok a s1 →
      (∃ st1 final, s.loop_ends libc argv st1 ∧ finalize st1.param_entries = .ok final ∧
        st1.param_entries[j]? = some e ∧ final[j]? = some e ∧ e.filled = false) ∧
      (s.key_unshared j → a.find e.key = none)) := by
  have hplain : ∀ e : ParamEntry, e.filled = false → e.positional_key = "" →
      e.default_value.value_type = .NONE → e.action = .NONE → finalize_entry e = .ok e := by
    intro e hf hp hd ha
    simp [finalize_entry, hf, hp, ha, hd]
  have hgen : ∀ (s s1 : ArgumentParser) (argv : List String) (j : Nat) (e : ParamEntry)
      (a : ArgValue),
      Reachable libc s → s.prepass.1.param_entries_[j]? = some e → e.positional_key = "" →
      e.default_value.value_type = .NONE → e.action = .NONE → s.flag_absent argv j →
      s.parse_args_any_type libc argv = .ok a s1 →
      (∃ st1 final, s.loop_ends libc argv st1 ∧ finalize st1.param_entries = .ok final ∧
        st1.param_entries[j]? = some e ∧ final[j]? = some e ∧ e.filled = false) ∧
      (s.key_unshared j → a.find e.key = none) := ?_
  refine ⟨?_, hplain, hgen, ?_⟩
  · intro s s1 argv a h
    obtain ⟨st1, final, hloop, hfin, ha⟩ := parse_returns h
    refine ⟨st1, final, hloop, hfin, ha, ?_⟩
    intro k
    rw [ha]
    exact find_isSome_iff final k
  · intro s s1 argv j e a hb he hp hd ha habs h
    exact hgen s s1 argv j e a hb.to_reachable_state he hp hd ha (hb.no_flag_resolves he habs) h
  · intro s s1 argv j e a hr he hp hd ha habs h
    obtain ⟨st1, final, hloop, hfin, _⟩ := parse_returns h
    obtain ⟨hst, hf⟩ := untouched_entry hr he hp habs hloop
    have hfe := hplain e hf hp hd ha
    constructor
    · obtain ⟨e1, he1, hf1⟩ := (finalize_get hfin j).1 e hst
      rw [hfe] at hf1
      cases hf1
      exact ⟨st1, final, hloop, hfin, hst, he1, hf⟩
    · intro hu
      obtain ⟨e1, h1, _, h3⟩ := absent_flag_result hr he hp habs h
      rw [hfe] at h1
      cases h1
      rw [h3 hu, if_neg (by simp [hf])]

set_option maxRecDepth 100000 in
theorem result_keys_witness :
    ∃ a s1, all_file_state.parse_args_any_type Libc.zero ["prog", "f"] = .ok a s1 ∧
      a.find "all" = none ∧ a.find "file" = some (.string "f") :=
  ⟨_, _, rfl,
    ((result_keys Libc.zero).2.2.1 all_file_state _ ["prog", "f"] 1
      { ParamEntry.blank with long_key := "all", short_key := "a", key := "all" } _
      all_file_state_reachable (by decide) rfl rfl rfl
      (fun t ht hd => by
        simp only [List.mem_cons, List.mem_singleton, List.not_mem_nil, or_false] at ht
        rcases ht with ht | ht <;> subst ht <;> exact absurd hd (by decide))
      rfl).2
      (fun e e1 j1 h0 h1 hk => by
        have hl : all_file_state.prepass.1.param_entries_ =
            [{ ParamEntry.blank with positional_key := "file", key := "file", required := true },
              { ParamEntry.blank with long_key := "all", short_key := "a", key := "all" }] := by
          decide
        rw [hl] at h0 h1
        simp only [List.getElem?_cons_succ, List.getElem?_cons_zero, Option.some.injEq] at h0
        subst h0
        match j1, h1 with
        | 0, h1 =>
          simp only [List.getElem?_cons_zero, Option.some.injEq] at h1
          subst h1
          exact absurd hk (by decide)
        | 1, _ => rfl
        | n + 2, h1 => simp at h1),
    by decide⟩

set_option maxRecDepth 100000 in
/-- C26 on the failing input.  On a new object in throwing mode the positional
entry `p0` and the plain option `--a`, without default and without action, are
declared; then `long_name("--x").action("store_const")` return and `done()`
throws "required positional argument: 'const'", which leaves the flag `x` in the
long-flag table with the value 1.  The registry still holds the two entries
only, with the keys `p0` and `a`, and no flag of the entry `a` appears in the
vector `[prog, t, --x, v]`; but the token `--x` resolves to the index 1 of the
working list, the entry `a`, and the parse returns a result that maps `a` to
`v`. -/
theorem stale_flag_fills_absent_option :
    ∃ s e s1 entry, chain Libc.zero ArgumentParser.throwing
        [.positional_name "p0", .done, .long_name "--a", .done,
          .long_name "--x", .action "store_const"] = some s ∧
      s.done Libc.zero = .thrown e s1 ∧ e.msg_ = "required positional argument: 'const'" ∧
      s1.prepass.1.param_entries_.map ParamEntry.key = ["p0", "a"] ∧
      s1.prepass.1.param_entries_[1]? = some entry ∧ entry.key = "a" ∧
      entry.positional_key = "" ∧ entry.long_key = "a" ∧ entry.short_key = "" ∧
      entry.default_value.value_type = .NONE ∧ entry.action = .NONE ∧
      ¬ flag_appears entry ["prog", "t", "--x", "v"] ∧
      lookup_flag s1.prepass.1.optional_short_key_ s1.prepass.1.optional_long_key_ "--x" =
        .ok ("x", 1) ∧
      (∃ a s2, s1.parse_args_any_type Libc.zero ["prog", "t", "--x", "v"] = .ok a s2 ∧
        a.find "a" = some (.string "v") ∧ a.find "p0" = some (.string "t")) :=
  ⟨_, _, _, _, rfl, rfl, rfl, by decide, rfl, rfl, rfl, rfl, rfl, rfl, rfl, by decide,
    by decide, _, _, rfl, by decide, by decide⟩

/-! ## C27: a positional entry that no token was bound to -/

/-- C27, as amended.  For every positional entry that is unfilled when the main
loop of a parse call ends: if its multiplicity is `?` or `*` the finalizer fills
it with its default value, absent or not; otherwise, if it has an action, the
finalizer fills it with true for `store_true`, false for `store_false` and the
const for `store_const`; in these cases a parse call that returns a result has a
mapping for its key.  Otherwise (the multiplicity `+` or a fixed count, or none,
with or without a default) the finalizer fails at the entry with "the following
arguments are required: " and the key, and the parse call fails: with that
message when no entry before it in the working list is unfilled and in need of
a token, else with the message of the first such entry. -/
theorem unbound_positional (libc : Libc) (s : ArgumentParser) (argv : List String)
    (st1 : ParseState) (hloop : s.loop_ends libc argv st1) (j : Nat) (e : ParamEntry)
    (he : st1.param_entries[j]? = some e) (hf : e.filled = false)
    (hp : e.positional_key ≠ "") :
    (e.nargs = .NARGS_QUESTION ∨ e.nargs = .NARGS_STAR →
      finalize_entry e = .ok { e with value := e.default_value, filled := true }) ∧
    (¬ (e.nargs = .NARGS_QUESTION ∨ e.nargs = .NARGS_STAR) →
      (e.action = .ACTION_STORE_TRUE →
        finalize_entry e = .ok { e with value := .bool true, filled := true }) ∧
      (e.action = .ACTION_STORE_FALSE →
        finalize_entry e = .ok { e with value := .bool false, filled := true }) ∧
      (e.action = .ACTION_STORE_CONST →
        finalize_entry e = .ok { e with value := e.const_value, filled := true }) ∧
      (e.action = .NONE → needs_token e)) ∧
    (¬ needs_token e →
      ∀ a s1, s.parse_args_any_type libc argv = .ok a s1 → (a.find e.key).isSome) ∧
    (needs_token e →
      finalize_entry e = .fail ("the following arguments are required: " ++ e.key) ∧
      (∃ j1 e1, j1 ≤ j ∧ st1.param_entries[j1]? = some e1 ∧ e1.filled = false ∧
        needs_token e1 ∧
        (s.parse_args_any_type libc argv).failed_with
          ("the following arguments are required: " ++ e1.key)) ∧
      ((∀ j1 e1, j1 < j → st1.param_entries[j1]? = some e1 →
          e1.filled = true ∨ ¬ needs_token e1) →
        (s.parse_args_any_type libc argv).failed_with
          ("the following arguments are required: " ++ e.key))) := by
  have hparse := parse_of_loop_ends hloop
  refine ⟨?_, ?_, ?_, ?_⟩
  · intro hq
    simp [finalize_entry, hf, hp, hq]
  · intro hq
    refine ⟨?_, ?_, ?_, ?_⟩
    · intro ha
      simp [finalize_entry, hf, hp, hq, ha]
    · intro ha
      simp [finalize_entry, hf, hp, hq, ha]
    · intro ha
      simp [finalize_entry, hf, hp, hq, ha]
    · intro ha
      push_neg at hq
      exact ⟨hp, ha, hq.1, hq.2⟩
  · intro hn a s1 h
    obtain ⟨st2, final, hloop2, hfin, ha⟩ := parse_returns h
    have := loop_ends_unique hloop hloop2
    subst this
    obtain ⟨e1, he1, hf1⟩ := (finalize_get hfin j).1 e he
    rw [ha]
    exact (find_isSome_iff final e.key).mpr
      ⟨e1, List.getElem?_mem he1, finalize_entry_positional hf hp hf1,
        (finalize_entry_keeps hf1).1⟩
  · intro hn
    have hfail := finalize_entry_fail hf hn
    refine ⟨hfail, ?_, ?_⟩
    · obtain ⟨j1, e1, h1, h2, h3, h4, h5⟩ := finalize_some_fail _ j e _ he hfail
      refine ⟨j1, e1, h1, h2, h3, h4, ?_⟩
      rw [hparse, h5]
      exact raise_failed_with _ _
    · intro hbefore
      have h5 := finalize_first_fail _ j e _ he hfail (by
        intro j1 e1 hlt he1
        rcases finalize_entry_cases e1 with h | ⟨h1, h2, _⟩
        · exact h
        · rcases hbefore j1 e1 hlt he1 with h3 | h3
          · rw [h3] at h1
            cases h1
          · exact absurd h2 h3)
      rw [hparse, h5]
      exact raise_failed_with _ _

set_option maxRecDepth 100000 in
/-- The claim C27 as stated fails for the second of two positional entries that
no token was bound to: after `positional_name("a").done()` and
`positional_name("b").done()` the parse of `[prog]` fails with the message that
names `a`, not with "the following arguments are required: b".  It also fails
when an iteration of the main loop fails first: the parse of `[prog, --zzz]`
fails with "unrecognized arguments: zzz". -/
theorem second_unbound_positional :
    ∃ s, chain Libc.zero ArgumentParser.throwing
        [.positional_name "a", .done, .positional_name "b", .done] = some s ∧
      (s.parse_args_any_type Libc.zero ["prog"]).failed_with
        "the following arguments are required: a" ∧
      ¬ (s.parse_args_any_type Libc.zero ["prog"]).failed_with
        "the following arguments are required: b" ∧
      (s.parse_args_any_type Libc.zero ["prog", "--zzz"]).failed_with
        "unrecognized arguments: zzz" :=
  ⟨_, rfl, by decide, by decide, by decide⟩

set_option maxRecDepth 100000 in
theorem unbound_positional_witness :
    (name_count_state.parse_args_any_type Libc.zero ["prog", "--count", "2"]).failed_with
      "the following arguments are required: name" :=
  (unbound_positional Libc.zero name_count_state ["prog", "--count", "2"]
    ⟨[name_entry, { count_entry with value := .int 2, filled := true }], 0, 3⟩ rfl
    0 name_entry rfl rfl (by decide)).2.2.2 (by decide) |>.2.2
    (fun j1 e1 hlt _ => absurd hlt (by omega))

/-! ## C28: the help token -/

/-- C28, as amended.  When the main loop of a parse call meets a token equal to
`--help` or `-h` as the current token of an iteration, the iteration is the help
exit and the parse call ends with the exit code 0: it returns no result and
signals no failure.  An iteration that returns moves the cursor past a help
token only when that token stands directly after the current token, which is
then the flag of an entry with no action and no multiplicity, and the iteration
binds the help token, coerced to the kind of the entry, as the value of that
entry. -/
theorem help_token (libc : Libc) (s : ArgumentParser) (argv : List String) (st : ParseState)
    (hl : s.loop_at libc argv st) :
    (∀ input, argv[st.p_input_index]? = some input → input = "--help" ∨ input = "-h" →
      s.step libc argv st = .help ∧ s.parse_args_any_type libc argv = .exited 0 "") ∧
    (∀ (st1 : ParseState) (p : Nat) (t : String), s.step libc argv st = .ok st1 →
      st.p_input_index ≤ p → p < st1.p_input_index → argv[p]? = some t →
      t = "--help" ∨ t = "-h" →
      p = st.p_input_index + 1 ∧ st1.p_input_index = st.p_input_index + 2 ∧
      ∃ j entry, s.meets_flag libc argv st j entry ∧ entry.action = .NONE ∧
        entry.nargs = .NONE ∧
        st1.param_entries = st.param_entries.set j
          { entry with value := parse libc t entry.value_type, filled := true }) := by
  constructor
  · intro input hin hh
    have hstep : s.step libc argv st = .help := by
      unfold ArgumentParser.step parse_step
      rw [hin]
      simp only [hh, if_true]
    exact ⟨hstep, (parse_of_loop_at hl).2 hstep⟩
  · intro st1 p t hstep hp1 hp2 ht hh
    have hdash := help_starts_with_dash hh
    obtain ⟨hc1, _⟩ := loop_at_cursor hl
    obtain ⟨input, i, entry, v, hin, hn1, hn2, hentry, hset, hcase⟩ := parse_step_ok hstep
    have hnot : p ≠ st.p_input_index := by
      intro hc
      rw [hc, hin] at ht
      cases ht
      rcases hh with h | h
      · exact hn1 h
      · exact hn2 h
    rcases hcase with ⟨_, _, _, h | ⟨_, r, hr, hcur, _⟩⟩ | ⟨hd, _, ⟨name, hlook⟩, h⟩
    · omega
    · obtain ⟨n, hn, hle, _⟩ := parse_nargs_ok hr
      have := @value_run_token argv (st.p_input_index - 1) p t (by omega)
        (by omega) ht
      rw [this] at hdash
      cases hdash
    · rcases h with ⟨_, hcur⟩ | ⟨_, _, r, hr, hcur, _⟩ | ⟨ha, hng, hcur, t1, ht1, hv, _⟩
      · omega
      · obtain ⟨n, hn, hle, _⟩ := parse_nargs_ok hr
        have := @value_run_token argv st.p_input_index p t (by omega)
          (by omega) ht
        rw [this] at hdash
        cases hdash
      · have hp : p = st.p_input_index + 1 := by omega
        subst hp
        rw [ht] at ht1
        cases ht1
        refine ⟨rfl, hcur, i, entry, ⟨hl, input, name, hin, hn1, hn2, hd, hlook, hentry⟩, ha,
          hng, ?_⟩
        rw [hset, hv]

set_option maxRecDepth 100000 in
/-- The claim C28 as stated fails for a help token that stands after the flag of
an entry with no action and no multiplicity: after `long_name("--count").done()`
no token of the vector `[prog, --count, --help]` raises a failure, and the parse
returns a result in which the help token is bound as the value of `count`;
likewise for `-h`. -/
theorem help_token_as_value :
    ∃ s, chain Libc.zero ArgumentParser.throwing [.long_name "--count", .done] = some s ∧
      (s.parse_args_any_type Libc.zero ["prog", "--count", "--help"]).find "count" =
        some (.string "--help") ∧
      (s.parse_args_any_type Libc.zero ["prog", "--count", "-h"]).find "count" =
        some (.string "-h") :=
  ⟨_, rfl, by decide, by decide⟩

set_option maxRecDepth 100000 in
theorem help_token_witness :
    all_file_state.parse_args_any_type Libc.zero ["prog", "f", "--help"] = .exited 0 "" ∧
    all_file_state.parse_args_any_type Libc.zero ["prog", "-h", "f"] = .exited 0 "" :=
  ⟨((help_token Libc.zero all_file_state ["prog", "f", "--help"]
      ⟨[{ ParamEntry.blank with
            positional_key := "file", key := "file", required := true, value := .string "f",
            filled := true },
          { ParamEntry.blank with long_key := "all", short_key := "a", key := "all" }], 1, 2⟩
      ⟨by decide, 1, by decide⟩).1 "--help" rfl (Or.inl rfl)).2,
    ((help_token Libc.zero all_file_state ["prog", "-h", "f"] all_file_state.start
      ⟨by decide, 0, rfl⟩).1 "-h" rfl (Or.inr rfl)).2⟩

/-! ## C29: choice validation after a change of kind -/

set_option maxRecDepth 100000 in
/-- C29 on the failing input.  After
`long_name("--n").choices(std::vector<int>{0, 1}).type(ValueType::STRING).done()`
the entry has the int choice set `[0, 1]` and the kind string.  The token
`hello` is coerced to the string `hello`, which is structurally equal to no
element of the choice set, and `is_entry_item_equal` says so; the validation
`parse_choices` accepts it all the same, because it compares the int accessor of
the string, the sentinel 0, with the elements, and the parse of
`[prog, --n, hello]` returns a result that maps `n` to `hello`.  Against the
choice set `[1, 2]` the same token is rejected. -/
theorem choice_by_sentinel :
    (∃ s, chain Libc.zero ArgumentParser.throwing
        [.long_name "--n", .choices (.int_array [0, 1]), .type .STRING, .done] = some s ∧
      (∀ e ∈ s.param_entries_, e.choices_array = .int_array [0, 1] ∧
        e.value_type = .STRING ∧
        parse_choices Libc.zero (parse Libc.zero "hello" e.value_type) e = .ok true) ∧
      (s.parse_args_any_type Libc.zero ["prog", "--n", "hello"]).find "n" =
        some (.string "hello")) ∧
    (∀ c ∈ [(0 : Int), 1], ¬ structurally_equal (.string "hello") (.int c)) ∧
    (∀ c ∈ [(0 : Int), 1], is_entry_item_equal (.string "hello") (.int c) = false) ∧
    (EntryItem.string "hello").digit_int_value = 0 ∧
    (∃ s, chain Libc.zero ArgumentParser.throwing
        [.long_name "--n", .choices (.int_array [1, 2]), .type .STRING, .done] = some s ∧
      (s.parse_args_any_type Libc.zero ["prog", "--n", "hello"]).failed_with
        "argument n: invalid choice: hello") :=
  ⟨⟨_, rfl, by decide, by decide⟩, fun _ _ h => h, by decide, rfl, ⟨_, rfl, by decide⟩⟩

/-! ## C30: an empty choice list -/

/-- C30, as amended.  For every entry declared with a `choices` call given an
empty list, of any of the four element kinds, and every value token bound to
it, choice validation rejects the token with the message
"argument <key>: invalid choice: <display of the coerced value>".  An entry
without a choice set, for which no `choices` call was made, is unconstrained:
choice validation accepts every token. -/
theorem empty_choice_list (libc : Libc) (c : ChoiceList) (hc : c.elements = [])
    (entry : ParamEntry) (hch : entry.choices_array = c.item) (input : String) :
    (∃ text, (parse libc input entry.value_type).dump libc = some text ∧
      parse_choices libc (parse libc input entry.value_type) entry =
        .fail ("argument " ++ entry.key ++ ": invalid choice: " ++ text)) ∧
    (∀ entry1 : ParamEntry, entry1.choices_array = .empty →
      parse_choices libc (parse libc input entry1.value_type) entry1 = .ok true) := by
  constructor
  · have hdump : ∃ text, (parse libc input entry.value_type).dump libc = some text := by
      unfold parse
      split_ifs <;> exact ⟨_, rfl⟩
    obtain ⟨text, htext⟩ := hdump
    refine ⟨text, htext, ?_⟩
    cases c with
    | string_array v =>
      simp only [ChoiceList.elements, List.map_eq_nil_iff] at hc
      subst hc
      simp [parse_choices, hch, ChoiceList.item, EntryItem.is_int_array,
        EntryItem.is_double_array, EntryItem.is_string_array, EntryItem.is_bool_array,
        EntryItem.value_type, EntryItem.string_array_value, htext]
    | int_array v =>
      simp only [ChoiceList.elements, List.map_eq_nil_iff] at hc
      subst hc
      simp [parse_choices, hch, ChoiceList.item, EntryItem.is_int_array,
        EntryItem.is_double_array, EntryItem.is_string_array, EntryItem.is_bool_array,
        EntryItem.value_type, EntryItem.int_array_value, htext]
    | double_array v =>
      simp only [ChoiceList.elements, List.map_eq_nil_iff] at hc
      subst hc
      simp [parse_choices, hch, ChoiceList.item, EntryItem.is_int_array,
        EntryItem.is_double_array, EntryItem.is_string_array, EntryItem.is_bool_array,
        EntryItem.value_type, EntryItem.double_array_value, htext]
    | bool_array v =>
      simp only [ChoiceList.elements, List.map_eq_nil_iff] at hc
      subst hc
      simp [parse_choices, hch, ChoiceList.item, EntryItem.is_int_array,
        EntryItem.is_double_array, EntryItem.is_string_array, EntryItem.is_bool_array,
        EntryItem.value_type, EntryItem.bool_array_value, htext]
  · intro entry1 h1
    simp [parse_choices, h1, EntryItem.is_int_array, EntryItem.is_double_array,
      EntryItem.is_string_array, EntryItem.is_bool_array, EntryItem.value_type]

set_option maxRecDepth 100000 in
/-- The claim C30 as stated fails: after
`positional_name("n").choices(std::vector<int>{}).done()` the parse of
`[prog, 5]` fails with "argument n: invalid choice: 5", and after
`long_name("--s").choices(std::vector<std::string>{}).done()` the parse of
`[prog, --s, a]` fails with "argument s: invalid choice: a". -/
theorem empty_choice_list_rejects :
    (∃ s, chain Libc.zero ArgumentParser.throwing
        [.positional_name "n", .choices (.int_array []), .done] = some s ∧
      (s.parse_args_any_type Libc.zero ["prog", "5"]).failed_with
        "argument n: invalid choice: 5") ∧
    (∃ s, chain Libc.zero ArgumentParser.throwing
        [.long_name "--s", .choices (.string_array []), .done] = some s ∧
      (s.parse_args_any_type Libc.zero ["prog", "--s", "a"]).failed_with
        "argument s: invalid choice: a") :=
  ⟨⟨_, rfl, by decide⟩, ⟨_, rfl, by decide⟩⟩

set_option maxRecDepth 100000 in
theorem empty_choice_list_witness :
    parse_choices Libc.zero (parse Libc.zero "5" .DIGITS_INT)
        { choice_entry with choices_array := .int_array [] } =
      .fail "argument n: invalid choice: 5" ∧
    parse_choices Libc.zero (parse Libc.zero "5" .STRING) name_entry = .ok true := by
  obtain ⟨⟨text, h1, h2⟩, h3⟩ := empty_choice_list Libc.zero (.int_array []) rfl
    { choice_entry with choices_array := .int_array [] } rfl "5"
  have h4 : some "5" = some text := h1
  cases h4
  exact ⟨h2, h3 name_entry rfl⟩

/-! ## C31: positional entries with an action -/

/-- C31, as stated, fails: not each token that does not start with `-` is bound
to a positional entry.  On `[prog, --count, 5, alice]`, with the positional
entry `name` (no action) and the plain option `--count`, the token `5` is bound
to `count` while `name`, the first positional entry at the cursor, is unbound;
`name` is bound to the next token. -/
theorem value_token_not_positional :
    (name_count_state.parse_args_any_type Libc.zero ["prog", "--count", "5", "alice"]).find
        "count" = some (.int 5) ∧
      (name_count_state.parse_args_any_type Libc.zero ["prog", "--count", "5", "alice"]).find
        "name" = some (.string "alice") ∧
      name_count_state.prepass.2 = [0] ∧
      name_count_state.prepass.1.param_entries_[0]? = some name_entry ∧
      name_entry.action = .NONE := by
  decide

/-- C31, amended: for every object built by calls that all returned and every
argument vector, (1) a token that does not start with `-` and that the main
loop meets as the current token of an iteration that returns is bound to the
first entry of the positional index, at or after the positional cursor, whose
action is NONE: the entries of the index between the cursor and this one carry
an action, the entry has a positional name, it receives the value read from the
token (from the run of value tokens when it has a multiplicity), no other entry
changes, and the cursor moves behind it; (2) an entry with a positional name and
an action is, in every state the main loop reaches and in the state in which it
ends, as it was declared, unfilled and without a value; (3) when the parse
returns, its value is the one the finalizer gives by the action (`true`,
`false` or the const), and the result maps its key to it when no other entry
has the key. -/
theorem positional_with_action (libc : Libc) (s : ArgumentParser) (hb : Built libc s)
    (argv : List String) :
    (∀ (st st1 : ParseState) (t : String), s.loop_at libc argv st →
      argv[st.p_input_index]? = some t → starts_with t "-" = false →
      s.step libc argv st = .ok st1 →
      ∃ p1 i entry v, at_positional s.prepass.2 argv st p1 i entry ∧
        entry.positional_key ≠ "" ∧
        st1.param_entries = st.param_entries.set i { entry with value := v, filled := true } ∧
        st1.p_entry_index = p1 + 1 ∧
        (entry.nargs = .NONE → v = parse libc t entry.value_type) ∧
        (entry.nargs ≠ .NONE →
          ∃ r, parse_nargs libc entry (st.p_input_index - 1) argv = .ok r ∧ v = r.1.value)) ∧
    (∀ (j : Nat) (e : ParamEntry), s.prepass.1.param_entries_[j]? = some e →
      e.positional_key ≠ "" → e.action ≠ .NONE →
      (e.filled = false ∧ e.value = .empty) ∧
      (∀ st, s.loop_at libc argv st → st.param_entries[j]? = some e) ∧
      (∀ st1, s.loop_ends libc argv st1 → st1.param_entries[j]? = some e) ∧
      finalize_entry e = .ok { e with
        value :=
          if e.action = .ACTION_STORE_TRUE then .bool true
          else if e.action = .ACTION_STORE_FALSE then .bool false
          else e.const_value
        filled := true } ∧
      (∀ a s1, s.parse_args_any_type libc argv = .ok a s1 → s.key_unshared j →
        a.find e.key = some
          (if e.action = .ACTION_STORE_TRUE then .bool true
           else if e.action = .ACTION_STORE_FALSE then .bool false
           else e.const_value))) := by
  have hr := hb.to_reachable_state
  constructor
  · intro st st1 t hat ht hd hstep
    obtain ⟨input, i, entry, v, hin, _, _, hentry, hset, hcase⟩ := parse_step_ok hstep
    rw [ht] at hin
    cases hin
    rcases hcase with ⟨_, hact, ⟨p1, hle, hpi, hp1, hskip⟩, hval⟩ | ⟨hd1, _⟩
    · refine ⟨p1, i, entry, v, ⟨t, ht, hd, hle, hskip, hpi, hentry, hact⟩, ?_, hset, hp1, ?_, ?_⟩
      · obtain ⟨_, k, hk⟩ := hat
        obtain ⟨e0, he0, hsame⟩ := iterations_declaration k _ _ hk i entry hentry
        have hmem : i ∈ s.prepass.2 := List.getElem?_mem hpi
        rw [prepass_positions] at hmem
        obtain ⟨_, e1, he1, hpos⟩ := positions_mem _ 0 i hmem
        rw [Nat.sub_zero, ← prepass_registry] at he1
        have : s.start.param_entries = s.prepass.1.param_entries_ := rfl
        rw [this, he1] at he0
        cases he0
        rw [(same_declaration_policy hsame).2.2.2.2.2.2.1]
        exact hpos
      · intro hn
        rcases hval with ⟨_, _, hv, _⟩ | ⟨hn1, _⟩
        · exact hv
        · exact absurd hn hn1
      · intro hn
        rcases hval with ⟨hn1, _⟩ | ⟨_, r, hr1, _, hv⟩
        · exact absurd hn1 hn
        · exact ⟨r, hr1, hv⟩
    · rw [hd] at hd1
      cases hd1
  · intro j e he hp ha
    have hmem : e ∈ s.param_entries_ := (prepass_perm s).mem_iff.mp (List.getElem?_mem he)
    have hun := hr.inv.unfilled e hmem
    have habs := hb.positional_unflagged argv he hp
    have hloop : ∀ st1, s.loop_ends libc argv st1 → st1.param_entries[j]? = some e := by
      intro st1 h1
      exact iterations_skips j e ha habs _ _ _ (main_loop_ok_iterations _ _ _ h1).1 he
    have hfin := finalize_entry_action hun.1 hp ha (hr.policy.registry e hmem).1
    refine ⟨hun, ?_, hloop, hfin, ?_⟩
    · rintro st ⟨_, k, hk⟩
      exact iterations_skips j e ha habs _ _ _ hk he
    · intro a s1 hparse hu
      obtain ⟨e1, h1, _, h3⟩ := untouched_result hloop hparse
      rw [hfin] at h1
      cases h1
      exact h3 hu he

/-- C31 on a worked input: with the positional entries `verbose` (action
`store_true`) and `name`, the token of `[prog, alice]` is bound to `name`, and
`verbose` is `true`. -/
theorem positional_with_action_witness :
    Built Libc.zero verbose_name_state ∧
      (verbose_name_state.parse_args_any_type Libc.zero ["prog", "alice"]).find "name" =
        some (.string "alice") ∧
      (verbose_name_state.parse_args_any_type Libc.zero ["prog", "alice"]).find "verbose" =
        some (.bool true) ∧
      finalize_entry verbose_entry =
        .ok { verbose_entry with value := .bool true, filled := true } :=
  ⟨verbose_name_state_built, by decide, by decide,
    ((positional_with_action Libc.zero verbose_name_state verbose_name_state_built
      ["prog", "alice"]).2 0 verbose_entry rfl (by decide) (by decide)).2.2.2.1⟩

/-! ## C32: the pre-pass -/

/-- C32, as stated, fails: after `positional_name("")`, `dest("x")`, `done()`,
`positional_name("b")`, `done()` the working list of the pre-pass begins with
the entry `x`, which is required and has no positional name and no flag, before
the entry with the positional name `b`, and the positional index is `[1]`: the
entries with a positional name do not come first, and the index is not the list
of the positions of the required entries. -/
theorem prepass_unnamed_required :
    ∃ s, chain Libc.zero .new
        [.positional_name "", .dest "x", .done, .positional_name "b", .done] = some s ∧
      s.prepass.1.param_entries_.map
          (fun e => (e.key, e.positional_key, e.short_key, e.long_key, e.required)) =
        [("x", "", "", "", true), ("b", "b", "", "", true)] ∧
      s.prepass.2 = [1] :=
  ⟨_, rfl, by decide, by decide⟩

/-- C32, amended: for every registry built by calls that all returned, none of
them a `positional_name("")` call, with the list `d` of its entries in the order
of their declarations, the working list of the pre-pass is the entries of `d`
with a positional name, in the order of their declarations, followed by the
entries of `d` without one, in the order of their declarations; it is a
permutation of the registry; every entry with a positional name stands before
every entry without one; the positional index is `0, 1, ..., m - 1` for the `m`
entries with a positional name, which is the increasing list of the positions of
these entries; and the short-flag and long-flag tables map the non-empty short
flag and the non-empty long flag of the entry at position `i` to `i`. -/
theorem prepass_partition (libc : Libc) (s : ArgumentParser) (d : List ParamEntry)
    (h : DeclaredBy libc Call.names_positional s d) :
    s.prepass.1.param_entries_ =
        d.filter (fun e => e.positional_key ≠ "") ++
          d.filter (fun e => e.positional_key = "") ∧
      s.prepass.1.param_entries_.Perm s.param_entries_ ∧
      d.Perm s.param_entries_ ∧
      (∀ (i j : Nat) (e1 e2 : ParamEntry), s.prepass.1.param_entries_[i]? = some e1 →
        s.prepass.1.param_entries_[j]? = some e2 →
        e1.positional_key ≠ "" → e2.positional_key = "" → i < j) ∧
      s.prepass.2 = List.range (d.filter (fun e => e.positional_key ≠ "")).length ∧
      s.prepass.2.Pairwise (fun i j => i < j) ∧
      (∀ i, i ∈ s.prepass.2 ↔
        ∃ e, s.prepass.1.param_entries_[i]? = some e ∧ e.positional_key ≠ "") ∧
      (∀ (i : Nat) (e : ParamEntry), s.prepass.1.param_entries_[i]? = some e →
        (e.short_key ≠ "" → map_find s.prepass.1.optional_short_key_ e.short_key = some i) ∧
        (e.long_key ≠ "" → map_find s.prepass.1.optional_long_key_ e.long_key = some i)) := by
  have hr := h.reachable_by
  have hsplit := hr.prepass_split
  have hrange := hr.prepass_range
  rw [h.positional_order, h.other_order] at hsplit
  rw [h.positional_order] at hrange
  have hleft : ∀ i e, s.prepass.1.param_entries_[i]? = some e →
      (i < (d.filter (fun e => e.positional_key ≠ "")).length ↔
        e.positional_key ≠ "") := by
    intro i e he
    rw [hsplit] at he
    by_cases hlt : i < (d.filter (fun e => e.positional_key ≠ "")).length
    · rw [List.getElem?_append_left hlt] at he
      have := (List.mem_filter.mp (List.getElem?_mem he)).2
      exact ⟨fun _ => by simpa using this, fun _ => hlt⟩
    · rw [List.getElem?_append_right (by omega)] at he
      have := (List.mem_filter.mp (List.getElem?_mem he)).2
      exact ⟨fun h1 => absurd h1 hlt, fun h1 => absurd (by simpa using this) h1⟩
  refine ⟨hsplit, prepass_perm s, h.perm, ?_, hrange, ?_, ?_, ?_⟩
  · intro i j e1 e2 h1 h2 hp1 hp2
    have a := (hleft i e1 h1).mpr hp1
    have b : ¬ j < _ := fun hlt => (hleft j e2 h2).mp hlt hp2
    omega
  · rw [hrange]
    exact List.pairwise_lt_range _
  · intro i
    rw [hrange, List.mem_range]
    constructor
    · intro hlt
      have hlen : i < s.prepass.1.param_entries_.length := by
        rw [hsplit, List.length_append]
        omega
      exact ⟨s.prepass.1.param_entries_[i], List.getElem?_eq_getElem hlen,
        (hleft i _ (List.getElem?_eq_getElem hlen)).mp hlt⟩
    · rintro ⟨e, he, hp⟩
      exact (hleft i e he).mpr hp
  · intro i e he
    have := prepass_tables hr.to_reachable.inv he
    exact ⟨this.1, this.2.1⟩

/-- C32 on a worked input: the option `--count` is declared before the
positional entry `name`; the working list is `name`, `count`. -/
theorem prepass_partition_witness :
    DeclaredBy Libc.zero Call.names_positional count_name_state [count_entry, name_entry] ∧
      count_name_state.prepass.1.param_entries_ = [name_entry, count_entry] ∧
      count_name_state.prepass.2 = [0] :=
  ⟨count_name_state_declared,
    (prepass_partition Libc.zero count_name_state _ count_name_state_declared).1,
    (prepass_partition Libc.zero count_name_state _ count_name_state_declared).2.2.2.2.1⟩

/-! ## C33: token consumption terminates -/

/-- C33.  For every reachable object and every argument vector: every iteration
of the main loop of a parse call ends, and one that does not fail or exit moves
the token cursor strictly forward, also on the path of a positional entry with a
multiplicity, where `parse_nargs` starts one position back and returns a
position at or after that of the current token; after `k` iterations with a
token left to read the cursor stands at `k + 1` at least, so that `k + 1` is less
than the length of the vector; the main loop ends within `argc - 1` iterations,
and both parse methods end. -/
theorem consumption_terminates (libc : Libc) (s : ArgumentParser) (hr : Reachable libc s)
    (argv : List String) :
    (∀ st st1, s.loop_at libc argv st → s.step libc argv st = .ok st1 →
      st.p_input_index < st1.p_input_index) ∧
    (∀ st p1 i entry r, s.loop_at libc argv st → at_positional s.prepass.2 argv st p1 i entry →
      parse_nargs libc entry (st.p_input_index - 1) argv = .ok r → st.p_input_index ≤ r.2) ∧
    (∀ st, s.loop_at libc argv st → s.step libc argv st ≠ .nofuel) ∧
    (∀ k st, iterations libc s.prepass.1.optional_short_key_ s.prepass.1.optional_long_key_
        s.prepass.2 argv k s.start = .ok st →
      st.p_input_index < argv.length → k + 1 ≤ st.p_input_index ∧ k + 1 < argv.length) ∧
    (∀ fuel, argv.length - 1 ≤ fuel →
      main_loop libc s.prepass.1.optional_short_key_ s.prepass.1.optional_long_key_
        s.prepass.2 argv fuel s.start ≠ .nofuel) ∧
    s.parse_args_any_type libc argv ≠ .nofuel ∧ s.parse_args_string libc argv ≠ .nofuel := by
  have hstart : s.start.p_input_index < argv.length → s.loop_at libc argv s.start :=
    fun h => ⟨h, 0, rfl⟩
  have hloop : ∀ fuel, argv.length - 1 ≤ fuel →
      main_loop libc s.prepass.1.optional_short_key_ s.prepass.1.optional_long_key_
        s.prepass.2 argv fuel s.start ≠ .nofuel :=
    fun fuel hf => main_loop_ne_nofuel hr fuel s.start hstart hf
  have hentries : parse_entries libc s.prepass.1 s.prepass.2 argv ≠ .nofuel := by
    unfold parse_entries
    refine Chk.bind_ne_nofuel (hloop _ (by omega)) fun st _ => ?_
    generalize st.param_entries = l
    induction l with
    | nil => intro h; cases h
    | cons x rest ih =>
      unfold finalize
      refine Chk.bind_ne_nofuel ?_ fun _ _ => Chk.bind_ne_nofuel ih fun _ _ h => by cases h
      rcases finalize_entry_cases x with ⟨e1, h1⟩ | ⟨_, _, h1⟩ <;> rw [h1] <;>
        intro h <;> cases h
  have hfinish : ∀ {α β : Type} (r : Chk α) (f : α → β), r ≠ .nofuel →
      s.prepass.1.finish libc r f ≠ .nofuel := by
    intro α β r f hne
    unfold ArgumentParser.finish
    cases r with
    | ok a => intro h; cases h
    | fail m =>
      unfold ArgumentParser.raise
      cases s.prepass.1.error_mode_ <;> intro h <;> cases h
    | help => intro h; cases h
    | undefined => intro h; cases h
    | nofuel => exact absurd rfl hne
  refine ⟨fun st st1 hl h => step_cursor hr hl h, ?_, ?_, ?_, hloop, hfinish _ _ hentries,
    hfinish _ _ hentries⟩
  · intro st p1 i entry r hl hp h
    obtain ⟨input, hin, hd, _, _, _, hentry, _⟩ := hp
    exact parse_nargs_back (loop_at_cursor hl).1 hin hd (loop_at_entry hr hl hentry).2.1 h
  · intro st hl
    obtain ⟨h1, h2⟩ := loop_at_cursor hl
    exact parse_step_ne_nofuel _ _ _ _ _ _ h1 h2
  · intro k st hk hlt
    by_cases h1 : s.start.p_input_index < argv.length
    · have := iterations_count hr k s.start st (hstart h1) hk hlt
      have e : s.start.p_input_index = 1 := rfl
      omega
    · have : st = s.start := by
        cases k with
        | zero =>
          simp only [iterations, Chk.ok.injEq] at hk
          exact hk.symm
        | succ k =>
          rw [iterations, if_neg h1] at hk
          simp only [Chk.ok.injEq] at hk
          exact hk.symm
      subst this
      exact absurd hlt h1

set_option maxRecDepth 100000 in
theorem consumption_terminates_witness :
    name_count_state.parse_args_any_type Libc.zero ["prog", "alice", "--count", "2"] ≠
      .nofuel ∧
    main_loop Libc.zero name_count_state.prepass.1.optional_short_key_
      name_count_state.prepass.1.optional_long_key_ name_count_state.prepass.2
      ["prog", "alice", "--count", "2"] 3 name_count_state.start ≠ .nofuel :=
  ⟨(consumption_terminates Libc.zero name_count_state name_count_state_reachable
      ["prog", "alice", "--count", "2"]).2.2.2.2.2.1,
    (consumption_terminates Libc.zero name_count_state name_count_state_reachable
      ["prog", "alice", "--count", "2"]).2.2.2.2.1 3 (by decide)⟩

/-! ## C34: a flag left by a `done()` that failed -/

set_option maxRecDepth 100000 in
/-- C34 on the failing input.  On a new object in throwing mode the calls
`long_name("--x").action("store_const")` return and `done()` throws
"required positional argument: 'const'": it leaves the registry empty and the
flag `x` in the long-flag table, with the value 1.  The pre-pass of a parse call
writes the table for the entries of the registry only, so the token `--x` of the
vector `[prog, --x]` is found in the table and resolves to the index 1 of an
empty working list: the entry lookup is out of range.  With two entries `a` and
`b` declared before, the same token resolves to the entry `b`, which does not
carry the flag, and the parse of `[prog, --x, w, v]` binds `w` to `b`. -/
theorem stale_flag_out_of_range :
    (∃ s e s1, chain Libc.zero ArgumentParser.throwing
        [.long_name "--x", .action "store_const"] = some s ∧
      s.done Libc.zero = .thrown e s1 ∧ e.msg_ = "required positional argument: 'const'" ∧
      s1.param_entries_ = [] ∧
      lookup_flag s1.prepass.1.optional_short_key_ s1.prepass.1.optional_long_key_ "--x" =
        .ok ("x", 1) ∧
      s1.prepass.1.param_entries_[1]? = none ∧
      s1.parse_args_any_type Libc.zero ["prog", "--x"] = .undefined) ∧
    (∃ s e s1, chain Libc.zero ArgumentParser.throwing
        [.positional_name "a", .done, .positional_name "b", .done,
          .long_name "--x", .action "store_const"] = some s ∧
      s.done Libc.zero = .thrown e s1 ∧
      lookup_flag s1.prepass.1.optional_short_key_ s1.prepass.1.optional_long_key_ "--x" =
        .ok ("x", 1) ∧
      (∃ entry, s1.prepass.1.param_entries_[1]? = some entry ∧ entry.key = "b" ∧
        entry.long_key = "" ∧ entry.short_key = "") ∧
      (s1.parse_args_any_type Libc.zero ["prog", "--x", "w", "v"]).find "b" =
        some (.string "w") ∧
      (s1.parse_args_any_type Libc.zero ["prog", "--x", "w", "v"]).find "a" =
        some (.string "v")) :=
  ⟨⟨_, _, _, rfl, rfl, rfl, rfl, by decide, by decide, by decide⟩,
    ⟨_, _, _, rfl, rfl, by decide, ⟨_, rfl, by decide, by decide, by decide⟩, by decide,
      by decide⟩⟩

/-! ## C35: a declaration that fails -/

/-- C35, as amended.  For each of the builder operations `long_name`,
`short_name`, `positional_name`, `default_value`, `const_value`, `nargs`,
`action`, `dest`, `choices` and `done` and every state of the object, a call
that throws was made in throwing mode and leaves the registry as `std::sort`
leaves it in the help printing: a permutation of the entries it had in which no
entry that is not required stands before a required one, the order within the
two groups being whatever the sort gives.  Unless the call got past its first
check (a `const_value` call whose kind fits the current entry, a `done()` call on
an entry with a key), it leaves the current entry and the three tables exactly
as they were. -/
theorem failed_declaration (libc : Libc) (s : ArgumentParser) (c : Call)
    (hc : c.declares = true) (e : Exception) (s1 : ArgumentParser)
    (h : c.run libc s = .thrown e s1) :
    s.error_mode_ = .THROW_EXCEPTION ∧ s1.error_mode_ = .THROW_EXCEPTION ∧
    s1.param_entries_ = libc.sort s.param_entries_ ∧
    s1.param_entries_.Perm s.param_entries_ ∧
    s1.param_entries_.Pairwise (fun e1 e2 => e2.required = true → e1.required = true) ∧
    (¬ c.fails_late s →
      s1 = s.print_help libc ∧ s1.now_entry_ = s.now_entry_ ∧
      s1.optional_short_key_ = s.optional_short_key_ ∧
      s1.optional_long_key_ = s.optional_long_key_ ∧ s1.positional_key_ = s.positional_key_) := by
  have base : ∀ s0 : ArgumentParser, s1 = s0.print_help libc →
      s0.param_entries_ = s.param_entries_ → s0.error_mode_ = s.error_mode_ →
      s0.error_mode_ = .THROW_EXCEPTION →
      (¬ c.fails_late s → s0 = s) →
      s.error_mode_ = .THROW_EXCEPTION ∧ s1.error_mode_ = .THROW_EXCEPTION ∧
      s1.param_entries_ = libc.sort s.param_entries_ ∧
      s1.param_entries_.Perm s.param_entries_ ∧
      s1.param_entries_.Pairwise (fun e1 e2 => e2.required = true → e1.required = true) ∧
      (¬ c.fails_late s →
        s1 = s.print_help libc ∧ s1.now_entry_ = s.now_entry_ ∧
        s1.optional_short_key_ = s.optional_short_key_ ∧
        s1.optional_long_key_ = s.optional_long_key_ ∧
        s1.positional_key_ = s.positional_key_) := by
    intro s0 h3 h1 h2 h4 h5
    subst h3
    refine ⟨by rw [← h2]; exact h4, h4, ?_, ?_, ?_, ?_⟩
    · simp only [ArgumentParser.print_help, h1]
    · simp only [ArgumentParser.print_help, h1]
      exact libc.sort_perm _
    · simp only [ArgumentParser.print_help]
      refine (libc.sort_sorted _).imp ?_
      intro e1 e2 h6 h7
      simpa [required_first, h7] using h6
    · intro hl
      rw [h5 hl]
      exact ⟨rfl, rfl, rfl, rfl, rfl⟩
  have plain : s1 = s.print_help libc → s.error_mode_ = .THROW_EXCEPTION → _ :=
    fun h3 h4 => base s h3 rfl rfl h4 fun _ => rfl
  cases c with
  | set_error_mode m => cases hc
  | help t => cases hc
  | type t => cases hc
  | add_argument l d t => cases hc
  | parse_args_any_type argv => cases hc
  | parse_args_string argv => cases hc
  | long_name n =>
    simp only [Call.run, ArgumentParser.long_name] at h
    rcases check_error_thrown h with ⟨_, h⟩ | ⟨_, h3, h4⟩
    · rcases check_error_thrown h with ⟨_, h⟩ | ⟨_, h3, h4⟩
      · rcases check_error_thrown h with ⟨_, h⟩ | ⟨_, h3, h4⟩
        · cases h
        · exact plain h3 h4
      · exact plain h3 h4
    · exact plain h3 h4
  | short_name n =>
    simp only [Call.run, ArgumentParser.short_name] at h
    rcases check_error_thrown h with ⟨_, h⟩ | ⟨_, h3, h4⟩
    · rcases check_error_thrown h with ⟨_, h⟩ | ⟨_, h3, h4⟩
      · rcases check_error_thrown h with ⟨_, h⟩ | ⟨_, h3, h4⟩
        · cases h
        · exact plain h3 h4
      · exact plain h3 h4
    · exact plain h3 h4
  | positional_name n =>
    simp only [Call.run, ArgumentParser.positional_name] at h
    rcases check_error_thrown h with ⟨_, h⟩ | ⟨_, h3, h4⟩
    · rcases check_error_thrown h with ⟨_, h⟩ | ⟨_, h3, h4⟩
      · rcases check_error_thrown h with ⟨_, h⟩ | ⟨_, h3, h4⟩
        · rcases check_error_thrown h with ⟨_, h⟩ | ⟨_, h3, h4⟩
          · cases h
          · exact plain h3 h4
        · exact plain h3 h4
      · exact plain h3 h4
    · exact plain h3 h4
  | default_value v =>
    simp only [Call.run, ArgumentParser.default_value] at h
    rcases check_error_thrown h with ⟨_, h⟩ | ⟨_, h3, h4⟩
    · cases h
    · exact plain h3 h4
  | const_value v =>
    simp only [Call.run, ArgumentParser.const_value] at h
    rcases check_error_thrown h with ⟨hk, h⟩ | ⟨_, h3, h4⟩
    · split at h
      · cases h
      · split at h
        · cases h
        · rcases check_error_thrown h with ⟨hf, _⟩ | ⟨_, h3, h4⟩
          · cases hf
          · refine base _ h3 rfl rfl h4 fun hl => absurd (Or.inl ⟨v, rfl, ?_⟩) hl
            simpa using hk
    · exact plain h3 h4
  | nargs t =>
    simp only [Call.run, ArgumentParser.nargs] at h
    rcases check_error_thrown h with ⟨_, h⟩ | ⟨_, h3, h4⟩
    · by_cases h1 : t = "*"
      · rw [if_pos h1] at h
        cases h
      · rw [if_neg h1] at h
        by_cases h2 : t = "+"
        · rw [if_pos h2] at h
          cases h
        · rw [if_neg h2] at h
          by_cases h5 : t = "?"
          · rw [if_pos h5] at h
            cases h
          · rw [if_neg h5] at h
            rcases check_error_thrown h with ⟨hf, _⟩ | ⟨_, h3, h4⟩
            · cases hf
            · exact plain h3 h4
    · exact plain h3 h4
  | nargs_int n =>
    simp only [Call.run, ArgumentParser.nargs_int] at h
    rcases check_error_thrown h with ⟨_, h⟩ | ⟨_, h3, h4⟩
    · cases h
    · exact plain h3 h4
  | action t =>
    simp only [Call.run, ArgumentParser.action] at h
    rcases check_error_thrown h with ⟨_, h⟩ | ⟨_, h3, h4⟩
    · rcases check_error_thrown h with ⟨_, h⟩ | ⟨_, h3, h4⟩
      · by_cases h1 : t = "store_false"
        · rw [if_pos h1] at h
          cases h
        · rw [if_neg h1] at h
          by_cases h2 : t = "store_true"
          · rw [if_pos h2] at h
            cases h
          · rw [if_neg h2] at h
            by_cases h5 : t = "store_const"
            · rw [if_pos h5] at h
              cases h
            · rw [if_neg h5] at h
              rcases check_error_thrown h with ⟨hf, _⟩ | ⟨_, h3, h4⟩
              · cases hf
              · exact plain h3 h4
      · exact plain h3 h4
    · exact plain h3 h4
  | dest d =>
    simp only [Call.run, ArgumentParser.dest] at h
    rcases check_error_thrown h with ⟨_, h⟩ | ⟨_, h3, h4⟩
    · cases h
    · exact plain h3 h4
  | choices a =>
    simp only [Call.run, ArgumentParser.choices] at h
    rcases check_error_thrown h with ⟨_, h⟩ | ⟨_, h3, h4⟩
    · cases h
    · exact plain h3 h4
  | done =>
    simp only [Call.run, ArgumentParser.done] at h
    rcases check_error_thrown h with ⟨hk, h⟩ | ⟨hk, h3, h4⟩
    · rcases check_error_thrown h with ⟨_, h⟩ | ⟨_, h3, h4⟩
      · cases h
      · refine base _ h3 rfl rfl h4 fun hl => absurd (Or.inr ⟨rfl, ?_⟩) hl
        simpa using hk
    · have hkey : derived_key s.now_entry_ = "" := by simpa using hk
      refine base _ h3 rfl rfl h4 fun _ => ?_
      have e0 := derived_key_empty hkey
      cases s
      simp only [ArgumentParser.mk.injEq, and_true, true_and] at e0 ⊢
      exact e0

set_option maxRecDepth 100000 in
/-- The claim C35 as stated fails.  A failing call prints the help, and that
sorts the registry: in the state with the registry `[all, file]`, where `file`
is required, the call `long_name("x")` throws and leaves the registry
`[file, all]`, whatever `std::sort` does with entries it does not distinguish.
On a new object in throwing mode, after
`long_name("--x").action("store_const")` the call `done()` throws and leaves the
key `x` in the current entry and in the long-flag table, and the call
`const_value(1)` throws and leaves the kind int in the current entry. -/
theorem declaration_failure_writes :
    (∀ libc : Libc, ∃ e s1, all_file_state.long_name libc "x" = .thrown e s1 ∧
      s1.param_entries_ =
        [{ ParamEntry.blank with positional_key := "file", key := "file", required := true },
          { ParamEntry.blank with long_key := "all", short_key := "a", key := "all" }] ∧
      s1.param_entries_ ≠ all_file_state.param_entries_) ∧
    (∀ libc : Libc, ∃ s e s1, chain libc ArgumentParser.throwing
        [.long_name "--x", .action "store_const"] = some s ∧
      s.done libc = .thrown e s1 ∧ s.optional_long_key_ = [] ∧
      s1.optional_long_key_ = [("x", 1)] ∧ s.now_entry_.key = "" ∧ s1.now_entry_.key = "x") ∧
    (∀ libc : Libc, ∃ e s1,
      ArgumentParser.throwing.const_value libc (.int 1) = .thrown e s1 ∧
      ArgumentParser.throwing.now_entry_.value_type = .NONE ∧
      s1.now_entry_.value_type = .DIGITS_INT) := by
  refine ⟨fun libc => ⟨_, _, rfl, ?_, ?_⟩, fun libc => ⟨_, _, _, rfl, rfl, rfl, rfl, rfl, rfl⟩,
    fun libc => ⟨_, _, rfl, rfl, rfl⟩⟩
  · exact sort_pair libc _ _ rfl rfl
  · have h : libc.sort all_file_state.param_entries_ = _ :=
      sort_pair libc { ParamEntry.blank with long_key := "all", short_key := "a", key := "all" }
        { ParamEntry.blank with positional_key := "file", key := "file", required := true }
        rfl rfl
    show libc.sort all_file_state.param_entries_ ≠ _
    rw [h]
    decide

set_option maxRecDepth 100000 in
theorem failed_declaration_witness :
    ∃ e s1, (Call.long_name "x").run Libc.zero all_file_state = .thrown e s1 ∧
      s1.now_entry_ = all_file_state.now_entry_ ∧
      s1.optional_short_key_ = all_file_state.optional_short_key_ ∧
      s1.optional_long_key_ = all_file_state.optional_long_key_ ∧
      s1.positional_key_ = all_file_state.positional_key_ :=
  ⟨_, _, rfl,
    ((failed_declaration Libc.zero all_file_state (.long_name "x") rfl _ _ rfl).2.2.2.2.2
      (by rintro (⟨v, h, _⟩ | ⟨h, _⟩) <;> cases h)).2⟩

/-! ## C36: parsing and the declarations -/

/-- C36.  After a call of `parse_args_any_type` on a reachable object that
returns a result, the registry holds the entries it held before, each with all
its fields as they were, unfilled and without a resolved value, in the order of
the stable sort that puts the required entries first; the current entry and the
error mode are as they were.  A second parse with the same argument vector
returns the same result, and a parse with any vector ends as it would have
ended without the earlier parse. -/
theorem parse_keeps_declarations (libc : Libc) (s : ArgumentParser) (hr : Reachable libc s)
    (argv : List String) (a : ArgValue) (s1 : ArgumentParser)
    (h : s.parse_args_any_type libc argv = .ok a s1) :
    s1.param_entries_ = stable_sort required_first s.param_entries_ ∧
    s1.param_entries_.Perm s.param_entries_ ∧
    (∀ e ∈ s1.param_entries_, e.filled = false ∧ e.value = .empty) ∧
    s1.now_entry_ = s.now_entry_ ∧ s1.error_mode_ = s.error_mode_ ∧
    s1.parse_args_any_type libc argv = .ok a s1 ∧
    (∀ argv2, s1.parse_args_any_type libc argv2 = s.parse_args_any_type libc argv2) := by
  have hs1 : s1 = s.prepass.1 := by
    unfold ArgumentParser.parse_args_any_type at h
    exact finish_ok h
  have hsame : ∀ argv2,
      s1.parse_args_any_type libc argv2 = s.parse_args_any_type libc argv2 := by
    intro argv2
    unfold ArgumentParser.parse_args_any_type
    rw [hs1, prepass_idem (Reachable.inv hr)]
  have hperm : s1.param_entries_.Perm s.param_entries_ := by
    rw [hs1]
    exact prepass_perm s
  refine ⟨by rw [hs1]; exact prepass_registry s, hperm, ?_, ?_, ?_, ?_, hsame⟩
  · intro e he
    exact (Reachable.inv hr).unfilled e (hperm.mem_iff.mp he)
  · rw [hs1]
    exact prepass_now_entry s
  · rw [hs1, prepass_eq]
  · rw [hsame argv]
    exact h

set_option maxRecDepth 100000 in
theorem parse_keeps_declarations_witness :
    ∃ a s1, all_file_state.parse_args_any_type Libc.zero ["prog", "f"] = .ok a s1 ∧
      s1.param_entries_ =
        [{ ParamEntry.blank with positional_key := "file", key := "file", required := true },
          { ParamEntry.blank with long_key := "all", short_key := "a", key := "all" }] ∧
      s1.parse_args_any_type Libc.zero ["prog", "f"] = .ok a s1 ∧
      s1.parse_args_any_type Libc.zero ["prog", "-a", "x", "g"] =
        all_file_state.parse_args_any_type Libc.zero ["prog", "-a", "x", "g"] :=
  ⟨_, _, rfl,
    (parse_keeps_declarations Libc.zero all_file_state all_file_state_reachable ["prog", "f"]
      _ _ rfl).1.trans (by decide),
    (parse_keeps_declarations Libc.zero all_file_state all_file_state_reachable ["prog", "f"]
      _ _ rfl).2.2.2.2.2.1,
    (parse_keeps_declarations Libc.zero all_file_state all_file_state_reachable ["prog", "f"]
      _ _ rfl).2.2.2.2.2.2 _⟩

/-! ## C37: the two parse methods -/

/-- C37.  For every object and argument vector, `parse_args_string` and
`parse_args_any_type` end in the same way up to the result they return: one
fails exactly when the other fails, and with the same message, and both leave the
object in the same state.  When they return, the string result has a mapping
for a key exactly when the typed result has one, and it maps the key to the
string accessor of the value the typed result holds: the text of a string value,
and the empty string for an int, a double, a bool, an array or the absent
value. -/
theorem parse_args_string_agrees (libc : Libc) (s : ArgumentParser) (argv : List String) :
    (s.parse_args_string libc argv).void = (s.parse_args_any_type libc argv).void ∧
    (∀ m, (s.parse_args_string libc argv).failed_with m ↔
      (s.parse_args_any_type libc argv).failed_with m) ∧
    ((s.parse_args_string libc argv).failed ↔ (s.parse_args_any_type libc argv).failed) ∧
    (∀ a s1, s.parse_args_any_type libc argv = .ok a s1 →
      ∃ m1, s.parse_args_string libc argv = .ok m1 s1 ∧
        (∀ k, map_find m1 k = (a.find k).map EntryItem.string_value) ∧
        (∀ k, (map_find m1 k).isSome ↔ (a.find k).isSome)) ∧
    (∀ m1 s1, s.parse_args_string libc argv = .ok m1 s1 →
      ∃ a, s.parse_args_any_type libc argv = .ok a s1 ∧
        (∀ k, map_find m1 k = (a.find k).map EntryItem.string_value) ∧
        (∀ k, (map_find m1 k).isSome ↔ (a.find k).isSome)) ∧
    (∀ v : EntryItem, (∀ t, v = .string t → v.string_value = t) ∧
      ((∀ t, v ≠ .string t) → v.string_value = "")) := by
  obtain ⟨h1, h2, h3, h4, h5⟩ :=
    finish_agree s.prepass.1 (parse_entries libc s.prepass.1 s.prepass.2 argv)
  refine ⟨h1, h2, h3, h4, h5, ?_⟩
  intro v
  cases v <;> simp [EntryItem.string_value, ERROR_STRING]

set_option maxRecDepth 100000 in
theorem parse_args_string_agrees_witness :
    (∃ m1 s1, name_count_state.parse_args_string Libc.zero ["prog", "alice"] = .ok m1 s1 ∧
      map_find m1 "name" = some "alice" ∧ map_find m1 "count" = some "" ∧
      map_find m1 "missing" = none) ∧
    (name_count_state.parse_args_string Libc.zero ["prog"]).failed_with
      "the following arguments are required: name" := by
  obtain ⟨m1, h1, h2, _⟩ := (parse_args_string_agrees Libc.zero name_count_state
    ["prog", "alice"]).2.2.2.1 _ _ rfl
  refine ⟨⟨m1, _, h1, ?_, ?_, ?_⟩, ?_⟩
  · rw [h2]; decide
  · rw [h2]; decide
  · rw [h2]; decide
  · exact ((parse_args_string_agrees Libc.zero name_count_state ["prog"]).2.1 _).mpr
      (by decide)

/-! ## C38: reading a parse result -/

/-- C38.  For every parse result and key, each of the eight specialisations of
`get_value` returns a value, without a failure: the sentinel of its kind (`0`,
`0.0`, `false`, the empty string or the empty array) when the key is not in the
result or when the value stored under the key has another kind, the absent value
among them, and the stored payload when the value has its kind.  Hence
`get_value<int>` gives the same for a result without the key and for a result
that maps the key to the int `0`. -/
theorem get_value_total (r : ArgValue) (key : String) :
    (r.find key = none →
      r.get_value_int key = 0 ∧ r.get_value_double key = ⟨0⟩ ∧ r.get_value_bool key = false ∧
      r.get_value_string key = "" ∧ r.get_value_int_array key = [] ∧
      r.get_value_double_array key = [] ∧ r.get_value_bool_array key = [] ∧
      r.get_value_string_array key = []) ∧
    (∀ v, r.find key = some v →
      ((∀ p, v = .int p → r.get_value_int key = p) ∧
        (v.is_int = false → r.get_value_int key = 0)) ∧
      ((∀ p, v = .double p → r.get_value_double key = p) ∧
        (v.is_double = false → r.get_value_double key = ⟨0⟩)) ∧
      ((∀ p, v = .bool p → r.get_value_bool key = p) ∧
        (v.is_bool = false → r.get_value_bool key = false)) ∧
      ((∀ p, v = .string p → r.get_value_string key = p) ∧
        (v.is_string = false → r.get_value_string key = "")) ∧
      ((∀ p, v = .int_array p → r.get_value_int_array key = p) ∧
        (v.is_int_array = false → r.get_value_int_array key = [])) ∧
      ((∀ p, v = .double_array p → r.get_value_double_array key = p) ∧
        (v.is_double_array = false → r.get_value_double_array key = [])) ∧
      ((∀ p, v = .bool_array p → r.get_value_bool_array key = p) ∧
        (v.is_bool_array = false → r.get_value_bool_array key = [])) ∧
      ((∀ p, v = .string_array p → r.get_value_string_array key = p) ∧
        (v.is_string_array = false → r.get_value_string_array key = []))) ∧
    (∀ r0 : ArgValue, r0.find key = some (.int 0) → r.find key = none →
      r0.get_value_int key = r.get_value_int key) := by
  have hnone : r.find key = none →
      r.get_value_int key = 0 ∧ r.get_value_double key = ⟨0⟩ ∧ r.get_value_bool key = false ∧
      r.get_value_string key = "" ∧ r.get_value_int_array key = [] ∧
      r.get_value_double_array key = [] ∧ r.get_value_bool_array key = [] ∧
      r.get_value_string_array key = [] := by
    intro h
    unfold ArgValue.find at h
    have h1 : map_find r.value_ key = none := by simpa using h
    simp [ArgValue.get_value_int, ArgValue.get_value_double, ArgValue.get_value_bool,
      ArgValue.get_value_string, ArgValue.get_value_int_array, ArgValue.get_value_double_array,
      ArgValue.get_value_bool_array, ArgValue.get_value_string_array, h1, ERROR_INT,
      ERROR_DOUBLE, ERROR_BOOL, ERROR_STRING]
  have hsome : ∀ (r1 : ArgValue) (v : EntryItem), r1.find key = some v →
      r1.get_value_int key = v.digit_int_value ∧
      r1.get_value_double key = v.digit_double_value ∧
      r1.get_value_bool key = v.bool_value ∧ r1.get_value_string key = v.string_value ∧
      r1.get_value_int_array key = v.int_array_value ∧
      r1.get_value_double_array key = v.double_array_value ∧
      r1.get_value_bool_array key = v.bool_array_value ∧
      r1.get_value_string_array key = v.string_array_value := by
    intro r1 v h
    unfold ArgValue.find at h
    obtain ⟨e, he, hv⟩ := Option.map_eq_some'.mp h
    subst hv
    simp [ArgValue.get_value_int, ArgValue.get_value_double, ArgValue.get_value_bool,
      ArgValue.get_value_string, ArgValue.get_value_int_array, ArgValue.get_value_double_array,
      ArgValue.get_value_bool_array, ArgValue.get_value_string_array, he]
  refine ⟨hnone, ?_, ?_⟩
  · intro v h
    obtain ⟨h1, h2, h3, h4, h5, h6, h7, h8⟩ := hsome r v h
    rw [h1, h2, h3, h4, h5, h6, h7, h8]
    cases v <;>
      simp [EntryItem.digit_int_value, EntryItem.digit_double_value, EntryItem.bool_value,
        EntryItem.string_value, EntryItem.int_array_value, EntryItem.double_array_value,
        EntryItem.bool_array_value, EntryItem.string_array_value, EntryItem.is_int,
        EntryItem.is_double, EntryItem.is_bool, EntryItem.is_string, EntryItem.is_int_array,
        EntryItem.is_double_array, EntryItem.is_bool_array, EntryItem.is_string_array,
        EntryItem.value_type, ERROR_INT, ERROR_DOUBLE, ERROR_BOOL, ERROR_STRING]
  · intro r0 h0 h
    rw [(hsome r0 _ h0).1, (hnone h).1]
    rfl

set_option maxRecDepth 100000 in
theorem get_value_total_witness :
    (∃ a s1, name_count_state.parse_args_any_type Libc.zero ["prog", "alice"] = .ok a s1 ∧
      a.get_value_string "name" = "alice" ∧ a.get_value_int "count" = 1 ∧
      a.get_value_int "name" = 0 ∧ a.get_value_int "missing" = 0 ∧
      a.get_value_string_array "name" = []) ∧
    (ArgValue.mk [("n", { count_entry with value := .int 0, filled := true })]).get_value_int
        "n" =
      (ArgValue.mk []).get_value_int "n" :=
  ⟨⟨_, _, rfl,
      ((get_value_total _ "name").2.1 (.string "alice") (by decide)).2.2.2.1.1 "alice" rfl,
      ((get_value_total _ "count").2.1 (.int 1) (by decide)).1.1 1 rfl,
      ((get_value_total _ "name").2.1 (.string "alice") (by decide)).1.2 rfl,
      ((get_value_total _ "missing").1 (by decide)).1,
      ((get_value_total _ "name").2.1 (.string "alice") (by decide)).2.2.2.2.2.2.2.2 rfl⟩,
    (get_value_total (ArgValue.mk []) "n").2.2 _ rfl rfl⟩

/-! ## C39: the convenience declaration `add_argument` -/

/-- C39, as stated, fails: after `add_argument("--help", "d", "h")` on a new
object the parse of `[prog, --help, v]` ends in the help exit and maps nothing;
and after the declaration of the positional entry `name` and
`add_argument("--n", "d", "h")` the parse of `[prog, --n, v]` fails, since no
token is left for `name`. -/
theorem add_argument_help_flag :
    (∃ s1, ArgumentParser.new.add_argument Libc.zero "--help" "d" "h" = .ok () s1 ∧
      s1.parse_args_any_type Libc.zero ["prog", "--help", "v"] = .exited 0 "") ∧
    (∃ s s1, chain Libc.zero .new [.positional_name "name", .done] = some s ∧
      s.now_entry_ = ParamEntry.blank ∧ s.add_argument Libc.zero "--n" "d" "h" = .ok () s1 ∧
      (s1.parse_args_any_type Libc.zero ["prog", "--n", "v"]).failed_with
        "the following arguments are required: name") :=
  ⟨⟨_, rfl, by decide⟩, ⟨_, _, rfl, rfl, rfl, by decide⟩⟩

/-- C39, amended: on every object built by calls that all returned,
`add_argument(long, default, help)` ends as the sequence
`long_name(long)`, `default_value(default)`, `help(help)`, `done()` does, and it
fails with "invaild option string" when `long` does not start with `--`.  On a
blank current entry, for `long = "--" ++ n` with `n` non-empty and no key of the
long-flag table, it returns and commits one entry: not required, long flag `n`,
key `n`, kind string, the default the string `d` (not absent, also for the empty
text), with `n` written to the long-flag table.  A parse of a vector without
`--n` that returns a result maps `n` to the text `d`; when `n` is not `help`, a
parse of `[prog, --n, v]` that returns a result maps `n` to the text `v`; and
both `[prog]` and `[prog, --n, v]` are parsed to a result when no entry declared
before needs a token. -/
theorem add_argument_commits (libc : Libc) (s : ArgumentParser) (hb : Built libc s)
    (n d h : String) (hblank : s.now_entry_ = ParamEntry.blank) (hn : n ≠ "")
    (hnew : map_find s.optional_long_key_ n = none) :
    (∀ l d1 h1, s.add_argument libc l d1 h1 =
      ((Call.long_name l).run libc s).and_then fun s1 =>
        ((Call.default_value (.string d1)).run libc s1).and_then fun s2 =>
          ((Call.help h1).run libc s2).and_then fun s3 => Call.done.run libc s3) ∧
    (∀ l d1 h1 s1, s.add_argument libc l d1 h1 = .ok () s1 ↔
      chain libc s [.long_name l, .default_value (.string d1), .help h1, .done] = some s1) ∧
    (∀ l d1 h1, starts_with l "--" = false →
      (s.add_argument libc l d1 h1).failed_with ("invaild option string " ++ l)) ∧
    ∃ s1, s.add_argument libc ("--" ++ n) d h = .ok () s1 ∧
      s1.param_entries_ = s.param_entries_ ++
        [{ ParamEntry.blank with
          long_key := n, key := n, value_type := .STRING, default_value := .string d,
          help := h }] ∧
      s1.optional_long_key_ = map_set s.optional_long_key_ n 1 ∧
      s1.optional_short_key_ = s.optional_short_key_ ∧
      s1.positional_key_ = s.positional_key_ ∧
      s1.now_entry_ = ParamEntry.blank ∧
      s1.error_mode_ = s.error_mode_ ∧
      (EntryItem.string d).value_type ≠ .NONE ∧
      (∀ argv a s2, "--" ++ n ∉ argv → s1.parse_args_any_type libc argv = .ok a s2 →
        a.find n = some (.string d)) ∧
      (n ≠ "help" → ∀ prog v a s2,
        s1.parse_args_any_type libc [prog, "--" ++ n, v] = .ok a s2 →
        a.find n = some (.string v)) ∧
      ((∀ e ∈ s.param_entries_, ¬ needs_token e) → ∀ prog v,
        (∃ a s2, s1.parse_args_any_type libc [prog] = .ok a s2 ∧
          a.find n = some (.string d)) ∧
        (n ≠ "help" → ∃ a s2, s1.parse_args_any_type libc [prog, "--" ++ n, v] = .ok a s2 ∧
          a.find n = some (.string v))) := by
  have key : ∀ s1 : ArgumentParser, s.add_argument libc ("--" ++ n) d h = .ok () s1 →
      s1.param_entries_ = s.param_entries_ ++
        [{ ParamEntry.blank with
          long_key := n, key := n, value_type := .STRING, default_value := .string d,
          help := h }] →
      (∀ argv a s2, "--" ++ n ∉ argv → s1.parse_args_any_type libc argv = .ok a s2 →
        a.find n = some (.string d)) ∧
      (n ≠ "help" → ∀ prog v a s2,
        s1.parse_args_any_type libc [prog, "--" ++ n, v] = .ok a s2 →
        a.find n = some (.string v)) ∧
      ((∀ e ∈ s.param_entries_, ¬ needs_token e) → ∀ prog v,
        (∃ a s2, s1.parse_args_any_type libc [prog] = .ok a s2 ∧
          a.find n = some (.string d)) ∧
        (n ≠ "help" → ∃ a s2, s1.parse_args_any_type libc [prog, "--" ++ n, v] = .ok a s2 ∧
          a.find n = some (.string v))) := by
    intro s1 hs1 hreg
    have hb1 : Built libc s1 := hb.call (.add_argument ("--" ++ n) d h) hs1
    have hr1 := hb1.to_reachable_state
    obtain ⟨_, hj, hlast⟩ := declared_last hreg rfl
    have fin1 : ∀ (argv : List String) (st1 : ParseState) (a : ArgValue) (s2 : ArgumentParser),
        s1.loop_ends libc argv st1 →
        st1.param_entries[s.param_entries_.length]? = some
          { ParamEntry.blank with
            long_key := n, key := n, value_type := .STRING, default_value := .string d,
            help := h } →
        s1.parse_args_any_type libc argv = .ok a s2 → a.find n = some (.string d) := by
      intro argv st1 a s2 hloop hst hparse
      obtain ⟨st2, final, hloop2, hfin, ha⟩ := parse_returns hparse
      have := loop_ends_unique hloop hloop2
      subst this
      obtain ⟨e1, he1, hf1⟩ := (finalize_get hfin s.param_entries_.length).1 _ hst
      rw [finalize_entry_default rfl rfl (by simp [EntryItem.value_type])] at hf1
      cases hf1
      have := last_entry_result hloop hfin he1 hlast rfl
      subst ha
      exact this
    have p1 : ∀ argv a s2, "--" ++ n ∉ argv → s1.parse_args_any_type libc argv = .ok a s2 →
        a.find n = some (.string d) := by
      intro argv a s2 habs hparse
      have hfa := long_flag_absent hb1 hj rfl habs
      obtain ⟨st1, final, hloop, hfin, ha⟩ := parse_returns hparse
      exact fin1 argv st1 a s2 hloop (untouched_entry hr1 hj rfl hfa hloop).1 hparse
    have p2 : n ≠ "help" → ∀ prog v a s2,
        s1.parse_args_any_type libc [prog, "--" ++ n, v] = .ok a s2 →
        a.find n = some (.string v) := by
      intro hhelp prog v a s2 hparse
      have hloop := @loop_on_flag_and_value libc s1 hr1 _ _ hj hn hhelp rfl rfl rfl prog v
      obtain ⟨st1, final, hloop2, hfin, ha⟩ := parse_returns hparse
      have := loop_ends_unique hloop hloop2
      subst this
      have hlt : s.param_entries_.length < s1.prepass.1.param_entries_.length :=
        (List.getElem?_eq_some.mp hj).1
      obtain ⟨e1, he1, hf1⟩ := (finalize_get hfin s.param_entries_.length).1 _
        (List.getElem?_set_eq_of_lt _ hlt)
      rw [finalize_entry_filled rfl] at hf1
      cases hf1
      have := last_entry_result hloop hfin he1 hlast rfl
      subst ha
      exact this
    refine ⟨p1, p2, ?_⟩
    intro hnt prog v
    have hsorted : ∀ e ∈ s1.prepass.1.param_entries_, ¬ needs_token e := by
      intro e he
      have := (prepass_perm s1).mem_iff.mp he
      rw [hreg, List.mem_append, List.mem_singleton] at this
      rcases this with h1 | h1
      · exact hnt e h1
      · rw [h1]
        exact fun hc => hc.1 rfl
    constructor
    · have hloop : s1.loop_ends libc [prog] s1.start :=
        main_loop_no_tokens libc _ _ _ _ _ _ (by simp [ArgumentParser.start])
      obtain ⟨a, s2, hparse⟩ := parse_returns_of_loop hloop (fun e he _ => hsorted e he)
      exact ⟨a, s2, hparse, fin1 [prog] _ a s2 hloop hj hparse⟩
    · intro hhelp
      have hloop := @loop_on_flag_and_value libc s1 hr1 _ _ hj hn hhelp rfl rfl rfl prog v
      obtain ⟨a, s2, hparse⟩ := parse_returns_of_loop hloop (by
        intro e he hf
        rcases List.mem_or_eq_of_mem_set he with h1 | h1
        · exact hsorted e h1
        · rw [h1] at hf
          cases hf)
      exact ⟨a, s2, hparse, p2 hhelp prog v a s2 hparse⟩
  refine ⟨fun _ _ _ => rfl, fun l d1 h1 s1 => add_argument_chain libc s s1 l d1 h1,
    fun l d1 h1 hl => add_argument_fails s l d1 h1 hl, _,
    add_argument_ok s n d h hblank hn hnew, rfl, rfl, rfl, rfl, rfl, rfl,
    by simp [EntryItem.value_type], ?_⟩
  exact key _ (add_argument_ok s n d h hblank hn hnew) rfl

/-- C39 on a worked input: `add_argument("--out", "", "file")` on a new
object. -/
theorem add_argument_commits_witness :
    Built Libc.zero ArgumentParser.new ∧
      ArgumentParser.new.now_entry_ = ParamEntry.blank ∧
      ∃ s1, ArgumentParser.new.add_argument Libc.zero "--out" "" "file" = .ok () s1 ∧
        (∃ a s2, s1.parse_args_any_type Libc.zero ["prog"] = .ok a s2 ∧
          a.find "out" = some (.string "")) ∧
        (∃ a s2, s1.parse_args_any_type Libc.zero ["prog", "--out", "a.txt"] = .ok a s2 ∧
          a.find "out" = some (.string "a.txt")) := by
  have hb : Built Libc.zero ArgumentParser.new := ⟨[], rfl⟩
  obtain ⟨_, _, _, s1, h1, _, _, _, _, _, _, _, _, _, h2⟩ :=
    add_argument_commits Libc.zero ArgumentParser.new hb "out" "" "file" rfl (by decide) rfl
  have h3 := h2 (fun e he => by cases he) "prog" "a.txt"
  exact ⟨hb, rfl, s1, h1, h3.1, h3.2 (by decide)⟩

end argparse
